import Mathlib

/-!
# Red-black tree with parent pointers and a shared sentinel

A shallow embedding of `rbtree.go` / `rbtree_node.go`.  Go pointers are modelled as
optional addresses (`none` is `nil`), the node memory is a total map from addresses to
node records, every field access through a pointer can fail with a nil dereference, and
every loop or recursion of the source carries a fuel argument.
-/

namespace RBTreeGo

/-! ## Data model (rbtree_node.go) -/

/-- Node colour: `red` is `iota` (0), `black` is 1. -/
inductive color where
  | red
  | black
deriving DecidableEq, Repr

/-- A Go `*Node`: `none` is the nil pointer, `some a` the node stored at address `a`. -/
abbrev Ptr := Option Nat

/-- The `Node` struct. `key` is a `uint32`; it is only compared and overwritten by 0. -/
structure Node where
  key : Nat
  left : Ptr
  right : Ptr
  parent : Ptr
  color : color
deriving DecidableEq, Repr

/-- The record written by `NewNode(key, c)`. -/
def NewNode (key : Nat) (c : color) : Node :=
  { key := key, left := none, right := none, parent := none, color := c }

/-- Node memory: the record stored at every address. -/
abbrev Heap := Nat → Node

/-- Ways in which running the code can fail to produce a result. -/
inductive Fault where
  | nilDeref
  | outOfFuel
deriving DecidableEq, Repr

/-- Overwrite the record stored at address `a`. -/
def Heap.set (h : Heap) (a : Nat) (v : Node) : Heap :=
  fun b => if b = a then v else h b

/-- Dereference a pointer. -/
def load (h : Heap) : Ptr → Except Fault Node
  | none => .error .nilDeref
  | some a => .ok (h a)

/-- Update the record behind a pointer. -/
def store (h : Heap) (p : Ptr) (f : Node → Node) : Except Fault Heap :=
  match p with
  | none => .error .nilDeref
  | some a => .ok (h.set a (f (h a)))

def getKey (h : Heap) (p : Ptr) : Except Fault Nat := do
  let nd ← load h p
  pure nd.key

def getLeft (h : Heap) (p : Ptr) : Except Fault Ptr := do
  let nd ← load h p
  pure nd.left

def getRight (h : Heap) (p : Ptr) : Except Fault Ptr := do
  let nd ← load h p
  pure nd.right

def getParent (h : Heap) (p : Ptr) : Except Fault Ptr := do
  let nd ← load h p
  pure nd.parent

def getColor (h : Heap) (p : Ptr) : Except Fault color := do
  let nd ← load h p
  pure nd.color

def setKey (h : Heap) (p : Ptr) (v : Nat) : Except Fault Heap :=
  store h p (fun nd => { nd with key := v })

def setLeft (h : Heap) (p : Ptr) (v : Ptr) : Except Fault Heap :=
  store h p (fun nd => { nd with left := v })

def setRight (h : Heap) (p : Ptr) (v : Ptr) : Except Fault Heap :=
  store h p (fun nd => { nd with right := v })

def setParent (h : Heap) (p : Ptr) (v : Ptr) : Except Fault Heap :=
  store h p (fun nd => { nd with parent := v })

/-- `func (n *Node) setColor(color color)`. -/
def setColor (h : Heap) (n : Ptr) (c : color) : Except Fault Heap :=
  store h n (fun nd => { nd with color := c })

/-- `func (n *Node) judgeColor(color color) bool`. -/
def judgeColor (h : Heap) (n : Ptr) (c : color) : Except Fault Bool := do
  let nd ← load h n
  pure (decide (nd.color = c))

/-- `func mix(node, sentinel *Node) *Node`: walk to the leftmost node. -/
def mix : Nat → Heap → Ptr → Ptr → Except Fault Ptr
  | 0, _, _, _ => .error .outOfFuel
  | fuel + 1, h, node, sentinel => do
    let l ← getLeft h node
    if l ≠ sentinel then
      mix fuel h l sentinel
    else
      pure node

/-! ## Placement strategy (rbtree.go) -/

/-- A `**Node` that points at the `left` or `right` field of a node. -/
inductive Slot where
  | left (owner : Ptr)
  | right (owner : Ptr)
deriving DecidableEq, Repr

/-- Taking `&(tmp.left)`: evaluating the field address of a nil pointer fails. -/
def Slot.addrLeft (tmp : Ptr) : Except Fault Slot :=
  match tmp with
  | none => .error .nilDeref
  | some a => .ok (Slot.left (some a))

/-- Taking `&(tmp.right)`. -/
def Slot.addrRight (tmp : Ptr) : Except Fault Slot :=
  match tmp with
  | none => .error .nilDeref
  | some a => .ok (Slot.right (some a))

/-- Reading `*p`. -/
def Slot.read (h : Heap) : Slot → Except Fault Ptr
  | Slot.left o => getLeft h o
  | Slot.right o => getRight h o

/-- Writing `*p = v`. -/
def Slot.write (h : Heap) (p : Slot) (v : Ptr) : Except Fault Heap :=
  match p with
  | Slot.left o => setLeft h o v
  | Slot.right o => setRight h o v

/-- `func compare(result bool, l, r **Node) **Node`. -/
def compare (result : Bool) (l r : Slot) : Slot :=
  if result then l else r

/-- `type InsertCallBack func(root, node, sentinel *Node)`; the callback works on the node
memory, and the model gives it the fuel of its caller. -/
abbrev InsertCallBack := Nat → Heap → Ptr → Ptr → Ptr → Except Fault Heap

/-- `func InsertValue(tmp, node, sentinel *Node)`. -/
def InsertValue : InsertCallBack
  | 0, _, _, _, _ => .error .outOfFuel
  | fuel + 1, h, tmp, node, sentinel => do
    let nk ← getKey h node
    let tk ← getKey h tmp
    let l ← Slot.addrLeft tmp
    let r ← Slot.addrRight tmp
    let p := compare (decide (nk < tk)) l r
    let cur ← Slot.read h p
    if cur = sentinel then
      let h ← Slot.write h p node
      let h ← setParent h node tmp
      let h ← setLeft h node sentinel
      let h ← setRight h node sentinel
      setColor h node color.red
    else
      InsertValue fuel h cur node sentinel

/-! ## The tree (rbtree.go) -/

/-- The `RBTree` struct together with the node memory its pointers refer to.
`size` is a `uint32`. -/
structure RBTree where
  size : Nat
  root : Ptr
  sentinel : Ptr
  insertCallBack : InsertCallBack
  heap : Heap

/-- `func Init(sentinel *Node, icb InsertCallBack) *RBTree`, run on node memory `h`. -/
def Init (h : Heap) (sentinel : Ptr) (icb : InsertCallBack) : Except Fault RBTree := do
  let h ← setColor h sentinel color.black
  pure { size := 0, root := sentinel, sentinel := sentinel, insertCallBack := icb, heap := h }

/-- `func (rb *RBTree) leftRotate(n *Node)`. -/
def leftRotate (rb : RBTree) (n : Ptr) : Except Fault RBTree := do
  let tmp ← getRight rb.heap n
  let tl ← getLeft rb.heap tmp
  let h ← setRight rb.heap n tl
  let tl ← getLeft h tmp
  let h ← (if tl ≠ rb.sentinel then setParent h tl n else pure h)
  let np ← getParent h n
  let h ← setParent h tmp np
  let rb ← (if n = rb.root then
      pure { rb with root := tmp, heap := h }
    else do
      let np ← getParent h n
      let npl ← getLeft h np
      if n = npl then
        let h ← setLeft h np tmp
        pure { rb with heap := h }
      else
        let h ← setRight h np tmp
        pure { rb with heap := h })
  let h ← setLeft rb.heap tmp n
  let h ← setParent h n tmp
  pure { rb with heap := h }

/-- `func (rb *RBTree) rightRotate(n *Node)`. -/
def rightRotate (rb : RBTree) (n : Ptr) : Except Fault RBTree := do
  let tmp ← getLeft rb.heap n
  let tr ← getRight rb.heap tmp
  let h ← setLeft rb.heap n tr
  let tr ← getRight h tmp
  let h ← (if tr ≠ rb.sentinel then setParent h tr n else pure h)
  let np ← getParent h n
  let h ← setParent h tmp np
  let rb ← (if n = rb.root then
      pure { rb with root := tmp, heap := h }
    else do
      let np ← getParent h n
      let npr ← getRight h np
      if npr = n then
        let h ← setRight h np tmp
        pure { rb with heap := h }
      else
        let h ← setLeft h np tmp
        pure { rb with heap := h })
  let h ← setRight rb.heap tmp n
  let h ← setParent h n tmp
  pure { rb with heap := h }

/-- Reading `n.parent.parent`. -/
def getGrand (h : Heap) (n : Ptr) : Except Fault Ptr := do
  let p ← getParent h n
  getParent h p

/-- Loop condition of the insert fixup: `n != *root && (n.parent).judgeColor(red)`. -/
def insertFixCond (rb : RBTree) (n : Ptr) : Except Fault Bool :=
  if n ≠ rb.root then do
    let p ← getParent rb.heap n
    judgeColor rb.heap p color.red
  else
    pure false

/-- Body of the insert fixup loop (lines 144-183): one pass over the cursor `n`. -/
def insertFixBody (rb : RBTree) (n : Ptr) : Except Fault (RBTree × Ptr) := do
  let np ← getParent rb.heap n
  let g ← getGrand rb.heap n
  let gl ← getLeft rb.heap g
  if np = gl then
    let g ← getGrand rb.heap n
    let temp ← getRight rb.heap g
    if (← judgeColor rb.heap temp color.red) then
      let np ← getParent rb.heap n
      let h ← setColor rb.heap np color.black
      let h ← setColor h temp color.black
      let g ← getGrand h n
      let h ← setColor h g color.red
      let g ← getGrand h n
      pure ({ rb with heap := h }, g)
    else
      let np ← getParent rb.heap n
      let npr ← getRight rb.heap np
      let (rb, n) ← (if n = npr then do
          let n ← getParent rb.heap n
          let rb ← leftRotate rb n
          pure (rb, n)
        else
          pure (rb, n))
      let np ← getParent rb.heap n
      let h ← setColor rb.heap np color.black
      let g ← getGrand h n
      let h ← setColor h g color.red
      let g ← getGrand h n
      let rb ← rightRotate { rb with heap := h } g
      pure (rb, n)
  else
    let g ← getGrand rb.heap n
    let temp ← getLeft rb.heap g
    if (← judgeColor rb.heap temp color.red) then
      let np ← getParent rb.heap n
      let h ← setColor rb.heap np color.black
      let h ← setColor h temp color.black
      let g ← getGrand h n
      let h ← setColor h g color.red
      let g ← getGrand h n
      pure ({ rb with heap := h }, g)
    else
      let np ← getParent rb.heap n
      let npl ← getLeft rb.heap np
      let (rb, n) ← (if n = npl then do
          let n ← getParent rb.heap n
          let rb ← rightRotate rb n
          pure (rb, n)
        else
          pure (rb, n))
      let np ← getParent rb.heap n
      let h ← setColor rb.heap np color.black
      let g ← getGrand h n
      let h ← setColor h g color.red
      let g ← getGrand h n
      let rb ← leftRotate { rb with heap := h } g
      pure (rb, n)

/-- The insert fixup loop `for n != *root && (n.parent).judgeColor(red) { ... }`. -/
def insertFixLoop : Nat → RBTree → Ptr → Except Fault (RBTree × Ptr)
  | 0, _, _ => .error .outOfFuel
  | fuel + 1, rb, n => do
    if (← insertFixCond rb n) then
      let (rb, n) ← insertFixBody rb n
      insertFixLoop fuel rb n
    else
      pure (rb, n)

/-- `func (rb *RBTree) Insert(n *Node)`. -/
def Insert (fuel : Nat) (rb : RBTree) (n : Ptr) : Except Fault RBTree := do
  let sentinel := rb.sentinel
  let rb := { rb with size := (rb.size + 1) % 2 ^ 32 }
  if rb.root = sentinel then
    let h ← setParent rb.heap n none
    let h ← setLeft h n sentinel
    let h ← setRight h n sentinel
    let h ← setColor h n color.black
    pure { rb with root := n, heap := h }
  else
    let h ← rb.insertCallBack fuel rb.heap rb.root n sentinel
    let (rb, _) ← insertFixLoop fuel { rb with heap := h } n
    let h ← setColor rb.heap rb.root color.black
    pure { rb with heap := h }

/-- Lines 196-210 of `Delete`: choose the node `subst` that is unlinked and the node
`tmp` that takes its place. Returns `(tmp, subst)`. -/
def deleteFind (fuel : Nat) (rb : RBTree) (n : Ptr) : Except Fault (Ptr × Ptr) := do
  let nl ← getLeft rb.heap n
  if nl = rb.sentinel then
    let tmp ← getRight rb.heap n
    pure (tmp, n)
  else
    let nr ← getRight rb.heap n
    if nr = rb.sentinel then
      let tmp ← getLeft rb.heap n
      pure (tmp, n)
    else
      let nr ← getRight rb.heap n
      let subst ← mix fuel rb.heap nr rb.sentinel
      let sl ← getLeft rb.heap subst
      if sl ≠ rb.sentinel then
        let tmp ← getLeft rb.heap subst
        pure (tmp, subst)
      else
        let tmp ← getRight rb.heap subst
        pure (tmp, subst)

/-- The assignment `n.left, n.right, n.parent, n.key = nil, nil, nil, 0`. -/
def clearNode (h : Heap) (n : Ptr) : Except Fault Heap := do
  let h ← setLeft h n none
  let h ← setRight h n none
  let h ← setParent h n none
  setKey h n 0

/-- Lines 221-225 of `Delete`: the parent of `subst` points to `tmp` instead. -/
def deleteLink (h : Heap) (tmp subst : Ptr) : Except Fault Heap := do
  let sp ← getParent h subst
  let spl ← getLeft h sp
  if subst = spl then
    let sp ← getParent h subst
    setLeft h sp tmp
  else
    let sp ← getParent h subst
    setRight h sp tmp

/-- Lines 231-236 of `Delete`: the parent link of `tmp` when `subst` is not `n`. -/
def deleteTmpParent (h : Heap) (n tmp subst : Ptr) : Except Fault Heap := do
  let sp ← getParent h subst
  if sp = n then
    setParent h tmp subst
  else
    let sp ← getParent h subst
    setParent h tmp sp

/-- Lines 237-260 of `Delete`: `subst` takes the links and colour of `n`, the parent of
`n` (or the root pointer) and the children of `n` point to `subst`. -/
def deleteTransplant (rb : RBTree) (n subst : Ptr) : Except Fault RBTree := do
  let nl ← getLeft rb.heap n
  let h ← setLeft rb.heap subst nl
  let nr ← getRight h n
  let h ← setRight h subst nr
  let np ← getParent h n
  let h ← setParent h subst np
  let nc ← getColor h n
  let h ← setColor h subst nc
  let rb := { rb with heap := h }
  let rb ← (if n = rb.root then
      pure { rb with root := subst }
    else do
      let np ← getParent rb.heap n
      let npl ← getLeft rb.heap np
      if n = npl then
        let np ← getParent rb.heap n
        let h ← setLeft rb.heap np subst
        pure { rb with heap := h }
      else
        let np ← getParent rb.heap n
        let h ← setRight rb.heap np subst
        pure { rb with heap := h })
  let sl ← getLeft rb.heap subst
  let h ← (if sl ≠ rb.sentinel then do
      let sl ← getLeft rb.heap subst
      setParent rb.heap sl subst
    else
      pure rb.heap)
  let sr ← getRight h subst
  let h ← (if sr ≠ rb.sentinel then do
      let sr ← getRight h subst
      setParent h sr subst
    else
      pure h)
  pure { rb with heap := h }

/-- Lines 220-262 of `Delete`: unlink `subst`, hang `tmp` in its place, move `subst`
into the position of `n` when they differ, and clear `n`. -/
def deleteSplice (rb : RBTree) (n tmp subst : Ptr) : Except Fault RBTree := do
  let h ← deleteLink rb.heap tmp subst
  let rb := { rb with heap := h }
  let rb ← (if subst = n then do
      let sp ← getParent rb.heap subst
      let h ← setParent rb.heap tmp sp
      pure { rb with heap := h }
    else do
      let h ← deleteTmpParent rb.heap n tmp subst
      deleteTransplant { rb with heap := h } n subst)
  let h ← clearNode rb.heap n
  pure { rb with heap := h }

/-- Loop condition of the delete fixup: `tmp != rb.root && tmp.judgeColor(black)`. -/
def deleteFixCond (rb : RBTree) (tmp : Ptr) : Except Fault Bool :=
  if tmp ≠ rb.root then
    judgeColor rb.heap tmp color.black
  else
    pure false

/-- The test `w.left.judgeColor(black) && w.right.judgeColor(black)`. -/
def bothBlack (h : Heap) (w : Ptr) : Except Fault Bool := do
  let wl ← getLeft h w
  if (← judgeColor h wl color.black) then
    let wr ← getRight h w
    judgeColor h wr color.black
  else
    pure false

/-- Lines 275-280: a red sibling on the right is turned into a black one by a left
rotation at the parent; returns the tree and the sibling `w` to go on with. -/
def deleteCase1L (rb : RBTree) (tmp w : Ptr) : Except Fault (RBTree × Ptr) := do
  if (← judgeColor rb.heap w color.red) then
    let h ← setColor rb.heap w color.black
    let tp ← getParent h tmp
    let h ← setColor h tp color.red
    let tp ← getParent h tmp
    let rb ← leftRotate { rb with heap := h } tp
    let tp ← getParent rb.heap tmp
    let w ← getRight rb.heap tp
    pure (rb, w)
  else
    pure (rb, w)

/-- Lines 303-308: mirror image of lines 275-280. -/
def deleteCase1R (rb : RBTree) (tmp w : Ptr) : Except Fault (RBTree × Ptr) := do
  if (← judgeColor rb.heap w color.red) then
    let h ← setColor rb.heap w color.black
    let tp ← getParent h tmp
    let h ← setColor h tp color.red
    let tp ← getParent h tmp
    let rb ← rightRotate { rb with heap := h } tp
    let tp ← getParent rb.heap tmp
    let w ← getLeft rb.heap tp
    pure (rb, w)
  else
    pure (rb, w)

/-- Lines 285-286 and 313-314: the sibling becomes red and the cursor moves to the
parent. -/
def deleteCase2 (rb : RBTree) (tmp w : Ptr) : Except Fault (RBTree × Ptr) := do
  let h ← setColor rb.heap w color.red
  let tp ← getParent h tmp
  pure ({ rb with heap := h }, tp)

/-- Lines 288-293: a sibling whose right child is black is rotated to the right. -/
def deleteCase3L (rb : RBTree) (tmp w : Ptr) : Except Fault (RBTree × Ptr) := do
  let wr ← getRight rb.heap w
  if (← judgeColor rb.heap wr color.black) then
    let wl ← getLeft rb.heap w
    let h ← setColor rb.heap wl color.black
    let h ← setColor h w color.red
    let rb ← rightRotate { rb with heap := h } w
    let tp ← getParent rb.heap tmp
    let w ← getRight rb.heap tp
    pure (rb, w)
  else
    pure (rb, w)

/-- Lines 316-321: mirror image of lines 288-293. -/
def deleteCase3R (rb : RBTree) (tmp w : Ptr) : Except Fault (RBTree × Ptr) := do
  let wl ← getLeft rb.heap w
  if (← judgeColor rb.heap wl color.black) then
    let wr ← getRight rb.heap w
    let h ← setColor rb.heap wr color.black
    let h ← setColor h w color.red
    let rb ← leftRotate { rb with heap := h } w
    let tp ← getParent rb.heap tmp
    let w ← getLeft rb.heap tp
    pure (rb, w)
  else
    pure (rb, w)

/-- Lines 295-299: recolour and rotate the parent to the left; the cursor becomes the
root. -/
def deleteCase4L (rb : RBTree) (tmp w : Ptr) : Except Fault (RBTree × Ptr) := do
  let tp ← getParent rb.heap tmp
  let tpc ← getColor rb.heap tp
  let h ← setColor rb.heap w tpc
  let tp ← getParent h tmp
  let h ← setColor h tp color.black
  let wr ← getRight h w
  let h ← setColor h wr color.black
  let tp ← getParent h tmp
  let rb ← leftRotate { rb with heap := h } tp
  pure (rb, rb.root)

/-- Lines 322-326: mirror image of lines 295-299. -/
def deleteCase4R (rb : RBTree) (tmp w : Ptr) : Except Fault (RBTree × Ptr) := do
  let tp ← getParent rb.heap tmp
  let tpc ← getColor rb.heap tp
  let h ← setColor rb.heap w tpc
  let tp ← getParent h tmp
  let h ← setColor h tp color.black
  let wl ← getLeft h w
  let h ← setColor h wl color.black
  let tp ← getParent h tmp
  let rb ← rightRotate { rb with heap := h } tp
  pure (rb, rb.root)

/-- Lines 284-300: with a black sibling `w` on the right, either push the missing black
up to the parent or finish with the rotations. -/
def deleteRestL (rb : RBTree) (tmp w : Ptr) : Except Fault (RBTree × Ptr) := do
  if (← bothBlack rb.heap w) then
    deleteCase2 rb tmp w
  else
    let (rb, w) ← deleteCase3L rb tmp w
    deleteCase4L rb tmp w

/-- Lines 312-327: mirror image of lines 284-300. -/
def deleteRestR (rb : RBTree) (tmp w : Ptr) : Except Fault (RBTree × Ptr) := do
  if (← bothBlack rb.heap w) then
    deleteCase2 rb tmp w
  else
    let (rb, w) ← deleteCase3R rb tmp w
    deleteCase4R rb tmp w

/-- Body of the delete fixup loop (lines 273-328): one pass over the cursor `tmp`. -/
def deleteFixBody (rb : RBTree) (tmp : Ptr) : Except Fault (RBTree × Ptr) := do
  let tp ← getParent rb.heap tmp
  let tpl ← getLeft rb.heap tp
  if tmp = tpl then
    let tp ← getParent rb.heap tmp
    let w ← getRight rb.heap tp
    let (rb, w) ← deleteCase1L rb tmp w
    deleteRestL rb tmp w
  else
    let tp ← getParent rb.heap tmp
    let w ← getLeft rb.heap tp
    let (rb, w) ← deleteCase1R rb tmp w
    deleteRestR rb tmp w

/-- The delete fixup loop `for tmp != rb.root && tmp.judgeColor(black) { ... }`. -/
def deleteFixLoop : Nat → RBTree → Ptr → Except Fault (RBTree × Ptr)
  | 0, _, _ => .error .outOfFuel
  | fuel + 1, rb, tmp => do
    if (← deleteFixCond rb tmp) then
      let (rb, tmp) ← deleteFixBody rb tmp
      deleteFixLoop fuel rb tmp
    else
      pure (rb, tmp)

/-- `func (rb *RBTree) Delete(n *Node)`. -/
def Delete (fuel : Nat) (rb : RBTree) (n : Ptr) : Except Fault RBTree := do
  let (tmp, subst) ← deleteFind fuel rb n
  if subst = rb.root then
    let rb := { rb with root := tmp }
    let h ← setColor rb.heap rb.root color.black
    let h ← clearNode h n
    pure { rb with heap := h }
  else
    let isRed ← judgeColor rb.heap subst color.red
    let rb ← deleteSplice rb n tmp subst
    if isRed then
      pure rb
    else
      let (rb, tmp) ← deleteFixLoop fuel rb tmp
      let h ← setColor rb.heap tmp color.black
      pure { rb with heap := h }

/-- `func PreOrder(node *Node, sentinel *Node, result *[]uint32)`: the keys appended to
`result` by the left-self-right walk. -/
def PreOrder : Nat → Heap → Ptr → Ptr → List Nat → Except Fault (List Nat)
  | 0, _, _, _, _ => .error .outOfFuel
  | fuel + 1, h, node, sentinel, result =>
    if node ≠ sentinel then do
      let l ← getLeft h node
      let result ← PreOrder fuel h l sentinel result
      let k ← getKey h node
      let result := result ++ [k]
      let r ← getRight h node
      PreOrder fuel h r sentinel result
    else
      pure result

/-! ## Abstract shapes -/

/-- The shape of a tree laid out in node memory: every node carries its colour, its
address and its key. -/
inductive Shape where
  | nil : Shape
  | node (c : color) (l : Shape) (a : Nat) (k : Nat) (r : Shape) : Shape
deriving DecidableEq, Repr

namespace Shape

/-- The pointer through which a shape is reached: the sentinel for the empty shape. -/
def ptr (s : Nat) : Shape → Ptr
  | nil => some s
  | node _ _ a _ _ => some a

/-- Addresses of the attached nodes, left to right. -/
def addrs : Shape → List Nat
  | nil => []
  | node _ l a _ r => addrs l ++ a :: addrs r

/-- Keys of the attached nodes, left to right. -/
def keys : Shape → List Nat
  | nil => []
  | node _ l _ k r => keys l ++ k :: keys r

/-- Attached nodes as (address, key) pairs, left to right. -/
def toList : Shape → List (Nat × Nat)
  | nil => []
  | node _ l a k r => toList l ++ (a, k) :: toList r

/-- Number of attached nodes. -/
def size : Shape → Nat
  | nil => 0
  | node _ l _ _ r => size l + 1 + size r

/-- Largest number of attached nodes on a path from the root to a sentinel slot. -/
def height : Shape → Nat
  | nil => 0
  | node _ l _ _ r => max (height l) (height r) + 1

/-- Colour seen through the root pointer; the sentinel counts as black. -/
def rootColor : Shape → color
  | nil => color.black
  | node c _ _ _ _ => c

/-- Number of black nodes on the leftmost path. -/
def bh : Shape → Nat
  | nil => 0
  | node c l _ _ _ => bh l + (if c = color.black then 1 else 0)

/-- No red node has a red child. -/
def noRedRed : Shape → Prop
  | nil => True
  | node c l _ _ r =>
    (c = color.red → l.rootColor = color.black ∧ r.rootColor = color.black) ∧
      noRedRed l ∧ noRedRed r

/-- Every path from the root to a sentinel slot has the same number of black nodes. -/
def balanced : Shape → Prop
  | nil => True
  | node _ l _ _ r => bh l = bh r ∧ balanced l ∧ balanced r

end Shape

/-- The memory `h` holds the shape `t` below a node whose parent link is `q`; empty
child slots hold the sentinel `s`. -/
def Rep (h : Heap) (s : Nat) : Ptr → Shape → Prop
  | _, Shape.nil => True
  | q, Shape.node c l a k r =>
    a ≠ s ∧ h a = ⟨k, l.ptr s, r.ptr s, q, c⟩ ∧ Rep h s (some a) l ∧ Rep h s (some a) r

/-- The tree `rb` is laid out as the shape `t`: its root pointer reaches `t`, each
attached node has the fields `t` prescribes (the parent link of the root being `q`),
and no node occurs twice. -/
structure Models (rb : RBTree) (s : Nat) (q : Ptr) (t : Shape) : Prop where
  sentinel_eq : rb.sentinel = some s
  root_eq : rb.root = t.ptr s
  rep : Rep rb.heap s q t
  nodup : t.addrs.Nodup

/-- One step of a path from a node up to the root: the node is the left child of `a`
(`L`, with right sibling `r`) or its right child (`R`, with left sibling `l`). -/
inductive Frame where
  | L (c : color) (a : Nat) (k : Nat) (r : Shape) : Frame
  | R (c : color) (l : Shape) (a : Nat) (k : Nat) : Frame
deriving DecidableEq, Repr

namespace Frame

def addr : Frame → Nat
  | L _ a _ _ => a
  | R _ _ a _ => a

def col : Frame → color
  | L c _ _ _ => c
  | R c _ _ _ => c

def key : Frame → Nat
  | L _ _ k _ => k
  | R _ _ _ k => k

def sib : Frame → Shape
  | L _ _ _ r => r
  | R _ l _ _ => l

/-- Put a shape into the hole of a frame. -/
def fill : Frame → Shape → Shape
  | L c a k r, t => Shape.node c t a k r
  | R c l a k, t => Shape.node c l a k t

/-- The record of a frame's node after its pointer to the hole is redirected to `x`. -/
def setHole : Frame → Node → Ptr → Node
  | L _ _ _ _, nd, x => { nd with left := x }
  | R _ _ _ _, nd, x => { nd with right := x }

end Frame

/-- A path from a hole up to the root, innermost frame first. -/
abbrev Ctx := List Frame

/-- Put a shape into the hole of a path. -/
def plug : Ctx → Shape → Shape
  | [], t => t
  | f :: fs, t => plug fs (f.fill t)

/-- Parent link of the node in the hole. -/
def ctxPar (q : Ptr) : Ctx → Ptr
  | [] => q
  | f :: _ => some f.addr

/-- Root pointer of a plugged path whose hole is reached through `x`. -/
def ctxTop : Ctx → Ptr → Ptr
  | [], x => x
  | f :: fs, _ => ctxTop fs (some f.addr)

/-- Addresses on a path and in the siblings hanging off it. -/
def ctxAddrs : Ctx → List Nat
  | [] => []
  | f :: fs => f.addr :: (f.sib.addrs ++ ctxAddrs fs)

/-- The memory holds the path `ctx`, whose hole is reached through `x`. -/
def RepCtx (h : Heap) (s : Nat) (q : Ptr) : Ctx → Ptr → Prop
  | [], _ => True
  | Frame.L c a k r :: fs, x =>
    a ≠ s ∧ h a = ⟨k, x, r.ptr s, ctxPar q fs, c⟩ ∧ Rep h s (some a) r ∧
      RepCtx h s q fs (some a)
  | Frame.R c l a k :: fs, x =>
    a ≠ s ∧ h a = ⟨k, l.ptr s, x, ctxPar q fs, c⟩ ∧ Rep h s (some a) l ∧
      RepCtx h s q fs (some a)

/-- What an operation on a tree leaves alone: the size counter, the callback, the
sentinel pointer, and every record stored outside the addresses `A`. -/
structure Keeps (rb rb' : RBTree) (A : List Nat) : Prop where
  size_eq : rb'.size = rb.size
  icb_eq : rb'.insertCallBack = rb.insertCallBack
  sentinel_eq : rb'.sentinel = rb.sentinel
  outside : ∀ x, x ∉ A → rb'.heap x = rb.heap x

/-- Address of the root of a shape, if it has one. -/
def Shape.rootAddr : Shape → List Nat
  | Shape.nil => []
  | Shape.node _ _ a _ _ => [a]

/-- Address of the innermost frame of a path, if it has one. -/
def ctxHead : Ctx → List Nat
  | [] => []
  | f :: _ => [f.addr]

/-- Recolouring one node: the memory written by `setColor`. -/
def Heap.recolor (h : Heap) (a : Nat) (c : color) : Heap :=
  h.set a { h a with color := c }

/-- The red-black conditions on a subtree: no red node has a red child and all paths to
sentinel slots carry the same number of black nodes. -/
def Shape.wf (t : Shape) : Prop := t.noRedRed ∧ t.balanced

/-- The innermost frame of a path exists and is black. -/
def headBlack : Ctx → Prop
  | [] => False
  | f :: _ => f.col = color.black

/-- The red-black conditions on a path whose hole stands for a subtree of black height
`b`: the siblings are well formed and of matching black height, a red frame has a
black sibling and a black frame above it, and so the outermost frame (the root) is
black. Nothing is said about the colour in the hole. -/
def ctxValid : Ctx → Nat → Prop
  | [], _ => True
  | f :: fs, b =>
    f.sib.wf ∧ f.sib.bh = b ∧ (f.col = color.red → f.sib.rootColor = color.black ∧ headBlack fs) ∧
      ctxValid fs (b + (if f.col = color.black then 1 else 0))

/-- Red-black validity of a whole tree shape. -/
def Shape.valid (t : Shape) : Prop := t.rootColor = color.black ∧ t.wf

/-- The step that the default placement takes at a frame for key `k`: left when `k` is
strictly smaller than the frame's key, right otherwise. -/
def Frame.admits : Frame → Nat → Prop
  | Frame.L _ _ kf _, k => k < kf
  | Frame.R _ _ _ kf, k => kf ≤ k

/-- Every frame of the path is the step the default placement takes for key `k`. -/
def pathOK (k : Nat) (ctx : Ctx) : Prop := ∀ f ∈ ctx, f.admits k

/-- Nodes to the left of the hole, left to right. -/
def ctxL : Ctx → List (Nat × Nat)
  | [] => []
  | Frame.L _ _ _ _ :: fs => ctxL fs
  | Frame.R _ l a k :: fs => ctxL fs ++ l.toList ++ [(a, k)]

/-- Nodes to the right of the hole, left to right. -/
def ctxR : Ctx → List (Nat × Nat)
  | [] => []
  | Frame.L _ a k r :: fs => (a, k) :: r.toList ++ ctxR fs
  | Frame.R _ _ _ _ :: fs => ctxR fs

/-- Outcome of a restructuring step that turns the shape `T` into `T'`: the new tree is
laid out as `T'`, the nodes keep their left-to-right order, and nothing outside the tree
is touched. -/
structure Step (rb rb' : RBTree) (s : Nat) (q : Ptr) (T T' : Shape) : Prop where
  models : Models rb' s q T'
  toList_eq : T'.toList = T.toList
  keeps : Keeps rb rb' T.addrs

/-- The memory represents the shape and no address occurs twice in the shape. -/
def Lay (h : Heap) (s : Nat) (q : Ptr) (t : Shape) : Prop :=
  Rep h s q t ∧ t.addrs.Nodup

/-- A frame with its node recoloured. -/
def Frame.setCol : Frame → color → Frame
  | Frame.L _ a k r, c => Frame.L c a k r
  | Frame.R _ l a k, c => Frame.R c l a k

/-- The shape with its root coloured black. -/
def Shape.blacken : Shape → Shape
  | Shape.nil => Shape.nil
  | Shape.node _ l a k r => Shape.node color.black l a k r

/-- What `Insert` of the node at address `n` achieves on a tree of shape `T`. -/
structure InsertPost (rb rb' : RBTree) (n : Nat) (T T' : Shape) : Prop where
  valid : T'.valid
  size_eq : rb'.size = (rb.size + 1) % 2 ^ 32
  icb_eq : rb'.insertCallBack = rb.insertCallBack
  sentinel_eq : rb'.sentinel = rb.sentinel
  outside : ∀ x, x ∉ n :: T.addrs → rb'.heap x = rb.heap x
  placed : ∃ L R, T.toList = L ++ R ∧ T'.toList = L ++ (n, (rb.heap n).key) :: R ∧
    (T.keys.Sorted (· ≤ ·) →
      (∀ x ∈ L, x.2 ≤ (rb.heap n).key) ∧ (∀ x ∈ R, (rb.heap n).key < x.2))

/-- Red-black validity of a tree in memory, in the sense of the claims: the sentinel is
black, and the memory lays out a shape `T` (so every empty child slot holds the sentinel
and every attached child's parent link points to the node it hangs under) whose root is
black, in which no red node has a red child, and in which every path from the root to a
sentinel slot has the same number of black nodes. -/
structure ValidRB (rb : RBTree) (s : Nat) (T : Shape) : Prop where
  models : ∃ q, Models rb s q T
  sentinel_black : (rb.heap s).color = color.black
  valid : T.valid

/-- The nodes of the test harness: `NewNode(key, red)` stored at each given address. -/
def allocNodes (h : Heap) : List (Nat × Nat) → Heap
  | [] => h
  | (a, k) :: rest => allocNodes (h.set a (NewNode k color.red)) rest

/-- The loop `for _, node := range nodes { rbTree.Insert(node) }`. -/
def insertAll (fuel : Nat) : RBTree → List Nat → Except Fault RBTree
  | rb, [] => pure rb
  | rb, a :: rest => do
    let rb ← Insert fuel rb (some a)
    insertAll fuel rb rest

/-- The test's `insert`: a sentinel `NewNode(0, black)` at address `s`, `Init` with the
default placement, the nodes allocated at the given addresses with the given keys, and
one `Insert` per node in list order. -/
def testInsert (fuel : Nat) (h : Heap) (s : Nat) (nodes : List (Nat × Nat)) :
    Except Fault RBTree := do
  let rb ← Init (h.set s (NewNode 0 color.black)) (some s) InsertValue
  insertAll fuel { rb with heap := allocNodes rb.heap nodes } (nodes.map Prod.fst)

/-- The test's `check`: colour of a node and the keys of its two children. -/
def check (h : Heap) (root : Ptr) : Except Fault (color × Nat × Nat) := do
  let c ← getColor h root
  let l ← getLeft h root
  let lk ← getKey h l
  let r ← getRight h root
  let rk ← getKey h r
  pure (c, lk, rk)

/-- The custom test data: keys `[1, 9, 9, 3, 1, 18, 1, 26, 4, 12]` at addresses 1 to 10. -/
def customNodes : List (Nat × Nat) :=
  [(1, 1), (2, 9), (3, 9), (4, 3), (5, 1), (6, 18), (7, 1), (8, 26), (9, 4), (10, 12)]

/-- A memory in which no node has been set up yet. -/
def blankHeap : Heap := fun _ => NewNode 0 color.red

/-- A one-node tree: black root with key 5 at address 1, sentinel at address 0, and an
unattached node with key 7 at address 2. -/
def sampleTree : RBTree :=
  { size := 1, root := some 1, sentinel := some 0, insertCallBack := InsertValue,
    heap := ((blankHeap.set 0 (NewNode 0 color.black)).set 1
      ⟨5, some 0, some 0, none, color.black⟩).set 2 (NewNode 7 color.red) }

/-- The cursor of the delete fixup may be the sentinel; then the sentinel's parent link
stands in for the parent link of the node in the hole. -/
def CursorPar (h : Heap) (s : Nat) (q : Ptr) (C : Ctx) (X : Shape) : Prop :=
  X = Shape.nil → (h s).parent = ctxPar q C

/-- Invariant of the delete fixup loop with the cursor subtree `X` in the hole of `C`:
the tree is laid out as `plug C X`, the cursor knows its parent, the sentinel is black,
`X` is well formed below its root, and the path is valid for a subtree one black node
taller than `X` (the missing black). -/
structure DelInv (rb : RBTree) (s : Nat) (q : Ptr) (C : Ctx) (X : Shape) : Prop where
  models : Models rb s q (plug C X)
  cursor : CursorPar rb.heap s q C X
  sentinel_black : (rb.heap s).color = color.black
  wf : X.blacken.wf
  ctx_valid : ctxValid C (X.bh + 1)

/-- What the red-black conditions see of a frame: its colour and its sibling subtree. -/
def Frame.look (f : Frame) : color × Shape := (f.col, f.sib)

/-- What the splice of `Delete` (lines 220-262) does outside the relinked tree: the size
counter, the callback and the sentinel pointer stay, records outside the old tree and
the sentinel stay, the node `n` is cleared, and of the sentinel only the parent link may
change. -/
structure Detached (rb rb' : RBTree) (s n : Nat) (A : List Nat) : Prop where
  size_eq : rb'.size = rb.size
  icb_eq : rb'.insertCallBack = rb.insertCallBack
  sentinel_eq : rb'.sentinel = rb.sentinel
  outside : ∀ x, x ∉ s :: A → rb'.heap x = rb.heap x
  cleared : rb'.heap n = ⟨0, none, none, none, (rb.heap n).color⟩
  sentinel_rec : ∃ p, rb'.heap s = { rb.heap s with parent := p }

/-- What `Delete` of the attached node at address `n` achieves on a tree of shape `T`:
the new shape `T'` is valid, the sentinel is black, the nodes of `T'` are those of `T`
without `n`, in the same order, and the rest of the memory is as `Detached` says. -/
structure DeletePost (rb rb' : RBTree) (s n : Nat) (T T' : Shape) : Prop where
  valid : T'.valid
  sentinel_black : (rb'.heap s).color = color.black
  removed : ∃ A B, T.toList = A ++ (n, (rb.heap n).key) :: B ∧ T'.toList = A ++ B
  frame : Detached rb rb' s n T.addrs

/-- The node at address `n` is attached to the tree: it is one of the nodes of the shape
that the memory lays out below the root pointer. -/
def Attached (rb : RBTree) (n : Nat) : Prop :=
  ∃ s q T, Models rb s q T ∧ n ∈ T.addrs

/-- The trees reachable from `Init` with the default placement by `Insert` of a freshly
constructed node (`NewNode(k, c)` at an address that is neither attached nor the
sentinel) and `Delete` of an attached node. -/
inductive Reachable : RBTree → Prop
  | init (h : Heap) (s : Nat) (rb : RBTree) :
      Init h (some s) InsertValue = .ok rb → Reachable rb
  | insert (rb : RBTree) (n k : Nat) (c : color) (fuel : Nat) (rb' : RBTree) :
      Reachable rb → ¬ Attached rb n → some n ≠ rb.sentinel →
      Insert fuel { rb with heap := rb.heap.set n (NewNode k c) } (some n) = .ok rb' →
      Reachable rb'
  | delete (rb : RBTree) (n : Nat) (fuel : Nat) (rb' : RBTree) :
      Reachable rb → Attached rb n → Delete fuel rb (some n) = .ok rb' → Reachable rb'

/-- The traversal of a whole tree: `PreOrder(rb.root, rb.sentinel, &result)` with an empty
`result`. -/
def traversal (fuel : Nat) (rb : RBTree) : Except Fault (List Nat) :=
  PreOrder fuel rb.heap rb.root rb.sentinel []

/-- The empty tree that `Init` builds on a blank memory with the sentinel at address 0. -/
def emptyTree : RBTree :=
  { size := 0, root := some 0, sentinel := some 0, insertCallBack := InsertValue,
    heap := blankHeap.set 0 { blankHeap 0 with color := color.black } }

/-- The tree obtained from `emptyTree` by inserting a fresh node with key 5 at address 1. -/
def oneTree : RBTree :=
  match Insert 1 { emptyTree with heap := emptyTree.heap.set 1 (NewNode 5 color.red) }
    (some 1) with
  | .ok rb => rb
  | .error _ => emptyTree

/-- The uncle of the cursor of the insert fixup, as lines 145-146 and 164 read it:
`n.parent.parent.right` when the parent is the left child of the grandparent,
`n.parent.parent.left` otherwise. -/
def insertUncle (h : Heap) (n : Ptr) : Except Fault Ptr := do
  let np ← getParent h n
  let g ← getGrand h n
  let gl ← getLeft h g
  if np = gl then
    let g ← getGrand h n
    getRight h g
  else
    let g ← getGrand h n
    getLeft h g

/-- The states (tree and cursor) in which the insert fixup loop runs its body. -/
def insertFixVisited : Nat → RBTree → Ptr → List (RBTree × Ptr)
  | 0, _, _ => []
  | fuel + 1, rb, n =>
    match insertFixCond rb n with
    | .ok true =>
      (rb, n) :: (match insertFixBody rb n with
        | .ok (rb1, n1) => insertFixVisited fuel rb1 n1
        | .error _ => [])
    | _ => []

/-- The states in which the fixup loop of `Insert(n)` runs its body. -/
def InsertVisited (fuel : Nat) (rb : RBTree) (n : Ptr) : List (RBTree × Ptr) :=
  if rb.root = rb.sentinel then []
  else
    match rb.insertCallBack fuel rb.heap rb.root n rb.sentinel with
    | .ok h => insertFixVisited fuel { rb with size := (rb.size + 1) % 2 ^ 32, heap := h } n
    | .error _ => []

/-- Safety of one pass of the insert fixup with cursor `n`: the grandparent
`n.parent.parent` that the pass reads is an attached node, and the uncle, when it is red
(and so gets recoloured), is an attached node and not the sentinel. -/
def InsertFixSafe (rb : RBTree) (n : Ptr) : Prop :=
  ∃ g u, getGrand rb.heap n = .ok (some g) ∧ Attached rb g ∧
    insertUncle rb.heap n = .ok u ∧
    (judgeColor rb.heap u color.red = .ok true →
      u ≠ rb.sentinel ∧ ∃ a, u = some a ∧ Attached rb a)

/-- The siblings `w` of the cursor that one pass of the delete fixup reads, each with the
tree at the time of the read: at the start of the pass (lines 274 and 302), after the
rotation for a red sibling (lines 279 and 307, the sibling unchanged when there is no
such rotation), and, when the sibling does not have two black children, after the
rotation at the sibling (lines 292 and 320, likewise). -/
def deleteFixSiblings (rb : RBTree) (tmp : Ptr) : Except Fault (List (RBTree × Ptr)) := do
  let tp ← getParent rb.heap tmp
  let tpl ← getLeft rb.heap tp
  if tmp = tpl then
    let tp ← getParent rb.heap tmp
    let w ← getRight rb.heap tp
    let (rb1, w1) ← deleteCase1L rb tmp w
    if (← bothBlack rb1.heap w1) then
      pure [(rb, w), (rb1, w1)]
    else
      let (rb2, w2) ← deleteCase3L rb1 tmp w1
      pure [(rb, w), (rb1, w1), (rb2, w2)]
  else
    let tp ← getParent rb.heap tmp
    let w ← getLeft rb.heap tp
    let (rb1, w1) ← deleteCase1R rb tmp w
    if (← bothBlack rb1.heap w1) then
      pure [(rb, w), (rb1, w1)]
    else
      let (rb2, w2) ← deleteCase3R rb1 tmp w1
      pure [(rb, w), (rb1, w1), (rb2, w2)]

/-- The sibling reads of all passes of the delete fixup loop. -/
def deleteFixVisited : Nat → RBTree → Ptr → List (RBTree × Ptr)
  | 0, _, _ => []
  | fuel + 1, rb, tmp =>
    match deleteFixCond rb tmp with
    | .ok true =>
      (match deleteFixSiblings rb tmp with
        | .ok l => l
        | .error _ => []) ++
      (match deleteFixBody rb tmp with
        | .ok (rb1, t1) => deleteFixVisited fuel rb1 t1
        | .error _ => [])
    | _ => []

/-- The sibling reads of the fixup loop inside `Delete(n)`. -/
def DeleteVisited (fuel : Nat) (rb : RBTree) (n : Ptr) : List (RBTree × Ptr) :=
  match deleteFind fuel rb n with
  | .ok (tmp, subst) =>
    if subst = rb.root then []
    else
      match judgeColor rb.heap subst color.red, deleteSplice rb n tmp subst with
      | .ok false, .ok rb1 => deleteFixVisited fuel rb1 tmp
      | _, _ => []
  | .error _ => []

/-- Safety of a sibling read in the tree `st`: the sibling `w` is an attached node, not
the sentinel, and the sentinel is black. -/
def SiblingSafe (st : RBTree) (w : Ptr) : Prop :=
  w ≠ st.sentinel ∧ (∃ a, w = some a ∧ Attached st a) ∧
    ∀ s, st.sentinel = some s → (st.heap s).color = color.black

/-- The tree obtained from `oneTree` by inserting a second fresh node with key 5 at
address 2. -/
def twoTree : RBTree :=
  match Insert 2 { oneTree with heap := oneTree.heap.set 2 (NewNode 5 color.red) }
    (some 2) with
  | .ok rb => rb
  | .error _ => emptyTree

/-- The tree obtained from `twoTree` by inserting a third fresh node with key 3 at
address 3. -/
def threeTree : RBTree :=
  match Insert 2 { twoTree with heap := twoTree.heap.set 3 (NewNode 3 color.red) }
    (some 3) with
  | .ok rb => rb
  | .error _ => emptyTree

/-- The tree obtained from `oneTree` by deleting its only node, the one at address 1. -/
def goneTree : RBTree :=
  match Delete 1 oneTree (some 1) with
  | .ok rb => rb
  | .error _ => emptyTree

/-- Attached nodes as (address, key, colour) triples, left to right. -/
def Shape.info : Shape → List (Nat × Nat × color)
  | Shape.nil => []
  | Shape.node c l a k r => Shape.info l ++ (a, k, c) :: Shape.info r

/-! ## In-place semantics

The same code once more, run in place: a statement acts on the tree and the node memory
it refers to, and a failing statement leaves behind everything written before it. -/

/-- A statement run in place: from the tree (with its node memory) before it to its
outcome and the tree after it; after a failure, the tree as the failing step found it. -/
def Run (α : Type) : Type := RBTree → Except Fault α × RBTree

namespace Run

/-- A statement that does nothing and yields `a`. -/
def ret {α : Type} (a : α) : Run α := fun rb => (.ok a, rb)

/-- Sequencing: the second statement runs on the tree that the first one leaves, and
not at all when the first one fails. -/
def seq {α β : Type} (m : Run α) (f : α → Run β) : Run β := fun rb =>
  match m rb with
  | (.ok a, rb1) => f a rb1
  | (.error e, rb1) => (.error e, rb1)

/-- A failure. -/
def fail {α : Type} (e : Fault) : Run α := fun rb => (.error e, rb)

/-- An expression that only reads: the tree stays as it is, also when the read fails. -/
def read {α : Type} (f : RBTree → Except Fault α) : Run α := fun rb => (f rb, rb)

/-- An assignment to a field of a node; through a nil pointer it fails and writes
nothing. -/
def write (f : Heap → Except Fault Heap) : Run Unit := fun rb =>
  match f rb.heap with
  | .ok h => (.ok (), { rb with heap := h })
  | .error e => (.error e, rb)

/-- The assignment `rb.root = p`. -/
def setRoot (p : Ptr) : Run Unit := fun rb => (.ok (), { rb with root := p })

/-- The statement `rb.size++` on a `uint32`. -/
def incSize : Run Unit := fun rb => (.ok (), { rb with size := (rb.size + 1) % 2 ^ 32 })

/-- The call `rb.insertCallBack(root, n, sentinel)`. The callback is a function on node
memory: its writes take effect when it returns, and when it fails the memory is kept as
it was at the call. -/
def callback (fuel : Nat) (root n sentinel : Ptr) : Run Unit := fun rb =>
  match rb.insertCallBack fuel rb.heap root n sentinel with
  | .ok h => (.ok (), { rb with heap := h })
  | .error e => (.error e, rb)

/-- The result of a statement without the tree that a failure leaves behind. -/
def out {α : Type} (m : Run α) (rb : RBTree) : Except Fault (α × RBTree) :=
  match m rb with
  | (.ok a, rb1) => .ok (a, rb1)
  | (.error e, _) => .error e

/-- The statement never changes the size counter, whether it returns or fails. -/
def KeepsSize {α : Type} (m : Run α) : Prop := ∀ rb, (m rb).2.size = rb.size

end Run

instance : Monad Run where
  pure := Run.ret
  bind := Run.seq

namespace InPlace

def getKey (n : Ptr) : Run Nat := Run.read fun rb => RBTreeGo.getKey rb.heap n

def getLeft (n : Ptr) : Run Ptr := Run.read fun rb => RBTreeGo.getLeft rb.heap n

def getRight (n : Ptr) : Run Ptr := Run.read fun rb => RBTreeGo.getRight rb.heap n

def getParent (n : Ptr) : Run Ptr := Run.read fun rb => RBTreeGo.getParent rb.heap n

def getColor (n : Ptr) : Run color := Run.read fun rb => RBTreeGo.getColor rb.heap n

/-- Reading `n.parent.parent`. -/
def getGrand (n : Ptr) : Run Ptr := Run.read fun rb => RBTreeGo.getGrand rb.heap n

/-- Reading `rb.root`. -/
def getRoot : Run Ptr := Run.read fun rb => .ok rb.root

/-- Reading `rb.sentinel`. -/
def getSentinel : Run Ptr := Run.read fun rb => .ok rb.sentinel

def setKey (n : Ptr) (v : Nat) : Run Unit := Run.write fun h => RBTreeGo.setKey h n v

def setLeft (n : Ptr) (v : Ptr) : Run Unit := Run.write fun h => RBTreeGo.setLeft h n v

def setRight (n : Ptr) (v : Ptr) : Run Unit := Run.write fun h => RBTreeGo.setRight h n v

def setParent (n : Ptr) (v : Ptr) : Run Unit := Run.write fun h => RBTreeGo.setParent h n v

/-- `func (n *Node) setColor(color color)`. -/
def setColor (n : Ptr) (c : color) : Run Unit := Run.write fun h => RBTreeGo.setColor h n c

/-- `func (n *Node) judgeColor(color color) bool`. -/
def judgeColor (n : Ptr) (c : color) : Run Bool :=
  Run.read fun rb => RBTreeGo.judgeColor rb.heap n c

/-- `func mix(node, sentinel *Node) *Node`: it only reads. -/
def mix (fuel : Nat) (node sentinel : Ptr) : Run Ptr :=
  Run.read fun rb => RBTreeGo.mix fuel rb.heap node sentinel

/-- `func InsertValue(tmp, node, sentinel *Node)`. -/
def InsertValue : Nat → Ptr → Ptr → Ptr → Run Unit
  | 0, _, _, _ => Run.fail .outOfFuel
  | fuel + 1, tmp, node, sentinel => do
    let nk ← getKey node
    let tk ← getKey tmp
    let l ← Run.read fun _ => Slot.addrLeft tmp
    let r ← Run.read fun _ => Slot.addrRight tmp
    let p := compare (decide (nk < tk)) l r
    let cur ← Run.read fun rb => Slot.read rb.heap p
    if cur = sentinel then do
      Run.write fun h => Slot.write h p node
      setParent node tmp
      setLeft node sentinel
      setRight node sentinel
      setColor node color.red
    else
      InsertValue fuel cur node sentinel

/-- `func (rb *RBTree) leftRotate(n *Node)`. -/
def leftRotate (n : Ptr) : Run Unit := do
  let tmp ← getRight n
  let tl ← getLeft tmp
  setRight n tl
  let tl ← getLeft tmp
  let sentinel ← getSentinel
  (if tl ≠ sentinel then setParent tl n else pure ())
  let np ← getParent n
  setParent tmp np
  let root ← getRoot
  (if n = root then
      Run.setRoot tmp
    else do
      let np ← getParent n
      let npl ← getLeft np
      if n = npl then
        setLeft np tmp
      else
        setRight np tmp)
  setLeft tmp n
  setParent n tmp

/-- `func (rb *RBTree) rightRotate(n *Node)`. -/
def rightRotate (n : Ptr) : Run Unit := do
  let tmp ← getLeft n
  let tr ← getRight tmp
  setLeft n tr
  let tr ← getRight tmp
  let sentinel ← getSentinel
  (if tr ≠ sentinel then setParent tr n else pure ())
  let np ← getParent n
  setParent tmp np
  let root ← getRoot
  (if n = root then
      Run.setRoot tmp
    else do
      let np ← getParent n
      let npr ← getRight np
      if npr = n then
        setRight np tmp
      else
        setLeft np tmp)
  setRight tmp n
  setParent n tmp

/-- Loop condition of the insert fixup: `n != *root && (n.parent).judgeColor(red)`. -/
def insertFixCond (n : Ptr) : Run Bool := Run.read fun rb => RBTreeGo.insertFixCond rb n

/-- Body of the insert fixup loop (lines 144-183); yields the new cursor. -/
def insertFixBody (n : Ptr) : Run Ptr := do
  let np ← getParent n
  let g ← getGrand n
  let gl ← getLeft g
  if np = gl then do
    let g ← getGrand n
    let temp ← getRight g
    if (← judgeColor temp color.red) then do
      let np ← getParent n
      setColor np color.black
      setColor temp color.black
      let g ← getGrand n
      setColor g color.red
      getGrand n
    else do
      let np ← getParent n
      let npr ← getRight np
      let n ← (if n = npr then do
          let n ← getParent n
          leftRotate n
          pure n
        else
          pure n)
      let np ← getParent n
      setColor np color.black
      let g ← getGrand n
      setColor g color.red
      let g ← getGrand n
      rightRotate g
      pure n
  else do
    let g ← getGrand n
    let temp ← getLeft g
    if (← judgeColor temp color.red) then do
      let np ← getParent n
      setColor np color.black
      setColor temp color.black
      let g ← getGrand n
      setColor g color.red
      getGrand n
    else do
      let np ← getParent n
      let npl ← getLeft np
      let n ← (if n = npl then do
          let n ← getParent n
          rightRotate n
          pure n
        else
          pure n)
      let np ← getParent n
      setColor np color.black
      let g ← getGrand n
      setColor g color.red
      let g ← getGrand n
      leftRotate g
      pure n

/-- The insert fixup loop; yields the last cursor. -/
def insertFixLoop : Nat → Ptr → Run Ptr
  | 0, _ => Run.fail .outOfFuel
  | fuel + 1, n => do
    if (← insertFixCond n) then do
      let n ← insertFixBody n
      insertFixLoop fuel n
    else
      pure n

/-- `func (rb *RBTree) Insert(n *Node)`. -/
def Insert (fuel : Nat) (n : Ptr) : Run Unit := do
  let sentinel ← getSentinel
  Run.incSize
  let root ← getRoot
  if root = sentinel then do
    setParent n none
    setLeft n sentinel
    setRight n sentinel
    setColor n color.black
    Run.setRoot n
  else do
    let root ← getRoot
    Run.callback fuel root n sentinel
    let _ ← insertFixLoop fuel n
    let root ← getRoot
    setColor root color.black

/-- Lines 196-210 of `Delete`: the search for `tmp` and `subst`; it only reads. -/
def deleteFind (fuel : Nat) (n : Ptr) : Run (Ptr × Ptr) :=
  Run.read fun rb => RBTreeGo.deleteFind fuel rb n

/-- The assignment `n.left, n.right, n.parent, n.key = nil, nil, nil, 0`. -/
def clearNode (n : Ptr) : Run Unit := do
  setLeft n none
  setRight n none
  setParent n none
  setKey n 0

/-- Lines 221-225 of `Delete`. -/
def deleteLink (tmp subst : Ptr) : Run Unit := do
  let sp ← getParent subst
  let spl ← getLeft sp
  if subst = spl then do
    let sp ← getParent subst
    setLeft sp tmp
  else do
    let sp ← getParent subst
    setRight sp tmp

/-- Lines 231-236 of `Delete`. -/
def deleteTmpParent (n tmp subst : Ptr) : Run Unit := do
  let sp ← getParent subst
  if sp = n then
    setParent tmp subst
  else do
    let sp ← getParent subst
    setParent tmp sp

/-- Lines 237-260 of `Delete`. -/
def deleteTransplant (n subst : Ptr) : Run Unit := do
  let nl ← getLeft n
  setLeft subst nl
  let nr ← getRight n
  setRight subst nr
  let np ← getParent n
  setParent subst np
  let nc ← getColor n
  setColor subst nc
  let root ← getRoot
  (if n = root then
      Run.setRoot subst
    else do
      let np ← getParent n
      let npl ← getLeft np
      if n = npl then do
        let np ← getParent n
        setLeft np subst
      else do
        let np ← getParent n
        setRight np subst)
  let sentinel ← getSentinel
  let sl ← getLeft subst
  (if sl ≠ sentinel then do
      let sl ← getLeft subst
      setParent sl subst
    else
      pure ())
  let sr ← getRight subst
  (if sr ≠ sentinel then do
      let sr ← getRight subst
      setParent sr subst
    else
      pure ())

/-- Lines 220-262 of `Delete`. -/
def deleteSplice (n tmp subst : Ptr) : Run Unit := do
  deleteLink tmp subst
  (if subst = n then do
      let sp ← getParent subst
      setParent tmp sp
    else do
      deleteTmpParent n tmp subst
      deleteTransplant n subst)
  clearNode n

/-- Loop condition of the delete fixup: `tmp != rb.root && tmp.judgeColor(black)`. -/
def deleteFixCond (tmp : Ptr) : Run Bool := Run.read fun rb => RBTreeGo.deleteFixCond rb tmp

/-- The test `w.left.judgeColor(black) && w.right.judgeColor(black)`. -/
def bothBlack (w : Ptr) : Run Bool := Run.read fun rb => RBTreeGo.bothBlack rb.heap w

/-- Lines 275-280; yields the sibling to go on with. -/
def deleteCase1L (tmp w : Ptr) : Run Ptr := do
  if (← judgeColor w color.red) then do
    setColor w color.black
    let tp ← getParent tmp
    setColor tp color.red
    let tp ← getParent tmp
    leftRotate tp
    let tp ← getParent tmp
    getRight tp
  else
    pure w

/-- Lines 303-308. -/
def deleteCase1R (tmp w : Ptr) : Run Ptr := do
  if (← judgeColor w color.red) then do
    setColor w color.black
    let tp ← getParent tmp
    setColor tp color.red
    let tp ← getParent tmp
    rightRotate tp
    let tp ← getParent tmp
    getLeft tp
  else
    pure w

/-- Lines 285-286 and 313-314; yields the new cursor. -/
def deleteCase2 (tmp w : Ptr) : Run Ptr := do
  setColor w color.red
  getParent tmp

/-- Lines 288-293; yields the sibling to go on with. -/
def deleteCase3L (tmp w : Ptr) : Run Ptr := do
  let wr ← getRight w
  if (← judgeColor wr color.black) then do
    let wl ← getLeft w
    setColor wl color.black
    setColor w color.red
    rightRotate w
    let tp ← getParent tmp
    getRight tp
  else
    pure w

/-- Lines 316-321. -/
def deleteCase3R (tmp w : Ptr) : Run Ptr := do
  let wl ← getLeft w
  if (← judgeColor wl color.black) then do
    let wr ← getRight w
    setColor wr color.black
    setColor w color.red
    leftRotate w
    let tp ← getParent tmp
    getLeft tp
  else
    pure w

/-- Lines 295-299; yields the new cursor, the root. -/
def deleteCase4L (tmp w : Ptr) : Run Ptr := do
  let tp ← getParent tmp
  let tpc ← getColor tp
  setColor w tpc
  let tp ← getParent tmp
  setColor tp color.black
  let wr ← getRight w
  setColor wr color.black
  let tp ← getParent tmp
  leftRotate tp
  getRoot

/-- Lines 322-326. -/
def deleteCase4R (tmp w : Ptr) : Run Ptr := do
  let tp ← getParent tmp
  let tpc ← getColor tp
  setColor w tpc
  let tp ← getParent tmp
  setColor tp color.black
  let wl ← getLeft w
  setColor wl color.black
  let tp ← getParent tmp
  rightRotate tp
  getRoot

/-- Lines 284-300. -/
def deleteRestL (tmp w : Ptr) : Run Ptr := do
  if (← bothBlack w) then
    deleteCase2 tmp w
  else do
    let w ← deleteCase3L tmp w
    deleteCase4L tmp w

/-- Lines 312-327. -/
def deleteRestR (tmp w : Ptr) : Run Ptr := do
  if (← bothBlack w) then
    deleteCase2 tmp w
  else do
    let w ← deleteCase3R tmp w
    deleteCase4R tmp w

/-- Body of the delete fixup loop (lines 273-328); yields the new cursor. -/
def deleteFixBody (tmp : Ptr) : Run Ptr := do
  let tp ← getParent tmp
  let tpl ← getLeft tp
  if tmp = tpl then do
    let tp ← getParent tmp
    let w ← getRight tp
    let w ← deleteCase1L tmp w
    deleteRestL tmp w
  else do
    let tp ← getParent tmp
    let w ← getLeft tp
    let w ← deleteCase1R tmp w
    deleteRestR tmp w

/-- The delete fixup loop; yields the last cursor. -/
def deleteFixLoop : Nat → Ptr → Run Ptr
  | 0, _ => Run.fail .outOfFuel
  | fuel + 1, tmp => do
    if (← deleteFixCond tmp) then do
      let tmp ← deleteFixBody tmp
      deleteFixLoop fuel tmp
    else
      pure tmp

/-- `func (rb *RBTree) Delete(n *Node)`. -/
def Delete (fuel : Nat) (n : Ptr) : Run Unit := do
  let (tmp, subst) ← deleteFind fuel n
  let root ← getRoot
  if subst = root then do
    Run.setRoot tmp
    let root ← getRoot
    setColor root color.black
    clearNode n
  else do
    let isRed ← judgeColor subst color.red
    deleteSplice n tmp subst
    if isRed then
      pure ()
    else do
      let tmp ← deleteFixLoop fuel tmp
      setColor tmp color.black

end InPlace

/-- The tree obtained from `threeTree` by inserting a fourth fresh node with key 7 at
address 4. -/
def fourTree : RBTree :=
  match Insert 3 { threeTree with heap := threeTree.heap.set 4 (NewNode 7 color.red) }
    (some 4) with
  | .ok rb => rb
  | .error _ => emptyTree

/-! ## Basic lemmas -/

@[simp] theorem bind_ok {α β : Type} (a : α) (f : α → Except Fault β) :
    (Except.ok a >>= f) = f a := rfl

@[simp] theorem bind_error {α β : Type} (e : Fault) (f : α → Except Fault β) :
    ((Except.error e : Except Fault α) >>= f) = Except.error e := rfl

@[simp] theorem pure_eq_ok {α : Type} (a : α) : (pure a : Except Fault α) = Except.ok a := rfl

@[simp] theorem Heap.set_same (h : Heap) (a : Nat) (v : Node) : h.set a v a = v := by
  simp [Heap.set]

theorem Heap.set_other (h : Heap) (a b : Nat) (v : Node) (hne : b ≠ a) :
    h.set a v b = h b := by
  simp [Heap.set, hne]

@[simp] theorem getKey_some (h : Heap) (a : Nat) : getKey h (some a) = .ok (h a).key := rfl
@[simp] theorem getLeft_some (h : Heap) (a : Nat) : getLeft h (some a) = .ok (h a).left := rfl
@[simp] theorem getRight_some (h : Heap) (a : Nat) :
    getRight h (some a) = .ok (h a).right := rfl
@[simp] theorem getParent_some (h : Heap) (a : Nat) :
    getParent h (some a) = .ok (h a).parent := rfl
@[simp] theorem getColor_some (h : Heap) (a : Nat) :
    getColor h (some a) = .ok (h a).color := rfl
@[simp] theorem judgeColor_some (h : Heap) (a : Nat) (c : color) :
    judgeColor h (some a) c = .ok (decide ((h a).color = c)) := rfl

theorem plug_ptr (s : Nat) : ∀ (ctx : Ctx) (t : Shape),
    (plug ctx t).ptr s = ctxTop ctx (t.ptr s)
  | [], _ => rfl
  | f :: fs, t => by
    rw [plug, plug_ptr s fs, ctxTop]
    cases f <;> rfl

theorem plug_addrs_perm : ∀ (ctx : Ctx) (t : Shape),
    List.Perm (plug ctx t).addrs (t.addrs ++ ctxAddrs ctx)
  | [], t => by simp [plug, ctxAddrs]
  | f :: fs, t => by
    rw [plug]
    refine (plug_addrs_perm fs (f.fill t)).trans ?_
    cases f with
    | L c a k r =>
      simp only [Frame.fill, Shape.addrs, ctxAddrs, Frame.addr, Frame.sib, List.append_assoc,
        List.cons_append]
      exact List.Perm.refl _
    | R c l a k =>
      simp only [Frame.fill, Shape.addrs, ctxAddrs, Frame.addr, Frame.sib, List.append_assoc,
        List.cons_append]
      have h1 : List.Perm (l.addrs ++ a :: (t.addrs ++ ctxAddrs fs))
          (a :: (l.addrs ++ (t.addrs ++ ctxAddrs fs))) := List.perm_middle
      refine h1.trans ?_
      have h2 : List.Perm (a :: (l.addrs ++ (t.addrs ++ ctxAddrs fs)))
          (a :: (t.addrs ++ (l.addrs ++ ctxAddrs fs))) := by
        refine List.Perm.cons a ?_
        rw [← List.append_assoc, ← List.append_assoc]
        exact List.Perm.append_right _ List.perm_append_comm
      refine h2.trans ?_
      exact List.perm_middle.symm

theorem Rep_congr {h h' : Heap} {s : Nat} : ∀ {q : Ptr} {t : Shape},
    (∀ a ∈ t.addrs, h' a = h a) → Rep h s q t → Rep h' s q t
  | _, Shape.nil, _, _ => trivial
  | q, Shape.node c l a k r, hag, hr => by
    obtain ⟨h1, h2, h3, h4⟩ := hr
    refine ⟨h1, ?_, ?_, ?_⟩
    · rw [hag a (by simp [Shape.addrs])]; exact h2
    · exact Rep_congr (fun b hb => hag b (by simp [Shape.addrs, hb])) h3
    · exact Rep_congr (fun b hb => hag b (by simp [Shape.addrs, hb])) h4

theorem Rep_not_sentinel {h : Heap} {s : Nat} : ∀ {q : Ptr} {t : Shape},
    Rep h s q t → s ∉ t.addrs
  | _, Shape.nil, _ => by simp [Shape.addrs]
  | q, Shape.node c l a k r, hr => by
    obtain ⟨h1, _, h3, h4⟩ := hr
    simp only [Shape.addrs, List.mem_append, List.mem_cons, not_or]
    exact ⟨Rep_not_sentinel h3, fun e => h1 e.symm, Rep_not_sentinel h4⟩

theorem Rep_plug {h : Heap} {s : Nat} {q : Ptr} : ∀ (ctx : Ctx) (t : Shape),
    Rep h s q (plug ctx t) ↔ RepCtx h s q ctx (t.ptr s) ∧ Rep h s (ctxPar q ctx) t
  | [], t => by simp [plug, RepCtx, ctxPar]
  | f :: fs, t => by
    rw [plug, Rep_plug fs (f.fill t)]
    cases f <;> simp only [Frame.fill, Rep, RepCtx, ctxPar, Shape.ptr, Frame.addr] <;> tauto

theorem RepCtx_congr {h h' : Heap} {s : Nat} {q : Ptr} : ∀ {ctx : Ctx} {x : Ptr},
    (∀ a ∈ ctxAddrs ctx, h' a = h a) → RepCtx h s q ctx x → RepCtx h' s q ctx x
  | [], _, _, _ => trivial
  | Frame.L c a k r :: fs, x, hag, hr => by
    obtain ⟨h1, h2, h3, h4⟩ := hr
    refine ⟨h1, ?_, ?_, ?_⟩
    · rw [hag a (by simp [ctxAddrs, Frame.addr])]; exact h2
    · exact Rep_congr (fun b hb => hag b (by simp [ctxAddrs, Frame.sib, hb])) h3
    · exact RepCtx_congr (fun b hb => hag b (by simp [ctxAddrs, hb])) h4
  | Frame.R c l a k :: fs, x, hag, hr => by
    obtain ⟨h1, h2, h3, h4⟩ := hr
    refine ⟨h1, ?_, ?_, ?_⟩
    · rw [hag a (by simp [ctxAddrs, Frame.addr])]; exact h2
    · exact Rep_congr (fun b hb => hag b (by simp [ctxAddrs, Frame.sib, hb])) h3
    · exact RepCtx_congr (fun b hb => hag b (by simp [ctxAddrs, hb])) h4

/-- Redirecting the pointer to the hole in the innermost frame. -/
theorem RepCtx_hole {h h' : Heap} {s : Nat} {q : Ptr} {f : Frame} {fs : Ctx} {x x' : Ptr}
    (hr : RepCtx h s q (f :: fs) x)
    (hag : ∀ a ∈ f.sib.addrs ++ ctxAddrs fs, h' a = h a)
    (hf : h' f.addr = f.setHole (h f.addr) x') :
    RepCtx h' s q (f :: fs) x' := by
  cases f with
  | L c a k r =>
    obtain ⟨h1, h2, h3, h4⟩ := hr
    simp only [Frame.addr, Frame.setHole] at hf
    refine ⟨h1, ?_, ?_, ?_⟩
    · rw [hf, h2]
    · exact Rep_congr (fun b hb => hag b (by simp [Frame.sib, hb])) h3
    · exact RepCtx_congr (fun b hb => hag b (by simp [hb])) h4
  | R c l a k =>
    obtain ⟨h1, h2, h3, h4⟩ := hr
    simp only [Frame.addr, Frame.setHole] at hf
    refine ⟨h1, ?_, ?_, ?_⟩
    · rw [hf, h2]
    · exact Rep_congr (fun b hb => hag b (by simp [Frame.sib, hb])) h3
    · exact RepCtx_congr (fun b hb => hag b (by simp [hb])) h4

theorem RepCtx_not_sentinel {h : Heap} {s : Nat} {q : Ptr} : ∀ {ctx : Ctx} {x : Ptr},
    RepCtx h s q ctx x → s ∉ ctxAddrs ctx
  | [], _, _ => by simp [ctxAddrs]
  | Frame.L c a k r :: fs, x, hr => by
    obtain ⟨h1, _, h3, h4⟩ := hr
    simp only [ctxAddrs, Frame.addr, Frame.sib, List.mem_cons, List.mem_append, not_or]
    exact ⟨fun e => h1 e.symm, Rep_not_sentinel h3, RepCtx_not_sentinel h4⟩
  | Frame.R c l a k :: fs, x, hr => by
    obtain ⟨h1, _, h3, h4⟩ := hr
    simp only [ctxAddrs, Frame.addr, Frame.sib, List.mem_cons, List.mem_append, not_or]
    exact ⟨fun e => h1 e.symm, Rep_not_sentinel h3, RepCtx_not_sentinel h4⟩

theorem plug_nodup {ctx : Ctx} {t : Shape} :
    (plug ctx t).addrs.Nodup ↔ (t.addrs ++ ctxAddrs ctx).Nodup :=
  (plug_addrs_perm ctx t).nodup_iff

theorem mem_plug_addrs {ctx : Ctx} {t : Shape} {a : Nat} :
    a ∈ (plug ctx t).addrs ↔ a ∈ t.addrs ∨ a ∈ ctxAddrs ctx := by
  rw [(plug_addrs_perm ctx t).mem_iff, List.mem_append]

/-- Root pointer of a non-empty path: the address of the outermost frame. -/
theorem ctxTop_mem : ∀ {C : Ctx} {x : Ptr}, C ≠ [] →
    ∃ a, ctxTop C x = some a ∧ a ∈ ctxAddrs C
  | [], _, hne => absurd rfl hne
  | [f], x, _ => ⟨f.addr, rfl, by simp [ctxAddrs]⟩
  | f :: g :: fs, x, _ => by
    obtain ⟨a, h1, h2⟩ := ctxTop_mem (C := g :: fs) (x := some f.addr) (by simp)
    exact ⟨a, h1, by simp only [ctxAddrs] at h2 ⊢; simp [h2]⟩

/-- In a duplicate-free list, an element that the list holds next to a copy of `X`
is not in `X`. -/
theorem not_mem_of_count {L X : List Nat} {x : Nat} (hnd : L.Nodup)
    (hc : X.count x + 1 ≤ L.count x) : x ∉ X := by
  intro hx
  have h1 := List.nodup_iff_count_le_one.mp hnd x
  have h2 := List.count_pos_iff.mpr hx
  omega

theorem ne_of_count {L : List Nat} {x y : Nat} (hnd : L.Nodup)
    (hc : x = y → 2 ≤ L.count x) : x ≠ y := by
  intro e
  have h1 := List.nodup_iff_count_le_one.mp hnd x
  have h2 := hc e
  omega

/-- A memory that differs from `h` only on `M` agrees with `h` on every region that
avoids `M`. -/
theorem agree_of_disjoint {h h' : Heap} {M X : List Nat}
    (hM : ∀ x, x ∉ M → h' x = h x) (hd : ∀ y ∈ M, y ∉ X) : ∀ x ∈ X, h' x = h x :=
  fun x hx => hM x (fun hxM => hd x hxM hx)

/-- Recolouring the node in the hole. -/
theorem Rep_setColor {h : Heap} {s : Nat} {q : Ptr} {C : Ctx} {c : color} {l r : Shape}
    {a k : Nat} (c' : color)
    (hr : Rep h s q (plug C (Shape.node c l a k r)))
    (hnd : (plug C (Shape.node c l a k r)).addrs.Nodup) :
    Rep (h.set a { h a with color := c' }) s q (plug C (Shape.node c' l a k r)) := by
  rw [Rep_plug] at hr ⊢
  rw [plug_nodup] at hnd
  obtain ⟨hc, hs, ha, hl, hrr⟩ := hr
  simp only [Shape.addrs] at hnd
  have hM : ∀ x, x ∉ [a] → (h.set a { h a with color := c' }) x = h x := by
    intro x hx
    simp only [List.mem_singleton] at hx
    exact Heap.set_other _ _ _ _ hx
  have hd1 : ∀ y ∈ [a], y ∉ ctxAddrs C := by
    intro y hy
    simp only [List.mem_singleton] at hy
    subst hy
    exact not_mem_of_count hnd (by
      simp only [List.count_append, List.count_cons_self, List.count_cons]; omega)
  have hd2 : ∀ y ∈ [a], y ∉ l.addrs := by
    intro y hy
    simp only [List.mem_singleton] at hy
    subst hy
    exact not_mem_of_count hnd (by
      simp only [List.count_append, List.count_cons_self, List.count_cons]; omega)
  have hd3 : ∀ y ∈ [a], y ∉ r.addrs := by
    intro y hy
    simp only [List.mem_singleton] at hy
    subst hy
    exact not_mem_of_count hnd (by
      simp only [List.count_append, List.count_cons_self, List.count_cons]; omega)
  refine ⟨RepCtx_congr (agree_of_disjoint hM hd1) hc, hs, ?_,
    Rep_congr (agree_of_disjoint hM hd2) hl, Rep_congr (agree_of_disjoint hM hd3) hrr⟩
  rw [Heap.set_same, ha]

@[simp] theorem setKey_some (h : Heap) (a : Nat) (v : Nat) :
    setKey h (some a) v = .ok (h.set a { h a with key := v }) := rfl
@[simp] theorem setLeft_some (h : Heap) (a : Nat) (v : Ptr) :
    setLeft h (some a) v = .ok (h.set a { h a with left := v }) := rfl
@[simp] theorem setRight_some (h : Heap) (a : Nat) (v : Ptr) :
    setRight h (some a) v = .ok (h.set a { h a with right := v }) := rfl
@[simp] theorem setParent_some (h : Heap) (a : Nat) (v : Ptr) :
    setParent h (some a) v = .ok (h.set a { h a with parent := v }) := rfl
theorem setColor_some (h : Heap) (a : Nat) (c : color) :
    setColor h (some a) c = .ok (h.set a { h a with color := c }) := rfl

@[simp] theorem Shape.ptr_nil (s : Nat) : Shape.nil.ptr s = some s := rfl
@[simp] theorem Shape.ptr_node (s : Nat) (c : color) (l : Shape) (a k : Nat) (r : Shape) :
    (Shape.node c l a k r).ptr s = some a := rfl

/-- The pointer to a represented shape is never nil, and it is the sentinel only for the
empty shape. -/
theorem Shape.ptr_eq_sentinel {h : Heap} {s : Nat} {q : Ptr} {t : Shape}
    (hr : Rep h s q t) : t.ptr s = some s ↔ t = Shape.nil := by
  cases t with
  | nil => simp
  | node c l a k r =>
    simp only [Shape.ptr_node, Option.some.injEq, reduceCtorEq, iff_false]
    exact hr.1

theorem disjoint_of_count {L M X : List Nat} (hnd : L.Nodup)
    (hc : ∀ y ∈ M, X.count y + 1 ≤ L.count y) : ∀ y ∈ M, y ∉ X :=
  fun y hy => not_mem_of_count hnd (hc y hy)

/-- Memory after a left rotation at `n`, described record by record, represents the
rotated shape. -/
theorem Rep_rotateLeft {h H : Heap} {s : Nat} {q : Ptr} {ctx : Ctx} {c c' : color}
    {α β γ : Shape} {n k m k' : Nat}
    (hrep : Rep h s q (plug ctx (Shape.node c α n k (Shape.node c' β m k' γ))))
    (hnd : (plug ctx (Shape.node c α n k (Shape.node c' β m k' γ))).addrs.Nodup)
    (Hn : H n = ⟨k, α.ptr s, β.ptr s, some m, c⟩)
    (Hm : H m = ⟨k', some n, γ.ptr s, ctxPar q ctx, c'⟩)
    (Hβ : ∀ b ∈ β.rootAddr, H b = { h b with parent := some n })
    (Hf : ∀ f fs, ctx = f :: fs → H f.addr = f.setHole (h f.addr) (some m))
    (Hrest : ∀ x, x ∉ n :: m :: (β.rootAddr ++ ctxHead ctx) → H x = h x) :
    Rep H s q (plug ctx (Shape.node c' (Shape.node c α n k β) m k' γ)) := by
  rw [Rep_plug] at hrep ⊢
  rw [plug_nodup] at hnd
  obtain ⟨hc, hns, hn, hα, hms, hm, hβ, hγ⟩ := hrep
  simp only [Shape.addrs] at hnd
  refine ⟨?_, hms, Hm, ⟨hns, Hn, ?_, ?_⟩, ?_⟩
  · -- the path
    rcases ctx with _ | ⟨f, fs⟩
    · trivial
    · refine RepCtx_hole hc (agree_of_disjoint Hrest ?_) (Hf f fs rfl)
      rcases β with _ | ⟨cb, bl, b, kb, br⟩ <;>
      · simp only [Shape.addrs, ctxAddrs, Shape.rootAddr, ctxHead] at hnd ⊢
        refine disjoint_of_count hnd ?_
        simp only [List.cons_append, List.nil_append, List.forall_mem_cons, List.count_append,
          List.count_cons, List.count_nil, beq_self_eq_true, if_true, List.not_mem_nil,
          IsEmpty.forall_iff, implies_true, and_true]
        omega
  · -- α keeps its place below n
    refine Rep_congr (agree_of_disjoint Hrest ?_) hα
    rcases β with _ | ⟨cb, bl, b, kb, br⟩ <;> rcases ctx with _ | ⟨f, fs⟩ <;>
    · simp only [Shape.addrs, ctxAddrs, Shape.rootAddr, ctxHead] at hnd ⊢
      refine disjoint_of_count hnd ?_
      simp only [List.cons_append, List.nil_append, List.forall_mem_cons, List.count_append,
        List.count_cons, List.count_nil, beq_self_eq_true, if_true, List.not_mem_nil,
        IsEmpty.forall_iff, implies_true, and_true]
      omega
  · -- β moves from below m to below n
    rcases β with _ | ⟨cb, bl, b, kb, br⟩
    · trivial
    · obtain ⟨hbs, hb, hbl, hbr⟩ := hβ
      refine ⟨hbs, ?_, Rep_congr (agree_of_disjoint Hrest ?_) hbl,
        Rep_congr (agree_of_disjoint Hrest ?_) hbr⟩
      · rw [Hβ b (by simp [Shape.rootAddr]), hb]
      all_goals
        rcases ctx with _ | ⟨f, fs⟩ <;>
        · simp only [Shape.addrs, ctxAddrs, Shape.rootAddr, ctxHead] at hnd ⊢
          refine disjoint_of_count hnd ?_
          simp only [List.cons_append, List.nil_append, List.forall_mem_cons, List.count_append,
            List.count_cons, List.count_nil, beq_self_eq_true, if_true, List.not_mem_nil,
            IsEmpty.forall_iff, implies_true, and_true]
          omega
  · -- γ keeps its place below m
    refine Rep_congr (agree_of_disjoint Hrest ?_) hγ
    rcases β with _ | ⟨cb, bl, b, kb, br⟩ <;> rcases ctx with _ | ⟨f, fs⟩ <;>
    · simp only [Shape.addrs, ctxAddrs, Shape.rootAddr, ctxHead] at hnd ⊢
      refine disjoint_of_count hnd ?_
      simp only [List.cons_append, List.nil_append, List.forall_mem_cons, List.count_append,
        List.count_cons, List.count_nil, beq_self_eq_true, if_true, List.not_mem_nil,
        IsEmpty.forall_iff, implies_true, and_true]
      omega

theorem Shape.ptr_ne_of_not_mem {s : Nat} {t : Shape} {a : Nat} (hs : a ≠ s)
    (ha : a ∉ t.addrs) : t.ptr s ≠ some a := by
  cases t with
  | nil => simpa using fun e => hs e.symm
  | node c l b k r =>
    simp only [Shape.addrs, List.mem_append, List.mem_cons, not_or] at ha
    simpa using fun e => ha.2.1 e.symm

/-- The root pointer of a non-empty path does not point into the hole. -/
theorem ctxTop_ne {ctx : Ctx} {t : Shape} {x : Ptr} {a : Nat} (hne : ctx ≠ [])
    (hnd : (t.addrs ++ ctxAddrs ctx).Nodup) (ha : a ∈ t.addrs) : ctxTop ctx x ≠ some a := by
  obtain ⟨r, h1, h2⟩ := ctxTop_mem (x := x) hne
  rw [h1]
  intro e
  have e' : r = a := by simpa using e
  subst e'
  exact (List.disjoint_of_nodup_append hnd) ha h2

theorem leftRotate_spec {rb : RBTree} {s : Nat} {q : Ptr} {ctx : Ctx} {c c' : color}
    {α β γ : Shape} {n k m k' : Nat}
    (M : Models rb s q (plug ctx (Shape.node c α n k (Shape.node c' β m k' γ)))) :
    ∃ rb', leftRotate rb (some n) = .ok rb' ∧
      Models rb' s q (plug ctx (Shape.node c' (Shape.node c α n k β) m k' γ)) ∧
      Keeps rb rb' (plug ctx (Shape.node c α n k (Shape.node c' β m k' γ))).addrs := by
  obtain ⟨hsent, hroot, hrep, hnd⟩ := M
  have hrep0 := hrep
  have hnd0 := hnd
  rw [Rep_plug] at hrep
  rw [plug_nodup] at hnd
  rw [plug_ptr] at hroot
  obtain ⟨hc, hns, hn, hα, hms, hm, hβ, hγ⟩ := hrep
  have hrootne : ctx ≠ [] → rb.root ≠ some n := fun hne => by
    rw [hroot]; exact ctxTop_ne hne hnd (by simp [Shape.addrs])
  have hnodup' : (plug ctx (Shape.node c' (Shape.node c α n k β) m k' γ)).addrs.Nodup := by
    rw [plug_nodup]
    refine hnd.perm (List.Perm.append_right _ ?_)
    simp only [Shape.addrs, List.append_assoc, List.cons_append]
    exact List.Perm.refl _
  have hroot' : ctxTop ctx (some m) = (plug ctx (Shape.node c' (Shape.node c α n k β) m k' γ)).ptr s := by
    rw [plug_ptr]; rfl
  simp only [Shape.addrs, Shape.ptr_node] at hnd hn hm hc hroot
  have hnm : n ≠ m := ne_of_count hnd (by
    rintro rfl; simp only [List.count_append, List.count_cons, beq_self_eq_true, if_true]; omega)
  have key : ∀ (r' : Ptr) (H : Heap), r' = ctxTop ctx (some m) →
      H n = ⟨k, α.ptr s, β.ptr s, some m, c⟩ →
      H m = ⟨k', some n, γ.ptr s, ctxPar q ctx, c'⟩ →
      (∀ b ∈ β.rootAddr, H b = { rb.heap b with parent := some n }) →
      (∀ f fs, ctx = f :: fs → H f.addr = f.setHole (rb.heap f.addr) (some m)) →
      (∀ x, x ∉ n :: m :: (β.rootAddr ++ ctxHead ctx) → H x = rb.heap x) →
      Models { size := rb.size, root := r', sentinel := some s,
               insertCallBack := rb.insertCallBack, heap := H } s q
          (plug ctx (Shape.node c' (Shape.node c α n k β) m k' γ)) ∧
        Keeps rb { size := rb.size, root := r', sentinel := some s,
                   insertCallBack := rb.insertCallBack, heap := H }
          (plug ctx (Shape.node c α n k (Shape.node c' β m k' γ))).addrs := by
    intro r' H hr' Hn Hm Hβ Hf Hrest
    refine ⟨⟨rfl, hr'.trans hroot', Rep_rotateLeft hrep0 hnd0 Hn Hm Hβ Hf Hrest, hnodup'⟩,
      ⟨rfl, rfl, hsent.symm, fun x hx => Hrest x ?_⟩⟩
    rw [mem_plug_addrs] at hx
    rcases β with _ | ⟨cb, bl, b, kb, br⟩ <;> rcases ctx with _ | ⟨f, fs⟩ <;>
    · simp only [Shape.addrs, ctxAddrs, List.mem_append, List.mem_cons, not_or] at hx
      simp only [Shape.rootAddr, ctxHead, List.mem_cons, List.mem_append, not_or,
        List.not_mem_nil, List.mem_singleton, or_false, false_or]
      tauto
  rcases β with _ | ⟨cb, bl, b, kb, br⟩
  · rcases ctx with _ | ⟨f, fs⟩
    · simp only [ctxTop, ctxPar, ctxAddrs] at hroot hn hnd
      simp [leftRotate, hn, hm, hsent, hroot, Heap.set, hnm, hnm.symm]
      refine key _ _ rfl ?_ ?_ ?_ ?_ ?_
      · simp [Heap.set]
      · simp [Heap.set, hnm.symm, ctxPar]
      · intro b hb; simp [Shape.rootAddr] at hb
      · intro f fs e; cases e
      · intro x hx
        simp only [Shape.rootAddr, ctxHead, List.append_nil, List.mem_cons, List.not_mem_nil,
          or_false, not_or] at hx
        simp [Heap.set, hx]
    · have hr := hrootne (by simp)
      rcases f with ⟨cf, fa, fk, fr⟩ | ⟨cf, fl, fa, fk⟩
      · obtain ⟨hfs, hf, hfr, hfs'⟩ := hc
        simp only [ctxTop, ctxPar, ctxAddrs, Frame.addr, Frame.sib] at hroot hn hnd
        have hfan : fa ≠ n := ne_of_count hnd (by
          rintro rfl; simp only [List.count_append, List.count_cons, beq_self_eq_true, if_true]
          omega)
        have hfam : fa ≠ m := ne_of_count hnd (by
          rintro rfl; simp only [List.count_append, List.count_cons, beq_self_eq_true, if_true]
          omega)
        simp [leftRotate, hn, hm, hf, hsent, Heap.set, hnm, hnm.symm, hfan, hfam, hfan.symm,
          hfam.symm, Ne.symm hr]
        refine key _ _ hroot ?_ ?_ ?_ ?_ ?_
        · simp [Heap.set]
        · simp [Heap.set, hnm.symm, ctxPar, Frame.addr]
        · intro b hb; simp [Shape.rootAddr] at hb
        · intro f fs e
          cases e
          simp [Heap.set, Frame.addr, Frame.setHole, hfan, hfam, hf]
        · intro x hx
          simp only [Shape.rootAddr, ctxHead, List.append_nil, List.mem_cons, List.not_mem_nil,
            or_false, not_or, List.nil_append, Frame.addr] at hx
          simp [Heap.set, hx]
      · obtain ⟨hfs, hf, hfl, hfs'⟩ := hc
        simp only [ctxTop, ctxPar, ctxAddrs, Frame.addr, Frame.sib] at hroot hn hnd
        have hfan : fa ≠ n := ne_of_count hnd (by
          rintro rfl; simp only [List.count_append, List.count_cons, beq_self_eq_true, if_true]
          omega)
        have hfam : fa ≠ m := ne_of_count hnd (by
          rintro rfl; simp only [List.count_append, List.count_cons, beq_self_eq_true, if_true]
          omega)
        have hfl' : ¬ some n = fl.ptr s := fun e => Shape.ptr_ne_of_not_mem hns
          (not_mem_of_count hnd (by
            simp only [List.count_append, List.count_cons, beq_self_eq_true, if_true]
            omega)) e.symm
        simp [leftRotate, hn, hm, hf, hsent, Heap.set, hnm, hnm.symm, hfan, hfam, hfan.symm,
          hfam.symm, Ne.symm hr, hfl']
        refine key _ _ hroot ?_ ?_ ?_ ?_ ?_
        · simp [Heap.set]
        · simp [Heap.set, hnm.symm, ctxPar, Frame.addr]
        · intro b hb; simp [Shape.rootAddr] at hb
        · intro f fs e
          cases e
          simp [Heap.set, Frame.addr, Frame.setHole, hfan, hfam, hf]
        · intro x hx
          simp only [Shape.rootAddr, ctxHead, List.append_nil, List.mem_cons, List.not_mem_nil,
            or_false, not_or, List.nil_append, Frame.addr] at hx
          simp [Heap.set, hx]
  · obtain ⟨hbs, hb, hbl, hbr⟩ := hβ
    simp only [Shape.addrs, Shape.ptr_node] at hnd hn hm hc hroot
    have hbn : b ≠ n := ne_of_count hnd (by
      rintro rfl; simp only [List.count_append, List.count_cons, beq_self_eq_true, if_true]
      omega)
    have hbm : b ≠ m := ne_of_count hnd (by
      rintro rfl; simp only [List.count_append, List.count_cons, beq_self_eq_true, if_true]
      omega)
    rcases ctx with _ | ⟨f, fs⟩
    · simp only [ctxTop, ctxPar, ctxAddrs] at hroot hn hnd
      simp [leftRotate, hn, hm, hb, hsent, hroot, Heap.set, hnm, hnm.symm, hbn, hbm, hbs,
        hbn.symm, hbm.symm]
      refine key _ _ rfl ?_ ?_ ?_ ?_ ?_
      · simp [Heap.set]
      · simp [Heap.set, hnm.symm, ctxPar]
      · intro b' hb'
        simp only [Shape.rootAddr, List.mem_singleton] at hb'
        subst hb'
        simp [Heap.set, hbn, hbm, hb]
      · intro f fs e; cases e
      · intro x hx
        simp only [Shape.rootAddr, ctxHead, List.append_nil, List.mem_cons, List.not_mem_nil,
          or_false, not_or] at hx
        simp [Heap.set, hx]
    · have hr := hrootne (by simp)
      rcases f with ⟨cf, fa, fk, fr⟩ | ⟨cf, fl, fa, fk⟩
      · obtain ⟨hfs, hf, hfr, hfs'⟩ := hc
        simp only [ctxTop, ctxPar, ctxAddrs, Frame.addr, Frame.sib] at hroot hn hnd
        have hfan : fa ≠ n := ne_of_count hnd (by
          rintro rfl; simp only [List.count_append, List.count_cons, beq_self_eq_true, if_true]
          omega)
        have hfam : fa ≠ m := ne_of_count hnd (by
          rintro rfl; simp only [List.count_append, List.count_cons, beq_self_eq_true, if_true]
          omega)
        have hfab : fa ≠ b := ne_of_count hnd (by
          rintro rfl; simp only [List.count_append, List.count_cons, beq_self_eq_true, if_true]
          omega)
        simp [leftRotate, hn, hm, hf, hb, hsent, Heap.set, hnm, hnm.symm, hfan, hfam, hfan.symm,
          hfam.symm, Ne.symm hr, hbn, hbm, hbs, hbn.symm, hbm.symm, hfab, hfab.symm]
        refine key _ _ hroot ?_ ?_ ?_ ?_ ?_
        · simp [Heap.set]
        · simp [Heap.set, hnm.symm, ctxPar, Frame.addr]
        · intro b' hb'
          simp only [Shape.rootAddr, List.mem_singleton] at hb'
          subst hb'
          simp [Heap.set, hbn, hbm, hb, hfab.symm]
        · intro f fs e
          cases e
          simp [Heap.set, Frame.addr, Frame.setHole, hfan, hfam, hf]
        · intro x hx
          simp only [Shape.rootAddr, ctxHead, List.append_nil, List.mem_cons, List.not_mem_nil,
            or_false, not_or, List.nil_append, Frame.addr, List.singleton_append] at hx
          simp [Heap.set, hx]
      · obtain ⟨hfs, hf, hfl, hfs'⟩ := hc
        simp only [ctxTop, ctxPar, ctxAddrs, Frame.addr, Frame.sib] at hroot hn hnd
        have hfan : fa ≠ n := ne_of_count hnd (by
          rintro rfl; simp only [List.count_append, List.count_cons, beq_self_eq_true, if_true]
          omega)
        have hfam : fa ≠ m := ne_of_count hnd (by
          rintro rfl; simp only [List.count_append, List.count_cons, beq_self_eq_true, if_true]
          omega)
        have hfab : fa ≠ b := ne_of_count hnd (by
          rintro rfl; simp only [List.count_append, List.count_cons, beq_self_eq_true, if_true]
          omega)
        have hfl' : ¬ some n = fl.ptr s := fun e => Shape.ptr_ne_of_not_mem hns
          (not_mem_of_count hnd (by
            simp only [List.count_append, List.count_cons, beq_self_eq_true, if_true]
            omega)) e.symm
        simp [leftRotate, hn, hm, hf, hb, hsent, Heap.set, hnm, hnm.symm, hfan, hfam, hfan.symm,
          hfam.symm, Ne.symm hr, hbn, hbm, hbs, hbn.symm, hbm.symm, hfab, hfab.symm, hfl']
        refine key _ _ hroot ?_ ?_ ?_ ?_ ?_
        · simp [Heap.set]
        · simp [Heap.set, hnm.symm, ctxPar, Frame.addr]
        · intro b' hb'
          simp only [Shape.rootAddr, List.mem_singleton] at hb'
          subst hb'
          simp [Heap.set, hbn, hbm, hb, hfab.symm]
        · intro f fs e
          cases e
          simp [Heap.set, Frame.addr, Frame.setHole, hfan, hfam, hf]
        · intro x hx
          simp only [Shape.rootAddr, ctxHead, List.append_nil, List.mem_cons, List.not_mem_nil,
            or_false, not_or, List.nil_append, Frame.addr, List.singleton_append] at hx
          simp [Heap.set, hx]

/-- Memory after a right rotation at `n`, described record by record, represents the
rotated shape. -/
theorem Rep_rotateRight {h H : Heap} {s : Nat} {q : Ptr} {ctx : Ctx} {c c' : color}
    {α β γ : Shape} {n k m k' : Nat}
    (hrep : Rep h s q (plug ctx (Shape.node c (Shape.node c' α m k' β) n k γ)))
    (hnd : (plug ctx (Shape.node c (Shape.node c' α m k' β) n k γ)).addrs.Nodup)
    (Hn : H n = ⟨k, β.ptr s, γ.ptr s, some m, c⟩)
    (Hm : H m = ⟨k', α.ptr s, some n, ctxPar q ctx, c'⟩)
    (Hβ : ∀ b ∈ β.rootAddr, H b = { h b with parent := some n })
    (Hf : ∀ f fs, ctx = f :: fs → H f.addr = f.setHole (h f.addr) (some m))
    (Hrest : ∀ x, x ∉ n :: m :: (β.rootAddr ++ ctxHead ctx) → H x = h x) :
    Rep H s q (plug ctx (Shape.node c' α m k' (Shape.node c β n k γ))) := by
  rw [Rep_plug] at hrep ⊢
  rw [plug_nodup] at hnd
  obtain ⟨hc, hns, hn, ⟨hms, hm, hα, hβ⟩, hγ⟩ := hrep
  simp only [Shape.addrs] at hnd
  refine ⟨?_, hms, Hm, ?_, hns, Hn, ?_, ?_⟩
  · -- the path
    rcases ctx with _ | ⟨f, fs⟩
    · trivial
    · refine RepCtx_hole hc (agree_of_disjoint Hrest ?_) (Hf f fs rfl)
      rcases β with _ | ⟨cb, bl, b, kb, br⟩ <;>
      · simp only [Shape.addrs, ctxAddrs, Shape.rootAddr, ctxHead] at hnd ⊢
        refine disjoint_of_count hnd ?_
        simp only [List.cons_append, List.nil_append, List.forall_mem_cons, List.count_append,
          List.count_cons, List.count_nil, beq_self_eq_true, if_true, List.not_mem_nil,
          IsEmpty.forall_iff, implies_true, and_true]
        omega
  · -- α keeps its place below m
    refine Rep_congr (agree_of_disjoint Hrest ?_) hα
    rcases β with _ | ⟨cb, bl, b, kb, br⟩ <;> rcases ctx with _ | ⟨f, fs⟩ <;>
    · simp only [Shape.addrs, ctxAddrs, Shape.rootAddr, ctxHead] at hnd ⊢
      refine disjoint_of_count hnd ?_
      simp only [List.cons_append, List.nil_append, List.forall_mem_cons, List.count_append,
        List.count_cons, List.count_nil, beq_self_eq_true, if_true, List.not_mem_nil,
        IsEmpty.forall_iff, implies_true, and_true]
      omega
  · -- β moves from below m to below n
    rcases β with _ | ⟨cb, bl, b, kb, br⟩
    · trivial
    · obtain ⟨hbs, hb, hbl, hbr⟩ := hβ
      refine ⟨hbs, ?_, Rep_congr (agree_of_disjoint Hrest ?_) hbl,
        Rep_congr (agree_of_disjoint Hrest ?_) hbr⟩
      · rw [Hβ b (by simp [Shape.rootAddr]), hb]
      all_goals
        rcases ctx with _ | ⟨f, fs⟩ <;>
        · simp only [Shape.addrs, ctxAddrs, Shape.rootAddr, ctxHead] at hnd ⊢
          refine disjoint_of_count hnd ?_
          simp only [List.cons_append, List.nil_append, List.forall_mem_cons, List.count_append,
            List.count_cons, List.count_nil, beq_self_eq_true, if_true, List.not_mem_nil,
            IsEmpty.forall_iff, implies_true, and_true]
          omega
  · -- γ keeps its place below n
    refine Rep_congr (agree_of_disjoint Hrest ?_) hγ
    rcases β with _ | ⟨cb, bl, b, kb, br⟩ <;> rcases ctx with _ | ⟨f, fs⟩ <;>
    · simp only [Shape.addrs, ctxAddrs, Shape.rootAddr, ctxHead] at hnd ⊢
      refine disjoint_of_count hnd ?_
      simp only [List.cons_append, List.nil_append, List.forall_mem_cons, List.count_append,
        List.count_cons, List.count_nil, beq_self_eq_true, if_true, List.not_mem_nil,
        IsEmpty.forall_iff, implies_true, and_true]
      omega

theorem rightRotate_spec {rb : RBTree} {s : Nat} {q : Ptr} {ctx : Ctx} {c c' : color}
    {α β γ : Shape} {n k m k' : Nat}
    (M : Models rb s q (plug ctx (Shape.node c (Shape.node c' α m k' β) n k γ))) :
    ∃ rb', rightRotate rb (some n) = .ok rb' ∧
      Models rb' s q (plug ctx (Shape.node c' α m k' (Shape.node c β n k γ))) ∧
      Keeps rb rb' (plug ctx (Shape.node c (Shape.node c' α m k' β) n k γ)).addrs := by
  obtain ⟨hsent, hroot, hrep, hnd⟩ := M
  have hrep0 := hrep
  have hnd0 := hnd
  rw [Rep_plug] at hrep
  rw [plug_nodup] at hnd
  rw [plug_ptr] at hroot
  obtain ⟨hc, hns, hn, ⟨hms, hm, hα, hβ⟩, hγ⟩ := hrep
  have hrootne : ctx ≠ [] → rb.root ≠ some n := fun hne => by
    rw [hroot]; exact ctxTop_ne hne hnd (by simp [Shape.addrs])
  have hnodup' : (plug ctx (Shape.node c' α m k' (Shape.node c β n k γ))).addrs.Nodup := by
    rw [plug_nodup]
    refine hnd.perm (List.Perm.append_right _ ?_)
    simp only [Shape.addrs, List.append_assoc, List.cons_append]
    exact List.Perm.refl _
  have hroot' : ctxTop ctx (some m) = (plug ctx (Shape.node c' α m k' (Shape.node c β n k γ))).ptr s := by
    rw [plug_ptr]; rfl
  simp only [Shape.addrs, Shape.ptr_node] at hnd hn hm hc hroot
  have hnm : n ≠ m := ne_of_count hnd (by
    rintro rfl; simp only [List.count_append, List.count_cons, beq_self_eq_true, if_true]; omega)
  have key : ∀ (r' : Ptr) (H : Heap), r' = ctxTop ctx (some m) →
      H n = ⟨k, β.ptr s, γ.ptr s, some m, c⟩ →
      H m = ⟨k', α.ptr s, some n, ctxPar q ctx, c'⟩ →
      (∀ b ∈ β.rootAddr, H b = { rb.heap b with parent := some n }) →
      (∀ f fs, ctx = f :: fs → H f.addr = f.setHole (rb.heap f.addr) (some m)) →
      (∀ x, x ∉ n :: m :: (β.rootAddr ++ ctxHead ctx) → H x = rb.heap x) →
      Models { size := rb.size, root := r', sentinel := some s,
               insertCallBack := rb.insertCallBack, heap := H } s q
          (plug ctx (Shape.node c' α m k' (Shape.node c β n k γ))) ∧
        Keeps rb { size := rb.size, root := r', sentinel := some s,
                   insertCallBack := rb.insertCallBack, heap := H }
          (plug ctx (Shape.node c (Shape.node c' α m k' β) n k γ)).addrs := by
    intro r' H hr' Hn Hm Hβ Hf Hrest
    refine ⟨⟨rfl, hr'.trans hroot', Rep_rotateRight hrep0 hnd0 Hn Hm Hβ Hf Hrest, hnodup'⟩,
      ⟨rfl, rfl, hsent.symm, fun x hx => Hrest x ?_⟩⟩
    rw [mem_plug_addrs] at hx
    rcases β with _ | ⟨cb, bl, b, kb, br⟩ <;> rcases ctx with _ | ⟨f, fs⟩ <;>
    · simp only [Shape.addrs, ctxAddrs, List.mem_append, List.mem_cons, not_or] at hx
      simp only [Shape.rootAddr, ctxHead, List.mem_cons, List.mem_append, not_or,
        List.not_mem_nil, List.mem_singleton, or_false, false_or]
      tauto
  rcases β with _ | ⟨cb, bl, b, kb, br⟩
  · rcases ctx with _ | ⟨f, fs⟩
    · simp only [ctxTop, ctxPar, ctxAddrs] at hroot hn hnd
      simp [rightRotate, hn, hm, hsent, hroot, Heap.set, hnm, hnm.symm]
      refine key _ _ rfl ?_ ?_ ?_ ?_ ?_
      · simp [Heap.set]
      · simp [Heap.set, hnm.symm, ctxPar]
      · intro b hb; simp [Shape.rootAddr] at hb
      · intro f fs e; cases e
      · intro x hx
        simp only [Shape.rootAddr, ctxHead, List.append_nil, List.mem_cons, List.not_mem_nil,
          or_false, not_or] at hx
        simp [Heap.set, hx]
    · have hr := hrootne (by simp)
      rcases f with ⟨cf, fa, fk, fr⟩ | ⟨cf, fl, fa, fk⟩
      · obtain ⟨hfs, hf, hfr, hfs'⟩ := hc
        simp only [ctxTop, ctxPar, ctxAddrs, Frame.addr, Frame.sib] at hroot hn hnd
        have hfan : fa ≠ n := ne_of_count hnd (by
          rintro rfl; simp only [List.count_append, List.count_cons, beq_self_eq_true, if_true]
          omega)
        have hfam : fa ≠ m := ne_of_count hnd (by
          rintro rfl; simp only [List.count_append, List.count_cons, beq_self_eq_true, if_true]
          omega)
        have hfr' : ¬ fr.ptr s = some n := Shape.ptr_ne_of_not_mem hns
          (not_mem_of_count hnd (by
            simp only [List.count_append, List.count_cons, beq_self_eq_true, if_true]
            omega))
        simp [rightRotate, hn, hm, hf, hsent, Heap.set, hnm, hnm.symm, hfan, hfam, hfan.symm,
          hfam.symm, Ne.symm hr, hfr']
        refine key _ _ hroot ?_ ?_ ?_ ?_ ?_
        · simp [Heap.set]
        · simp [Heap.set, hnm.symm, ctxPar, Frame.addr]
        · intro b hb; simp [Shape.rootAddr] at hb
        · intro f fs e
          cases e
          simp [Heap.set, Frame.addr, Frame.setHole, hfan, hfam, hf]
        · intro x hx
          simp only [Shape.rootAddr, ctxHead, List.append_nil, List.mem_cons, List.not_mem_nil,
            or_false, not_or, List.nil_append, Frame.addr] at hx
          simp [Heap.set, hx]
      · obtain ⟨hfs, hf, hfl, hfs'⟩ := hc
        simp only [ctxTop, ctxPar, ctxAddrs, Frame.addr, Frame.sib] at hroot hn hnd
        have hfan : fa ≠ n := ne_of_count hnd (by
          rintro rfl; simp only [List.count_append, List.count_cons, beq_self_eq_true, if_true]
          omega)
        have hfam : fa ≠ m := ne_of_count hnd (by
          rintro rfl; simp only [List.count_append, List.count_cons, beq_self_eq_true, if_true]
          omega)
        simp [rightRotate, hn, hm, hf, hsent, Heap.set, hnm, hnm.symm, hfan, hfam, hfan.symm,
          hfam.symm, Ne.symm hr]
        refine key _ _ hroot ?_ ?_ ?_ ?_ ?_
        · simp [Heap.set]
        · simp [Heap.set, hnm.symm, ctxPar, Frame.addr]
        · intro b hb; simp [Shape.rootAddr] at hb
        · intro f fs e
          cases e
          simp [Heap.set, Frame.addr, Frame.setHole, hfan, hfam, hf]
        · intro x hx
          simp only [Shape.rootAddr, ctxHead, List.append_nil, List.mem_cons, List.not_mem_nil,
            or_false, not_or, List.nil_append, Frame.addr] at hx
          simp [Heap.set, hx]
  · obtain ⟨hbs, hb, hbl, hbr⟩ := hβ
    simp only [Shape.addrs, Shape.ptr_node] at hnd hn hm hc hroot
    have hbn : b ≠ n := ne_of_count hnd (by
      rintro rfl; simp only [List.count_append, List.count_cons, beq_self_eq_true, if_true]
      omega)
    have hbm : b ≠ m := ne_of_count hnd (by
      rintro rfl; simp only [List.count_append, List.count_cons, beq_self_eq_true, if_true]
      omega)
    rcases ctx with _ | ⟨f, fs⟩
    · simp only [ctxTop, ctxPar, ctxAddrs] at hroot hn hnd
      simp [rightRotate, hn, hm, hb, hsent, hroot, Heap.set, hnm, hnm.symm, hbn, hbm, hbs,
        hbn.symm, hbm.symm]
      refine key _ _ rfl ?_ ?_ ?_ ?_ ?_
      · simp [Heap.set]
      · simp [Heap.set, hnm.symm, ctxPar]
      · intro b' hb'
        simp only [Shape.rootAddr, List.mem_singleton] at hb'
        subst hb'
        simp [Heap.set, hbn, hbm, hb]
      · intro f fs e; cases e
      · intro x hx
        simp only [Shape.rootAddr, ctxHead, List.append_nil, List.mem_cons, List.not_mem_nil,
          or_false, not_or] at hx
        simp [Heap.set, hx]
    · have hr := hrootne (by simp)
      rcases f with ⟨cf, fa, fk, fr⟩ | ⟨cf, fl, fa, fk⟩
      · obtain ⟨hfs, hf, hfr, hfs'⟩ := hc
        simp only [ctxTop, ctxPar, ctxAddrs, Frame.addr, Frame.sib] at hroot hn hnd
        have hfan : fa ≠ n := ne_of_count hnd (by
          rintro rfl; simp only [List.count_append, List.count_cons, beq_self_eq_true, if_true]
          omega)
        have hfam : fa ≠ m := ne_of_count hnd (by
          rintro rfl; simp only [List.count_append, List.count_cons, beq_self_eq_true, if_true]
          omega)
        have hfab : fa ≠ b := ne_of_count hnd (by
          rintro rfl; simp only [List.count_append, List.count_cons, beq_self_eq_true, if_true]
          omega)
        have hfr' : ¬ fr.ptr s = some n := Shape.ptr_ne_of_not_mem hns
          (not_mem_of_count hnd (by
            simp only [List.count_append, List.count_cons, beq_self_eq_true, if_true]
            omega))
        simp [rightRotate, hn, hm, hf, hb, hsent, Heap.set, hnm, hnm.symm, hfan, hfam, hfan.symm,
          hfam.symm, Ne.symm hr, hbn, hbm, hbs, hbn.symm, hbm.symm, hfab, hfab.symm, hfr']
        refine key _ _ hroot ?_ ?_ ?_ ?_ ?_
        · simp [Heap.set]
        · simp [Heap.set, hnm.symm, ctxPar, Frame.addr]
        · intro b' hb'
          simp only [Shape.rootAddr, List.mem_singleton] at hb'
          subst hb'
          simp [Heap.set, hbn, hbm, hb, hfab.symm]
        · intro f fs e
          cases e
          simp [Heap.set, Frame.addr, Frame.setHole, hfan, hfam, hf]
        · intro x hx
          simp only [Shape.rootAddr, ctxHead, List.append_nil, List.mem_cons, List.not_mem_nil,
            or_false, not_or, List.nil_append, Frame.addr, List.singleton_append] at hx
          simp [Heap.set, hx]
      · obtain ⟨hfs, hf, hfl, hfs'⟩ := hc
        simp only [ctxTop, ctxPar, ctxAddrs, Frame.addr, Frame.sib] at hroot hn hnd
        have hfan : fa ≠ n := ne_of_count hnd (by
          rintro rfl; simp only [List.count_append, List.count_cons, beq_self_eq_true, if_true]
          omega)
        have hfam : fa ≠ m := ne_of_count hnd (by
          rintro rfl; simp only [List.count_append, List.count_cons, beq_self_eq_true, if_true]
          omega)
        have hfab : fa ≠ b := ne_of_count hnd (by
          rintro rfl; simp only [List.count_append, List.count_cons, beq_self_eq_true, if_true]
          omega)
        simp [rightRotate, hn, hm, hf, hb, hsent, Heap.set, hnm, hnm.symm, hfan, hfam, hfan.symm,
          hfam.symm, Ne.symm hr, hbn, hbm, hbs, hbn.symm, hbm.symm, hfab, hfab.symm]
        refine key _ _ hroot ?_ ?_ ?_ ?_ ?_
        · simp [Heap.set]
        · simp [Heap.set, hnm.symm, ctxPar, Frame.addr]
        · intro b' hb'
          simp only [Shape.rootAddr, List.mem_singleton] at hb'
          subst hb'
          simp [Heap.set, hbn, hbm, hb, hfab.symm]
        · intro f fs e
          cases e
          simp [Heap.set, Frame.addr, Frame.setHole, hfan, hfam, hf]
        · intro x hx
          simp only [Shape.rootAddr, ctxHead, List.append_nil, List.mem_cons, List.not_mem_nil,
            or_false, not_or, List.nil_append, Frame.addr, List.singleton_append] at hx
          simp [Heap.set, hx]

@[simp] theorem setColor_recolor (h : Heap) (a : Nat) (c : color) :
    setColor h (some a) c = .ok (h.recolor a c) := rfl

@[simp] theorem Heap.recolor_key (h : Heap) (a b : Nat) (c : color) :
    (h.recolor a c b).key = (h b).key := by
  unfold Heap.recolor Heap.set; split <;> simp_all

@[simp] theorem Heap.recolor_left (h : Heap) (a b : Nat) (c : color) :
    (h.recolor a c b).left = (h b).left := by
  unfold Heap.recolor Heap.set; split <;> simp_all

@[simp] theorem Heap.recolor_right (h : Heap) (a b : Nat) (c : color) :
    (h.recolor a c b).right = (h b).right := by
  unfold Heap.recolor Heap.set; split <;> simp_all

@[simp] theorem Heap.recolor_parent (h : Heap) (a b : Nat) (c : color) :
    (h.recolor a c b).parent = (h b).parent := by
  unfold Heap.recolor Heap.set; split <;> simp_all

@[simp] theorem Heap.recolor_color_same (h : Heap) (a : Nat) (c : color) :
    (h.recolor a c a).color = c := by
  simp [Heap.recolor, Heap.set]

theorem Heap.recolor_other (h : Heap) (a b : Nat) (c : color) (hne : b ≠ a) :
    h.recolor a c b = h b := by
  simp [Heap.recolor, Heap.set, hne]

theorem Rep_recolor {h : Heap} {s : Nat} {q : Ptr} {C : Ctx} {c : color} {l r : Shape}
    {a k : Nat} (c' : color)
    (hr : Rep h s q (plug C (Shape.node c l a k r)))
    (hnd : (plug C (Shape.node c l a k r)).addrs.Nodup) :
    Rep (h.recolor a c') s q (plug C (Shape.node c' l a k r)) :=
  Rep_setColor c' hr hnd

/-- The record of the node in the hole. -/
theorem Rep.node_at {h : Heap} {s : Nat} {q : Ptr} {C : Ctx} {c : color} {l r : Shape}
    {a k : Nat} (hr : Rep h s q (plug C (Shape.node c l a k r))) :
    h a = ⟨k, l.ptr s, r.ptr s, ctxPar q C, c⟩ :=
  ((Rep_plug C _).1 hr).2.2.1

theorem Rep.addr_ne {h : Heap} {s : Nat} {q : Ptr} {C : Ctx} {c : color} {l r : Shape}
    {a k : Nat} (hr : Rep h s q (plug C (Shape.node c l a k r))) : a ≠ s :=
  ((Rep_plug C _).1 hr).2.1

/-! ### Shapes: lists and colours -/

theorem Shape.addrs_eq_map : ∀ t : Shape, t.addrs = t.toList.map Prod.fst
  | Shape.nil => rfl
  | Shape.node _ l a k r => by
    simp [Shape.addrs, Shape.toList, Shape.addrs_eq_map l, Shape.addrs_eq_map r]

theorem Shape.keys_eq_map : ∀ t : Shape, t.keys = t.toList.map Prod.snd
  | Shape.nil => rfl
  | Shape.node _ l a k r => by
    simp [Shape.keys, Shape.toList, Shape.keys_eq_map l, Shape.keys_eq_map r]

theorem plug_toList_congr {t t' : Shape} (e : t.toList = t'.toList) :
    ∀ ctx : Ctx, (plug ctx t).toList = (plug ctx t').toList
  | [] => e
  | f :: fs => by
    rw [plug, plug]
    apply plug_toList_congr _ fs
    cases f <;> simp [Frame.fill, Shape.toList, e]

theorem plug_addrs_congr {t u : Shape} (e : t.toList = u.toList) (ctx : Ctx) :
    (plug ctx t).addrs = (plug ctx u).addrs := by
  rw [Shape.addrs_eq_map, Shape.addrs_eq_map, plug_toList_congr e]

theorem plug_bh (ctx : Ctx) (t t' : Shape) (e : t.bh = t'.bh) :
    (plug ctx t).bh = (plug ctx t').bh := by
  induction ctx generalizing t t' with
  | nil => exact e
  | cons f fs ih =>
    rw [plug, plug]
    apply ih
    cases f <;> simp [Frame.fill, Shape.bh, e]

/-- A valid path filled with a well-formed subtree of the right black height, whose root
is black when the innermost frame is red (or when there is no frame), is a valid tree. -/
theorem plug_valid : ∀ (ctx : Ctx) (t : Shape), ctxValid ctx t.bh → t.wf →
    (headBlack ctx ∨ t.rootColor = color.black) → (plug ctx t).valid
  | [], t, _, hw, hc => by
    rcases hc with hc | hc
    · exact absurd hc (by simp [headBlack])
    · exact ⟨hc, hw⟩
  | f :: fs, t, hv, hw, hc => by
    obtain ⟨hsw, hsb, hsr, hfs⟩ := hv
    rw [plug]
    apply plug_valid fs
    · cases f with
      | L c a k r => simpa [Frame.fill, Shape.bh, Frame.col] using hfs
      | R c l a k =>
        simp only [Frame.sib] at hsb
        simpa [Frame.fill, Shape.bh, Frame.col, hsb] using hfs
    · have hc' : f.col = color.red → t.rootColor = color.black := by
        intro hred
        rcases hc with hc | hc
        · simp [headBlack, hred] at hc
        · exact hc
      cases f with
      | L c a k r =>
        simp only [Frame.sib, Frame.col] at hsw hsb hsr hc'
        exact ⟨⟨fun e => ⟨hc' e, (hsr e).1⟩, hw.1, hsw.1⟩, hsb.symm, hw.2, hsw.2⟩
      | R c l a k =>
        simp only [Frame.sib, Frame.col] at hsw hsb hsr hc'
        exact ⟨⟨fun e => ⟨(hsr e).1, hc' e⟩, hsw.1, hw.1⟩, hsb, hsw.2, hw.2⟩
    · by_cases hcol : f.col = color.black
      · right
        cases f <;> simpa [Frame.fill, Shape.rootColor, Frame.col] using hcol
      · left
        have hred : f.col = color.red := by
          cases h : f.col <;> simp_all
        exact (hsr hred).2

/-- Conversely, a valid tree decomposes into a valid path and a well-formed subtree. -/
theorem valid_plug : ∀ (ctx : Ctx) (t : Shape), (plug ctx t).valid →
    ctxValid ctx t.bh ∧ t.wf ∧ (headBlack ctx ∨ t.rootColor = color.black)
  | [], t, hv => ⟨trivial, hv.2, Or.inr hv.1⟩
  | f :: fs, t, hv => by
    rw [plug] at hv
    obtain ⟨h1, h2, h3⟩ := valid_plug fs (f.fill t) hv
    cases f with
    | L c a k r =>
      obtain ⟨⟨hrr, hnl, hnr⟩, hb, hbl, hbr⟩ := h2
      simp only [Frame.fill, Shape.bh] at h1
      simp only [Frame.fill, Shape.rootColor] at h3
      refine ⟨⟨⟨hnr, hbr⟩, hb.symm, fun e => ⟨(hrr e).2, ?_⟩, h1⟩, ⟨hnl, hbl⟩, ?_⟩
      · rcases h3 with h3 | h3
        · exact h3
        · simp only [Frame.col] at e; rw [e] at h3; cases h3
      · by_cases hcol : c = color.black
        · left; exact hcol
        · right
          have hred : c = color.red := by cases c <;> simp_all
          exact (hrr hred).1
    | R c l a k =>
      obtain ⟨⟨hrr, hnl, hnr⟩, hb, hbl, hbr⟩ := h2
      simp only [Frame.fill, Shape.bh] at h1
      simp only [Frame.fill, Shape.rootColor] at h3
      refine ⟨⟨⟨hnl, hbl⟩, hb ▸ rfl, fun e => ⟨(hrr e).1, ?_⟩, hb ▸ h1⟩, ⟨hnr, hbr⟩, ?_⟩
      · rcases h3 with h3 | h3
        · exact h3
        · simp only [Frame.col] at e; rw [e] at h3; cases h3
      · by_cases hcol : c = color.black
        · left; exact hcol
        · right
          have hred : c = color.red := by cases c <;> simp_all
          exact (hrr hred).2

theorem plug_toList : ∀ (ctx : Ctx) (t : Shape),
    (plug ctx t).toList = ctxL ctx ++ t.toList ++ ctxR ctx
  | [], t => by simp [plug, ctxL, ctxR]
  | Frame.L c a k r :: fs, t => by
    rw [plug, plug_toList fs]
    simp [Frame.fill, Shape.toList, ctxL, ctxR]
  | Frame.R c l a k :: fs, t => by
    rw [plug, plug_toList fs]
    simp [Frame.fill, Shape.toList, ctxL, ctxR]

/-- Memory after a new red leaf `n` has been linked into the sentinel slot of the
innermost frame, described record by record. -/
theorem Rep_attach {h H : Heap} {s : Nat} {q : Ptr} {f : Frame} {C : Ctx} {n key : Nat}
    (hrep : Rep h s q (plug (f :: C) Shape.nil))
    (hnd : (plug (f :: C) Shape.nil).addrs.Nodup)
    (hfresh : n ∉ (plug (f :: C) Shape.nil).addrs) (hns : n ≠ s)
    (Hn : H n = ⟨key, some s, some s, some f.addr, color.red⟩)
    (Hf : H f.addr = f.setHole (h f.addr) (some n))
    (Hrest : ∀ x, x ∉ [n, f.addr] → H x = h x) :
    Rep H s q (plug (f :: C) (Shape.node color.red Shape.nil n key Shape.nil)) := by
  rw [Rep_plug] at hrep ⊢
  rw [plug_nodup] at hnd
  rw [mem_plug_addrs] at hfresh
  simp only [Shape.addrs, List.nil_append, ctxAddrs, List.not_mem_nil, false_or, List.mem_cons,
    List.mem_append, not_or] at hnd hfresh
  refine ⟨RepCtx_hole hrep.1 (agree_of_disjoint Hrest ?_) Hf, hns, Hn, trivial, trivial⟩
  intro y hy
  simp only [List.mem_cons, List.mem_singleton, List.not_mem_nil, or_false] at hy
  rcases hy with rfl | rfl
  · simp only [List.mem_append, not_or]; exact hfresh.2
  · exact not_mem_of_count hnd (by
      simp only [List.count_append, List.count_cons, beq_self_eq_true, if_true]; omega)

/-- The placement walk of `InsertValue` from the node in the hole: it ends in a sentinel
slot below, links the new node there as a red leaf, and changes nothing else. -/
theorem InsertValue_spec {s : Nat} {q : Ptr} {n : Nat} (hns : n ≠ s) :
    ∀ (t : Shape) (ctx : Ctx) (h : Heap) (fuel : Nat), t ≠ Shape.nil →
      Rep h s q (plug ctx t) → (plug ctx t).addrs.Nodup → n ∉ (plug ctx t).addrs →
      pathOK (h n).key ctx → t.height ≤ fuel →
      ∃ ctx' H, InsertValue fuel h (t.ptr s) (some n) (some s) = .ok H ∧
        plug ctx' Shape.nil = plug ctx t ∧
        Rep H s q (plug ctx' (Shape.node color.red Shape.nil n (h n).key Shape.nil)) ∧
        pathOK (h n).key ctx' ∧ ctx' ≠ [] ∧ ctx'.length ≤ ctx.length + t.height ∧
        (∀ x, x ∉ n :: (plug ctx t).addrs → H x = h x)
  | Shape.nil, _, _, _, hne, _, _, _, _, _ => absurd rfl hne
  | Shape.node c l a k r, ctx, h, 0, _, _, _, _, _, hf => by
    simp [Shape.height] at hf
  | Shape.node c l a k r, ctx, h, fuel + 1, _, hrep, hnd, hfresh, hpath, hf => by
    have hrec := hrep.node_at
    have has := hrep.addr_ne
    obtain ⟨hctx, -, -, hl, hr⟩ := (Rep_plug ctx _).1 hrep
    simp only [Shape.ptr_node] at hctx
    have hna : n ≠ a := by
      rintro rfl
      exact hfresh (mem_plug_addrs.2 (Or.inl (by simp [Shape.addrs])))
    have hamem : a ∈ (plug ctx (Shape.node c l a k r)).addrs :=
      mem_plug_addrs.2 (Or.inl (by simp [Shape.addrs]))
    simp only [Shape.height] at hf
    by_cases hlt : (h n).key < k
    · -- the walk goes left
      have hp' : pathOK (h n).key (Frame.L c a k r :: ctx) := by
        intro f hf
        rcases List.mem_cons.1 hf with rfl | hf
        · exact hlt
        · exact hpath f hf
      rcases l with _ | ⟨cl, ll, la, lk, lr⟩
      · refine ⟨Frame.L c a k r :: ctx, ?_⟩
        simp [InsertValue, hrec, hlt, compare, Slot.addrLeft, Slot.addrRight, Slot.read,
          Slot.write, Heap.set, hna, hna.symm, -setColor_recolor, setColor_some]
        refine ⟨rfl, Rep_attach (f := Frame.L c a k r) (C := ctx) hrep hnd hfresh hns ?_ ?_ ?_,
          hp', by simp [Shape.height], ?_⟩
        · simp [Heap.set, hna, hna.symm, Frame.addr]
        · simp [Heap.set, hna, hna.symm, Frame.addr, Frame.setHole, hrec]
        · intro x hx
          simp only [Frame.addr, List.mem_cons, List.mem_singleton, List.not_mem_nil, or_false,
            not_or] at hx
          simp [Heap.set, hx]
        · intro x hxn hx
          have hxa : x ≠ a := fun e => hx (e ▸ hamem)
          simp [hxn, hxa]
      · have hlas : la ≠ s := hl.1
        have hstep : InsertValue (fuel + 1) h ((Shape.node c (Shape.node cl ll la lk lr) a k r).ptr s)
            (some n) (some s) = InsertValue fuel h ((Shape.node cl ll la lk lr).ptr s) (some n)
              (some s) := by
          simp [InsertValue, hrec, hlt, compare, Slot.addrLeft, Slot.addrRight, Slot.read, hlas]
        rw [hstep]
        have hmax := Nat.le_max_left (Shape.node cl ll la lk lr).height r.height
        obtain ⟨ctx', H, h1, h2, h3, h4, h5, h6, h7⟩ := InsertValue_spec hns
          (Shape.node cl ll la lk lr) (Frame.L c a k r :: ctx) h fuel
          (by simp) hrep hnd hfresh hp' (by omega)
        refine ⟨ctx', H, h1, h2, h3, h4, h5, ?_, h7⟩
        simp only [List.length_cons, Shape.height] at h6 ⊢
        simp only [Shape.height] at hmax
        omega
    · -- the walk goes right
      have hp' : pathOK (h n).key (Frame.R c l a k :: ctx) := by
        intro f hf
        rcases List.mem_cons.1 hf with rfl | hf
        · exact Nat.le_of_not_lt hlt
        · exact hpath f hf
      rcases r with _ | ⟨cr, rl, ra, rk, rr⟩
      · refine ⟨Frame.R c l a k :: ctx, ?_⟩
        simp [InsertValue, hrec, hlt, compare, Slot.addrLeft, Slot.addrRight, Slot.read,
          Slot.write, Heap.set, hna, hna.symm, -setColor_recolor, setColor_some]
        refine ⟨rfl, Rep_attach (f := Frame.R c l a k) (C := ctx) hrep hnd hfresh hns ?_ ?_ ?_,
          hp', by simp [Shape.height], ?_⟩
        · simp [Heap.set, hna, hna.symm, Frame.addr]
        · simp [Heap.set, hna, hna.symm, Frame.addr, Frame.setHole, hrec]
        · intro x hx
          simp only [Frame.addr, List.mem_cons, List.mem_singleton, List.not_mem_nil, or_false,
            not_or] at hx
          simp [Heap.set, hx]
        · intro x hxn hx
          have hxa : x ≠ a := fun e => hx (e ▸ hamem)
          simp [hxn, hxa]
      · have hras : ra ≠ s := hr.1
        have hstep : InsertValue (fuel + 1) h ((Shape.node c l a k (Shape.node cr rl ra rk rr)).ptr s)
            (some n) (some s) = InsertValue fuel h ((Shape.node cr rl ra rk rr).ptr s) (some n)
              (some s) := by
          simp [InsertValue, hrec, hlt, compare, Slot.addrLeft, Slot.addrRight, Slot.read, hras]
        rw [hstep]
        have hmax := Nat.le_max_right l.height (Shape.node cr rl ra rk rr).height
        obtain ⟨ctx', H, h1, h2, h3, h4, h5, h6, h7⟩ := InsertValue_spec hns
          (Shape.node cr rl ra rk rr) (Frame.R c l a k :: ctx) h fuel
          (by simp) hrep hnd hfresh hp' (by omega)
        refine ⟨ctx', H, h1, h2, h3, h4, h5, ?_, h7⟩
        simp only [List.length_cons, Shape.height] at h6 ⊢
        simp only [Shape.height] at hmax
        omega

/-- Replacing the memory of a tree by one that represents a shape with the same root. -/
theorem Models.withHeap {rb : RBTree} {s : Nat} {q : Ptr} {t t' : Shape} {H : Heap}
    (M : Models rb s q t) (hp : t'.ptr s = t.ptr s) (hr : Rep H s q t')
    (hnd : t'.addrs.Nodup) : Models { rb with heap := H } s q t' :=
  ⟨M.sentinel_eq, M.root_eq.trans hp.symm, hr, hnd⟩

theorem Keeps.same (rb : RBTree) (A : List Nat) : Keeps rb rb A :=
  ⟨rfl, rfl, rfl, fun _ _ => rfl⟩

theorem Keeps.chain {rb1 rb2 rb3 : RBTree} {A B C : List Nat} (h12 : Keeps rb1 rb2 A)
    (h23 : Keeps rb2 rb3 B) (hA : ∀ x, x ∈ A → x ∈ C) (hB : ∀ x, x ∈ B → x ∈ C) :
    Keeps rb1 rb3 C :=
  ⟨h23.size_eq.trans h12.size_eq, h23.icb_eq.trans h12.icb_eq,
    h23.sentinel_eq.trans h12.sentinel_eq, fun x hx =>
      (h23.outside x (fun h => hx (hB x h))).trans (h12.outside x (fun h => hx (hA x h)))⟩

@[simp] theorem ctxPar_nil (q : Ptr) : ctxPar q [] = q := rfl
@[simp] theorem ctxPar_cons (q : Ptr) (f : Frame) (fs : Ctx) :
    ctxPar q (f :: fs) = some f.addr := rfl
@[simp] theorem ctxTop_nil (x : Ptr) : ctxTop [] x = x := rfl
@[simp] theorem ctxTop_cons (f : Frame) (fs : Ctx) (x : Ptr) :
    ctxTop (f :: fs) x = ctxTop fs (some f.addr) := rfl
@[simp] theorem plug_nil (t : Shape) : plug [] t = t := rfl
theorem plug_cons (f : Frame) (fs : Ctx) (t : Shape) :
    plug (f :: fs) t = plug fs (f.fill t) := rfl

theorem Models.lay {rb : RBTree} {s : Nat} {q : Ptr} {t : Shape} (M : Models rb s q t) :
    Lay rb.heap s q t := ⟨M.rep, M.nodup⟩

theorem Lay.recolor {h : Heap} {s : Nat} {q : Ptr} {C : Ctx} {c : color} {l r : Shape}
    {a k : Nat} (c' : color) (hl : Lay h s q (plug C (Shape.node c l a k r))) :
    Lay (h.recolor a c') s q (plug C (Shape.node c' l a k r)) :=
  ⟨Rep_recolor c' hl.1 hl.2, by
    rw [plug_addrs_congr (t := Shape.node c' l a k r) (u := Shape.node c l a k r) rfl]
    exact hl.2⟩

theorem Lay.record_at {h : Heap} {s : Nat} {q : Ptr} {C : Ctx} {c : color} {l r : Shape}
    {a k : Nat} (hl : Lay h s q (plug C (Shape.node c l a k r))) :
    h a = ⟨k, l.ptr s, r.ptr s, ctxPar q C, c⟩ := hl.1.node_at

/-- Replacing the memory of a tree by one that lays out a shape with the same root. -/
theorem Models.withLay {rb : RBTree} {s : Nat} {q : Ptr} {t t' : Shape} {H : Heap}
    (M : Models rb s q t) (hp : t'.ptr s = t.ptr s) (hl : Lay H s q t') :
    Models { rb with heap := H } s q t' :=
  ⟨M.sentinel_eq, M.root_eq.trans hp.symm, hl.1, hl.2⟩

/-- Colour test through the pointer to a subtree: the sentinel is black. -/
theorem Lay.judgeColor_ptr {h : Heap} {s : Nat} {q : Ptr} {C : Ctx} {t : Shape}
    (hl : Lay h s q (plug C t)) (hs : (h s).color = color.black) (c : color) :
    judgeColor h (t.ptr s) c = .ok (decide (t.rootColor = c)) := by
  cases t with
  | nil => simp [hs, Shape.rootColor]
  | node ct l a k r => simp [hl.record_at, Shape.rootColor]

theorem Lay.rootColor_ptr {h : Heap} {s : Nat} {q : Ptr} {C : Ctx} {t : Shape}
    (hl : Lay h s q (plug C t)) (hs : (h s).color = color.black) {a : Nat}
    (ha : t.ptr s = some a) : (h a).color = t.rootColor := by
  cases t with
  | nil =>
    simp only [Shape.ptr_nil, Option.some.injEq] at ha
    subst ha
    simpa [Shape.rootColor] using hs
  | node ct l b k r =>
    simp only [Shape.ptr_node, Option.some.injEq] at ha
    subst ha
    simp [hl.record_at, Shape.rootColor]

/-- In a laid-out tree the address in the hole differs from the root pointer of any
subtree hanging off the path or below the node. -/
theorem Lay.ptr_ne {h : Heap} {s : Nat} {q : Ptr} {T t : Shape} {a : Nat}
    (hl : Lay h s q T) (hs : a ≠ s) (hcount : t.addrs.count a + 1 ≤ T.addrs.count a) :
    t.ptr s ≠ some a :=
  Shape.ptr_ne_of_not_mem hs (not_mem_of_count hl.2 hcount)

theorem count_plug_addrs (ctx : Ctx) (t : Shape) (a : Nat) :
    (plug ctx t).addrs.count a = t.addrs.count a + (ctxAddrs ctx).count a := by
  rw [(plug_addrs_perm ctx t).count_eq, List.count_append]

theorem Frame.setCol_fill_toList (f : Frame) (c : color) (t : Shape) :
    ((f.setCol c).fill t).toList = (f.fill t).toList := by
  cases f <;> rfl

theorem Heap.recolor_outside (h : Heap) {A : List Nat} {a : Nat} (ha : a ∈ A) (c : color) :
    ∀ x, x ∉ A → h.recolor a c x = h x :=
  fun _ hx => Heap.recolor_other _ _ _ _ (fun e => hx (e ▸ ha))

/-- Insert fixup, parent on the left, red uncle: recolour parent, uncle and grandparent
and move the cursor to the grandparent. -/
theorem insertFix_redUncle_L {rb : RBTree} {s : Nat} {q : Ptr} {fp : Frame} {rest : Ctx}
    {l r ul ur : Shape} {n k g kg ua uk : Nat}
    (M : Models rb s q (plug (fp :: Frame.L color.black g kg (Shape.node color.red ul ua uk ur)
      :: rest) (Shape.node color.red l n k r))) :
    ∃ rb', insertFixBody rb (some n) = .ok (rb', some g) ∧
      Step rb rb' s q
        (plug (fp :: Frame.L color.black g kg (Shape.node color.red ul ua uk ur) :: rest)
          (Shape.node color.red l n k r))
        (plug rest (Shape.node color.red
          ((fp.setCol color.black).fill (Shape.node color.red l n k r)) g kg
          (Shape.node color.black ul ua uk ur))) := by
  have L0 := M.lay
  have hT : (plug rest (Shape.node color.red
      ((fp.setCol color.black).fill (Shape.node color.red l n k r)) g kg
      (Shape.node color.black ul ua uk ur))).toList =
      (plug (fp :: Frame.L color.black g kg (Shape.node color.red ul ua uk ur) :: rest)
        (Shape.node color.red l n k r)).toList := by
    rw [plug_cons, plug_cons]
    apply plug_toList_congr
    cases fp <;> rfl
  rcases fp with ⟨cp, p, kp, pr⟩ | ⟨cp, pl, p, kp⟩
  · have hn := Lay.record_at (C := Frame.L cp p kp pr ::
      Frame.L color.black g kg (Shape.node color.red ul ua uk ur) :: rest) L0
    have hp := Lay.record_at (C := Frame.L color.black g kg (Shape.node color.red ul ua uk ur)
      :: rest) (l := Shape.node color.red l n k r) (a := p) L0
    have hg := Lay.record_at (C := rest) (a := g) L0
    have hu := Lay.record_at (C := Frame.R color.black
      (Shape.node cp (Shape.node color.red l n k r) p kp pr) g kg :: rest) (a := ua) L0
    simp only [ctxPar_cons, Frame.addr, Shape.ptr_node, Frame.fill] at hn hp hg hu
    have L1 := Lay.recolor (C := Frame.L color.black g kg (Shape.node color.red ul ua uk ur)
      :: rest) (a := p) color.black L0
    have L2 := Lay.recolor (C := Frame.R color.black
      (Shape.node color.black (Shape.node color.red l n k r) p kp pr) g kg :: rest) (a := ua)
      color.black L1
    have L3 := Lay.recolor (C := rest) (a := g) color.red L2
    refine ⟨{ rb with heap :=
      ((rb.heap.recolor p color.black).recolor ua color.black).recolor g color.red },
      ?_, M.withLay ?_ L3, hT, ⟨rfl, rfl, rfl, ?_⟩⟩
    · simp [insertFixBody, getGrand, hn, hp, hg, hu]
    · simp [plug_ptr, Frame.addr]
    · intro x hx
      show (((rb.heap.recolor p color.black).recolor ua color.black).recolor g color.red) x
        = rb.heap x
      rw [Heap.recolor_outside _ (by simp [mem_plug_addrs, Shape.addrs, ctxAddrs, Frame.addr])
          _ x hx,
        Heap.recolor_outside _ (by simp [mem_plug_addrs, Shape.addrs, ctxAddrs, Frame.addr])
          _ x hx,
        Heap.recolor_outside _ (by simp [mem_plug_addrs, Shape.addrs, ctxAddrs, Frame.addr])
          _ x hx]
  · have hn := Lay.record_at (C := Frame.R cp pl p kp ::
      Frame.L color.black g kg (Shape.node color.red ul ua uk ur) :: rest) L0
    have hp := Lay.record_at (C := Frame.L color.black g kg (Shape.node color.red ul ua uk ur)
      :: rest) (r := Shape.node color.red l n k r) (a := p) L0
    have hg := Lay.record_at (C := rest) (a := g) L0
    have hu := Lay.record_at (C := Frame.R color.black
      (Shape.node cp pl p kp (Shape.node color.red l n k r)) g kg :: rest) (a := ua) L0
    simp only [ctxPar_cons, Frame.addr, Shape.ptr_node, Frame.fill] at hn hp hg hu
    have L1 := Lay.recolor (C := Frame.L color.black g kg (Shape.node color.red ul ua uk ur)
      :: rest) (a := p) color.black L0
    have L2 := Lay.recolor (C := Frame.R color.black
      (Shape.node color.black pl p kp (Shape.node color.red l n k r)) g kg :: rest) (a := ua)
      color.black L1
    have L3 := Lay.recolor (C := rest) (a := g) color.red L2
    refine ⟨{ rb with heap :=
      ((rb.heap.recolor p color.black).recolor ua color.black).recolor g color.red },
      ?_, M.withLay ?_ L3, hT, ⟨rfl, rfl, rfl, ?_⟩⟩
    · simp [insertFixBody, getGrand, hn, hp, hg, hu]
    · simp [plug_ptr, Frame.addr]
    · intro x hx
      show (((rb.heap.recolor p color.black).recolor ua color.black).recolor g color.red) x
        = rb.heap x
      rw [Heap.recolor_outside _ (by simp [mem_plug_addrs, Shape.addrs, ctxAddrs, Frame.addr])
          _ x hx,
        Heap.recolor_outside _ (by simp [mem_plug_addrs, Shape.addrs, ctxAddrs, Frame.addr])
          _ x hx,
        Heap.recolor_outside _ (by simp [mem_plug_addrs, Shape.addrs, ctxAddrs, Frame.addr])
          _ x hx]

/-- Insert fixup, parent on the right, red uncle: recolour parent, uncle and grandparent
and move the cursor to the grandparent. -/
theorem insertFix_redUncle_R {rb : RBTree} {s : Nat} {q : Ptr} {fp : Frame} {rest : Ctx}
    {l r ul ur : Shape} {n k g kg ua uk : Nat}
    (M : Models rb s q (plug (fp :: Frame.R color.black (Shape.node color.red ul ua uk ur) g kg
      :: rest) (Shape.node color.red l n k r))) :
    ∃ rb', insertFixBody rb (some n) = .ok (rb', some g) ∧
      Step rb rb' s q
        (plug (fp :: Frame.R color.black (Shape.node color.red ul ua uk ur) g kg :: rest)
          (Shape.node color.red l n k r))
        (plug rest (Shape.node color.red (Shape.node color.black ul ua uk ur) g kg
          ((fp.setCol color.black).fill (Shape.node color.red l n k r)))) := by
  have L0 := M.lay
  have hT : (plug rest (Shape.node color.red (Shape.node color.black ul ua uk ur) g kg
      ((fp.setCol color.black).fill (Shape.node color.red l n k r)))).toList =
      (plug (fp :: Frame.R color.black (Shape.node color.red ul ua uk ur) g kg :: rest)
        (Shape.node color.red l n k r)).toList := by
    rw [plug_cons, plug_cons]
    apply plug_toList_congr
    cases fp <;> rfl
  rcases fp with ⟨cp, p, kp, pr⟩ | ⟨cp, pl, p, kp⟩
  · have hn := Lay.record_at (C := Frame.L cp p kp pr ::
      Frame.R color.black (Shape.node color.red ul ua uk ur) g kg :: rest) L0
    have hp := Lay.record_at (C := Frame.R color.black (Shape.node color.red ul ua uk ur) g kg
      :: rest) (l := Shape.node color.red l n k r) (a := p) L0
    have hg := Lay.record_at (C := rest) (a := g) L0
    have hu := Lay.record_at (C := Frame.L color.black g kg
      (Shape.node cp (Shape.node color.red l n k r) p kp pr) :: rest) (a := ua) L0
    simp only [ctxPar_cons, Frame.addr, Shape.ptr_node, Frame.fill] at hn hp hg hu
    have hpu : p ≠ ua := ne_of_count L0.2 (by
      rintro rfl
      simp only [count_plug_addrs, Shape.addrs, ctxAddrs, Frame.addr, Frame.sib,
        List.count_append, List.count_cons, List.count_nil, beq_self_eq_true, if_true]
      omega)
    have L1 := Lay.recolor (C := Frame.R color.black (Shape.node color.red ul ua uk ur) g kg
      :: rest) (a := p) color.black L0
    have L2 := Lay.recolor (C := Frame.L color.black g kg
      (Shape.node color.black (Shape.node color.red l n k r) p kp pr) :: rest) (a := ua)
      color.black L1
    have L3 := Lay.recolor (C := rest) (a := g) color.red L2
    refine ⟨{ rb with heap :=
      ((rb.heap.recolor p color.black).recolor ua color.black).recolor g color.red },
      ?_, M.withLay ?_ L3, hT, ⟨rfl, rfl, rfl, ?_⟩⟩
    · simp [insertFixBody, getGrand, hn, hp, hg, hu, hpu]
    · simp [plug_ptr, Frame.addr]
    · intro x hx
      show (((rb.heap.recolor p color.black).recolor ua color.black).recolor g color.red) x
        = rb.heap x
      rw [Heap.recolor_outside _ (by simp [mem_plug_addrs, Shape.addrs, ctxAddrs, Frame.addr])
          _ x hx,
        Heap.recolor_outside _ (by simp [mem_plug_addrs, Shape.addrs, ctxAddrs, Frame.addr])
          _ x hx,
        Heap.recolor_outside _ (by simp [mem_plug_addrs, Shape.addrs, ctxAddrs, Frame.addr])
          _ x hx]
  · have hn := Lay.record_at (C := Frame.R cp pl p kp ::
      Frame.R color.black (Shape.node color.red ul ua uk ur) g kg :: rest) L0
    have hp := Lay.record_at (C := Frame.R color.black (Shape.node color.red ul ua uk ur) g kg
      :: rest) (r := Shape.node color.red l n k r) (a := p) L0
    have hg := Lay.record_at (C := rest) (a := g) L0
    have hu := Lay.record_at (C := Frame.L color.black g kg
      (Shape.node cp pl p kp (Shape.node color.red l n k r)) :: rest) (a := ua) L0
    simp only [ctxPar_cons, Frame.addr, Shape.ptr_node, Frame.fill] at hn hp hg hu
    have hpu : p ≠ ua := ne_of_count L0.2 (by
      rintro rfl
      simp only [count_plug_addrs, Shape.addrs, ctxAddrs, Frame.addr, Frame.sib,
        List.count_append, List.count_cons, List.count_nil, beq_self_eq_true, if_true]
      omega)
    have L1 := Lay.recolor (C := Frame.R color.black (Shape.node color.red ul ua uk ur) g kg
      :: rest) (a := p) color.black L0
    have L2 := Lay.recolor (C := Frame.L color.black g kg
      (Shape.node color.black pl p kp (Shape.node color.red l n k r)) :: rest) (a := ua)
      color.black L1
    have L3 := Lay.recolor (C := rest) (a := g) color.red L2
    refine ⟨{ rb with heap :=
      ((rb.heap.recolor p color.black).recolor ua color.black).recolor g color.red },
      ?_, M.withLay ?_ L3, hT, ⟨rfl, rfl, rfl, ?_⟩⟩
    · simp [insertFixBody, getGrand, hn, hp, hg, hu, hpu]
    · simp [plug_ptr, Frame.addr]
    · intro x hx
      show (((rb.heap.recolor p color.black).recolor ua color.black).recolor g color.red) x
        = rb.heap x
      rw [Heap.recolor_outside _ (by simp [mem_plug_addrs, Shape.addrs, ctxAddrs, Frame.addr])
          _ x hx,
        Heap.recolor_outside _ (by simp [mem_plug_addrs, Shape.addrs, ctxAddrs, Frame.addr])
          _ x hx,
        Heap.recolor_outside _ (by simp [mem_plug_addrs, Shape.addrs, ctxAddrs, Frame.addr])
          _ x hx]

theorem Keeps.of_heap (rb : RBTree) {H : Heap} {A : List Nat}
    (h : ∀ x, x ∉ A → H x = rb.heap x) : Keeps rb { rb with heap := H } A :=
  ⟨rfl, rfl, rfl, h⟩

theorem Shape.addrs_congr {t t' : Shape} (e : t.toList = t'.toList) : t.addrs = t'.addrs := by
  rw [Shape.addrs_eq_map, Shape.addrs_eq_map, e]

/-- Insert fixup, parent on the left, black uncle, cursor on the left of its parent:
recolour parent and grandparent and rotate the grandparent to the right. -/
theorem insertFix_blackUncle_LL {rb : RBTree} {s : Nat} {q : Ptr} {rest : Ctx}
    {l r pr u : Shape} {n k p kp g kg : Nat} {cp cg : color}
    (M : Models rb s q (plug (Frame.L cp p kp pr :: Frame.L cg g kg u :: rest)
      (Shape.node color.red l n k r)))
    (hs : (rb.heap s).color = color.black) (hu : u.rootColor = color.black) :
    ∃ rb', insertFixBody rb (some n) = .ok (rb', some n) ∧
      Step rb rb' s q
        (plug (Frame.L cp p kp pr :: Frame.L cg g kg u :: rest) (Shape.node color.red l n k r))
        (plug (Frame.L color.black p kp (Shape.node color.red pr g kg u) :: rest)
          (Shape.node color.red l n k r)) := by
  have L0 := M.lay
  have hn := Lay.record_at (C := Frame.L cp p kp pr :: Frame.L cg g kg u :: rest) L0
  have hp := Lay.record_at (C := Frame.L cg g kg u :: rest)
    (l := Shape.node color.red l n k r) (a := p) L0
  have hg := Lay.record_at (C := rest) (a := g) L0
  have hj := Lay.judgeColor_ptr (C := Frame.R cg
    (Shape.node cp (Shape.node color.red l n k r) p kp pr) g kg :: rest) (t := u) L0 hs
    color.red
  simp only [ctxPar_cons, Frame.addr, Shape.ptr_node, Frame.fill, hu] at hn hp hg hj
  have hns : n ≠ s := Rep.addr_ne (C := Frame.L cp p kp pr :: Frame.L cg g kg u :: rest) L0.1
  have hnpr : ¬ some n = pr.ptr s := fun e => Lay.ptr_ne L0 hns (t := pr) (by
    simp only [count_plug_addrs, Shape.addrs, ctxAddrs, Frame.addr, Frame.sib,
      List.count_append, List.count_cons, List.count_nil, beq_self_eq_true, if_true]
    omega) e.symm
  have L1 := Lay.recolor (C := Frame.L cg g kg u :: rest) (a := p) color.black L0
  have L2 := Lay.recolor (C := rest) (a := g) color.red L1
  have M2 : Models { rb with heap := (rb.heap.recolor p color.black).recolor g color.red } s q
      (plug rest (Shape.node color.red
        (Shape.node color.black (Shape.node color.red l n k r) p kp pr) g kg u)) :=
    M.withLay (by simp [plug_ptr, Frame.addr]) L2
  obtain ⟨rb3, hrot, M3, K3⟩ := rightRotate_spec M2
  refine ⟨rb3, ?_, M3, ?_, ?_⟩
  · simp [insertFixBody, getGrand, hn, hp, hg, hj, hnpr, hrot]
  · rw [plug_cons, plug_cons, plug_cons]
    apply plug_toList_congr
    simp [Frame.fill, Shape.toList]
  · refine Keeps.chain (Keeps.of_heap rb (A := (plug (Frame.L cp p kp pr ::
      Frame.L cg g kg u :: rest) (Shape.node color.red l n k r)).addrs) ?_) K3
      (fun _ h => h) (fun x hx => ?_)
    · intro x hx
      rw [Heap.recolor_outside _ (by simp [mem_plug_addrs, Shape.addrs, ctxAddrs, Frame.addr])
          _ x hx,
        Heap.recolor_outside _ (by simp [mem_plug_addrs, Shape.addrs, ctxAddrs, Frame.addr])
          _ x hx]
    · rw [mem_plug_addrs] at hx ⊢
      simp only [Shape.addrs, ctxAddrs, Frame.addr, Frame.sib, List.mem_append, List.mem_cons]
        at hx ⊢
      tauto

/-- Insert fixup, parent on the left, black uncle, cursor on the right of its parent:
rotate the parent to the left, then recolour and rotate the grandparent to the right. -/
theorem insertFix_blackUncle_LR {rb : RBTree} {s : Nat} {q : Ptr} {rest : Ctx}
    {l r pl u : Shape} {n k p kp g kg : Nat} {cp cg : color}
    (M : Models rb s q (plug (Frame.R cp pl p kp :: Frame.L cg g kg u :: rest)
      (Shape.node color.red l n k r)))
    (hs : (rb.heap s).color = color.black) (hu : u.rootColor = color.black) :
    ∃ rb', insertFixBody rb (some n) = .ok (rb', some p) ∧
      Step rb rb' s q
        (plug (Frame.R cp pl p kp :: Frame.L cg g kg u :: rest) (Shape.node color.red l n k r))
        (plug (Frame.L color.black n k (Shape.node color.red r g kg u) :: rest)
          (Shape.node cp pl p kp l)) := by
  have L0 := M.lay
  have hn := Lay.record_at (C := Frame.R cp pl p kp :: Frame.L cg g kg u :: rest) L0
  have hp := Lay.record_at (C := Frame.L cg g kg u :: rest)
    (r := Shape.node color.red l n k r) (a := p) L0
  have hg := Lay.record_at (C := rest) (a := g) L0
  have hj := Lay.judgeColor_ptr (C := Frame.R cg
    (Shape.node cp pl p kp (Shape.node color.red l n k r)) g kg :: rest) (t := u) L0 hs
    color.red
  simp only [ctxPar_cons, Frame.addr, Shape.ptr_node, Frame.fill, hu] at hn hp hg hj
  -- first rotation, at the parent
  have M0 : Models rb s q (plug (Frame.L cg g kg u :: rest)
      (Shape.node cp pl p kp (Shape.node color.red l n k r))) := M
  obtain ⟨rb1, hrot1, M1, K1⟩ := leftRotate_spec M0
  have L1 := M1.lay
  have hp1 := Lay.record_at (C := Frame.L color.red n k r :: Frame.L cg g kg u :: rest)
    (a := p) L1
  have hn1 := Lay.record_at (C := Frame.L cg g kg u :: rest) (a := n) L1
  simp only [ctxPar_cons, Frame.addr, Shape.ptr_node, Frame.fill] at hp1 hn1
  have L2 := Lay.recolor (C := Frame.L cg g kg u :: rest) (a := n) color.black L1
  have L3 := Lay.recolor (C := rest) (a := g) color.red L2
  have M3 : Models { rb1 with heap := (rb1.heap.recolor n color.black).recolor g color.red } s q
      (plug rest (Shape.node color.red
        (Shape.node color.black (Shape.node cp pl p kp l) n k r) g kg u)) :=
    M1.withLay (by simp [plug_ptr, Frame.addr]) L3
  obtain ⟨rb4, hrot2, M4, K4⟩ := rightRotate_spec M3
  refine ⟨rb4, ?_, M4, ?_, ?_⟩
  · simp [insertFixBody, getGrand, hn, hp, hg, hj, hrot1, hp1, hn1, hrot2]
  · rw [plug_cons, plug_cons, plug_cons]
    apply plug_toList_congr
    simp [Frame.fill, Shape.toList]
  · refine Keeps.chain K1 (Keeps.chain (Keeps.of_heap rb1 (A := (plug (Frame.R cp pl p kp ::
      Frame.L cg g kg u :: rest) (Shape.node color.red l n k r)).addrs) ?_) K4
      (fun _ h => h) (fun x hx => ?_)) (fun _ h => h) (fun _ h => h)
    · intro x hx
      rw [Heap.recolor_outside _ (by simp [mem_plug_addrs, Shape.addrs, ctxAddrs, Frame.addr])
          _ x hx,
        Heap.recolor_outside _ (by simp [mem_plug_addrs, Shape.addrs, ctxAddrs, Frame.addr])
          _ x hx]
    · rw [mem_plug_addrs] at hx ⊢
      simp only [Shape.addrs, ctxAddrs, Frame.addr, Frame.sib, List.mem_append, List.mem_cons]
        at hx ⊢
      tauto

/-- Insert fixup, parent on the right, black uncle, cursor on the right of its parent:
recolour parent and grandparent and rotate the grandparent to the left. -/
theorem insertFix_blackUncle_RR {rb : RBTree} {s : Nat} {q : Ptr} {rest : Ctx}
    {l r pl u : Shape} {n k p kp g kg : Nat} {cp cg : color}
    (M : Models rb s q (plug (Frame.R cp pl p kp :: Frame.R cg u g kg :: rest)
      (Shape.node color.red l n k r)))
    (hs : (rb.heap s).color = color.black) (hu : u.rootColor = color.black) :
    ∃ rb', insertFixBody rb (some n) = .ok (rb', some n) ∧
      Step rb rb' s q
        (plug (Frame.R cp pl p kp :: Frame.R cg u g kg :: rest) (Shape.node color.red l n k r))
        (plug (Frame.R color.black (Shape.node color.red u g kg pl) p kp :: rest)
          (Shape.node color.red l n k r)) := by
  have L0 := M.lay
  have hn := Lay.record_at (C := Frame.R cp pl p kp :: Frame.R cg u g kg :: rest) L0
  have hp := Lay.record_at (C := Frame.R cg u g kg :: rest)
    (r := Shape.node color.red l n k r) (a := p) L0
  have hg := Lay.record_at (C := rest) (a := g) L0
  have hj := Lay.judgeColor_ptr (C := Frame.L cg g kg
    (Shape.node cp pl p kp (Shape.node color.red l n k r)) :: rest) (t := u) L0 hs
    color.red
  simp only [ctxPar_cons, Frame.addr, Shape.ptr_node, Frame.fill, hu] at hn hp hg hj
  have hns : n ≠ s := Rep.addr_ne (C := Frame.R cp pl p kp :: Frame.R cg u g kg :: rest) L0.1
  have hps : p ≠ s := Rep.addr_ne (C := Frame.R cg u g kg :: rest)
    (r := Shape.node color.red l n k r) (a := p) L0.1
  have hnpl : ¬ some n = pl.ptr s := fun e => Lay.ptr_ne L0 hns (t := pl) (by
    simp only [count_plug_addrs, Shape.addrs, ctxAddrs, Frame.addr, Frame.sib,
      List.count_append, List.count_cons, List.count_nil, beq_self_eq_true, if_true]
    omega) e.symm
  have hpu : ¬ some p = u.ptr s := fun e => Lay.ptr_ne L0 hps (t := u) (by
    simp only [count_plug_addrs, Shape.addrs, ctxAddrs, Frame.addr, Frame.sib,
      List.count_append, List.count_cons, List.count_nil, beq_self_eq_true, if_true]
    omega) e.symm
  have L1 := Lay.recolor (C := Frame.R cg u g kg :: rest) (a := p) color.black L0
  have L2 := Lay.recolor (C := rest) (a := g) color.red L1
  have M2 : Models { rb with heap := (rb.heap.recolor p color.black).recolor g color.red } s q
      (plug rest (Shape.node color.red u g kg
        (Shape.node color.black pl p kp (Shape.node color.red l n k r)))) :=
    M.withLay (by simp [plug_ptr, Frame.addr]) L2
  obtain ⟨rb3, hrot, M3, K3⟩ := leftRotate_spec M2
  refine ⟨rb3, ?_, M3, ?_, ?_⟩
  · simp [insertFixBody, getGrand, hn, hp, hg, hj, hnpl, hpu, hrot]
  · rw [plug_cons, plug_cons, plug_cons]
    apply plug_toList_congr
    simp [Frame.fill, Shape.toList]
  · refine Keeps.chain (Keeps.of_heap rb (A := (plug (Frame.R cp pl p kp ::
      Frame.R cg u g kg :: rest) (Shape.node color.red l n k r)).addrs) ?_) K3
      (fun _ h => h) (fun x hx => ?_)
    · intro x hx
      rw [Heap.recolor_outside _ (by simp [mem_plug_addrs, Shape.addrs, ctxAddrs, Frame.addr])
          _ x hx,
        Heap.recolor_outside _ (by simp [mem_plug_addrs, Shape.addrs, ctxAddrs, Frame.addr])
          _ x hx]
    · rw [mem_plug_addrs] at hx ⊢
      simp only [Shape.addrs, ctxAddrs, Frame.addr, Frame.sib, List.mem_append, List.mem_cons]
        at hx ⊢
      tauto

/-- Insert fixup, parent on the right, black uncle, cursor on the left of its parent:
rotate the parent to the right, then recolour and rotate the grandparent to the left. -/
theorem insertFix_blackUncle_RL {rb : RBTree} {s : Nat} {q : Ptr} {rest : Ctx}
    {l r pr u : Shape} {n k p kp g kg : Nat} {cp cg : color}
    (M : Models rb s q (plug (Frame.L cp p kp pr :: Frame.R cg u g kg :: rest)
      (Shape.node color.red l n k r)))
    (hs : (rb.heap s).color = color.black) (hu : u.rootColor = color.black) :
    ∃ rb', insertFixBody rb (some n) = .ok (rb', some p) ∧
      Step rb rb' s q
        (plug (Frame.L cp p kp pr :: Frame.R cg u g kg :: rest) (Shape.node color.red l n k r))
        (plug (Frame.R color.black (Shape.node color.red u g kg l) n k :: rest)
          (Shape.node cp r p kp pr)) := by
  have L0 := M.lay
  have hn := Lay.record_at (C := Frame.L cp p kp pr :: Frame.R cg u g kg :: rest) L0
  have hp := Lay.record_at (C := Frame.R cg u g kg :: rest)
    (l := Shape.node color.red l n k r) (a := p) L0
  have hg := Lay.record_at (C := rest) (a := g) L0
  have hj := Lay.judgeColor_ptr (C := Frame.L cg g kg
    (Shape.node cp (Shape.node color.red l n k r) p kp pr) :: rest) (t := u) L0 hs
    color.red
  simp only [ctxPar_cons, Frame.addr, Shape.ptr_node, Frame.fill, hu] at hn hp hg hj
  have hps : p ≠ s := Rep.addr_ne (C := Frame.R cg u g kg :: rest)
    (l := Shape.node color.red l n k r) (a := p) L0.1
  have hpu : ¬ some p = u.ptr s := fun e => Lay.ptr_ne L0 hps (t := u) (by
    simp only [count_plug_addrs, Shape.addrs, ctxAddrs, Frame.addr, Frame.sib,
      List.count_append, List.count_cons, List.count_nil, beq_self_eq_true, if_true]
    omega) e.symm
  -- first rotation, at the parent
  have M0 : Models rb s q (plug (Frame.R cg u g kg :: rest)
      (Shape.node cp (Shape.node color.red l n k r) p kp pr)) := M
  obtain ⟨rb1, hrot1, M1, K1⟩ := rightRotate_spec M0
  have L1 := M1.lay
  have hp1 := Lay.record_at (C := Frame.R color.red l n k :: Frame.R cg u g kg :: rest)
    (a := p) L1
  have hn1 := Lay.record_at (C := Frame.R cg u g kg :: rest) (a := n) L1
  simp only [ctxPar_cons, Frame.addr, Shape.ptr_node, Frame.fill] at hp1 hn1
  have L2 := Lay.recolor (C := Frame.R cg u g kg :: rest) (a := n) color.black L1
  have L3 := Lay.recolor (C := rest) (a := g) color.red L2
  have M3 : Models { rb1 with heap := (rb1.heap.recolor n color.black).recolor g color.red } s q
      (plug rest (Shape.node color.red u g kg
        (Shape.node color.black l n k (Shape.node cp r p kp pr)))) :=
    M1.withLay (by simp [plug_ptr, Frame.addr]) L3
  obtain ⟨rb4, hrot2, M4, K4⟩ := leftRotate_spec M3
  refine ⟨rb4, ?_, M4, ?_, ?_⟩
  · simp [insertFixBody, getGrand, hn, hp, hg, hj, hpu, hrot1, hp1, hn1, hrot2]
  · rw [plug_cons, plug_cons, plug_cons]
    apply plug_toList_congr
    simp [Frame.fill, Shape.toList]
  · refine Keeps.chain K1 (Keeps.chain (Keeps.of_heap rb1 (A := (plug (Frame.L cp p kp pr ::
      Frame.R cg u g kg :: rest) (Shape.node color.red l n k r)).addrs) ?_) K4
      (fun _ h => h) (fun x hx => ?_)) (fun _ h => h) (fun _ h => h)
    · intro x hx
      rw [Heap.recolor_outside _ (by simp [mem_plug_addrs, Shape.addrs, ctxAddrs, Frame.addr])
          _ x hx,
        Heap.recolor_outside _ (by simp [mem_plug_addrs, Shape.addrs, ctxAddrs, Frame.addr])
          _ x hx]
    · rw [mem_plug_addrs] at hx ⊢
      simp only [Shape.addrs, ctxAddrs, Frame.addr, Frame.sib, List.mem_append, List.mem_cons]
        at hx ⊢
      tauto

/-! ### Shape bookkeeping for the insert fixup -/

theorem insertShape_redUncle_pL {rest : Ctx} {l r pr ul ur : Shape} {n k p y g z ua uk : Nat}
    (hw : (Shape.node color.red l n k r).wf) (hsw : pr.wf)
    (hsb : pr.bh = (Shape.node color.red l n k r).bh) (hsc : pr.rootColor = color.black)
    (hgw : (Shape.node color.red ul ua uk ur).wf)
    (hgb : (Shape.node color.red ul ua uk ur).bh = (Shape.node color.red l n k r).bh)
    (hv2 : ctxValid rest ((Shape.node color.red l n k r).bh + 1)) :
    ctxValid rest (Shape.node color.red (Shape.node color.black (Shape.node color.red l n k r)
        p y pr) g z (Shape.node color.black ul ua uk ur)).bh ∧
      (Shape.node color.red (Shape.node color.black (Shape.node color.red l n k r) p y pr)
        g z (Shape.node color.black ul ua uk ur)).wf := by
  simp_all [Shape.wf, Shape.noRedRed, Shape.balanced, Shape.bh, Shape.rootColor]

theorem insertShape_redUncle_pR {rest : Ctx} {l r pl ul ur : Shape} {n k p y g z ua uk : Nat}
    (hw : (Shape.node color.red l n k r).wf) (hsw : pl.wf)
    (hsb : pl.bh = (Shape.node color.red l n k r).bh) (hsc : pl.rootColor = color.black)
    (hgw : (Shape.node color.red ul ua uk ur).wf)
    (hgb : (Shape.node color.red ul ua uk ur).bh = (Shape.node color.red l n k r).bh)
    (hv2 : ctxValid rest ((Shape.node color.red l n k r).bh + 1)) :
    ctxValid rest (Shape.node color.red (Shape.node color.black pl p y
        (Shape.node color.red l n k r)) g z (Shape.node color.black ul ua uk ur)).bh ∧
      (Shape.node color.red (Shape.node color.black pl p y (Shape.node color.red l n k r))
        g z (Shape.node color.black ul ua uk ur)).wf := by
  simp_all [Shape.wf, Shape.noRedRed, Shape.balanced, Shape.bh, Shape.rootColor]

theorem insertShape_redUncleR_pL {rest : Ctx} {l r pr ul ur : Shape}
    {n k p y g z ua uk : Nat}
    (hw : (Shape.node color.red l n k r).wf) (hsw : pr.wf)
    (hsb : pr.bh = (Shape.node color.red l n k r).bh) (hsc : pr.rootColor = color.black)
    (hgw : (Shape.node color.red ul ua uk ur).wf)
    (hgb : (Shape.node color.red ul ua uk ur).bh = (Shape.node color.red l n k r).bh)
    (hv2 : ctxValid rest ((Shape.node color.red l n k r).bh + 1)) :
    ctxValid rest (Shape.node color.red (Shape.node color.black ul ua uk ur) g z
        (Shape.node color.black (Shape.node color.red l n k r) p y pr)).bh ∧
      (Shape.node color.red (Shape.node color.black ul ua uk ur) g z
        (Shape.node color.black (Shape.node color.red l n k r) p y pr)).wf := by
  simp_all [Shape.wf, Shape.noRedRed, Shape.balanced, Shape.bh, Shape.rootColor]

theorem insertShape_redUncleR_pR {rest : Ctx} {l r pl ul ur : Shape}
    {n k p y g z ua uk : Nat}
    (hw : (Shape.node color.red l n k r).wf) (hsw : pl.wf)
    (hsb : pl.bh = (Shape.node color.red l n k r).bh) (hsc : pl.rootColor = color.black)
    (hgw : (Shape.node color.red ul ua uk ur).wf)
    (hgb : (Shape.node color.red ul ua uk ur).bh = (Shape.node color.red l n k r).bh)
    (hv2 : ctxValid rest ((Shape.node color.red l n k r).bh + 1)) :
    ctxValid rest (Shape.node color.red (Shape.node color.black ul ua uk ur) g z
        (Shape.node color.black pl p y (Shape.node color.red l n k r))).bh ∧
      (Shape.node color.red (Shape.node color.black ul ua uk ur) g z
        (Shape.node color.black pl p y (Shape.node color.red l n k r))).wf := by
  simp_all [Shape.wf, Shape.noRedRed, Shape.balanced, Shape.bh, Shape.rootColor]

theorem insertShape_LL {rest : Ctx} {l r pr u : Shape} {n k p y g z : Nat}
    (hsw : pr.wf)
    (hsb : pr.bh = (Shape.node color.red l n k r).bh) (hsc : pr.rootColor = color.black)
    (hgw : u.wf) (hgb : u.bh = (Shape.node color.red l n k r).bh)
    (hu : u.rootColor = color.black)
    (hv2 : ctxValid rest ((Shape.node color.red l n k r).bh + 1)) :
    ctxValid (Frame.L color.black p y (Shape.node color.red pr g z u) :: rest)
      (Shape.node color.red l n k r).bh := by
  simp_all [Shape.wf, Shape.noRedRed, Shape.balanced, Shape.bh, Shape.rootColor, ctxValid,
    Frame.sib, Frame.col]

theorem insertShape_LR {rest : Ctx} {l r pl u : Shape} {n k p y g z : Nat}
    (hw : (Shape.node color.red l n k r).wf) (hsw : pl.wf)
    (hsb : pl.bh = (Shape.node color.red l n k r).bh) (hsc : pl.rootColor = color.black)
    (hgw : u.wf) (hgb : u.bh = (Shape.node color.red l n k r).bh)
    (hu : u.rootColor = color.black)
    (hv2 : ctxValid rest ((Shape.node color.red l n k r).bh + 1)) :
    ctxValid (Frame.L color.black n k (Shape.node color.red r g z u) :: rest)
        (Shape.node color.red pl p y l).bh ∧
      (Shape.node color.red pl p y l).wf := by
  simp_all [Shape.wf, Shape.noRedRed, Shape.balanced, Shape.bh, Shape.rootColor, ctxValid,
    Frame.sib, Frame.col]

theorem insertShape_RR {rest : Ctx} {l r pl u : Shape} {n k p y g z : Nat}
    (hsw : pl.wf)
    (hsb : pl.bh = (Shape.node color.red l n k r).bh) (hsc : pl.rootColor = color.black)
    (hgw : u.wf) (hgb : u.bh = (Shape.node color.red l n k r).bh)
    (hu : u.rootColor = color.black)
    (hv2 : ctxValid rest ((Shape.node color.red l n k r).bh + 1)) :
    ctxValid (Frame.R color.black (Shape.node color.red u g z pl) p y :: rest)
      (Shape.node color.red l n k r).bh := by
  simp_all [Shape.wf, Shape.noRedRed, Shape.balanced, Shape.bh, Shape.rootColor, ctxValid,
    Frame.sib, Frame.col]

theorem insertShape_RL {rest : Ctx} {l r pr u : Shape} {n k p y g z : Nat}
    (hw : (Shape.node color.red l n k r).wf) (hsw : pr.wf)
    (hsb : pr.bh = (Shape.node color.red l n k r).bh) (hsc : pr.rootColor = color.black)
    (hgw : u.wf) (hgb : u.bh = (Shape.node color.red l n k r).bh)
    (hu : u.rootColor = color.black)
    (hv2 : ctxValid rest ((Shape.node color.red l n k r).bh + 1)) :
    ctxValid (Frame.R color.black (Shape.node color.red u g z l) n k :: rest)
        (Shape.node color.red r p y pr).bh ∧
      (Shape.node color.red r p y pr).wf := by
  simp_all [Shape.wf, Shape.noRedRed, Shape.balanced, Shape.bh, Shape.rootColor, ctxValid,
    Frame.sib, Frame.col]

theorem Step.stay {rb : RBTree} {s : Nat} {q : Ptr} {T : Shape} (M : Models rb s q T) :
    Step rb rb s q T T :=
  ⟨M, rfl, Keeps.same rb _⟩

theorem Step.andThen {rb rb1 rb2 : RBTree} {s : Nat} {q : Ptr} {T T1 T2 : Shape}
    (h1 : Step rb rb1 s q T T1) (h2 : Step rb1 rb2 s q T1 T2) : Step rb rb2 s q T T2 :=
  ⟨h2.models, h2.toList_eq.trans h1.toList_eq,
    Keeps.chain h1.keeps h2.keeps (fun _ h => h)
      (fun x hx => by rw [← Shape.addrs_congr h1.toList_eq]; exact hx)⟩

/-- A step leaves the sentinel record alone. -/
theorem Step.sentinel {rb rb' : RBTree} {s : Nat} {q : Ptr} {T T' : Shape}
    (h : Step rb rb' s q T T') (M : Models rb s q T) : rb'.heap s = rb.heap s :=
  h.keeps.outside s (Rep_not_sentinel M.rep)

theorem Lay.frame_color {h : Heap} {s : Nat} {q : Ptr} {f : Frame} {fs : Ctx} {t : Shape}
    (hl : Lay h s q (plug (f :: fs) t)) : (h f.addr).color = f.col := by
  cases f with
  | L c a k r => simp [Lay.record_at (C := fs) (a := a) hl, Frame.addr, Frame.col]
  | R c l a k => simp [Lay.record_at (C := fs) (a := a) hl, Frame.addr, Frame.col]

theorem color_ne_black {c : color} (h : c ≠ color.black) : c = color.red := by
  cases c <;> simp_all

theorem color_ne_red {c : color} (h : c ≠ color.red) : c = color.black := by
  cases c <;> simp_all

theorem Shape.rootColor_red {X : Shape} (h : X.rootColor = color.red) :
    ∃ l a k r, X = Shape.node color.red l a k r := by
  cases X with
  | nil => simp [Shape.rootColor] at h
  | node c l a k r =>
    simp only [Shape.rootColor] at h
    subst h
    exact ⟨l, a, k, r, rfl⟩

/-- A cursor at least two levels below the root has an attached grandparent, and its
uncle is the sentinel only if it is black. -/
theorem insertFixSafe_head {rb : RBTree} {s : Nat} {q : Ptr} {fp fg : Frame} {rest : Ctx}
    {c : color} {l r : Shape} {n k : Nat}
    (M : Models rb s q (plug (fp :: fg :: rest) (Shape.node c l n k r)))
    (hs : (rb.heap s).color = color.black) : InsertFixSafe rb (some n) := by
  have L0 := M.lay
  have hn := Lay.record_at L0
  simp only [ctxPar_cons] at hn
  have hgmem : fg.addr ∈ (plug (fp :: fg :: rest) (Shape.node c l n k r)).addrs :=
    mem_plug_addrs.2 (Or.inr (by simp [ctxAddrs]))
  have hat : Attached rb fg.addr := ⟨s, q, _, M, hgmem⟩
  have hp : (rb.heap fp.addr).parent = some fg.addr := by
    cases fp <;> simp [Lay.record_at (C := fg :: rest) L0, Frame.addr]
  have hgrand : getGrand rb.heap (some n) = .ok (some fg.addr) := by
    simp [getGrand, hn, hp]
  have hfps : fp.addr ≠ s := by
    intro e
    have := RepCtx_not_sentinel ((Rep_plug _ _).1 M.rep).1
    exact this (by simp [ctxAddrs, e.symm])
  have huncle : insertUncle rb.heap (some n) = .ok (fg.sib.ptr s) := by
    cases fg with
    | L cg g kg u =>
      have hg : (rb.heap g).left = some fp.addr ∧ (rb.heap g).right = u.ptr s := by
        cases fp <;> simp [Lay.record_at (C := rest) L0, Frame.addr, Frame.fill]
      have e1 : (Frame.L cg g kg u).addr = g := rfl
      simp [insertUncle, hgrand, hn, e1, hg.1, hg.2, Frame.sib]
    | R cg u g kg =>
      have hg : (rb.heap g).left = u.ptr s ∧ (rb.heap g).right = some fp.addr := by
        cases fp <;> simp [Lay.record_at (C := rest) L0, Frame.addr, Frame.fill]
      have hne : u.ptr s ≠ some fp.addr := by
        refine Lay.ptr_ne L0 hfps ?_
        cases fp <;>
        · simp only [count_plug_addrs, Shape.addrs, ctxAddrs, Frame.addr, Frame.sib,
            List.count_append, List.count_cons, List.count_nil, beq_self_eq_true, if_true]
          omega
      have e1 : (Frame.R cg u g kg).addr = g := rfl
      simp [insertUncle, hgrand, hn, e1, hg.1, Ne.symm hne, Frame.sib]
  have hjudge : judgeColor rb.heap (fg.sib.ptr s) color.red =
      .ok (decide (fg.sib.rootColor = color.red)) := by
    cases fg with
    | L cg g kg u =>
      exact Lay.judgeColor_ptr (C := Frame.R cg (fp.fill (Shape.node c l n k r)) g kg :: rest)
        (t := u) L0 hs color.red
    | R cg u g kg =>
      exact Lay.judgeColor_ptr (C := Frame.L cg g kg (fp.fill (Shape.node c l n k r)) :: rest)
        (t := u) L0 hs color.red
  refine ⟨fg.addr, fg.sib.ptr s, hgrand, hat, huncle, fun hred => ?_⟩
  rw [hjudge] at hred
  simp only [Except.ok.injEq, decide_eq_true_eq] at hred
  obtain ⟨ul, ua, uk, ur, hu⟩ := Shape.rootColor_red hred
  have hua : ua ∈ (plug (fp :: fg :: rest) (Shape.node c l n k r)).addrs := by
    refine mem_plug_addrs.2 (Or.inr ?_)
    simp only [ctxAddrs, hu, Shape.addrs, List.mem_cons, List.mem_append]
    tauto
  have huas : ua ≠ s := fun e => Rep_not_sentinel M.rep (e ▸ hua)
  rw [hu, M.sentinel_eq]
  exact ⟨by simpa using huas, ua, rfl, s, q, _, M, hua⟩

/-- The insert fixup loop, started at a red node whose subtree is well formed on a valid
path, terminates within `ctx.length + 1` rounds and leaves a well-formed tree with the
same nodes in the same order. -/
theorem insertFixLoop_spec {s : Nat} {q : Ptr} : ∀ (m : Nat) (ctx : Ctx) (rb : RBTree)
    (l r : Shape) (n k : Nat) (fuel : Nat), ctx.length ≤ m → m < fuel →
    Models rb s q (plug ctx (Shape.node color.red l n k r)) →
    (rb.heap s).color = color.black →
    ctxValid ctx (Shape.node color.red l n k r).bh → (Shape.node color.red l n k r).wf →
    ∃ rb' n' T', insertFixLoop fuel rb (some n) = .ok (rb', n') ∧
      Step rb rb' s q (plug ctx (Shape.node color.red l n k r)) T' ∧ T'.wf ∧
      ∀ st ∈ insertFixVisited fuel rb (some n), InsertFixSafe st.1 st.2 := by
  intro m
  induction m using Nat.strong_induction_on with
  | _ m ih =>
  intro ctx rb l r n k fuel hlen hfuel M hs hv hw
  obtain ⟨fuel, rfl⟩ : ∃ f, fuel = f + 1 := ⟨fuel - 1, by omega⟩
  have L0 := M.lay
  rcases ctx with _ | ⟨fp, ctx1⟩
  · -- the cursor is the root
    have hroot : rb.root = some n := by simpa [plug_ptr] using M.root_eq
    refine ⟨rb, some n, _, ?_, Step.stay M, hw, ?_⟩
    · simp [insertFixLoop, insertFixCond, hroot]
    · simp [insertFixVisited, insertFixCond, hroot]
  · have hroot : ¬ some n = rb.root := by
      rw [M.root_eq, plug_ptr]
      exact fun e => ctxTop_ne (by simp) (plug_nodup.1 M.nodup) (by simp [Shape.addrs]) e.symm
    have hn := Lay.record_at (C := fp :: ctx1) L0
    have hpc := Lay.frame_color L0
    simp only [ctxPar_cons] at hn
    by_cases hcol : fp.col = color.black
    · -- black parent: the loop stops
      refine ⟨rb, some n, _, ?_, Step.stay M, (plug_valid _ _ hv hw (Or.inl hcol)).2, ?_⟩
      · simp [insertFixLoop, insertFixCond, hroot, hn, hpc, hcol]
      · simp [insertFixVisited, insertFixCond, hroot, hn, hpc, hcol]
    · have hred := color_ne_black hcol
      have hcond : insertFixCond rb (some n) = .ok true := by
        simp [insertFixCond, hroot, hn, hpc, hred]
      obtain ⟨hsw, hsb, hsr, hv1⟩ := hv
      obtain ⟨hsc, hhb⟩ := hsr hred
      rcases ctx1 with _ | ⟨fg, rest⟩
      · exact absurd hhb (by simp [headBlack])
      simp only [headBlack] at hhb
      obtain ⟨hgw, hgb, -, hv2⟩ := hv1
      simp only [hred, hhb, reduceCtorEq, if_false, if_true, Nat.add_zero] at hgb hv2
      simp only [List.length_cons] at hlen
      -- common continuation: run the rest of the loop from the state after the body
      have cont : ∀ (rb1 : RBTree) (ctx' : Ctx) (l' r' : Shape) (n' k' : Nat),
          insertFixBody rb (some n) = .ok (rb1, some n') →
          Step rb rb1 s q (plug (fp :: fg :: rest) (Shape.node color.red l n k r))
            (plug ctx' (Shape.node color.red l' n' k' r')) →
          ctx'.length < rest.length + 2 →
          ctxValid ctx' (Shape.node color.red l' n' k' r').bh →
          (Shape.node color.red l' n' k' r').wf →
          ∃ rb' n'' T', insertFixLoop (fuel + 1) rb (some n) = .ok (rb', n'') ∧
            Step rb rb' s q (plug (fp :: fg :: rest) (Shape.node color.red l n k r)) T' ∧
            T'.wf ∧
            ∀ st ∈ insertFixVisited (fuel + 1) rb (some n), InsertFixSafe st.1 st.2 := by
        intro rb1 ctx' l' r' n' k' hbody hstep hlen' hv' hw'
        have hs1 : (rb1.heap s).color = color.black := by rw [hstep.sentinel M]; exact hs
        obtain ⟨rb2, n2, T2, hloop, hstep2, hw2, hsafe2⟩ := ih ctx'.length (by omega) ctx' rb1
          l' r' n' k' fuel (le_refl _) (by omega) hstep.models hs1 hv' hw'
        refine ⟨rb2, n2, T2, ?_, hstep.andThen hstep2, hw2, ?_⟩
        · simp [insertFixLoop, hcond, hbody, hloop]
        · intro st hst
          simp only [insertFixVisited, hcond, hbody, List.mem_cons] at hst
          rcases hst with rfl | hst
          · exact insertFixSafe_head M hs
          · exact hsafe2 st hst
      rcases fg with ⟨cg, g, kg, u⟩ | ⟨cg, u, g, kg⟩
      · simp only [Frame.col] at hhb
        subst hhb
        simp only [Frame.sib] at hgw hgb
        by_cases hur : u.rootColor = color.red
        · rcases u with _ | ⟨cu, ul, ua, uk, ur⟩
          · simp [Shape.rootColor] at hur
          simp only [Shape.rootColor] at hur
          subst hur
          obtain ⟨rb1, hbody, hstep⟩ := insertFix_redUncle_L M
          rcases fp with ⟨cp, p, kp, pr⟩ | ⟨cp, pl, p, kp⟩
          · have hsh := insertShape_redUncle_pL (p := p) (y := kp) (g := g) (z := kg)
              hw hsw hsb hsc hgw hgb hv2
            exact cont rb1 rest _ _ g kg hbody hstep (by omega) hsh.1 hsh.2
          · have hsh := insertShape_redUncle_pR (p := p) (y := kp) (g := g) (z := kg)
              hw hsw hsb hsc hgw hgb hv2
            exact cont rb1 rest _ _ g kg hbody hstep (by omega) hsh.1 hsh.2
        · have hub := color_ne_red hur
          rcases fp with ⟨cp, p, kp, pr⟩ | ⟨cp, pl, p, kp⟩
          · obtain ⟨rb1, hbody, hstep⟩ := insertFix_blackUncle_LL M hs hub
            exact cont rb1 _ _ _ n k hbody hstep (by simp)
              (insertShape_LL hsw hsb hsc hgw hgb hub hv2) hw
          · simp only [Frame.col] at hred
            subst hred
            obtain ⟨rb1, hbody, hstep⟩ := insertFix_blackUncle_LR M hs hub
            have hsh := insertShape_LR (p := p) (y := kp) (g := g) (z := kg)
              hw hsw hsb hsc hgw hgb hub hv2
            exact cont rb1 _ _ _ p kp hbody hstep (by simp) hsh.1 hsh.2
      · simp only [Frame.col] at hhb
        subst hhb
        simp only [Frame.sib] at hgw hgb
        by_cases hur : u.rootColor = color.red
        · rcases u with _ | ⟨cu, ul, ua, uk, ur⟩
          · simp [Shape.rootColor] at hur
          simp only [Shape.rootColor] at hur
          subst hur
          obtain ⟨rb1, hbody, hstep⟩ := insertFix_redUncle_R M
          rcases fp with ⟨cp, p, kp, pr⟩ | ⟨cp, pl, p, kp⟩
          · have hsh := insertShape_redUncleR_pL (p := p) (y := kp) (g := g) (z := kg)
              hw hsw hsb hsc hgw hgb hv2
            exact cont rb1 rest _ _ g kg hbody hstep (by omega) hsh.1 hsh.2
          · have hsh := insertShape_redUncleR_pR (p := p) (y := kp) (g := g) (z := kg)
              hw hsw hsb hsc hgw hgb hv2
            exact cont rb1 rest _ _ g kg hbody hstep (by omega) hsh.1 hsh.2
        · have hub := color_ne_red hur
          rcases fp with ⟨cp, p, kp, pr⟩ | ⟨cp, pl, p, kp⟩
          · simp only [Frame.col] at hred
            subst hred
            obtain ⟨rb1, hbody, hstep⟩ := insertFix_blackUncle_RL M hs hub
            have hsh := insertShape_RL (p := p) (y := kp) (g := g) (z := kg)
              hw hsw hsb hsc hgw hgb hub hv2
            exact cont rb1 _ _ _ p kp hbody hstep (by simp) hsh.1 hsh.2
          · obtain ⟨rb1, hbody, hstep⟩ := insertFix_blackUncle_RR M hs hub
            exact cont rb1 _ _ _ n k hbody hstep (by simp)
              (insertShape_RR hsw hsb hsc hgw hgb hub hv2) hw

theorem Shape.blacken_valid {t : Shape} (hw : t.wf) : t.blacken.valid := by
  cases t with
  | nil => exact ⟨rfl, hw⟩
  | node c l a k r =>
    simp only [Shape.wf, Shape.noRedRed, Shape.balanced] at hw
    simp only [Shape.blacken, Shape.valid, Shape.wf, Shape.noRedRed, Shape.balanced,
      Shape.rootColor, reduceCtorEq, false_implies, true_and]
    exact ⟨⟨hw.1.2.1, hw.1.2.2⟩, hw.2⟩

theorem Shape.blacken_toList (t : Shape) : t.blacken.toList = t.toList := by
  cases t <;> rfl

theorem ctxTop_irrel : ∀ {ctx : Ctx} (x y : Ptr), ctx ≠ [] → ctxTop ctx x = ctxTop ctx y
  | [], _, _, h => absurd rfl h
  | _ :: _, _, _, _ => rfl

/-- Keys along a placement path: in a tree whose keys are sorted, everything left of the
hole is at most the new key and everything right of it is strictly larger. -/
theorem pathOK_bounds {k : Nat} : ∀ {ctx : Ctx}, pathOK k ctx →
    ((ctxL ctx ++ ctxR ctx).map Prod.snd).Sorted (· ≤ ·) →
    (∀ x ∈ ctxL ctx, x.2 ≤ k) ∧ (∀ x ∈ ctxR ctx, k < x.2)
  | [], _, _ => by simp [ctxL, ctxR]
  | Frame.L c a kf r :: fs, hp, hsrt => by
    have hk : k < kf := hp _ (List.mem_cons_self _ _)
    have hp' : pathOK k fs := fun f hf => hp f (List.mem_cons_of_mem _ hf)
    simp only [ctxL, ctxR, List.map_append, List.map_cons, List.Sorted, List.pairwise_append,
      List.pairwise_cons, List.mem_append, List.mem_cons, List.mem_map] at hsrt ⊢
    obtain ⟨h1, ⟨⟨h2, h3⟩, h4, h5⟩, h6⟩ := hsrt
    have hsub : ((ctxL fs ++ ctxR fs).map Prod.snd).Sorted (· ≤ ·) := by
      simp only [List.map_append, List.Sorted, List.pairwise_append, List.mem_map]
      exact ⟨h1, h4, fun x hx y hy => h6 x hx y (Or.inr hy)⟩
    obtain ⟨ih1, ih2⟩ := pathOK_bounds hp' hsub
    refine ⟨ih1, ?_⟩
    intro x hx
    rcases hx with (rfl | hx) | hx
    · exact hk
    · have := h2 x.2 ⟨x, hx, rfl⟩
      omega
    · exact ih2 x hx
  | Frame.R c l a kf :: fs, hp, hsrt => by
    have hk : kf ≤ k := hp _ (List.mem_cons_self _ _)
    have hp' : pathOK k fs := fun f hf => hp f (List.mem_cons_of_mem _ hf)
    simp only [ctxL, ctxR, List.map_append, List.map_cons, List.map_nil, List.Sorted,
      List.pairwise_append, List.pairwise_cons, List.mem_append, List.mem_cons, List.mem_map,
      List.mem_singleton, List.not_mem_nil, or_false] at hsrt ⊢
    obtain ⟨⟨⟨h1, h2, h3⟩, h4, h5⟩, h6, h7⟩ := hsrt
    have hsub : ((ctxL fs ++ ctxR fs).map Prod.snd).Sorted (· ≤ ·) := by
      simp only [List.map_append, List.Sorted, List.pairwise_append, List.mem_map]
      exact ⟨h1, h6, fun x hx y hy => h7 x (Or.inl (Or.inl hx)) y hy⟩
    obtain ⟨ih1, ih2⟩ := pathOK_bounds hp' hsub
    refine ⟨?_, ih2⟩
    intro x hx
    rcases hx with (hx | hx) | rfl
    · exact ih1 x hx
    · have := h5 x.2 (Or.inr ⟨x, hx, rfl⟩) kf rfl
      omega
    · exact hk

theorem Shape.toList_ne_nil {t : Shape} (h : t.toList ≠ []) :
    ∃ c l a k r, t = Shape.node c l a k r := by
  cases t with
  | nil => exact absurd rfl h
  | node c l a k r => exact ⟨c, l, a, k, r, rfl⟩

/-- `Insert` on a valid tree, with the default placement and a node that is neither
attached nor the sentinel: it returns, the result is a valid tree, the new node sits
behind the nodes with keys up to its own, and nothing else moves. -/
theorem Insert_spec {rb : RBTree} {s : Nat} {q : Ptr} {T : Shape} {n : Nat}
    (M : Models rb s q T) (hv : T.valid) (hs : (rb.heap s).color = color.black)
    (hcb : rb.insertCallBack = InsertValue) (hfresh : n ∉ T.addrs) (hns : n ≠ s)
    {fuel : Nat} (hfuel : T.height < fuel) :
    ∃ rb' q' T', Insert fuel rb (some n) = .ok rb' ∧ Models rb' s q' T' ∧
      InsertPost rb rb' n T T' ∧ (q' = q ∨ q' = none) := by
  rcases T with _ | ⟨c, l, a, k, r⟩
  · -- empty tree: the node becomes the black root
    have hroot : rb.root = rb.sentinel := by rw [M.root_eq, M.sentinel_eq]; rfl
    simp only [Insert, hroot, if_true, setParent_some, setLeft_some, setRight_some,
      setColor_some, bind_ok, pure_eq_ok, Except.ok.injEq]
    refine ⟨_, none, Shape.node color.black Shape.nil n (rb.heap n).key Shape.nil, rfl,
      ⟨?_, ?_, ?_, ?_⟩, ⟨?_, ?_, ?_, ?_, ?_, ?_⟩, Or.inr rfl⟩
    · exact M.sentinel_eq
    · rfl
    · refine ⟨hns, ?_, trivial, trivial⟩
      simp [Heap.set, M.sentinel_eq]
    · simp [Shape.addrs]
    · simp [Shape.valid, Shape.wf, Shape.noRedRed, Shape.balanced, Shape.rootColor]
    · rfl
    · rfl
    · rfl
    · intro x hx
      simp only [Shape.addrs, List.mem_cons, List.not_mem_nil, or_false] at hx
      simp [Heap.set, hx]
    · exact ⟨[], [], rfl, rfl, fun _ => by simp⟩
  · have has : a ≠ s := M.rep.1
    have hne : ¬ rb.root = rb.sentinel := by
      rw [M.root_eq, M.sentinel_eq]; simpa using has
    obtain ⟨ctx', H, hIV, hplug, hrepH, hpath, hne', hlen, hout⟩ :=
      InsertValue_spec (q := q) hns (Shape.node c l a k r) [] rb.heap fuel (by simp)
        M.rep M.nodup hfresh (by intro f hf; cases hf) (by omega)
    simp only [plug_nil, Shape.ptr_node, List.length_nil, Nat.zero_add] at hIV hplug hlen hout
    have hnd1 : (plug ctx' (Shape.node color.red Shape.nil n (rb.heap n).key
        Shape.nil)).addrs.Nodup := by
      have h1 := M.nodup
      have h2 := hfresh
      rw [← hplug, plug_nodup] at h1
      rw [← hplug, mem_plug_addrs] at h2
      rw [plug_nodup]
      simp only [Shape.addrs, List.nil_append, List.not_mem_nil, false_or, List.cons_append,
        List.nodup_cons] at h1 h2 ⊢
      exact ⟨h2, h1⟩
    obtain ⟨hcv, -, -⟩ := valid_plug ctx' Shape.nil (hplug ▸ hv)
    have hroot1 : rb.root = (plug ctx' (Shape.node color.red Shape.nil n (rb.heap n).key
        Shape.nil)).ptr s := by
      rw [M.root_eq, ← hplug, plug_ptr, plug_ptr]
      exact ctxTop_irrel _ _ hne'
    have M1 : Models { size := (rb.size + 1) % 2 ^ 32, root := rb.root, sentinel := rb.sentinel,
                       insertCallBack := rb.insertCallBack, heap := H } s q
        (plug ctx' (Shape.node color.red Shape.nil n (rb.heap n).key Shape.nil)) :=
      ⟨M.sentinel_eq, hroot1, hrepH, hnd1⟩
    have hsH : H s = rb.heap s := hout s (by
      simp only [List.mem_cons, not_or]
      exact ⟨fun e => hns e.symm, Rep_not_sentinel M.rep⟩)
    obtain ⟨rb2, n2, T2, hloop, hstep, hw2, -⟩ := insertFixLoop_spec ctx'.length ctx' _ Shape.nil
      Shape.nil n (rb.heap n).key fuel (le_refl _) (by omega) M1 (by simpa [hsH] using hs)
      (by simpa [Shape.bh] using hcv)
      (by simp [Shape.wf, Shape.noRedRed, Shape.balanced, Shape.rootColor])
    have hT2 : T2.toList = ctxL ctx' ++ (n, (rb.heap n).key) :: ctxR ctx' := by
      rw [hstep.toList_eq, plug_toList]; simp [Shape.toList]
    obtain ⟨c2, l2, a2, k2, r2, rfl⟩ := Shape.toList_ne_nil (t := T2) (by rw [hT2]; simp)
    have M2 := hstep.models
    have L3 := Lay.recolor (C := []) color.black M2.lay
    have hroot2 : rb2.root = some a2 := M2.root_eq
    refine ⟨{ rb2 with heap := rb2.heap.recolor a2 color.black }, q,
      Shape.node color.black l2 a2 k2 r2, ?_, M2.withLay rfl L3, ⟨?_, ?_, ?_, ?_, ?_, ?_⟩,
      Or.inl rfl⟩
    · have hIV' : rb.insertCallBack fuel rb.heap rb.root (some n) rb.sentinel = .ok H := by
        rw [hcb, M.root_eq, M.sentinel_eq]; exact hIV
      simp only [Insert, hne, if_false, hIV', bind_ok, hloop, hroot2, setColor_recolor,
        pure_eq_ok]
    · exact Shape.blacken_valid hw2
    · exact hstep.keeps.size_eq
    · exact hstep.keeps.icb_eq
    · exact hstep.keeps.sentinel_eq
    · intro x hx
      have hx1 : x ∉ (plug ctx' (Shape.node color.red Shape.nil n (rb.heap n).key
          Shape.nil)).addrs := by
        rw [mem_plug_addrs]
        simp only [List.mem_cons, not_or] at hx
        rw [← hplug, mem_plug_addrs] at hx
        simpa [Shape.addrs] using hx
      have hx2 : x ≠ a2 := by
        rintro rfl
        apply hx1
        rw [← Shape.addrs_congr hstep.toList_eq]
        simp [Shape.addrs]
      show rb2.heap.recolor a2 color.black x = rb.heap x
      rw [Heap.recolor_other _ _ _ _ hx2, hstep.keeps.outside x hx1]
      exact hout x hx
    · refine ⟨ctxL ctx', ctxR ctx', ?_, hT2, fun hsrt => pathOK_bounds hpath ?_⟩
      · rw [← hplug, plug_toList]; simp [Shape.toList]
      · rw [Shape.keys_eq_map, ← hplug, plug_toList] at hsrt
        simpa [Shape.toList] using hsrt

/-- The traversal of a laid-out subtree appends its keys, left to right, as soon as the
fuel exceeds its height. -/
theorem PreOrder_spec {h : Heap} {s : Nat} : ∀ (t : Shape) (q : Ptr) (fuel : Nat)
    (acc : List Nat), Rep h s q t → t.height < fuel →
    PreOrder fuel h (t.ptr s) (some s) acc = .ok (acc ++ t.keys)
  | Shape.nil, _, fuel + 1, acc, _, _ => by
    simp [PreOrder, Shape.keys]
  | Shape.node c l a k r, q, fuel + 1, acc, hr, hf => by
    obtain ⟨has, hrec, hl, hrr⟩ := hr
    simp only [Shape.height] at hf
    have h1 := PreOrder_spec l (some a) fuel acc hl (by
      have := Nat.le_max_left l.height r.height; omega)
    have h2 := PreOrder_spec r (some a) fuel (acc ++ l.keys ++ [k]) hrr (by
      have := Nat.le_max_right l.height r.height; omega)
    simp only [List.append_assoc, List.singleton_append] at h2
    simp [PreOrder, has, hrec, h1, h2, Shape.keys]

/-- C1. Insert preserves red-black validity: on every valid tree, laid out as some shape
`T` with sentinel `s`, using the default placement `InsertValue`, and for every node `n`
that is not attached and is not the sentinel (as every freshly constructed node is),
`Insert` returns for every fuel above the height of the tree and the resulting tree is
again valid. -/
theorem C1_insert_preserves_validity (rb : RBTree) (s : Nat) (T : Shape) (n : Nat)
    (hv : ValidRB rb s T) (hcb : rb.insertCallBack = InsertValue)
    (hfresh : n ∉ T.addrs) (hns : n ≠ s) (fuel : Nat) (hfuel : T.height < fuel) :
    ∃ rb' T', Insert fuel rb (some n) = .ok rb' ∧ ValidRB rb' s T' := by
  obtain ⟨⟨q, M⟩, hs, hval⟩ := hv
  obtain ⟨rb', q', T', hins, M', post, -⟩ := Insert_spec M hval hs hcb hfresh hns hfuel
  refine ⟨rb', T', hins, ⟨q', M'⟩, ?_, post.valid⟩
  rw [post.outside s (by
    simp only [List.mem_cons, not_or]
    exact ⟨fun e => hns e.symm, Rep_not_sentinel M.rep⟩)]
  exact hs

theorem sampleTree_valid :
    ValidRB sampleTree 0 (Shape.node color.black Shape.nil 1 5 Shape.nil) := by
  refine ⟨⟨none, rfl, rfl, ?_, ?_⟩, ?_, ?_⟩
  · simp [Rep, sampleTree, Heap.set, blankHeap, NewNode]
  · simp [Shape.addrs]
  · simp [sampleTree, Heap.set, blankHeap, NewNode]
  · simp [Shape.valid, Shape.wf, Shape.noRedRed, Shape.balanced, Shape.rootColor]

/-- C6. The concrete scenario of the test: inserting keys `[1, 9, 9, 3, 1, 18, 1, 26, 4,
12]` in that order gives the traversal `[1, 1, 1, 3, 4, 9, 9, 12, 18, 26]`; the root is
black with child keys 1 and 18, `root.left` is red with child keys 1 and 3,
`root.left.right` is black with child keys 1 and 4, `root.right` is red with child keys 9
and 26, and `root.right.left` is black with left child the sentinel (key 0) and right
child key 12. -/
theorem C6_custom_scenario :
    ∃ rb, testInsert 10 blankHeap 0 customNodes = .ok rb ∧
      PreOrder 10 rb.heap rb.root rb.sentinel [] = .ok [1, 1, 1, 3, 4, 9, 9, 12, 18, 26] ∧
      check rb.heap rb.root = .ok (color.black, 1, 18) ∧
      (getLeft rb.heap rb.root >>= check rb.heap) = .ok (color.red, 1, 3) ∧
      (getLeft rb.heap rb.root >>= getRight rb.heap >>= check rb.heap)
        = .ok (color.black, 1, 4) ∧
      (getRight rb.heap rb.root >>= check rb.heap) = .ok (color.red, 9, 26) ∧
      (getRight rb.heap rb.root >>= getLeft rb.heap >>= check rb.heap)
        = .ok (color.black, 0, 12) ∧
      (getRight rb.heap rb.root >>= getLeft rb.heap >>= getLeft rb.heap) = .ok rb.sentinel :=
  ⟨_, rfl, rfl, rfl, rfl, rfl, rfl, rfl, rfl⟩

@[simp] theorem getParent_recolor (h : Heap) (a : Nat) (c : color) (x : Ptr) :
    getParent (h.recolor a c) x = getParent h x := by
  cases x <;> simp [getParent, load]

@[simp] theorem getLeft_recolor (h : Heap) (a : Nat) (c : color) (x : Ptr) :
    getLeft (h.recolor a c) x = getLeft h x := by
  cases x <;> simp [getLeft, load]

@[simp] theorem getRight_recolor (h : Heap) (a : Nat) (c : color) (x : Ptr) :
    getRight (h.recolor a c) x = getRight h x := by
  cases x <;> simp [getRight, load]

/-- Reading the parent link through the cursor pointer. -/
theorem cursor_parent {h : Heap} {s : Nat} {q : Ptr} {C : Ctx} {X : Shape}
    (hl : Lay h s q (plug C X)) (hc : CursorPar h s q C X) :
    getParent h (X.ptr s) = .ok (ctxPar q C) := by
  cases X with
  | nil => simp [hc rfl]
  | node c l a k r => simp [hl.record_at]

theorem CursorPar.of_eq {h h' : Heap} {s : Nat} {q : Ptr} {C D : Ctx} {X : Shape}
    (hc : CursorPar h s q C X) (hs : h' s = h s) (hp : ctxPar q D = ctxPar q C) :
    CursorPar h' s q D X := by
  intro e
  rw [hs, hp]
  exact hc e

/-- Delete fixup, cursor on the left, red sibling: recolour sibling and parent and rotate
the parent to the left; the new sibling is the former left child of the old one. -/
theorem deleteCase1L_red {rb : RBTree} {s : Nat} {q : Ptr} {rest : Ctx} {X wl wr : Shape}
    {cp : color} {p kp w wk : Nat}
    (M : Models rb s q (plug (Frame.L cp p kp (Shape.node color.red wl w wk wr) :: rest) X))
    (hc : CursorPar rb.heap s q (Frame.L cp p kp (Shape.node color.red wl w wk wr) :: rest) X) :
    ∃ rb', deleteCase1L rb (X.ptr s) (some w) = .ok (rb', wl.ptr s) ∧
      Step rb rb' s q
        (plug (Frame.L cp p kp (Shape.node color.red wl w wk wr) :: rest) X)
        (plug (Frame.L color.red p kp wl :: Frame.L color.black w wk wr :: rest) X) := by
  have L0 := M.lay
  have hw := Lay.record_at (C := Frame.R cp X p kp :: rest) (a := w) L0
  have hpar := cursor_parent L0 hc
  simp only [ctxPar_cons, Frame.addr] at hw hpar
  have L1 := Lay.recolor (C := Frame.R cp X p kp :: rest) (a := w) color.black L0
  have L2 := Lay.recolor (C := rest) (a := p) color.red L1
  have M2 : Models { rb with heap := (rb.heap.recolor w color.black).recolor p color.red } s q
      (plug rest (Shape.node color.red X p kp (Shape.node color.black wl w wk wr))) :=
    M.withLay (by simp [plug_ptr, Frame.addr]) L2
  obtain ⟨rb3, hrot, M3, K3⟩ := leftRotate_spec M2
  have K : Keeps rb rb3 (plug (Frame.L cp p kp (Shape.node color.red wl w wk wr) :: rest)
      X).addrs := by
    refine Keeps.chain (Keeps.of_heap rb (A := (plug (Frame.L cp p kp
      (Shape.node color.red wl w wk wr) :: rest) X).addrs) ?_) K3
      (fun _ h => h) (fun x hx => ?_)
    · intro x hx
      rw [Heap.recolor_outside _ (by simp [mem_plug_addrs, Shape.addrs, ctxAddrs, Frame.addr,
          Frame.sib]) _ x hx,
        Heap.recolor_outside _ (by simp [mem_plug_addrs, Shape.addrs, ctxAddrs, Frame.addr,
          Frame.sib]) _ x hx]
    · rw [mem_plug_addrs] at hx ⊢
      simp only [Shape.addrs, ctxAddrs, Frame.addr, Frame.sib, List.mem_append, List.mem_cons]
        at hx ⊢
      tauto
  have hc3 : CursorPar rb3.heap s q (Frame.L color.red p kp wl ::
      Frame.L color.black w wk wr :: rest) X :=
    hc.of_eq (K.outside s (Rep_not_sentinel M.rep)) rfl
  have hpar3 := cursor_parent (C := Frame.L color.red p kp wl ::
      Frame.L color.black w wk wr :: rest) M3.lay hc3
  have hp3 := Lay.record_at (C := Frame.L color.black w wk wr :: rest) (a := p) M3.lay
  simp only [ctxPar_cons, Frame.addr] at hpar3 hp3
  refine ⟨rb3, ?_, M3, ?_, K⟩
  · simp [deleteCase1L, hw, hpar, hrot, hpar3, hp3]
  · rw [plug_cons, plug_cons, plug_cons]
    apply plug_toList_congr
    simp [Frame.fill, Shape.toList]

/-- Delete fixup, cursor on the left, black sibling: lines 275-280 do nothing. -/
theorem deleteCase1L_black {rb : RBTree} {s : Nat} {q : Ptr} {rest : Ctx} {X wl wr : Shape}
    {cp : color} {p kp w wk : Nat}
    (M : Models rb s q (plug (Frame.L cp p kp (Shape.node color.black wl w wk wr) :: rest) X)) :
    deleteCase1L rb (X.ptr s) (some w) = .ok (rb, some w) := by
  have hw := Lay.record_at (C := Frame.R cp X p kp :: rest) (a := w) M.lay
  simp [deleteCase1L, hw]

/-- The test on the children of the sibling. -/
theorem bothBlack_spec {h : Heap} {s : Nat} {q : Ptr} {C : Ctx} {cw : color} {wl wr : Shape}
    {w wk : Nat} (hl : Lay h s q (plug C (Shape.node cw wl w wk wr)))
    (hs : (h s).color = color.black) :
    bothBlack h (some w) = .ok (decide (wl.rootColor = color.black) &&
      decide (wr.rootColor = color.black)) := by
  have hw := hl.record_at
  have h1 := Lay.judgeColor_ptr (C := Frame.L cw w wk wr :: C) (t := wl) hl hs color.black
  have h2 := Lay.judgeColor_ptr (C := Frame.R cw wl w wk :: C) (t := wr) hl hs color.black
  by_cases hb : wl.rootColor = color.black <;> simp [bothBlack, hw, h1, h2, hb]

/-- Delete fixup, cursor on the left, black sibling with two black children: the sibling
becomes red and the cursor moves to the parent. -/
theorem deleteCase2_L {rb : RBTree} {s : Nat} {q : Ptr} {rest : Ctx} {X wl wr : Shape}
    {cp cw : color} {p kp w wk : Nat}
    (M : Models rb s q (plug (Frame.L cp p kp (Shape.node cw wl w wk wr) :: rest) X))
    (hc : CursorPar rb.heap s q (Frame.L cp p kp (Shape.node cw wl w wk wr) :: rest) X) :
    ∃ rb', deleteCase2 rb (X.ptr s) (some w) = .ok (rb', some p) ∧
      Step rb rb' s q
        (plug (Frame.L cp p kp (Shape.node cw wl w wk wr) :: rest) X)
        (plug rest (Shape.node cp X p kp (Shape.node color.red wl w wk wr))) := by
  have L0 := M.lay
  have hpar := cursor_parent L0 hc
  simp only [ctxPar_cons, Frame.addr] at hpar
  have L1 := Lay.recolor (C := Frame.R cp X p kp :: rest) (a := w) color.red L0
  refine ⟨{ rb with heap := rb.heap.recolor w color.red }, ?_,
    M.withLay (by simp [plug_ptr, Frame.addr]) L1, ?_, Keeps.of_heap rb ?_⟩
  · simp [deleteCase2, hpar]
  · rw [plug_cons]
    apply plug_toList_congr
    simp [Frame.fill, Shape.toList]
  · exact Heap.recolor_outside _ (by simp [mem_plug_addrs, Shape.addrs, ctxAddrs, Frame.addr,
      Frame.sib]) _

/-- Delete fixup, cursor on the left, black sibling whose right child is black and whose
left child is red: recolour and rotate the sibling to the right. -/
theorem deleteCase3L_rot {rb : RBTree} {s : Nat} {q : Ptr} {rest : Ctx}
    {X wll wlr wr : Shape} {cp cw cl : color} {p kp w wk a k : Nat}
    (M : Models rb s q (plug (Frame.L cp p kp
      (Shape.node cw (Shape.node cl wll a k wlr) w wk wr) :: rest) X))
    (hc : CursorPar rb.heap s q (Frame.L cp p kp
      (Shape.node cw (Shape.node cl wll a k wlr) w wk wr) :: rest) X)
    (hs : (rb.heap s).color = color.black) (hwr : wr.rootColor = color.black) :
    ∃ rb', deleteCase3L rb (X.ptr s) (some w) = .ok (rb', some a) ∧
      Step rb rb' s q
        (plug (Frame.L cp p kp (Shape.node cw (Shape.node cl wll a k wlr) w wk wr) :: rest) X)
        (plug (Frame.L cp p kp (Shape.node color.black wll a k
          (Shape.node color.red wlr w wk wr)) :: rest) X) := by
  have L0 := M.lay
  have hw := Lay.record_at (C := Frame.R cp X p kp :: rest) (a := w) L0
  have hj := Lay.judgeColor_ptr (C := Frame.R cw (Shape.node cl wll a k wlr) w wk ::
    Frame.R cp X p kp :: rest) (t := wr) L0 hs color.black
  simp only [ctxPar_cons, Frame.addr, Shape.ptr_node, hwr] at hw hj
  have L1 := Lay.recolor (C := Frame.L cw w wk wr :: Frame.R cp X p kp :: rest) (a := a)
    color.black L0
  have L2 := Lay.recolor (C := Frame.R cp X p kp :: rest) (a := w) color.red L1
  have M2 : Models { rb with heap := (rb.heap.recolor a color.black).recolor w color.red } s q
      (plug (Frame.R cp X p kp :: rest) (Shape.node color.red
        (Shape.node color.black wll a k wlr) w wk wr)) :=
    M.withLay (by simp [plug_ptr, Frame.addr]) L2
  obtain ⟨rb3, hrot, M3, K3⟩ := rightRotate_spec M2
  have K : Keeps rb rb3 (plug (Frame.L cp p kp
      (Shape.node cw (Shape.node cl wll a k wlr) w wk wr) :: rest) X).addrs := by
    refine Keeps.chain (Keeps.of_heap rb (A := (plug (Frame.L cp p kp
      (Shape.node cw (Shape.node cl wll a k wlr) w wk wr) :: rest) X).addrs) ?_) K3
      (fun _ h => h) (fun x hx => ?_)
    · intro x hx
      rw [Heap.recolor_outside _ (by simp [mem_plug_addrs, Shape.addrs, ctxAddrs, Frame.addr,
          Frame.sib]) _ x hx,
        Heap.recolor_outside _ (by simp [mem_plug_addrs, Shape.addrs, ctxAddrs, Frame.addr,
          Frame.sib]) _ x hx]
    · rw [mem_plug_addrs] at hx ⊢
      simp only [Shape.addrs, ctxAddrs, Frame.addr, Frame.sib, List.mem_append, List.mem_cons]
        at hx ⊢
      tauto
  have hc3 : CursorPar rb3.heap s q (Frame.L cp p kp (Shape.node color.black wll a k
      (Shape.node color.red wlr w wk wr)) :: rest) X :=
    hc.of_eq (K.outside s (Rep_not_sentinel M.rep)) rfl
  have hpar3 := cursor_parent (C := Frame.L cp p kp (Shape.node color.black wll a k
      (Shape.node color.red wlr w wk wr)) :: rest) M3.lay hc3
  have hp3 := Lay.record_at (C := rest) (a := p) M3.lay
  simp only [ctxPar_cons, Frame.addr, Frame.fill, Shape.ptr_node] at hpar3 hp3
  refine ⟨rb3, ?_, M3, ?_, K⟩
  · simp [deleteCase3L, hw, hj, hrot, hpar3, hp3]
  · rw [plug_cons, plug_cons]
    apply plug_toList_congr
    simp [Frame.fill, Shape.toList]

/-- Delete fixup, cursor on the left, sibling with a red right child: lines 288-293 do
nothing. -/
theorem deleteCase3L_skip {rb : RBTree} {s : Nat} {q : Ptr} {rest : Ctx} {X wl wr : Shape}
    {cp cw : color} {p kp w wk : Nat}
    (M : Models rb s q (plug (Frame.L cp p kp (Shape.node cw wl w wk wr) :: rest) X))
    (hs : (rb.heap s).color = color.black) (hwr : wr.rootColor = color.red) :
    deleteCase3L rb (X.ptr s) (some w) = .ok (rb, some w) := by
  have L0 := M.lay
  have hw := Lay.record_at (C := Frame.R cp X p kp :: rest) (a := w) L0
  have hj := Lay.judgeColor_ptr (C := Frame.R cw wl w wk :: Frame.R cp X p kp :: rest)
    (t := wr) L0 hs color.black
  simp only [hwr] at hj
  simp [deleteCase3L, hw, hj]

/-- Delete fixup, cursor on the left, black sibling with a red right child: the sibling
takes the parent's colour, parent and right child become black, the parent is rotated
to the left, and the cursor becomes the root. -/
theorem deleteCase4L_spec {rb : RBTree} {s : Nat} {q : Ptr} {rest : Ctx}
    {X wl wrl wrr : Shape} {cp cw cr : color} {p kp w wk a k : Nat}
    (M : Models rb s q (plug (Frame.L cp p kp
      (Shape.node cw wl w wk (Shape.node cr wrl a k wrr)) :: rest) X))
    (hc : CursorPar rb.heap s q (Frame.L cp p kp
      (Shape.node cw wl w wk (Shape.node cr wrl a k wrr)) :: rest) X) :
    ∃ rb', deleteCase4L rb (X.ptr s) (some w) = .ok (rb', rb'.root) ∧
      Step rb rb' s q
        (plug (Frame.L cp p kp (Shape.node cw wl w wk (Shape.node cr wrl a k wrr)) :: rest) X)
        (plug rest (Shape.node cp (Shape.node color.black X p kp wl) w wk
          (Shape.node color.black wrl a k wrr))) := by
  have L0 := M.lay
  have hw := Lay.record_at (C := Frame.R cp X p kp :: rest) (a := w) L0
  have hp := Lay.record_at (C := rest) (a := p) L0
  have hpar := cursor_parent L0 hc
  simp only [ctxPar_cons, Frame.addr, Shape.ptr_node, Frame.fill] at hw hp hpar
  have L1 := Lay.recolor (C := Frame.R cp X p kp :: rest) (a := w) cp L0
  have L2 := Lay.recolor (C := rest) (a := p) color.black L1
  have L3 := Lay.recolor (C := Frame.R cp wl w wk :: Frame.R color.black X p kp :: rest)
    (a := a) color.black L2
  have M3 : Models { rb with heap :=
      ((rb.heap.recolor w cp).recolor p color.black).recolor a color.black } s q
      (plug rest (Shape.node color.black X p kp
        (Shape.node cp wl w wk (Shape.node color.black wrl a k wrr)))) :=
    M.withLay (by simp [plug_ptr, Frame.addr]) L3
  obtain ⟨rb4, hrot, M4, K4⟩ := leftRotate_spec M3
  refine ⟨rb4, ?_, M4, ?_, ?_⟩
  · simp [deleteCase4L, hw, hp, hpar, hrot]
  · rw [plug_cons]
    apply plug_toList_congr
    simp [Frame.fill, Shape.toList]
  · refine Keeps.chain (Keeps.of_heap rb (A := (plug (Frame.L cp p kp
      (Shape.node cw wl w wk (Shape.node cr wrl a k wrr)) :: rest) X).addrs) ?_) K4
      (fun _ h => h) (fun x hx => ?_)
    · intro x hx
      rw [Heap.recolor_outside _ (by simp [mem_plug_addrs, Shape.addrs, ctxAddrs, Frame.addr,
          Frame.sib]) _ x hx,
        Heap.recolor_outside _ (by simp [mem_plug_addrs, Shape.addrs, ctxAddrs, Frame.addr,
          Frame.sib]) _ x hx,
        Heap.recolor_outside _ (by simp [mem_plug_addrs, Shape.addrs, ctxAddrs, Frame.addr,
          Frame.sib]) _ x hx]
    · rw [mem_plug_addrs] at hx ⊢
      simp only [Shape.addrs, ctxAddrs, Frame.addr, Frame.sib, List.mem_append, List.mem_cons]
        at hx ⊢
      tauto

/-- Delete fixup, cursor on the right, red sibling: recolour sibling and parent and rotate
the parent to the right; the new sibling is the former right child of the old one. -/
theorem deleteCase1R_red {rb : RBTree} {s : Nat} {q : Ptr} {rest : Ctx} {X wr wl : Shape}
    {cp : color} {p kp w wk : Nat}
    (M : Models rb s q (plug (Frame.R cp (Shape.node color.red wl w wk wr) p kp :: rest) X))
    (hc : CursorPar rb.heap s q (Frame.R cp (Shape.node color.red wl w wk wr) p kp :: rest) X) :
    ∃ rb', deleteCase1R rb (X.ptr s) (some w) = .ok (rb', wr.ptr s) ∧
      Step rb rb' s q
        (plug (Frame.R cp (Shape.node color.red wl w wk wr) p kp :: rest) X)
        (plug (Frame.R color.red wr p kp :: Frame.R color.black wl w wk :: rest) X) := by
  have L0 := M.lay
  have hw := Lay.record_at (C := Frame.L cp p kp X :: rest) (a := w) L0
  have hpar := cursor_parent L0 hc
  simp only [ctxPar_cons, Frame.addr] at hw hpar
  have L1 := Lay.recolor (C := Frame.L cp p kp X :: rest) (a := w) color.black L0
  have L2 := Lay.recolor (C := rest) (a := p) color.red L1
  have M2 : Models { rb with heap := (rb.heap.recolor w color.black).recolor p color.red } s q
      (plug rest (Shape.node color.red (Shape.node color.black wl w wk wr) p kp X)) :=
    M.withLay (by simp [plug_ptr, Frame.addr]) L2
  obtain ⟨rb3, hrot, M3, K3⟩ := rightRotate_spec M2
  have K : Keeps rb rb3 (plug (Frame.R cp (Shape.node color.red wl w wk wr) p kp :: rest)
      X).addrs := by
    refine Keeps.chain (Keeps.of_heap rb (A := (plug (Frame.R cp (Shape.node color.red wl w wk wr) p
      kp :: rest) X).addrs) ?_) K3
      (fun _ h => h) (fun x hx => ?_)
    · intro x hx
      rw [Heap.recolor_outside _ (by simp [mem_plug_addrs, Shape.addrs, ctxAddrs, Frame.addr,
          Frame.sib]) _ x hx,
        Heap.recolor_outside _ (by simp [mem_plug_addrs, Shape.addrs, ctxAddrs, Frame.addr,
          Frame.sib]) _ x hx]
    · rw [mem_plug_addrs] at hx ⊢
      simp only [Shape.addrs, ctxAddrs, Frame.addr, Frame.sib, List.mem_append, List.mem_cons]
        at hx ⊢
      tauto
  have hc3 : CursorPar rb3.heap s q (Frame.R color.red wr p kp ::
      Frame.R color.black wl w wk :: rest) X :=
    hc.of_eq (K.outside s (Rep_not_sentinel M.rep)) rfl
  have hpar3 := cursor_parent (C := Frame.R color.red wr p kp ::
      Frame.R color.black wl w wk :: rest) M3.lay hc3
  have hp3 := Lay.record_at (C := Frame.R color.black wl w wk :: rest) (a := p) M3.lay
  simp only [ctxPar_cons, Frame.addr] at hpar3 hp3
  refine ⟨rb3, ?_, M3, ?_, K⟩
  · simp [deleteCase1R, hw, hpar, hrot, hpar3, hp3]
  · rw [plug_cons, plug_cons, plug_cons]
    apply plug_toList_congr
    simp [Frame.fill, Shape.toList]

/-- Delete fixup, cursor on the right, black sibling: lines 303-308 do nothing. -/
theorem deleteCase1R_black {rb : RBTree} {s : Nat} {q : Ptr} {rest : Ctx} {X wr wl : Shape}
    {cp : color} {p kp w wk : Nat}
    (M : Models rb s q (plug (Frame.R cp (Shape.node color.black wl w wk wr) p kp :: rest) X)) :
    deleteCase1R rb (X.ptr s) (some w) = .ok (rb, some w) := by
  have hw := Lay.record_at (C := Frame.L cp p kp X :: rest) (a := w) M.lay
  simp [deleteCase1R, hw]

/-- Delete fixup, cursor on the right, black sibling with two black children: the sibling
becomes red and the cursor moves to the parent. -/
theorem deleteCase2_R {rb : RBTree} {s : Nat} {q : Ptr} {rest : Ctx} {X wr wl : Shape}
    {cp cw : color} {p kp w wk : Nat}
    (M : Models rb s q (plug (Frame.R cp (Shape.node cw wl w wk wr) p kp :: rest) X))
    (hc : CursorPar rb.heap s q (Frame.R cp (Shape.node cw wl w wk wr) p kp :: rest) X) :
    ∃ rb', deleteCase2 rb (X.ptr s) (some w) = .ok (rb', some p) ∧
      Step rb rb' s q
        (plug (Frame.R cp (Shape.node cw wl w wk wr) p kp :: rest) X)
        (plug rest (Shape.node cp (Shape.node color.red wl w wk wr) p kp X)) := by
  have L0 := M.lay
  have hpar := cursor_parent L0 hc
  simp only [ctxPar_cons, Frame.addr] at hpar
  have L1 := Lay.recolor (C := Frame.L cp p kp X :: rest) (a := w) color.red L0
  refine ⟨{ rb with heap := rb.heap.recolor w color.red }, ?_,
    M.withLay (by simp [plug_ptr, Frame.addr]) L1, ?_, Keeps.of_heap rb ?_⟩
  · simp [deleteCase2, hpar]
  · rw [plug_cons]
    apply plug_toList_congr
    simp [Frame.fill, Shape.toList]
  · exact Heap.recolor_outside _ (by simp [mem_plug_addrs, Shape.addrs, ctxAddrs, Frame.addr,
      Frame.sib]) _

/-- Delete fixup, cursor on the right, black sibling whose left child is black and whose
right child is red: recolour and rotate the sibling to the left. -/
theorem deleteCase3R_rot {rb : RBTree} {s : Nat} {q : Ptr} {rest : Ctx}
    {X wrr wrl wl : Shape} {cp cw cl : color} {p kp w wk a k : Nat}
    (M : Models rb s q (plug (Frame.R cp (Shape.node cw wl w wk (Shape.node cl wrl a k wrr)) p
      kp :: rest) X))
    (hc : CursorPar rb.heap s q (Frame.R cp (Shape.node cw wl w wk (Shape.node cl wrl a k wrr)) p
      kp :: rest) X)
    (hs : (rb.heap s).color = color.black) (hwl : wl.rootColor = color.black) :
    ∃ rb', deleteCase3R rb (X.ptr s) (some w) = .ok (rb', some a) ∧
      Step rb rb' s q
        (plug (Frame.R cp (Shape.node cw wl w wk (Shape.node cl wrl a k wrr)) p kp :: rest) X)
        (plug (Frame.R cp (Shape.node color.black (Shape.node color.red wl w wk wrl) a k
          wrr) p kp :: rest) X) := by
  have L0 := M.lay
  have hw := Lay.record_at (C := Frame.L cp p kp X :: rest) (a := w) L0
  have hj := Lay.judgeColor_ptr (C := Frame.L cw w wk (Shape.node cl wrl a k wrr) ::
    Frame.L cp p kp X :: rest) (t := wl) L0 hs color.black
  simp only [ctxPar_cons, Frame.addr, Shape.ptr_node, hwl] at hw hj
  have L1 := Lay.recolor (C := Frame.R cw wl w wk :: Frame.L cp p kp X :: rest) (a := a)
    color.black L0
  have L2 := Lay.recolor (C := Frame.L cp p kp X :: rest) (a := w) color.red L1
  have M2 : Models { rb with heap := (rb.heap.recolor a color.black).recolor w color.red } s q
      (plug (Frame.L cp p kp X :: rest) (Shape.node color.red
        wl w wk (Shape.node color.black wrl a k wrr))) :=
    M.withLay (by simp [plug_ptr, Frame.addr]) L2
  obtain ⟨rb3, hrot, M3, K3⟩ := leftRotate_spec M2
  have K : Keeps rb rb3 (plug (Frame.R cp (Shape.node cw wl w wk (Shape.node cl wrl a k wrr)) p
      kp :: rest) X).addrs := by
    refine Keeps.chain (Keeps.of_heap rb (A := (plug (Frame.R cp (Shape.node cw wl w wk (Shape.node cl wrl a k wrr)) p
      kp :: rest) X).addrs) ?_) K3
      (fun _ h => h) (fun x hx => ?_)
    · intro x hx
      rw [Heap.recolor_outside _ (by simp [mem_plug_addrs, Shape.addrs, ctxAddrs, Frame.addr,
          Frame.sib]) _ x hx,
        Heap.recolor_outside _ (by simp [mem_plug_addrs, Shape.addrs, ctxAddrs, Frame.addr,
          Frame.sib]) _ x hx]
    · rw [mem_plug_addrs] at hx ⊢
      simp only [Shape.addrs, ctxAddrs, Frame.addr, Frame.sib, List.mem_append, List.mem_cons]
        at hx ⊢
      tauto
  have hc3 : CursorPar rb3.heap s q (Frame.R cp (Shape.node color.black (Shape.node color.red wl w wk wrl) a k
      wrr) p kp :: rest) X :=
    hc.of_eq (K.outside s (Rep_not_sentinel M.rep)) rfl
  have hpar3 := cursor_parent (C := Frame.R cp (Shape.node color.black (Shape.node color.red wl w wk wrl) a k
      wrr) p kp :: rest) M3.lay hc3
  have hp3 := Lay.record_at (C := rest) (a := p) M3.lay
  simp only [ctxPar_cons, Frame.addr, Frame.fill, Shape.ptr_node] at hpar3 hp3
  refine ⟨rb3, ?_, M3, ?_, K⟩
  · simp [deleteCase3R, hw, hj, hrot, hpar3, hp3]
  · rw [plug_cons, plug_cons]
    apply plug_toList_congr
    simp [Frame.fill, Shape.toList]

/-- Delete fixup, cursor on the right, sibling with a red left child: lines 316-321 do
nothing. -/
theorem deleteCase3R_skip {rb : RBTree} {s : Nat} {q : Ptr} {rest : Ctx} {X wr wl : Shape}
    {cp cw : color} {p kp w wk : Nat}
    (M : Models rb s q (plug (Frame.R cp (Shape.node cw wl w wk wr) p kp :: rest) X))
    (hs : (rb.heap s).color = color.black) (hwl : wl.rootColor = color.red) :
    deleteCase3R rb (X.ptr s) (some w) = .ok (rb, some w) := by
  have L0 := M.lay
  have hw := Lay.record_at (C := Frame.L cp p kp X :: rest) (a := w) L0
  have hj := Lay.judgeColor_ptr (C := Frame.L cw w wk wr :: Frame.L cp p kp X :: rest)
    (t := wl) L0 hs color.black
  simp only [hwl] at hj
  simp [deleteCase3R, hw, hj]

/-- Delete fixup, cursor on the right, black sibling with a red left child: the sibling
takes the parent's colour, parent and left child become black, the parent is rotated
to the right, and the cursor becomes the root. -/
theorem deleteCase4R_spec {rb : RBTree} {s : Nat} {q : Ptr} {rest : Ctx}
    {X wr wlr wll : Shape} {cp cw cr : color} {p kp w wk a k : Nat}
    (M : Models rb s q (plug (Frame.R cp (Shape.node cw (Shape.node cr wll a k wlr) w wk wr) p
      kp :: rest) X))
    (hc : CursorPar rb.heap s q (Frame.R cp (Shape.node cw (Shape.node cr wll a k wlr) w wk wr) p
      kp :: rest) X) :
    ∃ rb', deleteCase4R rb (X.ptr s) (some w) = .ok (rb', rb'.root) ∧
      Step rb rb' s q
        (plug (Frame.R cp (Shape.node cw (Shape.node cr wll a k wlr) w wk wr) p kp :: rest) X)
        (plug rest (Shape.node cp (Shape.node color.black wll a k wlr) w wk
          (Shape.node color.black wr p kp X))) := by
  have L0 := M.lay
  have hw := Lay.record_at (C := Frame.L cp p kp X :: rest) (a := w) L0
  have hp := Lay.record_at (C := rest) (a := p) L0
  have hpar := cursor_parent L0 hc
  simp only [ctxPar_cons, Frame.addr, Shape.ptr_node, Frame.fill] at hw hp hpar
  have L1 := Lay.recolor (C := Frame.L cp p kp X :: rest) (a := w) cp L0
  have L2 := Lay.recolor (C := rest) (a := p) color.black L1
  have L3 := Lay.recolor (C := Frame.L cp w wk wr :: Frame.L color.black p kp X :: rest)
    (a := a) color.black L2
  have M3 : Models { rb with heap :=
      ((rb.heap.recolor w cp).recolor p color.black).recolor a color.black } s q
      (plug rest (Shape.node color.black (Shape.node cp (Shape.node color.black wll a k wlr) w wk wr) p kp
        X)) :=
    M.withLay (by simp [plug_ptr, Frame.addr]) L3
  obtain ⟨rb4, hrot, M4, K4⟩ := rightRotate_spec M3
  refine ⟨rb4, ?_, M4, ?_, ?_⟩
  · simp [deleteCase4R, hw, hp, hpar, hrot]
  · rw [plug_cons]
    apply plug_toList_congr
    simp [Frame.fill, Shape.toList]
  · refine Keeps.chain (Keeps.of_heap rb (A := (plug (Frame.R cp (Shape.node cw (Shape.node cr wll a k wlr) w wk wr) p
      kp :: rest) X).addrs) ?_) K4
      (fun _ h => h) (fun x hx => ?_)
    · intro x hx
      rw [Heap.recolor_outside _ (by simp [mem_plug_addrs, Shape.addrs, ctxAddrs, Frame.addr,
          Frame.sib]) _ x hx,
        Heap.recolor_outside _ (by simp [mem_plug_addrs, Shape.addrs, ctxAddrs, Frame.addr,
          Frame.sib]) _ x hx,
        Heap.recolor_outside _ (by simp [mem_plug_addrs, Shape.addrs, ctxAddrs, Frame.addr,
          Frame.sib]) _ x hx]
    · rw [mem_plug_addrs] at hx ⊢
      simp only [Shape.addrs, ctxAddrs, Frame.addr, Frame.sib, List.mem_append, List.mem_cons]
        at hx ⊢
      tauto

theorem Shape.wf_of_blacken {X : Shape} (hb : X.rootColor = color.black)
    (hw : X.blacken.wf) : X.wf := by
  cases X with
  | nil => exact hw
  | node c l a k r =>
    simp only [Shape.rootColor] at hb
    subst hb
    exact hw

theorem Shape.blacken_wf {X : Shape} (hw : X.wf) : X.blacken.wf :=
  (Shape.blacken_valid hw).2

theorem Step.cursor {rb rb' : RBTree} {s : Nat} {q : Ptr} {T T' : Shape} {C D : Ctx} {X : Shape}
    (h : Step rb rb' s q T T') (M : Models rb s q T) (hc : CursorPar rb.heap s q C X)
    (hp : ctxPar q D = ctxPar q C) : CursorPar rb'.heap s q D X :=
  hc.of_eq (h.sentinel M) hp

/-! ### Shape bookkeeping for the delete fixup -/

theorem deleteShape_case2 {rest : Ctx} {X wl wr : Shape} {cp : color} {p kp w wk : Nat}
    (hX : X.wf) (hXb : X.rootColor = color.black)
    (hW : (Shape.node color.black wl w wk wr).wf)
    (hWb : (Shape.node color.black wl w wk wr).bh = X.bh + 1)
    (hl : wl.rootColor = color.black) (hr : wr.rootColor = color.black)
    (hv : ctxValid rest (X.bh + 1 + (if cp = color.black then 1 else 0))) :
    (Shape.node cp X p kp (Shape.node color.red wl w wk wr)).blacken.wf ∧
      ctxValid rest ((Shape.node cp X p kp (Shape.node color.red wl w wk wr)).bh + 1) := by
  simp_all [Shape.wf, Shape.noRedRed, Shape.balanced, Shape.bh, Shape.rootColor, Shape.blacken]
  cases cp <;> simp_all [Nat.add_comm]

theorem deleteShape_case2_R {rest : Ctx} {X wl wr : Shape} {cp : color} {p kp w wk : Nat}
    (hX : X.wf) (hXb : X.rootColor = color.black)
    (hW : (Shape.node color.black wl w wk wr).wf)
    (hWb : (Shape.node color.black wl w wk wr).bh = X.bh + 1)
    (hl : wl.rootColor = color.black) (hr : wr.rootColor = color.black)
    (hv : ctxValid rest (X.bh + 1 + (if cp = color.black then 1 else 0))) :
    (Shape.node cp (Shape.node color.red wl w wk wr) p kp X).blacken.wf ∧
      ctxValid rest ((Shape.node cp (Shape.node color.red wl w wk wr) p kp X).bh + 1) := by
  simp_all [Shape.wf, Shape.noRedRed, Shape.balanced, Shape.bh, Shape.rootColor, Shape.blacken]
  cases cp <;> simp_all [Nat.add_comm]

theorem deleteShape_case4 {rest : Ctx} {X wl wrl wrr : Shape} {cp : color}
    {p kp w wk a k : Nat}
    (hX : X.wf) (hW : (Shape.node color.black wl w wk (Shape.node color.red wrl a k wrr)).wf)
    (hWb : (Shape.node color.black wl w wk (Shape.node color.red wrl a k wrr)).bh = X.bh + 1)
    (hv : ctxValid rest (X.bh + 1 + (if cp = color.black then 1 else 0)))
    (hcp : cp = color.red → headBlack rest) :
    (plug rest (Shape.node cp (Shape.node color.black X p kp wl) w wk
      (Shape.node color.black wrl a k wrr))).valid := by
  apply plug_valid
  · simpa [Shape.bh] using hv
  · simp_all [Shape.wf, Shape.noRedRed, Shape.balanced, Shape.bh, Shape.rootColor]
  · cases cp
    · exact Or.inl (hcp rfl)
    · exact Or.inr rfl

theorem deleteShape_case34 {rest : Ctx} {X wll wlr wr : Shape} {cp : color}
    {p kp w wk a k : Nat}
    (hX : X.wf) (hW : (Shape.node color.black (Shape.node color.red wll a k wlr) w wk wr).wf)
    (hWb : (Shape.node color.black (Shape.node color.red wll a k wlr) w wk wr).bh = X.bh + 1)
    (hwr : wr.rootColor = color.black)
    (hv : ctxValid rest (X.bh + 1 + (if cp = color.black then 1 else 0)))
    (hcp : cp = color.red → headBlack rest) :
    (plug rest (Shape.node cp (Shape.node color.black X p kp wll) a k
      (Shape.node color.black wlr w wk wr))).valid := by
  apply plug_valid
  · simpa [Shape.bh] using hv
  · simp_all [Shape.wf, Shape.noRedRed, Shape.balanced, Shape.bh, Shape.rootColor]
  · cases cp
    · exact Or.inl (hcp rfl)
    · exact Or.inr rfl

theorem deleteShape_case4_R {rest : Ctx} {X wr wll wlr : Shape} {cp : color}
    {p kp w wk a k : Nat}
    (hX : X.wf) (hW : (Shape.node color.black (Shape.node color.red wll a k wlr) w wk wr).wf)
    (hWb : (Shape.node color.black (Shape.node color.red wll a k wlr) w wk wr).bh = X.bh + 1)
    (hv : ctxValid rest (X.bh + 1 + (if cp = color.black then 1 else 0)))
    (hcp : cp = color.red → headBlack rest) :
    (plug rest (Shape.node cp (Shape.node color.black wll a k wlr) w wk
      (Shape.node color.black wr p kp X))).valid := by
  apply plug_valid
  · have hb : wll.bh = X.bh := by simpa [Shape.bh] using hWb
    simpa [Shape.bh, hb] using hv
  · simp_all [Shape.wf, Shape.noRedRed, Shape.balanced, Shape.bh, Shape.rootColor]
  · cases cp
    · exact Or.inl (hcp rfl)
    · exact Or.inr rfl

theorem deleteShape_case34_R {rest : Ctx} {X wl wrl wrr : Shape} {cp : color}
    {p kp w wk a k : Nat}
    (hX : X.wf) (hW : (Shape.node color.black wl w wk (Shape.node color.red wrl a k wrr)).wf)
    (hWb : (Shape.node color.black wl w wk (Shape.node color.red wrl a k wrr)).bh = X.bh + 1)
    (hwl : wl.rootColor = color.black)
    (hv : ctxValid rest (X.bh + 1 + (if cp = color.black then 1 else 0)))
    (hcp : cp = color.red → headBlack rest) :
    (plug rest (Shape.node cp (Shape.node color.black wl w wk wrl) a k
      (Shape.node color.black wrr p kp X))).valid := by
  apply plug_valid
  · have hb : wl.bh = X.bh := by simpa [Shape.bh] using hWb
    simpa [Shape.bh, hb] using hv
  · simp_all [Shape.wf, Shape.noRedRed, Shape.balanced, Shape.bh, Shape.rootColor]
  · cases cp
    · exact Or.inl (hcp rfl)
    · exact Or.inr rfl

theorem CursorPar.node {h : Heap} {s : Nat} {q : Ptr} {C : Ctx} {c : color} {l r : Shape}
    {a k : Nat} : CursorPar h s q C (Shape.node c l a k r) :=
  fun e => by cases e

/-- A valid whole tree is a final state of the delete fixup. -/
theorem DelInv.of_valid {rb rb' : RBTree} {s : Nat} {q : Ptr} {T T' : Shape}
    (M : Models rb s q T) (hs : (rb.heap s).color = color.black)
    (hstep : Step rb rb' s q T T') (hv : T'.valid) (hne : T' ≠ Shape.nil) :
    DelInv rb' s q [] T' := by
  refine ⟨hstep.models, ?_, by rw [hstep.sentinel M]; exact hs, Shape.blacken_wf hv.2, trivial⟩
  intro e
  exact absurd e hne

/-- Lines 284-300 with a black sibling on the right of the cursor: the pass ends either
with the cursor one level up or with the whole tree repaired. -/
theorem deleteRestL_spec {rb : RBTree} {s : Nat} {q : Ptr} {rest : Ctx} {X wl wr : Shape}
    {cp : color} {p kp w wk : Nat}
    (I : DelInv rb s q (Frame.L cp p kp (Shape.node color.black wl w wk wr) :: rest) X)
    (hXb : X.rootColor = color.black) :
    ∃ rb' C' X', deleteRestL rb (X.ptr s) (some w) = .ok (rb', X'.ptr s) ∧
      Step rb rb' s q (plug (Frame.L cp p kp (Shape.node color.black wl w wk wr) :: rest) X)
        (plug C' X') ∧
      DelInv rb' s q C' X' ∧
      (X'.rootColor = color.red ∨ C' = [] ∨ (cp = color.black ∧ C'.length = rest.length)) := by
  obtain ⟨M, hc, hs, hXw, hv⟩ := I
  have hX := Shape.wf_of_blacken hXb hXw
  obtain ⟨hW, hWb, hcp, hv'⟩ := hv
  simp only [Frame.sib, Frame.col] at hW hWb hcp hv'
  have hbb := bothBlack_spec (C := Frame.R cp X p kp :: rest) M.lay hs
  by_cases hl : wl.rootColor = color.black
  · by_cases hr : wr.rootColor = color.black
    · -- both children black
      obtain ⟨rb', hev, hstep⟩ := deleteCase2_L M hc
      refine ⟨rb', rest, _, ?_, hstep, ⟨hstep.models, CursorPar.node,
        by rw [hstep.sentinel M]; exact hs,
        (deleteShape_case2 hX hXb hW hWb hl hr hv').1,
        (deleteShape_case2 hX hXb hW hWb hl hr hv').2⟩, ?_⟩
      · simp [deleteRestL, hbb, hl, hr, hev]
      · cases cp
        · exact Or.inl rfl
        · exact Or.inr (Or.inr ⟨rfl, rfl⟩)
    · -- right child red
      obtain ⟨wrl, a, k, wrr, rfl⟩ := Shape.rootColor_red (color_ne_black hr)
      have h3 := deleteCase3L_skip M hs rfl
      obtain ⟨rb', hev, hstep⟩ := deleteCase4L_spec M hc
      refine ⟨rb', [], _, ?_, hstep, DelInv.of_valid M hs hstep
        (deleteShape_case4 hX hW hWb hv' (fun e => (hcp e).2)) ?_, Or.inr (Or.inl rfl)⟩
      · simp [deleteRestL, hbb, hl, hr, h3, hev, hstep.models.root_eq]
      · intro e
        have := congrArg Shape.toList e
        rw [plug_toList] at this
        simp [Shape.toList] at this
  · -- left child red
    obtain ⟨wll, a, k, wlr, rfl⟩ := Shape.rootColor_red (color_ne_black hl)
    by_cases hr : wr.rootColor = color.black
    · obtain ⟨rb1, hev1, hstep1⟩ := deleteCase3L_rot M hc hs hr
      have hc1 := hstep1.cursor (D := Frame.L cp p kp (Shape.node color.black wll a k
        (Shape.node color.red wlr w wk wr)) :: rest) M hc rfl
      obtain ⟨rb', hev, hstep2⟩ := deleteCase4L_spec hstep1.models hc1
      have hstep := hstep1.andThen hstep2
      refine ⟨rb', [], _, ?_, hstep, DelInv.of_valid M hs hstep
        (deleteShape_case34 hX hW hWb hr hv' (fun e => (hcp e).2)) ?_, Or.inr (Or.inl rfl)⟩
      · simp [deleteRestL, hbb, hev1, hev, hstep.models.root_eq, Shape.rootColor]
      · intro e
        have := congrArg Shape.toList e
        rw [plug_toList] at this
        simp [Shape.toList] at this
    · obtain ⟨wrl, b, j, wrr, rfl⟩ := Shape.rootColor_red (color_ne_black hr)
      have h3 := deleteCase3L_skip M hs rfl
      obtain ⟨rb', hev, hstep⟩ := deleteCase4L_spec M hc
      refine ⟨rb', [], _, ?_, hstep, DelInv.of_valid M hs hstep
        (deleteShape_case4 hX hW hWb hv' (fun e => (hcp e).2)) ?_, Or.inr (Or.inl rfl)⟩
      · simp [deleteRestL, hbb, h3, hev, hstep.models.root_eq, Shape.rootColor]
      · intro e
        have := congrArg Shape.toList e
        rw [plug_toList] at this
        simp [Shape.toList] at this

/-- Lines 312-327 with a black sibling on the left of the cursor: the pass ends either
with the cursor one level up or with the whole tree repaired. -/
theorem deleteRestR_spec {rb : RBTree} {s : Nat} {q : Ptr} {rest : Ctx} {X wr wl : Shape}
    {cp : color} {p kp w wk : Nat}
    (I : DelInv rb s q (Frame.R cp (Shape.node color.black wl w wk wr) p kp :: rest) X)
    (hXb : X.rootColor = color.black) :
    ∃ rb' C' X', deleteRestR rb (X.ptr s) (some w) = .ok (rb', X'.ptr s) ∧
      Step rb rb' s q (plug (Frame.R cp (Shape.node color.black wl w wk wr) p kp :: rest) X)
        (plug C' X') ∧
      DelInv rb' s q C' X' ∧
      (X'.rootColor = color.red ∨ C' = [] ∨ (cp = color.black ∧ C'.length = rest.length)) := by
  obtain ⟨M, hc, hs, hXw, hv⟩ := I
  have hX := Shape.wf_of_blacken hXb hXw
  obtain ⟨hW, hWb, hcp, hv'⟩ := hv
  simp only [Frame.sib, Frame.col] at hW hWb hcp hv'
  have hbb := bothBlack_spec (C := Frame.L cp p kp X :: rest) M.lay hs
  by_cases hl : wr.rootColor = color.black
  · by_cases hr : wl.rootColor = color.black
    · -- both children black
      obtain ⟨rb', hev, hstep⟩ := deleteCase2_R M hc
      refine ⟨rb', rest, _, ?_, hstep, ⟨hstep.models, CursorPar.node,
        by rw [hstep.sentinel M]; exact hs,
        (deleteShape_case2_R hX hXb hW hWb hr hl hv').1,
        (deleteShape_case2_R hX hXb hW hWb hr hl hv').2⟩, ?_⟩
      · simp [deleteRestR, hbb, hl, hr, hev]
      · cases cp
        · exact Or.inl rfl
        · exact Or.inr (Or.inr ⟨rfl, rfl⟩)
    · -- right child red
      obtain ⟨wlr, a, k, wll, rfl⟩ := Shape.rootColor_red (color_ne_black hr)
      have h3 := deleteCase3R_skip M hs rfl
      obtain ⟨rb', hev, hstep⟩ := deleteCase4R_spec M hc
      refine ⟨rb', [], _, ?_, hstep, DelInv.of_valid M hs hstep
        (deleteShape_case4_R hX hW hWb hv' (fun e => (hcp e).2)) ?_, Or.inr (Or.inl rfl)⟩
      · simp [deleteRestR, hbb, hl, hr, h3, hev, hstep.models.root_eq]
      · intro e
        have := congrArg Shape.toList e
        rw [plug_toList] at this
        simp [Shape.toList] at this
  · -- left child red
    obtain ⟨wrr, a, k, wrl, rfl⟩ := Shape.rootColor_red (color_ne_black hl)
    by_cases hr : wl.rootColor = color.black
    · obtain ⟨rb1, hev1, hstep1⟩ := deleteCase3R_rot M hc hs hr
      have hc1 := hstep1.cursor (D := Frame.R cp (Shape.node color.black (Shape.node color.red wl w wk wrl) a k
        wrr) p kp :: rest) M hc rfl
      obtain ⟨rb', hev, hstep2⟩ := deleteCase4R_spec hstep1.models hc1
      have hstep := hstep1.andThen hstep2
      refine ⟨rb', [], _, ?_, hstep, DelInv.of_valid M hs hstep
        (deleteShape_case34_R hX hW hWb hr hv' (fun e => (hcp e).2)) ?_, Or.inr (Or.inl rfl)⟩
      · simp [deleteRestR, hbb, hev1, hev, hstep.models.root_eq, Shape.rootColor]
      · intro e
        have := congrArg Shape.toList e
        rw [plug_toList] at this
        simp [Shape.toList] at this
    · obtain ⟨wlr, b, j, wll, rfl⟩ := Shape.rootColor_red (color_ne_black hr)
      have h3 := deleteCase3R_skip M hs rfl
      obtain ⟨rb', hev, hstep⟩ := deleteCase4R_spec M hc
      refine ⟨rb', [], _, ?_, hstep, DelInv.of_valid M hs hstep
        (deleteShape_case4_R hX hW hWb hv' (fun e => (hcp e).2)) ?_, Or.inr (Or.inl rfl)⟩
      · simp [deleteRestR, hbb, h3, hev, hstep.models.root_eq, Shape.rootColor]
      · intro e
        have := congrArg Shape.toList e
        rw [plug_toList] at this
        simp [Shape.toList] at this

theorem Shape.node_of_bh {W : Shape} {b : Nat} (h : W.bh = b + 1) :
    ∃ c l a k r, W = Shape.node c l a k r := by
  cases W with
  | nil => simp [Shape.bh] at h
  | node c l a k r => exact ⟨c, l, a, k, r, rfl⟩

/-- One pass of the delete fixup with the cursor on the left of its parent. -/
theorem deleteFixBody_L {rb : RBTree} {s : Nat} {q : Ptr} {rest : Ctx} {X W : Shape}
    {cp : color} {p kp : Nat}
    (I : DelInv rb s q (Frame.L cp p kp W :: rest) X) (hXb : X.rootColor = color.black) :
    ∃ rb' C' X', deleteFixBody rb (X.ptr s) = .ok (rb', X'.ptr s) ∧
      Step rb rb' s q (plug (Frame.L cp p kp W :: rest) X) (plug C' X') ∧
      DelInv rb' s q C' X' ∧
      (X'.rootColor = color.red ∨ C' = [] ∨ C'.length = rest.length) := by
  have hWbh : W.bh = X.bh + 1 := I.ctx_valid.2.1
  obtain ⟨cw, wl, w, wk, wr, rfl⟩ := Shape.node_of_bh hWbh
  have M := I.models
  have hc := I.cursor
  have hs := I.sentinel_black
  have hpar := cursor_parent M.lay hc
  have hrec := Lay.record_at (C := rest) M.lay
  simp only [ctxPar_cons, Frame.addr] at hpar
  cases cw with
  | black =>
    obtain ⟨rb', C', X', hev, hstep, I', hm⟩ := deleteRestL_spec I hXb
    refine ⟨rb', C', X', ?_, hstep, I', ?_⟩
    · simp [deleteFixBody, hpar, hrec, deleteCase1L_black M, hev]
    · rcases hm with h | h | h
      · exact Or.inl h
      · exact Or.inr (Or.inl h)
      · exact Or.inr (Or.inr h.2)
  | red =>
    obtain ⟨hW, -, hcp, hv⟩ := I.ctx_valid
    simp only [Frame.sib, Frame.col] at hW hcp hv hWbh
    have hcpb : cp = color.black := by
      cases cp
      · have := (hcp rfl).1
        simp [Shape.rootColor] at this
      · rfl
    subst hcpb
    have hwlb : wl.rootColor = color.black := (hW.1.1 rfl).1
    have hwlbh : wl.bh = X.bh + 1 := by simpa [Shape.bh] using hWbh
    obtain ⟨cl, wll, a, k, wlr, rfl⟩ := Shape.node_of_bh hwlbh
    simp only [Shape.rootColor] at hwlb
    subst hwlb
    obtain ⟨rb1, hev1, hstep1⟩ := deleteCase1L_red M hc
    have hc1 := hstep1.cursor (D := Frame.L color.red p kp (Shape.node color.black wll a k wlr)
      :: Frame.L color.black w wk wr :: rest) M hc rfl
    have I1 : DelInv rb1 s q (Frame.L color.red p kp (Shape.node color.black wll a k wlr)
        :: Frame.L color.black w wk wr :: rest) X := by
      refine ⟨hstep1.models, hc1, by rw [hstep1.sentinel M]; exact hs, I.wf, ?_⟩
      simp_all [Shape.wf, Shape.noRedRed, Shape.balanced, Shape.bh, Shape.rootColor, ctxValid,
        Frame.sib, Frame.col, headBlack]
      obtain ⟨-, h1, ⟨h2, -⟩, -⟩ := hW
      omega
    obtain ⟨rb', C', X', hev, hstep, I', hm⟩ := deleteRestL_spec I1 hXb
    refine ⟨rb', C', X', ?_, hstep1.andThen hstep, I', ?_⟩
    · simp [deleteFixBody, hpar, hrec, hev1, hev]
    · rcases hm with h | h | h
      · exact Or.inl h
      · exact Or.inr (Or.inl h)
      · exact absurd h.1 (by decide)

/-- One pass of the delete fixup with the cursor on the right of its parent. -/
theorem deleteFixBody_R {rb : RBTree} {s : Nat} {q : Ptr} {rest : Ctx} {X W : Shape}
    {cp : color} {p kp : Nat}
    (I : DelInv rb s q (Frame.R cp W p kp :: rest) X) (hXb : X.rootColor = color.black) :
    ∃ rb' C' X', deleteFixBody rb (X.ptr s) = .ok (rb', X'.ptr s) ∧
      Step rb rb' s q (plug (Frame.R cp W p kp :: rest) X) (plug C' X') ∧
      DelInv rb' s q C' X' ∧
      (X'.rootColor = color.red ∨ C' = [] ∨ C'.length = rest.length) := by
  have hWbh : W.bh = X.bh + 1 := I.ctx_valid.2.1
  obtain ⟨cw, wl, w, wk, wr, rfl⟩ := Shape.node_of_bh hWbh
  have M := I.models
  have hc := I.cursor
  have hs := I.sentinel_black
  have hpar := cursor_parent M.lay hc
  have hrec := Lay.record_at (C := rest) M.lay
  simp only [ctxPar_cons, Frame.addr] at hpar
  have hne : X.ptr s ≠ some w := Lay.ptr_ne M.lay (Rep.addr_ne (C := Frame.L cp p kp X :: rest) M.rep) (by
    simp only [count_plug_addrs, Shape.addrs, ctxAddrs, Frame.addr, Frame.sib, List.count_append,
      List.count_cons, List.count_nil, beq_self_eq_true, if_true]; omega)
  cases cw with
  | black =>
    obtain ⟨rb', C', X', hev, hstep, I', hm⟩ := deleteRestR_spec I hXb
    refine ⟨rb', C', X', ?_, hstep, I', ?_⟩
    · simp [deleteFixBody, hpar, hrec, hne, deleteCase1R_black M, hev]
    · rcases hm with h | h | h
      · exact Or.inl h
      · exact Or.inr (Or.inl h)
      · exact Or.inr (Or.inr h.2)
  | red =>
    obtain ⟨hW, -, hcp, hv⟩ := I.ctx_valid
    simp only [Frame.sib, Frame.col] at hW hcp hv hWbh
    have hcpb : cp = color.black := by
      cases cp
      · have := (hcp rfl).1
        simp [Shape.rootColor] at this
      · rfl
    subst hcpb
    have hwrb : wr.rootColor = color.black := (hW.1.1 rfl).2
    have hwrbh : wr.bh = X.bh + 1 := by
      have h1 : wl.bh = wr.bh := hW.2.1
      have h2 : wl.bh = X.bh + 1 := by simpa [Shape.bh] using hWbh
      omega
    obtain ⟨cl, wrl, a, k, wrr, rfl⟩ := Shape.node_of_bh hwrbh
    simp only [Shape.rootColor] at hwrb
    subst hwrb
    obtain ⟨rb1, hev1, hstep1⟩ := deleteCase1R_red M hc
    have hc1 := hstep1.cursor (D := Frame.R color.red (Shape.node color.black wrl a k wrr) p kp
      :: Frame.R color.black wl w wk :: rest) M hc rfl
    have I1 : DelInv rb1 s q (Frame.R color.red (Shape.node color.black wrl a k wrr) p kp
        :: Frame.R color.black wl w wk :: rest) X := by
      refine ⟨hstep1.models, hc1, by rw [hstep1.sentinel M]; exact hs, I.wf, ?_⟩
      simp_all [Shape.wf, Shape.noRedRed, Shape.balanced, Shape.bh, Shape.rootColor, ctxValid,
        Frame.sib, Frame.col, headBlack]
    obtain ⟨rb', C', X', hev, hstep, I', hm⟩ := deleteRestR_spec I1 hXb
    refine ⟨rb', C', X', ?_, hstep1.andThen hstep, I', ?_⟩
    · simp [deleteFixBody, hpar, hrec, hne, hev1, hev]
    · rcases hm with h | h | h
      · exact Or.inl h
      · exact Or.inr (Or.inl h)
      · exact absurd h.1 (by decide)

/-- The cursor is the root exactly when its path is empty. -/
theorem cursor_is_root {h : Heap} {s : Nat} {q : Ptr} {C : Ctx} {X : Shape}
    (hl : Lay h s q (plug C X)) : X.ptr s = (plug C X).ptr s ↔ C = [] := by
  constructor
  · intro e
    by_contra hne
    rw [plug_ptr] at e
    obtain ⟨a, h1, h2⟩ := ctxTop_mem (x := X.ptr s) hne
    rw [h1] at e
    obtain ⟨hctx, hX⟩ := (Rep_plug C X).1 hl.1
    have hnd := plug_nodup.1 hl.2
    cases X with
    | nil =>
      simp only [Shape.ptr_nil, Option.some.injEq] at e
      exact RepCtx_not_sentinel hctx (e ▸ h2)
    | node c l b k r =>
      simp only [Shape.ptr_node, Option.some.injEq] at e
      subst e
      exact (List.nodup_append.1 hnd).2.2 (by simp [Shape.addrs]) h2
  · rintro rfl
    rfl

/-- The loop test of the delete fixup. -/
theorem deleteFixCond_spec {rb : RBTree} {s : Nat} {q : Ptr} {C : Ctx} {X : Shape}
    (I : DelInv rb s q C X) :
    deleteFixCond rb (X.ptr s) =
      .ok (decide (C ≠ []) && decide (X.rootColor = color.black)) := by
  have hroot := cursor_is_root I.models.lay
  rw [← I.models.root_eq] at hroot
  have hj := Lay.judgeColor_ptr I.models.lay I.sentinel_black color.black
  by_cases hC : C = []
  · simp [deleteFixCond, hroot.2 hC, hC]
  · have : X.ptr s ≠ rb.root := fun e => hC (hroot.1 e)
    simp [deleteFixCond, this, hC, hj]

theorem SiblingSafe.of_models {st : RBTree} {s : Nat} {q : Ptr} {T : Shape} {a : Nat}
    (M : Models st s q T) (ha : a ∈ T.addrs) (hs : (st.heap s).color = color.black) :
    SiblingSafe st (some a) := by
  refine ⟨?_, ⟨a, rfl, s, q, T, M, ha⟩, fun s' hs' => ?_⟩
  · rw [M.sentinel_eq]
    intro e
    simp only [Option.some.injEq] at e
    exact Rep_not_sentinel M.rep (e ▸ ha)
  · rw [M.sentinel_eq] at hs'
    simp only [Option.some.injEq] at hs'
    rw [← hs']
    exact hs

/-- Lines 284-293 with a black sibling on the right of the cursor: either the sibling has
two black children, or the sibling that lines 288-293 leave is an attached node. -/
theorem deleteRestL_siblings {rb : RBTree} {s : Nat} {q : Ptr} {rest : Ctx} {X wl wr : Shape}
    {cp : color} {p kp w wk : Nat}
    (I : DelInv rb s q (Frame.L cp p kp (Shape.node color.black wl w wk wr) :: rest) X) :
    SiblingSafe rb (some w) ∧
      (bothBlack rb.heap (some w) = .ok true ∨
        (bothBlack rb.heap (some w) = .ok false ∧
          ∃ rb2 a, deleteCase3L rb (X.ptr s) (some w) = .ok (rb2, some a) ∧
            SiblingSafe rb2 (some a))) := by
  obtain ⟨M, hc, hs, -, -⟩ := I
  have hbb := bothBlack_spec (C := Frame.R cp X p kp :: rest) M.lay hs
  have hw : w ∈ (plug (Frame.L cp p kp (Shape.node color.black wl w wk wr) :: rest) X).addrs :=
    mem_plug_addrs.2 (Or.inr (by simp [ctxAddrs, Shape.addrs]))
  have h0 := SiblingSafe.of_models M hw hs
  refine ⟨h0, ?_⟩
  by_cases hr : wr.rootColor = color.black
  · by_cases hl : wl.rootColor = color.black
    · left
      simp [hbb, hl, hr]
    · right
      obtain ⟨wll, a, k, wlr, rfl⟩ := Shape.rootColor_red (color_ne_black hl)
      obtain ⟨rb1, hev1, hstep1⟩ := deleteCase3L_rot M hc hs hr
      refine ⟨by simp [hbb, hr, Shape.rootColor], rb1, a, hev1, ?_⟩
      refine SiblingSafe.of_models hstep1.models ?_ (by rw [hstep1.sentinel M]; exact hs)
      exact mem_plug_addrs.2 (Or.inr (by simp [ctxAddrs, Shape.addrs]))
  · right
    have hrr := color_ne_black hr
    exact ⟨by simp [hbb, hrr], rb, w, deleteCase3L_skip M hs hrr, h0⟩

/-- The sibling reads of one pass of the delete fixup with the cursor on the left of its
parent are safe. -/
theorem deleteFixSiblings_L {rb : RBTree} {s : Nat} {q : Ptr} {rest : Ctx} {X W : Shape}
    {cp : color} {p kp : Nat}
    (I : DelInv rb s q (Frame.L cp p kp W :: rest) X) :
    ∃ lst, deleteFixSiblings rb (X.ptr s) = .ok lst ∧ ∀ x ∈ lst, SiblingSafe x.1 x.2 := by
  have hWbh : W.bh = X.bh + 1 := I.ctx_valid.2.1
  obtain ⟨cw, wl, w, wk, wr, rfl⟩ := Shape.node_of_bh hWbh
  have M := I.models
  have hc := I.cursor
  have hs := I.sentinel_black
  have hpar := cursor_parent M.lay hc
  have hrec := Lay.record_at (C := rest) M.lay
  simp only [ctxPar_cons, Frame.addr] at hpar
  have hw : w ∈ (plug (Frame.L cp p kp (Shape.node cw wl w wk wr) :: rest) X).addrs :=
    mem_plug_addrs.2 (Or.inr (by simp [ctxAddrs, Shape.addrs]))
  have h0 := SiblingSafe.of_models M hw hs
  cases cw with
  | black =>
    obtain ⟨-, hb | ⟨hb, rb2, a, hev3, h3⟩⟩ := deleteRestL_siblings I
    · refine ⟨[(rb, some w), (rb, some w)], ?_, ?_⟩
      · simp [deleteFixSiblings, hpar, hrec, deleteCase1L_black M, hb]
      · intro x hx
        simp only [List.mem_cons, List.mem_singleton, List.not_mem_nil, or_false, or_self] at hx
        subst hx
        exact h0
    · refine ⟨[(rb, some w), (rb, some w), (rb2, some a)], ?_, ?_⟩
      · simp [deleteFixSiblings, hpar, hrec, deleteCase1L_black M, hb, hev3]
      · intro x hx
        simp only [List.mem_cons, List.mem_singleton, List.not_mem_nil, or_false] at hx
        rcases hx with rfl | rfl | rfl
        · exact h0
        · exact h0
        · exact h3
  | red =>
    obtain ⟨hW, -, hcp, hv⟩ := I.ctx_valid
    simp only [Frame.sib, Frame.col] at hW hcp hv hWbh
    have hcpb : cp = color.black := by
      cases cp
      · have := (hcp rfl).1
        simp [Shape.rootColor] at this
      · rfl
    subst hcpb
    have hwlb : wl.rootColor = color.black := (hW.1.1 rfl).1
    have hwlbh : wl.bh = X.bh + 1 := by simpa [Shape.bh] using hWbh
    obtain ⟨cl, wll, a, k, wlr, rfl⟩ := Shape.node_of_bh hwlbh
    simp only [Shape.rootColor] at hwlb
    subst hwlb
    obtain ⟨rb1, hev1, hstep1⟩ := deleteCase1L_red M hc
    have hc1 := hstep1.cursor (D := Frame.L color.red p kp (Shape.node color.black wll a k wlr)
      :: Frame.L color.black w wk wr :: rest) M hc rfl
    have I1 : DelInv rb1 s q (Frame.L color.red p kp (Shape.node color.black wll a k wlr)
        :: Frame.L color.black w wk wr :: rest) X := by
      refine ⟨hstep1.models, hc1, by rw [hstep1.sentinel M]; exact hs, I.wf, ?_⟩
      simp_all [Shape.wf, Shape.noRedRed, Shape.balanced, Shape.bh, Shape.rootColor, ctxValid,
        Frame.sib, Frame.col, headBlack]
      obtain ⟨-, h1, ⟨h2, -⟩, -⟩ := hW
      omega
    simp only [Shape.ptr_node] at hev1
    obtain ⟨h1, hb | ⟨hb, rb2, b, hev3, h3⟩⟩ := deleteRestL_siblings I1
    · refine ⟨[(rb, some w), (rb1, some a)], ?_, ?_⟩
      · simp [deleteFixSiblings, hpar, hrec, hev1, hb]
      · intro x hx
        simp only [List.mem_cons, List.mem_singleton, List.not_mem_nil, or_false] at hx
        rcases hx with rfl | rfl
        · exact h0
        · exact h1
    · refine ⟨[(rb, some w), (rb1, some a), (rb2, some b)], ?_, ?_⟩
      · simp [deleteFixSiblings, hpar, hrec, hev1, hb, hev3]
      · intro x hx
        simp only [List.mem_cons, List.mem_singleton, List.not_mem_nil, or_false] at hx
        rcases hx with rfl | rfl | rfl
        · exact h0
        · exact h1
        · exact h3

/-- Lines 312-321 with a black sibling on the left of the cursor: either the sibling has
two black children, or the sibling that lines 316-321 leave is an attached node. -/
theorem deleteRestR_siblings {rb : RBTree} {s : Nat} {q : Ptr} {rest : Ctx} {X wr wl : Shape}
    {cp : color} {p kp w wk : Nat}
    (I : DelInv rb s q (Frame.R cp (Shape.node color.black wl w wk wr) p kp :: rest) X) :
    SiblingSafe rb (some w) ∧
      (bothBlack rb.heap (some w) = .ok true ∨
        (bothBlack rb.heap (some w) = .ok false ∧
          ∃ rb2 a, deleteCase3R rb (X.ptr s) (some w) = .ok (rb2, some a) ∧
            SiblingSafe rb2 (some a))) := by
  obtain ⟨M, hc, hs, -, -⟩ := I
  have hbb := bothBlack_spec (C := Frame.L cp p kp X :: rest) M.lay hs
  have hw : w ∈ (plug (Frame.R cp (Shape.node color.black wl w wk wr) p kp :: rest) X).addrs :=
    mem_plug_addrs.2 (Or.inr (by simp [ctxAddrs, Shape.addrs]))
  have h0 := SiblingSafe.of_models M hw hs
  refine ⟨h0, ?_⟩
  by_cases hr : wl.rootColor = color.black
  · by_cases hl : wr.rootColor = color.black
    · left
      simp [hbb, hl, hr]
    · right
      obtain ⟨wrr, a, k, wrl, rfl⟩ := Shape.rootColor_red (color_ne_black hl)
      obtain ⟨rb1, hev1, hstep1⟩ := deleteCase3R_rot M hc hs hr
      refine ⟨by simp [hbb, hr, Shape.rootColor], rb1, a, hev1, ?_⟩
      refine SiblingSafe.of_models hstep1.models ?_ (by rw [hstep1.sentinel M]; exact hs)
      exact mem_plug_addrs.2 (Or.inr (by simp [ctxAddrs, Shape.addrs]))
  · right
    have hrr := color_ne_black hr
    exact ⟨by simp [hbb, hrr], rb, w, deleteCase3R_skip M hs hrr, h0⟩

/-- The sibling reads of one pass of the delete fixup with the cursor on the right of its
parent are safe. -/
theorem deleteFixSiblings_R {rb : RBTree} {s : Nat} {q : Ptr} {rest : Ctx} {X W : Shape}
    {cp : color} {p kp : Nat}
    (I : DelInv rb s q (Frame.R cp W p kp :: rest) X) :
    ∃ lst, deleteFixSiblings rb (X.ptr s) = .ok lst ∧ ∀ x ∈ lst, SiblingSafe x.1 x.2 := by
  have hWbh : W.bh = X.bh + 1 := I.ctx_valid.2.1
  obtain ⟨cw, wl, w, wk, wr, rfl⟩ := Shape.node_of_bh hWbh
  have M := I.models
  have hc := I.cursor
  have hs := I.sentinel_black
  have hpar := cursor_parent M.lay hc
  have hrec := Lay.record_at (C := rest) M.lay
  simp only [ctxPar_cons, Frame.addr] at hpar
  have hw : w ∈ (plug (Frame.R cp (Shape.node cw wl w wk wr) p kp :: rest) X).addrs :=
    mem_plug_addrs.2 (Or.inr (by simp [ctxAddrs, Shape.addrs]))
  have h0 := SiblingSafe.of_models M hw hs
  have hne : X.ptr s ≠ some w := Lay.ptr_ne M.lay (Rep.addr_ne (C := Frame.L cp p kp X :: rest) M.rep) (by
    simp only [count_plug_addrs, Shape.addrs, ctxAddrs, Frame.addr, Frame.sib, List.count_append,
      List.count_cons, List.count_nil, beq_self_eq_true, if_true]; omega)
  cases cw with
  | black =>
    obtain ⟨-, hb | ⟨hb, rb2, a, hev3, h3⟩⟩ := deleteRestR_siblings I
    · refine ⟨[(rb, some w), (rb, some w)], ?_, ?_⟩
      · simp [deleteFixSiblings, hpar, hrec, hne, deleteCase1R_black M, hb]
      · intro x hx
        simp only [List.mem_cons, List.mem_singleton, List.not_mem_nil, or_false, or_self] at hx
        subst hx
        exact h0
    · refine ⟨[(rb, some w), (rb, some w), (rb2, some a)], ?_, ?_⟩
      · simp [deleteFixSiblings, hpar, hrec, hne, deleteCase1R_black M, hb, hev3]
      · intro x hx
        simp only [List.mem_cons, List.mem_singleton, List.not_mem_nil, or_false] at hx
        rcases hx with rfl | rfl | rfl
        · exact h0
        · exact h0
        · exact h3
  | red =>
    obtain ⟨hW, -, hcp, hv⟩ := I.ctx_valid
    simp only [Frame.sib, Frame.col] at hW hcp hv hWbh
    have hcpb : cp = color.black := by
      cases cp
      · have := (hcp rfl).1
        simp [Shape.rootColor] at this
      · rfl
    subst hcpb
    have hwrb : wr.rootColor = color.black := (hW.1.1 rfl).2
    have hwrbh : wr.bh = X.bh + 1 := by
      have h1 : wl.bh = wr.bh := hW.2.1
      have h2 : wl.bh = X.bh + 1 := by simpa [Shape.bh] using hWbh
      omega
    obtain ⟨cl, wrl, a, k, wrr, rfl⟩ := Shape.node_of_bh hwrbh
    simp only [Shape.rootColor] at hwrb
    subst hwrb
    obtain ⟨rb1, hev1, hstep1⟩ := deleteCase1R_red M hc
    have hc1 := hstep1.cursor (D := Frame.R color.red (Shape.node color.black wrl a k wrr) p kp
      :: Frame.R color.black wl w wk :: rest) M hc rfl
    have I1 : DelInv rb1 s q (Frame.R color.red (Shape.node color.black wrl a k wrr) p kp
        :: Frame.R color.black wl w wk :: rest) X := by
      refine ⟨hstep1.models, hc1, by rw [hstep1.sentinel M]; exact hs, I.wf, ?_⟩
      simp_all [Shape.wf, Shape.noRedRed, Shape.balanced, Shape.bh, Shape.rootColor, ctxValid,
        Frame.sib, Frame.col, headBlack]
    simp only [Shape.ptr_node] at hev1
    obtain ⟨h1, hb | ⟨hb, rb2, b, hev3, h3⟩⟩ := deleteRestR_siblings I1
    · refine ⟨[(rb, some w), (rb1, some a)], ?_, ?_⟩
      · simp [deleteFixSiblings, hpar, hrec, hne, hev1, hb]
      · intro x hx
        simp only [List.mem_cons, List.mem_singleton, List.not_mem_nil, or_false] at hx
        rcases hx with rfl | rfl
        · exact h0
        · exact h1
    · refine ⟨[(rb, some w), (rb1, some a), (rb2, some b)], ?_, ?_⟩
      · simp [deleteFixSiblings, hpar, hrec, hne, hev1, hb, hev3]
      · intro x hx
        simp only [List.mem_cons, List.mem_singleton, List.not_mem_nil, or_false] at hx
        rcases hx with rfl | rfl | rfl
        · exact h0
        · exact h1
        · exact h3

/-- The delete fixup loop returns, with the cursor at the root or on a red node, and the
invariant still holds there. -/
theorem deleteFixLoop_spec {s : Nat} {q : Ptr} :
    ∀ (n : Nat) (C : Ctx) (X : Shape) (rb : RBTree) (fuel : Nat), C.length ≤ n →
      DelInv rb s q C X → C.length < fuel →
      ∃ rb' C' X', deleteFixLoop fuel rb (X.ptr s) = .ok (rb', X'.ptr s) ∧
        Step rb rb' s q (plug C X) (plug C' X') ∧ DelInv rb' s q C' X' ∧
        (X'.rootColor = color.red ∨ C' = []) ∧
        ∀ x ∈ deleteFixVisited fuel rb (X.ptr s), SiblingSafe x.1 x.2 := by
  intro n
  induction n with
  | zero =>
    intro C X rb fuel hn I hf
    have hC : C = [] := List.length_eq_zero.1 (Nat.le_zero.1 hn)
    subst hC
    obtain ⟨f, rfl⟩ : ∃ f, fuel = f + 1 := ⟨fuel - 1, by omega⟩
    refine ⟨rb, [], X, ?_, Step.stay I.models, I, Or.inr rfl, ?_⟩
    · simp [deleteFixLoop, deleteFixCond_spec I]
    · simp [deleteFixVisited, deleteFixCond_spec I]
  | succ n ih =>
    intro C X rb fuel hn I hf
    obtain ⟨f, rfl⟩ : ∃ f, fuel = f + 1 := ⟨fuel - 1, by omega⟩
    by_cases hstop : C = [] ∨ X.rootColor = color.red
    · refine ⟨rb, C, X, ?_, Step.stay I.models, I, hstop.symm, ?_⟩ <;>
        rcases hstop with h | h <;>
        simp [deleteFixLoop, deleteFixVisited, deleteFixCond_spec I, h]
    · simp only [not_or] at hstop
      obtain ⟨hC, hX⟩ := hstop
      have hXb := color_ne_red hX
      obtain ⟨fr, rest, rfl⟩ := List.exists_cons_of_ne_nil hC
      have hbody : ∃ rb' C' X', deleteFixBody rb (X.ptr s) = .ok (rb', X'.ptr s) ∧
          Step rb rb' s q (plug (fr :: rest) X) (plug C' X') ∧ DelInv rb' s q C' X' ∧
          (X'.rootColor = color.red ∨ C' = [] ∨ C'.length = rest.length) := by
        cases fr with
        | L cp p kp W => exact deleteFixBody_L I hXb
        | R cp W p kp => exact deleteFixBody_R I hXb
      have hsib : ∃ lst, deleteFixSiblings rb (X.ptr s) = .ok lst ∧
          ∀ x ∈ lst, SiblingSafe x.1 x.2 := by
        cases fr with
        | L cp p kp W => exact deleteFixSiblings_L I
        | R cp W p kp => exact deleteFixSiblings_R I
      obtain ⟨rb1, C1, X1, hev1, hstep1, I1, hm⟩ := hbody
      simp only [List.length_cons] at hn hf
      have hnext : ∃ rb' C' X', deleteFixLoop f rb1 (X1.ptr s) = .ok (rb', X'.ptr s) ∧
          Step rb1 rb' s q (plug C1 X1) (plug C' X') ∧ DelInv rb' s q C' X' ∧
          (X'.rootColor = color.red ∨ C' = []) ∧
          ∀ x ∈ deleteFixVisited f rb1 (X1.ptr s), SiblingSafe x.1 x.2 := by
        obtain ⟨g, rfl⟩ : ∃ g, f = g + 1 := ⟨f - 1, by omega⟩
        rcases hm with h | h | h
        · refine ⟨rb1, C1, X1, ?_, Step.stay I1.models, I1, Or.inl h, ?_⟩ <;>
            simp [deleteFixLoop, deleteFixVisited, deleteFixCond_spec I1, h]
        · refine ⟨rb1, C1, X1, ?_, Step.stay I1.models, I1, Or.inr h, ?_⟩ <;>
            simp [deleteFixLoop, deleteFixVisited, deleteFixCond_spec I1, h]
        · exact ih C1 X1 rb1 (g + 1) (by omega) I1 (by omega)
      obtain ⟨rb', C', X', hev, hstep, I', hfin, hsafe⟩ := hnext
      obtain ⟨lst, hlst, hsafe0⟩ := hsib
      refine ⟨rb', C', X', ?_, hstep1.andThen hstep, I', hfin, ?_⟩
      · rw [deleteFixLoop]
        simp [deleteFixCond_spec I, hXb, hev1, hev]
      · intro x hx
        rw [deleteFixVisited] at hx
        simp only [deleteFixCond_spec I, hXb, hlst, hev1, ne_eq, reduceCtorEq, not_false_eq_true,
          decide_True, Bool.and_self, List.mem_append] at hx
        rcases hx with hx | hx
        · exact hsafe0 x hx
        · exact hsafe x hx

theorem Shape.blacken_rootColor (X : Shape) : X.blacken.rootColor = color.black := by
  cases X <;> rfl

theorem Shape.blacken_ptr (s : Nat) (X : Shape) : X.blacken.ptr s = X.ptr s := by
  cases X <;> rfl

theorem Heap.recolor_same_color (h : Heap) (a : Nat) (c : color) (hc : (h a).color = c) :
    h.recolor a c = h := by
  funext x
  by_cases hx : x = a
  · subst hx
    simp [Heap.recolor, ← hc]
  · exact Heap.recolor_other h a x c hx

/-- The last line of `Delete`: colouring the cursor black at the end of the fixup gives a
valid tree. -/
theorem blackenCursor_spec {rb : RBTree} {s : Nat} {q : Ptr} {C : Ctx} {X : Shape}
    (I : DelInv rb s q C X) (hfin : X.rootColor = color.red ∨ C = []) :
    ∃ H, setColor rb.heap (X.ptr s) color.black = .ok H ∧
      Step rb { rb with heap := H } s q (plug C X) (plug C X.blacken) ∧
      (plug C X.blacken).valid ∧ (H s).color = color.black := by
  have hval : (plug C X.blacken).valid := by
    apply plug_valid C X.blacken _ I.wf (Or.inr X.blacken_rootColor)
    rcases hfin with h | h
    · obtain ⟨l, a, k, r, rfl⟩ := Shape.rootColor_red h
      simpa [Shape.blacken, Shape.bh] using I.ctx_valid
    · subst h
      trivial
  cases X with
  | nil =>
    refine ⟨rb.heap, ?_, Step.stay I.models, hval, I.sentinel_black⟩
    simp [Heap.recolor_same_color _ _ _ I.sentinel_black]
  | node c l a k r =>
    have L := Lay.recolor color.black I.models.lay
    have has : a ≠ s := Rep.addr_ne I.models.rep
    refine ⟨rb.heap.recolor a color.black, by simp, ⟨I.models.withLay ?_ L, ?_, ?_⟩, hval, ?_⟩
    · rw [plug_ptr, plug_ptr]; rfl
    · exact plug_toList_congr (Shape.blacken_toList _) C
    · exact Keeps.of_heap rb (Heap.recolor_outside rb.heap
        (mem_plug_addrs.2 (Or.inl (by simp [Shape.addrs]))) color.black)
    · rw [Heap.recolor_other _ _ _ _ (Ne.symm has)]
      exact I.sentinel_black

/-- The delete fixup as a whole (lines 271-330): from a state that satisfies the loop
invariant with enough fuel, the loop returns and the final recolouring leaves a valid
tree with the same nodes in the same order. -/
theorem deleteFix_spec {rb : RBTree} {s : Nat} {q : Ptr} {C : Ctx} {X : Shape} {fuel : Nat}
    (I : DelInv rb s q C X) (hf : C.length < fuel) :
    ∃ rb1 x H T', deleteFixLoop fuel rb (X.ptr s) = .ok (rb1, x) ∧
      setColor rb1.heap x color.black = .ok H ∧
      Step rb { rb1 with heap := H } s q (plug C X) T' ∧ T'.valid ∧
      (H s).color = color.black ∧
      ∀ x ∈ deleteFixVisited fuel rb (X.ptr s), SiblingSafe x.1 x.2 := by
  obtain ⟨rb1, C1, X1, hloop, hstep, I1, hfin, hsafe⟩ :=
    deleteFixLoop_spec C.length C X rb fuel (le_refl _) I hf
  obtain ⟨H, hset, hstep2, hval, hs⟩ := blackenCursor_spec I1 hfin
  exact ⟨rb1, X1.ptr s, H, _, hloop, hset, hstep.andThen hstep2, hval, hs, hsafe⟩

/-- Changing only the parent link of the root of a represented subtree. -/
theorem Rep_reparent {h H : Heap} {s : Nat} {q q' : Ptr} {t : Shape}
    (hr : Rep h s q t) (hnd : t.addrs.Nodup)
    (Hroot : ∀ b ∈ t.rootAddr, H b = { h b with parent := q' })
    (Hrest : ∀ x ∈ t.addrs, x ∉ t.rootAddr → H x = h x) : Rep H s q' t := by
  cases t with
  | nil => trivial
  | node c l a k r =>
    obtain ⟨h1, h2, h3, h4⟩ := hr
    have hal : a ∉ l.addrs := not_mem_of_count hnd (by
      simp only [Shape.addrs, List.count_append, List.count_cons, List.count_nil,
        beq_self_eq_true, if_true]; omega)
    have har : a ∉ r.addrs := not_mem_of_count hnd (by
      simp only [Shape.addrs, List.count_append, List.count_cons, List.count_nil,
        beq_self_eq_true, if_true]; omega)
    refine ⟨h1, ?_, ?_, ?_⟩
    · rw [Hroot a (by simp [Shape.rootAddr]), h2]
    · refine Rep_congr (fun b hb => Hrest b (by simp [Shape.addrs, hb]) ?_) h3
      simp only [Shape.rootAddr, List.mem_singleton]
      rintro rfl
      exact hal hb
    · refine Rep_congr (fun b hb => Hrest b (by simp [Shape.addrs, hb]) ?_) h4
      simp only [Shape.rootAddr, List.mem_singleton]
      rintro rfl
      exact har hb

/-- Redirecting the pointer to the hole of a path, whatever the path. -/
theorem RepCtx_redirect {h H : Heap} {s : Nat} {q : Ptr} {C : Ctx} {x x' : Ptr}
    (hr : RepCtx h s q C x) (hnd : (ctxAddrs C).Nodup)
    (Hf : ∀ f fs, C = f :: fs → H f.addr = f.setHole (h f.addr) x')
    (Hrest : ∀ a ∈ ctxAddrs C, a ∉ ctxHead C → H a = h a) : RepCtx H s q C x' := by
  cases C with
  | nil => trivial
  | cons f fs =>
    refine RepCtx_hole hr (fun a ha => Hrest a ?_ ?_) (Hf f fs rfl)
    · simp only [ctxAddrs, List.mem_cons]
      exact Or.inr ha
    · simp only [ctxHead, List.mem_singleton]
      rintro rfl
      simp only [ctxAddrs, List.nodup_cons] at hnd
      exact hnd.1 ha

/-- Memory after the subtree `Y` has been hung into the hole of a path, described record
by record. -/
theorem Rep_graft {h H : Heap} {s : Nat} {q qy : Ptr} {f : Frame} {rest : Ctx} {Y : Shape}
    {x : Ptr} (hC : RepCtx h s q (f :: rest) x) (hY : Rep h s qy Y)
    (hnd : (Y.addrs ++ ctxAddrs (f :: rest)).Nodup)
    (Hf : H f.addr = f.setHole (h f.addr) (Y.ptr s))
    (HY : ∀ b ∈ Y.rootAddr, H b = { h b with parent := some f.addr })
    (Hrest : ∀ a, a ∉ s :: f.addr :: Y.rootAddr → H a = h a) :
    Rep H s q (plug (f :: rest) Y) := by
  have hsC := RepCtx_not_sentinel hC
  have hsY := Rep_not_sentinel hY
  obtain ⟨hn1, hn2, hn3⟩ := List.nodup_append.1 hnd
  have hroot : ∀ b ∈ Y.rootAddr, b ∈ Y.addrs := by
    cases Y <;> simp [Shape.rootAddr, Shape.addrs]
  refine (Rep_plug (f :: rest) Y).2 ⟨?_, ?_⟩
  · refine RepCtx_redirect hC hn2 (fun g gs e => ?_) (fun a ha hah => Hrest a ?_)
    · cases e
      exact Hf
    · simp only [List.mem_cons, not_or]
      refine ⟨fun e => hsC (e ▸ ha), ?_, fun hb => hn3 (hroot a hb) ha⟩
      simpa [ctxHead] using hah
  · refine Rep_reparent hY hn1 HY (fun a ha har => Hrest a ?_)
    simp only [List.mem_cons, not_or]
    refine ⟨fun e => hsY (e ▸ ha), ?_, har⟩
    rintro rfl
    exact hn3 ha (by simp [ctxAddrs])

/-- Memory after the node `m` has taken the place of a node below the path `C`, with the
subtrees `l` and `R` as its children, described record by record. -/
theorem Rep_transplant {h H : Heap} {s : Nat} {q ql qr : Ptr} {C : Ctx} {l R : Shape}
    {m km : Nat} {c : color} {x : Ptr}
    (hC : RepCtx h s q C x) (hl : Rep h s ql l) (hr : Rep h s qr R)
    (hnd : (m :: (l.addrs ++ (R.addrs ++ ctxAddrs C))).Nodup) (hms : m ≠ s)
    (Hm : H m = ⟨km, l.ptr s, R.ptr s, ctxPar q C, c⟩)
    (Hl : ∀ b ∈ l.rootAddr, H b = { h b with parent := some m })
    (HR : ∀ b ∈ R.rootAddr, H b = { h b with parent := some m })
    (Hf : ∀ f fs, C = f :: fs → H f.addr = f.setHole (h f.addr) (some m))
    (Hrest : ∀ a, a ∉ s :: m :: (l.rootAddr ++ (R.rootAddr ++ ctxHead C)) → H a = h a) :
    Rep H s q (plug C (Shape.node c l m km R)) := by
  have hsC := RepCtx_not_sentinel hC
  have hsl := Rep_not_sentinel hl
  have hsr := Rep_not_sentinel hr
  obtain ⟨hm, hnd1⟩ := List.nodup_cons.1 hnd
  obtain ⟨hndl, hnd2, hdl⟩ := List.nodup_append.1 hnd1
  obtain ⟨hndr, hndC, hdr⟩ := List.nodup_append.1 hnd2
  simp only [List.mem_append, not_or] at hm
  have hroot : ∀ (Y : Shape), ∀ b ∈ Y.rootAddr, b ∈ Y.addrs := by
    intro Y
    cases Y <;> simp [Shape.rootAddr, Shape.addrs]
  have hhead : ∀ b ∈ ctxHead C, b ∈ ctxAddrs C := by
    cases C <;> simp [ctxHead, ctxAddrs]
  refine (Rep_plug C _).2 ⟨?_, hms, Hm, ?_, ?_⟩
  · refine RepCtx_redirect hC hndC Hf (fun a ha hah => Hrest a ?_)
    simp only [List.mem_cons, List.mem_append, not_or]
    refine ⟨fun e => hsC (e ▸ ha), ?_, fun hb => ?_, fun hb => ?_, hah⟩
    · rintro rfl
      exact hm.2.2 ha
    · exact hdl (hroot l a hb) (List.mem_append.2 (Or.inr ha))
    · exact hdr (hroot R a hb) ha
  · refine Rep_reparent hl hndl Hl (fun a ha har => Hrest a ?_)
    simp only [List.mem_cons, List.mem_append, not_or]
    refine ⟨fun e => hsl (e ▸ ha), ?_, har, fun hb => ?_, fun hb => ?_⟩
    · rintro rfl
      exact hm.1 ha
    · exact hdl ha (List.mem_append.2 (Or.inl (hroot R a hb)))
    · exact hdl ha (List.mem_append.2 (Or.inr (hhead a hb)))
  · refine Rep_reparent hr hndr HR (fun a ha har => Hrest a ?_)
    simp only [List.mem_cons, List.mem_append, not_or]
    refine ⟨fun e => hsr (e ▸ ha), ?_, fun hb => ?_, har, fun hb => ?_⟩
    · rintro rfl
      exact hm.2.1 ha
    · exact hdl (hroot l a hb) (List.mem_append.2 (Or.inl ha))
    · exact hdr ha (hhead a hb)

/-- Lines 221-225 of `Delete`: the parent of the node in the hole gets `x` in place of
that node. -/
theorem deleteLink_eval {h : Heap} {s : Nat} {q : Ptr} {f : Frame} {rest : Ctx} {c : color}
    {l r : Shape} {m k : Nat}
    (hl : Lay h s q (plug (f :: rest) (Shape.node c l m k r))) (x : Ptr) :
    deleteLink h x (some m) = .ok (h.set f.addr (f.setHole (h f.addr) x)) := by
  have hm := hl.record_at
  have hms : m ≠ s := Rep.addr_ne hl.1
  cases f with
  | L cf a kf sib =>
    have hf := Lay.record_at (C := rest) hl
    simp only [ctxPar_cons, Frame.addr] at hm
    simp [deleteLink, hm, hf, Frame.addr, Frame.setHole]
  | R cf sib a kf =>
    have hf := Lay.record_at (C := rest) hl
    simp only [ctxPar_cons, Frame.addr] at hm
    have hne : sib.ptr s ≠ some m := Lay.ptr_ne hl hms (by
      simp only [count_plug_addrs, Shape.addrs, ctxAddrs, Frame.addr, Frame.sib,
        List.count_append, List.count_cons, List.count_nil, beq_self_eq_true, if_true]; omega)
    simp [deleteLink, hm, hf, Frame.addr, Frame.setHole, Ne.symm hne]

/-- Lines 221-230 of `Delete` for a node with an empty child slot: its other child `Y`
is hung in its place, and the parent link of `Y` (of the sentinel, when `Y` is empty) is
set to match. -/
theorem deleteUnlink_spec {h : Heap} {s : Nat} {q : Ptr} {f : Frame} {rest : Ctx} {c : color}
    {l r Y : Shape} {m k : Nat}
    (hl : Lay h s q (plug (f :: rest) (Shape.node c l m k r)))
    (hY : (l = Shape.nil ∧ Y = r) ∨ (r = Shape.nil ∧ Y = l)) :
    ∃ H1 H, deleteLink h (Y.ptr s) (some m) = .ok H1 ∧ (H1 m).parent = some f.addr ∧
      setParent H1 (Y.ptr s) (some f.addr) = .ok H ∧
      Lay H s q (plug (f :: rest) Y) ∧ CursorPar H s q (f :: rest) Y ∧
      (∀ x, x ∉ s :: (plug (f :: rest) (Shape.node c l m k r)).addrs → H x = h x) ∧
      H m = h m ∧ (∃ p, H s = { h s with parent := p }) ∧
      (∀ x, (H x).color = (h x).color) := by
  have hm := hl.record_at
  have hms : m ≠ s := Rep.addr_ne hl.1
  obtain ⟨hC, -, -, hrl, hrr⟩ := (Rep_plug (f :: rest) _).1 hl.1
  have hnd := plug_nodup.1 hl.2
  have hnsC := RepCtx_not_sentinel hC
  have hfm : f.addr ≠ m := ne_of_count hnd (by
    rintro rfl
    simp only [Shape.addrs, ctxAddrs, List.count_append, List.count_cons, List.count_nil,
      beq_self_eq_true, if_true]; omega)
  have hfs : f.addr ≠ s := fun e => hnsC (by simp [ctxAddrs, e.symm])
  have hYrep : Rep h s (some m) Y := by
    rcases hY with ⟨-, rfl⟩ | ⟨-, rfl⟩
    · exact hrr
    · exact hrl
  have hYsub : ∀ a, Y.addrs.count a ≤ l.addrs.count a + r.addrs.count a := by
    intro a
    rcases hY with ⟨-, rfl⟩ | ⟨-, rfl⟩ <;> omega
  have hndY : (Y.addrs ++ ctxAddrs (f :: rest)).Nodup := by
    refine (List.nodup_iff_count_le_one.2 fun a => ?_)
    have h1 := List.nodup_iff_count_le_one.1 hnd a
    have h2 := hYsub a
    simp only [Shape.addrs, List.count_append, List.count_cons] at h1 ⊢
    omega
  have hmY : m ∉ Y.addrs := not_mem_of_count hnd (by
    have := hYsub m
    simp only [Shape.addrs, List.count_append, List.count_cons, List.count_nil,
      beq_self_eq_true, if_true]; omega)
  have hfY : f.addr ∉ Y.addrs := fun hx =>
    (List.nodup_append.1 hndY).2.2 hx (by simp [ctxAddrs])
  have hYmem : ∀ a ∈ Y.addrs, a ∈ (plug (f :: rest) (Shape.node c l m k r)).addrs := by
    intro a ha
    rw [mem_plug_addrs]
    left
    rcases hY with ⟨-, rfl⟩ | ⟨-, rfl⟩ <;> simp [Shape.addrs, ha]
  have hfmem : f.addr ∈ (plug (f :: rest) (Shape.node c l m k r)).addrs := by
    rw [mem_plug_addrs]
    right
    simp [ctxAddrs]
  have hpar : ((h.set f.addr (f.setHole (h f.addr) (Y.ptr s))) m).parent = some f.addr := by
    simp [Heap.set, Ne.symm hfm, hm]
  · cases Y with
    | nil =>
      refine ⟨_, _, deleteLink_eval hl _, hpar, rfl, ⟨?_, ?_⟩, ?_, ?_, ?_, ?_, ?_⟩
      · refine Rep_graft hC hYrep hndY ?_ ?_ ?_
        · simp [Heap.set, hfs]
        · intro b hb
          simp [Shape.rootAddr] at hb
        · intro a ha
          simp only [List.mem_cons, not_or] at ha
          simp [Heap.set, ha.1, ha.2.1]
      · exact plug_nodup.2 hndY
      · intro _
        simp [Heap.set]
      · intro x hx
        simp only [List.mem_cons, not_or] at hx
        have : x ≠ f.addr := fun e => hx.2 (e ▸ hfmem)
        simp [Heap.set, hx.1, this]
      · simp [Heap.set, hms, Ne.symm hfm]
      · refine ⟨some f.addr, ?_⟩
        simp [Heap.set, Ne.symm hfs]
      · intro x
        cases f <;> simp only [Heap.set, Frame.setHole, Frame.addr] <;> split_ifs <;> simp_all
    | node cy yl y ky yr =>
      have hyf : y ≠ f.addr := fun e => hfY (by simp [Shape.addrs, e])
      have hym : y ≠ m := fun e => hmY (by simp [Shape.addrs, e])
      have hys : y ≠ s := hYrep.1
      refine ⟨_, _, deleteLink_eval hl _, hpar, rfl, ⟨?_, ?_⟩, ?_, ?_, ?_, ?_, ?_⟩
      · refine Rep_graft hC hYrep hndY ?_ ?_ ?_
        · simp [Heap.set, Ne.symm hyf]
        · intro b hb
          simp only [Shape.rootAddr, List.mem_singleton] at hb
          subst hb
          simp [Heap.set, hyf]
        · intro a ha
          simp only [Shape.rootAddr, List.mem_cons, List.mem_singleton, List.not_mem_nil,
            or_false, not_or] at ha
          simp [Heap.set, ha.2.1, ha.2.2]
      · exact plug_nodup.2 hndY
      · intro e
        cases e
      · intro x hx
        simp only [List.mem_cons, not_or] at hx
        have h1 : x ≠ f.addr := fun e => hx.2 (e ▸ hfmem)
        have h2 : x ≠ y := fun e => hx.2 (hYmem y (by simp [Shape.addrs]) |> (e ▸ ·))
        simp [Heap.set, h1, h2]
      · simp [Heap.set, Ne.symm hym, Ne.symm hfm]
      · refine ⟨(h s).parent, ?_⟩
        simp [Heap.set, Ne.symm hys, Ne.symm hfs]
      · intro x
        cases f <;> simp only [Heap.set, Frame.setHole, Frame.addr] <;> split_ifs <;> simp_all

theorem Shape.rootAddr_mem {Y : Shape} {b : Nat} (hb : b ∈ Y.rootAddr) : b ∈ Y.addrs := by
  cases Y <;> simp_all [Shape.rootAddr, Shape.addrs]

theorem ctxHead_mem {C : Ctx} {b : Nat} (hb : b ∈ ctxHead C) : b ∈ ctxAddrs C := by
  cases C <;> simp_all [ctxHead, ctxAddrs]

/-- Lines 237-260 of `Delete`: the node `m` takes the links and the colour of `n`, the
parent of `n` (or the root pointer) and the children of `n` point to `m`. -/
theorem deleteTransplant_spec {rb : RBTree} {s : Nat} {q ql qr : Ptr} {C : Ctx} {l R : Shape}
    {n m k : Nat} {c : color}
    (hsent : rb.sentinel = some s) (hroot : rb.root = ctxTop C (some n))
    (hC : RepCtx rb.heap s q C (some n))
    (hn : rb.heap n = ⟨k, l.ptr s, R.ptr s, ctxPar q C, c⟩)
    (hl : Rep rb.heap s ql l) (hr : Rep rb.heap s qr R)
    (hnd : (n :: m :: (l.addrs ++ (R.addrs ++ ctxAddrs C))).Nodup) (hms : m ≠ s)
    (hns : n ≠ s) :
    ∃ rb', deleteTransplant rb (some n) (some m) = .ok rb' ∧
      Models rb' s q (plug C (Shape.node c l m (rb.heap m).key R)) ∧
      Keeps rb rb' (m :: (l.rootAddr ++ (R.rootAddr ++ ctxHead C))) := by
  have hsC := RepCtx_not_sentinel hC
  have hsl := Rep_not_sentinel hl
  have hsr := Rep_not_sentinel hr
  obtain ⟨hn1, hnd1⟩ := List.nodup_cons.1 hnd
  have hnm : n ≠ m := fun e => hn1 (by simp [e])
  simp only [List.mem_cons, List.mem_append, not_or] at hn1
  obtain ⟨hm1, hnd2⟩ := List.nodup_cons.1 hnd1
  simp only [List.mem_append, not_or] at hm1
  obtain ⟨hndl, hnd3, hdl⟩ := List.nodup_append.1 hnd2
  obtain ⟨hndr, hndC, hdr⟩ := List.nodup_append.1 hnd3
  have hL : ∀ b ∈ l.rootAddr, (b ≠ n ∧ n ≠ b) ∧ (b ≠ m ∧ m ≠ b) ∧ (b ≠ s ∧ s ≠ b) ∧
      (∀ x ∈ R.rootAddr, b ≠ x ∧ x ≠ b) ∧ (∀ x ∈ ctxHead C, b ≠ x ∧ x ≠ b) := by
    intro b hb
    have hb' := Shape.rootAddr_mem hb
    have h1 : b ≠ n := by rintro rfl; exact hn1.2.1 hb'
    have h2 : b ≠ m := by rintro rfl; exact hm1.1 hb'
    have h3 : b ≠ s := by rintro rfl; exact hsl hb'
    have h4 : ∀ x ∈ R.rootAddr, b ≠ x := by
      rintro x hx rfl
      exact hdl hb' (List.mem_append.2 (Or.inl (Shape.rootAddr_mem hx)))
    have h5 : ∀ x ∈ ctxHead C, b ≠ x := by
      rintro x hx rfl
      exact hdl hb' (List.mem_append.2 (Or.inr (ctxHead_mem hx)))
    exact ⟨⟨h1, h1.symm⟩, ⟨h2, h2.symm⟩, ⟨h3, h3.symm⟩, fun x hx => ⟨h4 x hx, (h4 x hx).symm⟩,
      fun x hx => ⟨h5 x hx, (h5 x hx).symm⟩⟩
  have hR : ∀ b ∈ R.rootAddr, (b ≠ n ∧ n ≠ b) ∧ (b ≠ m ∧ m ≠ b) ∧ (b ≠ s ∧ s ≠ b) ∧
      (∀ x ∈ ctxHead C, b ≠ x ∧ x ≠ b) := by
    intro b hb
    have hb' := Shape.rootAddr_mem hb
    have h1 : b ≠ n := by rintro rfl; exact hn1.2.2.1 hb'
    have h2 : b ≠ m := by rintro rfl; exact hm1.2.1 hb'
    have h3 : b ≠ s := by rintro rfl; exact hsr hb'
    have h5 : ∀ x ∈ ctxHead C, b ≠ x := by
      rintro x hx rfl
      exact hdr hb' (ctxHead_mem hx)
    exact ⟨⟨h1, h1.symm⟩, ⟨h2, h2.symm⟩, ⟨h3, h3.symm⟩, fun x hx => ⟨h5 x hx, (h5 x hx).symm⟩⟩
  have hF : ∀ b ∈ ctxHead C, (b ≠ n ∧ n ≠ b) ∧ (b ≠ m ∧ m ≠ b) ∧ (b ≠ s ∧ s ≠ b) := by
    intro b hb
    have hb' := ctxHead_mem hb
    have h1 : b ≠ n := by rintro rfl; exact hn1.2.2.2 hb'
    have h2 : b ≠ m := by rintro rfl; exact hm1.2.2 hb'
    have h3 : b ≠ s := by rintro rfl; exact hsC hb'
    exact ⟨⟨h1, h1.symm⟩, ⟨h2, h2.symm⟩, ⟨h3, h3.symm⟩⟩
  have hrootne : C ≠ [] → rb.root ≠ some n := fun hne => by
    obtain ⟨a, h1, h2⟩ := ctxTop_mem (x := some n) hne
    rw [hroot, h1]
    intro e
    simp only [Option.some.injEq] at e
    exact hn1.2.2.2 (e ▸ h2)
  have hnodup' : (plug C (Shape.node c l m (rb.heap m).key R)).addrs.Nodup := by
    rw [plug_nodup]
    refine List.nodup_iff_count_le_one.2 fun a => ?_
    have h1 := List.nodup_iff_count_le_one.1 hnd1 a
    simp only [Shape.addrs, List.count_append, List.count_cons] at h1 ⊢
    omega
  have hnd1' : (m :: (l.addrs ++ (R.addrs ++ ctxAddrs C))).Nodup := hnd1
  have key : ∀ (r' : Ptr) (H : Heap), r' = ctxTop C (some m) →
      H m = ⟨(rb.heap m).key, l.ptr s, R.ptr s, ctxPar q C, c⟩ →
      (∀ b ∈ l.rootAddr, H b = { rb.heap b with parent := some m }) →
      (∀ b ∈ R.rootAddr, H b = { rb.heap b with parent := some m }) →
      (∀ f fs, C = f :: fs → H f.addr = f.setHole (rb.heap f.addr) (some m)) →
      (∀ x, x ∉ m :: (l.rootAddr ++ (R.rootAddr ++ ctxHead C)) → H x = rb.heap x) →
      Models { size := rb.size, root := r', sentinel := some s,
               insertCallBack := rb.insertCallBack, heap := H } s q
          (plug C (Shape.node c l m (rb.heap m).key R)) ∧
        Keeps rb { size := rb.size, root := r', sentinel := some s,
                   insertCallBack := rb.insertCallBack, heap := H }
          (m :: (l.rootAddr ++ (R.rootAddr ++ ctxHead C))) := by
    intro r' H hr' Hm Hl HR Hf Hrest
    refine ⟨⟨rfl, ?_, Rep_transplant hC hl hr hnd1' hms Hm Hl HR Hf ?_, hnodup'⟩,
      ⟨rfl, rfl, hsent.symm, Hrest⟩⟩
    · rw [hr', plug_ptr]; rfl
    · intro a ha
      exact Hrest a (fun h => ha (List.mem_cons_of_mem _ h))
  rcases l with _ | ⟨cl, ll, la, lk, lr⟩ <;> rcases R with _ | ⟨cr, rl, ra, rk, rr⟩ <;>
    rcases C with _ | ⟨⟨cf, fa, fk, fr⟩ | ⟨cf, fl, fa, fk⟩, fs⟩
  · -- left child: nil, right child: nil, path: empty
    simp only [ctxTop_nil] at hroot
    simp only [ctxPar_nil, Shape.ptr_node, Shape.ptr_nil] at hn
    simp [deleteTransplant, hn, hsent, Heap.set, hnm, hnm.symm, hms, hns, Ne.symm hms, Ne.symm hns, hroot]
    refine key _ _ rfl ?_ ?_ ?_ ?_ ?_
    · simp [Heap.set, Heap.recolor, hnm, hnm.symm, hms, hns, Ne.symm hms, Ne.symm hns, ctxPar, Frame.addr]
    · intro b hb
      simp [Shape.rootAddr] at hb
    · intro b hb
      simp [Shape.rootAddr] at hb
    · intro f fs e
      cases e
    · intro x hx
      simp only [Shape.rootAddr, ctxHead, Frame.addr, List.mem_cons, List.mem_append,
        List.mem_singleton, List.not_mem_nil, or_false, false_or, not_or] at hx
      simp [Heap.set, Heap.recolor, hx]
  · -- left child: nil, right child: nil, path: left step
    have hFa := hF fa (by simp [ctxHead, Frame.addr])
    have hr0 := hrootne (by simp)
    obtain ⟨-, hf, -, -⟩ := hC
    simp only [ctxPar_cons, Frame.addr, Shape.ptr_node, Shape.ptr_nil] at hn hf
    simp only [Shape.rootAddr, ctxHead, Frame.addr, List.mem_singleton, List.not_mem_nil,
      forall_eq, not_false_eq_true, and_true, IsEmpty.forall_iff, implies_true, ne_eq] at hFa
    simp [deleteTransplant, hn, hsent, Heap.set, hnm, hnm.symm, hms, hns, Ne.symm hms, Ne.symm hns, hFa, hf, Ne.symm hr0]
    refine key _ _ hroot ?_ ?_ ?_ ?_ ?_
    · simp [Heap.set, Heap.recolor, hnm, hnm.symm, hms, hns, Ne.symm hms, Ne.symm hns, hFa, ctxPar, Frame.addr]
    · intro b hb
      simp [Shape.rootAddr] at hb
    · intro b hb
      simp [Shape.rootAddr] at hb
    · intro f fs e
      cases e
      simp [Heap.set, Heap.recolor, hnm, hnm.symm, hms, hns, Ne.symm hms, Ne.symm hns, hFa, Frame.setHole, Frame.addr, hf]
    · intro x hx
      simp only [Shape.rootAddr, ctxHead, Frame.addr, List.mem_cons, List.mem_append,
        List.mem_singleton, List.not_mem_nil, or_false, false_or, not_or] at hx
      simp [Heap.set, Heap.recolor, hx]
  · -- left child: nil, right child: nil, path: right step
    have hFa := hF fa (by simp [ctxHead, Frame.addr])
    have hr0 := hrootne (by simp)
    obtain ⟨-, hf, -, -⟩ := hC
    simp only [ctxPar_cons, Frame.addr, Shape.ptr_node, Shape.ptr_nil] at hn hf
    have hfl : fl.ptr s ≠ some n := Shape.ptr_ne_of_not_mem hns (fun h => hn1.2.2.2 (by
      simp [ctxAddrs, Frame.sib, h]))
    simp only [Shape.rootAddr, ctxHead, Frame.addr, List.mem_singleton, List.not_mem_nil,
      forall_eq, not_false_eq_true, and_true, IsEmpty.forall_iff, implies_true, ne_eq] at hFa
    simp [deleteTransplant, hn, hsent, Heap.set, hnm, hnm.symm, hms, hns, Ne.symm hms, Ne.symm hns, hFa, hf, Ne.symm hr0, Ne.symm hfl]
    refine key _ _ hroot ?_ ?_ ?_ ?_ ?_
    · simp [Heap.set, Heap.recolor, hnm, hnm.symm, hms, hns, Ne.symm hms, Ne.symm hns, hFa, ctxPar, Frame.addr]
    · intro b hb
      simp [Shape.rootAddr] at hb
    · intro b hb
      simp [Shape.rootAddr] at hb
    · intro f fs e
      cases e
      simp [Heap.set, Heap.recolor, hnm, hnm.symm, hms, hns, Ne.symm hms, Ne.symm hns, hFa, Frame.setHole, Frame.addr, hf]
    · intro x hx
      simp only [Shape.rootAddr, ctxHead, Frame.addr, List.mem_cons, List.mem_append,
        List.mem_singleton, List.not_mem_nil, or_false, false_or, not_or] at hx
      simp [Heap.set, Heap.recolor, hx]
  · -- left child: nil, right child: node, path: empty
    have hRa := hR ra (by simp [Shape.rootAddr])
    simp only [ctxTop_nil] at hroot
    simp only [ctxPar_nil, Shape.ptr_node, Shape.ptr_nil] at hn
    simp only [Shape.rootAddr, ctxHead, Frame.addr, List.mem_singleton, List.not_mem_nil,
      forall_eq, not_false_eq_true, and_true, IsEmpty.forall_iff, implies_true, ne_eq] at hRa
    simp [deleteTransplant, hn, hsent, Heap.set, hnm, hnm.symm, hms, hns, Ne.symm hms, Ne.symm hns, hRa, hroot]
    refine key _ _ rfl ?_ ?_ ?_ ?_ ?_
    · simp [Heap.set, Heap.recolor, hnm, hnm.symm, hms, hns, Ne.symm hms, Ne.symm hns, hRa, ctxPar, Frame.addr]
    · intro b hb
      simp [Shape.rootAddr] at hb
    · intro b hb
      simp only [Shape.rootAddr, List.mem_singleton] at hb
      subst hb
      simp [Heap.set, Heap.recolor, hnm, hnm.symm, hms, hns, Ne.symm hms, Ne.symm hns, hRa]
    · intro f fs e
      cases e
    · intro x hx
      simp only [Shape.rootAddr, ctxHead, Frame.addr, List.mem_cons, List.mem_append,
        List.mem_singleton, List.not_mem_nil, or_false, false_or, not_or] at hx
      simp [Heap.set, Heap.recolor, hx]
  · -- left child: nil, right child: node, path: left step
    have hRa := hR ra (by simp [Shape.rootAddr])
    have hFa := hF fa (by simp [ctxHead, Frame.addr])
    have hr0 := hrootne (by simp)
    obtain ⟨-, hf, -, -⟩ := hC
    simp only [ctxPar_cons, Frame.addr, Shape.ptr_node, Shape.ptr_nil] at hn hf
    simp only [Shape.rootAddr, ctxHead, Frame.addr, List.mem_singleton, List.not_mem_nil,
      forall_eq, not_false_eq_true, and_true, IsEmpty.forall_iff, implies_true, ne_eq] at hRa hFa
    simp [deleteTransplant, hn, hsent, Heap.set, hnm, hnm.symm, hms, hns, Ne.symm hms, Ne.symm hns, hRa, hFa, hf, Ne.symm hr0]
    refine key _ _ hroot ?_ ?_ ?_ ?_ ?_
    · simp [Heap.set, Heap.recolor, hnm, hnm.symm, hms, hns, Ne.symm hms, Ne.symm hns, hRa, hFa, ctxPar, Frame.addr]
    · intro b hb
      simp [Shape.rootAddr] at hb
    · intro b hb
      simp only [Shape.rootAddr, List.mem_singleton] at hb
      subst hb
      simp [Heap.set, Heap.recolor, hnm, hnm.symm, hms, hns, Ne.symm hms, Ne.symm hns, hRa, hFa]
    · intro f fs e
      cases e
      simp [Heap.set, Heap.recolor, hnm, hnm.symm, hms, hns, Ne.symm hms, Ne.symm hns, hRa, hFa, Frame.setHole, Frame.addr, hf]
    · intro x hx
      simp only [Shape.rootAddr, ctxHead, Frame.addr, List.mem_cons, List.mem_append,
        List.mem_singleton, List.not_mem_nil, or_false, false_or, not_or] at hx
      simp [Heap.set, Heap.recolor, hx]
  · -- left child: nil, right child: node, path: right step
    have hRa := hR ra (by simp [Shape.rootAddr])
    have hFa := hF fa (by simp [ctxHead, Frame.addr])
    have hr0 := hrootne (by simp)
    obtain ⟨-, hf, -, -⟩ := hC
    simp only [ctxPar_cons, Frame.addr, Shape.ptr_node, Shape.ptr_nil] at hn hf
    have hfl : fl.ptr s ≠ some n := Shape.ptr_ne_of_not_mem hns (fun h => hn1.2.2.2 (by
      simp [ctxAddrs, Frame.sib, h]))
    simp only [Shape.rootAddr, ctxHead, Frame.addr, List.mem_singleton, List.not_mem_nil,
      forall_eq, not_false_eq_true, and_true, IsEmpty.forall_iff, implies_true, ne_eq] at hRa hFa
    simp [deleteTransplant, hn, hsent, Heap.set, hnm, hnm.symm, hms, hns, Ne.symm hms, Ne.symm hns, hRa, hFa, hf, Ne.symm hr0, Ne.symm hfl]
    refine key _ _ hroot ?_ ?_ ?_ ?_ ?_
    · simp [Heap.set, Heap.recolor, hnm, hnm.symm, hms, hns, Ne.symm hms, Ne.symm hns, hRa, hFa, ctxPar, Frame.addr]
    · intro b hb
      simp [Shape.rootAddr] at hb
    · intro b hb
      simp only [Shape.rootAddr, List.mem_singleton] at hb
      subst hb
      simp [Heap.set, Heap.recolor, hnm, hnm.symm, hms, hns, Ne.symm hms, Ne.symm hns, hRa, hFa]
    · intro f fs e
      cases e
      simp [Heap.set, Heap.recolor, hnm, hnm.symm, hms, hns, Ne.symm hms, Ne.symm hns, hRa, hFa, Frame.setHole, Frame.addr, hf]
    · intro x hx
      simp only [Shape.rootAddr, ctxHead, Frame.addr, List.mem_cons, List.mem_append,
        List.mem_singleton, List.not_mem_nil, or_false, false_or, not_or] at hx
      simp [Heap.set, Heap.recolor, hx]
  · -- left child: node, right child: nil, path: empty
    have hLa := hL la (by simp [Shape.rootAddr])
    simp only [ctxTop_nil] at hroot
    simp only [ctxPar_nil, Shape.ptr_node, Shape.ptr_nil] at hn
    simp only [Shape.rootAddr, ctxHead, Frame.addr, List.mem_singleton, List.not_mem_nil,
      forall_eq, not_false_eq_true, and_true, IsEmpty.forall_iff, implies_true, ne_eq] at hLa
    simp [deleteTransplant, hn, hsent, Heap.set, hnm, hnm.symm, hms, hns, Ne.symm hms, Ne.symm hns, hLa, hroot]
    refine key _ _ rfl ?_ ?_ ?_ ?_ ?_
    · simp [Heap.set, Heap.recolor, hnm, hnm.symm, hms, hns, Ne.symm hms, Ne.symm hns, hLa, ctxPar, Frame.addr]
    · intro b hb
      simp only [Shape.rootAddr, List.mem_singleton] at hb
      subst hb
      simp [Heap.set, Heap.recolor, hnm, hnm.symm, hms, hns, Ne.symm hms, Ne.symm hns, hLa]
    · intro b hb
      simp [Shape.rootAddr] at hb
    · intro f fs e
      cases e
    · intro x hx
      simp only [Shape.rootAddr, ctxHead, Frame.addr, List.mem_cons, List.mem_append,
        List.mem_singleton, List.not_mem_nil, or_false, false_or, not_or] at hx
      simp [Heap.set, Heap.recolor, hx]
  · -- left child: node, right child: nil, path: left step
    have hLa := hL la (by simp [Shape.rootAddr])
    have hFa := hF fa (by simp [ctxHead, Frame.addr])
    have hr0 := hrootne (by simp)
    obtain ⟨-, hf, -, -⟩ := hC
    simp only [ctxPar_cons, Frame.addr, Shape.ptr_node, Shape.ptr_nil] at hn hf
    simp only [Shape.rootAddr, ctxHead, Frame.addr, List.mem_singleton, List.not_mem_nil,
      forall_eq, not_false_eq_true, and_true, IsEmpty.forall_iff, implies_true, ne_eq] at hLa hFa
    simp [deleteTransplant, hn, hsent, Heap.set, hnm, hnm.symm, hms, hns, Ne.symm hms, Ne.symm hns, hLa, hFa, hf, Ne.symm hr0]
    refine key _ _ hroot ?_ ?_ ?_ ?_ ?_
    · simp [Heap.set, Heap.recolor, hnm, hnm.symm, hms, hns, Ne.symm hms, Ne.symm hns, hLa, hFa, ctxPar, Frame.addr]
    · intro b hb
      simp only [Shape.rootAddr, List.mem_singleton] at hb
      subst hb
      simp [Heap.set, Heap.recolor, hnm, hnm.symm, hms, hns, Ne.symm hms, Ne.symm hns, hLa, hFa]
    · intro b hb
      simp [Shape.rootAddr] at hb
    · intro f fs e
      cases e
      simp [Heap.set, Heap.recolor, hnm, hnm.symm, hms, hns, Ne.symm hms, Ne.symm hns, hLa, hFa, Frame.setHole, Frame.addr, hf]
    · intro x hx
      simp only [Shape.rootAddr, ctxHead, Frame.addr, List.mem_cons, List.mem_append,
        List.mem_singleton, List.not_mem_nil, or_false, false_or, not_or] at hx
      simp [Heap.set, Heap.recolor, hx]
  · -- left child: node, right child: nil, path: right step
    have hLa := hL la (by simp [Shape.rootAddr])
    have hFa := hF fa (by simp [ctxHead, Frame.addr])
    have hr0 := hrootne (by simp)
    obtain ⟨-, hf, -, -⟩ := hC
    simp only [ctxPar_cons, Frame.addr, Shape.ptr_node, Shape.ptr_nil] at hn hf
    have hfl : fl.ptr s ≠ some n := Shape.ptr_ne_of_not_mem hns (fun h => hn1.2.2.2 (by
      simp [ctxAddrs, Frame.sib, h]))
    simp only [Shape.rootAddr, ctxHead, Frame.addr, List.mem_singleton, List.not_mem_nil,
      forall_eq, not_false_eq_true, and_true, IsEmpty.forall_iff, implies_true, ne_eq] at hLa hFa
    simp [deleteTransplant, hn, hsent, Heap.set, hnm, hnm.symm, hms, hns, Ne.symm hms, Ne.symm hns, hLa, hFa, hf, Ne.symm hr0, Ne.symm hfl]
    refine key _ _ hroot ?_ ?_ ?_ ?_ ?_
    · simp [Heap.set, Heap.recolor, hnm, hnm.symm, hms, hns, Ne.symm hms, Ne.symm hns, hLa, hFa, ctxPar, Frame.addr]
    · intro b hb
      simp only [Shape.rootAddr, List.mem_singleton] at hb
      subst hb
      simp [Heap.set, Heap.recolor, hnm, hnm.symm, hms, hns, Ne.symm hms, Ne.symm hns, hLa, hFa]
    · intro b hb
      simp [Shape.rootAddr] at hb
    · intro f fs e
      cases e
      simp [Heap.set, Heap.recolor, hnm, hnm.symm, hms, hns, Ne.symm hms, Ne.symm hns, hLa, hFa, Frame.setHole, Frame.addr, hf]
    · intro x hx
      simp only [Shape.rootAddr, ctxHead, Frame.addr, List.mem_cons, List.mem_append,
        List.mem_singleton, List.not_mem_nil, or_false, false_or, not_or] at hx
      simp [Heap.set, Heap.recolor, hx]
  · -- left child: node, right child: node, path: empty
    have hLa := hL la (by simp [Shape.rootAddr])
    have hRa := hR ra (by simp [Shape.rootAddr])
    simp only [ctxTop_nil] at hroot
    simp only [ctxPar_nil, Shape.ptr_node, Shape.ptr_nil] at hn
    simp only [Shape.rootAddr, ctxHead, Frame.addr, List.mem_singleton, List.not_mem_nil,
      forall_eq, not_false_eq_true, and_true, IsEmpty.forall_iff, implies_true, ne_eq] at hLa hRa
    simp [deleteTransplant, hn, hsent, Heap.set, hnm, hnm.symm, hms, hns, Ne.symm hms, Ne.symm hns, hLa, hRa, hroot]
    refine key _ _ rfl ?_ ?_ ?_ ?_ ?_
    · simp [Heap.set, Heap.recolor, hnm, hnm.symm, hms, hns, Ne.symm hms, Ne.symm hns, hLa, hRa, ctxPar, Frame.addr]
    · intro b hb
      simp only [Shape.rootAddr, List.mem_singleton] at hb
      subst hb
      simp [Heap.set, Heap.recolor, hnm, hnm.symm, hms, hns, Ne.symm hms, Ne.symm hns, hLa, hRa]
    · intro b hb
      simp only [Shape.rootAddr, List.mem_singleton] at hb
      subst hb
      simp [Heap.set, Heap.recolor, hnm, hnm.symm, hms, hns, Ne.symm hms, Ne.symm hns, hLa, hRa]
    · intro f fs e
      cases e
    · intro x hx
      simp only [Shape.rootAddr, ctxHead, Frame.addr, List.mem_cons, List.mem_append,
        List.mem_singleton, List.not_mem_nil, or_false, false_or, not_or] at hx
      simp [Heap.set, Heap.recolor, hx]
  · -- left child: node, right child: node, path: left step
    have hLa := hL la (by simp [Shape.rootAddr])
    have hRa := hR ra (by simp [Shape.rootAddr])
    have hFa := hF fa (by simp [ctxHead, Frame.addr])
    have hr0 := hrootne (by simp)
    obtain ⟨-, hf, -, -⟩ := hC
    simp only [ctxPar_cons, Frame.addr, Shape.ptr_node, Shape.ptr_nil] at hn hf
    simp only [Shape.rootAddr, ctxHead, Frame.addr, List.mem_singleton, List.not_mem_nil,
      forall_eq, not_false_eq_true, and_true, IsEmpty.forall_iff, implies_true, ne_eq] at hLa hRa hFa
    simp [deleteTransplant, hn, hsent, Heap.set, hnm, hnm.symm, hms, hns, Ne.symm hms, Ne.symm hns, hLa, hRa, hFa, hf, Ne.symm hr0]
    refine key _ _ hroot ?_ ?_ ?_ ?_ ?_
    · simp [Heap.set, Heap.recolor, hnm, hnm.symm, hms, hns, Ne.symm hms, Ne.symm hns, hLa, hRa, hFa, ctxPar, Frame.addr]
    · intro b hb
      simp only [Shape.rootAddr, List.mem_singleton] at hb
      subst hb
      simp [Heap.set, Heap.recolor, hnm, hnm.symm, hms, hns, Ne.symm hms, Ne.symm hns, hLa, hRa, hFa]
    · intro b hb
      simp only [Shape.rootAddr, List.mem_singleton] at hb
      subst hb
      simp [Heap.set, Heap.recolor, hnm, hnm.symm, hms, hns, Ne.symm hms, Ne.symm hns, hLa, hRa, hFa]
    · intro f fs e
      cases e
      simp [Heap.set, Heap.recolor, hnm, hnm.symm, hms, hns, Ne.symm hms, Ne.symm hns, hLa, hRa, hFa, Frame.setHole, Frame.addr, hf]
    · intro x hx
      simp only [Shape.rootAddr, ctxHead, Frame.addr, List.mem_cons, List.mem_append,
        List.mem_singleton, List.not_mem_nil, or_false, false_or, not_or] at hx
      simp [Heap.set, Heap.recolor, hx]
  · -- left child: node, right child: node, path: right step
    have hLa := hL la (by simp [Shape.rootAddr])
    have hRa := hR ra (by simp [Shape.rootAddr])
    have hFa := hF fa (by simp [ctxHead, Frame.addr])
    have hr0 := hrootne (by simp)
    obtain ⟨-, hf, -, -⟩ := hC
    simp only [ctxPar_cons, Frame.addr, Shape.ptr_node, Shape.ptr_nil] at hn hf
    have hfl : fl.ptr s ≠ some n := Shape.ptr_ne_of_not_mem hns (fun h => hn1.2.2.2 (by
      simp [ctxAddrs, Frame.sib, h]))
    simp only [Shape.rootAddr, ctxHead, Frame.addr, List.mem_singleton, List.not_mem_nil,
      forall_eq, not_false_eq_true, and_true, IsEmpty.forall_iff, implies_true, ne_eq] at hLa hRa hFa
    simp [deleteTransplant, hn, hsent, Heap.set, hnm, hnm.symm, hms, hns, Ne.symm hms, Ne.symm hns, hLa, hRa, hFa, hf, Ne.symm hr0, Ne.symm hfl]
    refine key _ _ hroot ?_ ?_ ?_ ?_ ?_
    · simp [Heap.set, Heap.recolor, hnm, hnm.symm, hms, hns, Ne.symm hms, Ne.symm hns, hLa, hRa, hFa, ctxPar, Frame.addr]
    · intro b hb
      simp only [Shape.rootAddr, List.mem_singleton] at hb
      subst hb
      simp [Heap.set, Heap.recolor, hnm, hnm.symm, hms, hns, Ne.symm hms, Ne.symm hns, hLa, hRa, hFa]
    · intro b hb
      simp only [Shape.rootAddr, List.mem_singleton] at hb
      subst hb
      simp [Heap.set, Heap.recolor, hnm, hnm.symm, hms, hns, Ne.symm hms, Ne.symm hns, hLa, hRa, hFa]
    · intro f fs e
      cases e
      simp [Heap.set, Heap.recolor, hnm, hnm.symm, hms, hns, Ne.symm hms, Ne.symm hns, hLa, hRa, hFa, Frame.setHole, Frame.addr, hf]
    · intro x hx
      simp only [Shape.rootAddr, ctxHead, Frame.addr, List.mem_cons, List.mem_append,
        List.mem_singleton, List.not_mem_nil, or_false, false_or, not_or] at hx
      simp [Heap.set, Heap.recolor, hx]

theorem plug_append : ∀ (C D : Ctx) (t : Shape), plug (C ++ D) t = plug D (plug C t)
  | [], _, _ => rfl
  | f :: fs, D, t => by
    rw [List.cons_append, plug, plug, plug_append fs D]

/-- Every attached node sits in the hole of some path. -/
theorem Shape.decompose {a : Nat} : ∀ {T : Shape}, a ∈ T.addrs →
    ∃ C c l k r, T = plug C (Shape.node c l a k r)
  | Shape.nil, h => by simp [Shape.addrs] at h
  | Shape.node c l b k r, h => by
    simp only [Shape.addrs, List.mem_append, List.mem_cons] at h
    rcases h with h | h | h
    · obtain ⟨C, c', l', k', r', e⟩ := Shape.decompose h
      refine ⟨C ++ [Frame.L c b k r], c', l', k', r', ?_⟩
      rw [plug_append, ← e]
      rfl
    · subst h
      exact ⟨[], c, l, k, r, rfl⟩
    · obtain ⟨C, c', l', k', r', e⟩ := Shape.decompose h
      refine ⟨C ++ [Frame.R c l b k], c', l', k', r', ?_⟩
      rw [plug_append, ← e]
      rfl

theorem plug_height : ∀ (C : Ctx) (t : Shape), C.length + t.height ≤ (plug C t).height
  | [], t => by simp
  | f :: fs, t => by
    rw [plug]
    have h := plug_height fs (f.fill t)
    have h2 : t.height + 1 ≤ (f.fill t).height := by
      cases f <;> simp only [Frame.fill, Shape.height] <;> omega
    simp only [List.length_cons]
    omega

/-- The walk of `mix` ends at the leftmost node of a represented subtree. -/
theorem mix_spec {h : Heap} {s : Nat} : ∀ (r : Shape) (q : Ptr) (fuel : Nat),
    r ≠ Shape.nil → Rep h s q r → r.height ≤ fuel →
    ∃ D cs m km sr, r = plug D (Shape.node cs Shape.nil m km sr) ∧ ctxL D = [] ∧
      mix fuel h (r.ptr s) (some s) = .ok (some m)
  | Shape.nil, _, _, hne, _, _ => absurd rfl hne
  | Shape.node c l a k r, q, 0, _, _, hf => by
    simp [Shape.height] at hf
  | Shape.node c l a k r, q, fuel + 1, _, hrep, hf => by
    obtain ⟨h1, h2, h3, h4⟩ := hrep
    simp only [Shape.height] at hf
    by_cases hl : l = Shape.nil
    · subst hl
      refine ⟨[], c, a, k, r, rfl, rfl, ?_⟩
      simp [mix, h2]
    · obtain ⟨D, cs, m, km, sr, e, hD, hmix⟩ := mix_spec l (some a) fuel hl h3 (by omega)
      refine ⟨D ++ [Frame.L c a k r], cs, m, km, sr, ?_, ?_, ?_⟩
      · rw [plug_append, ← e]
        rfl
      · clear e hmix
        induction D with
        | nil => rfl
        | cons f fs ih =>
          cases f with
          | L _ _ _ _ => exact ih hD
          | R _ _ _ _ => simp [ctxL] at hD
      · have hne : l.ptr s ≠ some s := fun e => hl ((Shape.ptr_eq_sentinel h3).1 e)
        simp [mix, h2, hne, hmix]

/-- Lines 196-210 of `Delete` for a node without a left child. -/
theorem deleteFind_left {rb : RBTree} {s : Nat} {q : Ptr} {C : Ctx} {c : color} {r : Shape}
    {n k : Nat} (M : Models rb s q (plug C (Shape.node c Shape.nil n k r))) (fuel : Nat) :
    deleteFind fuel rb (some n) = .ok (r.ptr s, some n) := by
  simp [deleteFind, M.lay.record_at, M.sentinel_eq]

/-- Lines 196-210 of `Delete` for a node with a left child and no right child. -/
theorem deleteFind_right {rb : RBTree} {s : Nat} {q : Ptr} {C : Ctx} {c : color} {l : Shape}
    {n k : Nat} (M : Models rb s q (plug C (Shape.node c l n k Shape.nil)))
    (hl : l ≠ Shape.nil) (fuel : Nat) :
    deleteFind fuel rb (some n) = .ok (l.ptr s, some n) := by
  obtain ⟨-, -, -, hrl, -⟩ := (Rep_plug C _).1 M.rep
  have hne : l.ptr s ≠ some s := fun e => hl ((Shape.ptr_eq_sentinel hrl).1 e)
  simp [deleteFind, M.lay.record_at, M.sentinel_eq, hne]

/-- Lines 196-210 of `Delete` for a node with two children: the successor is the leftmost
node of the right subtree, and its right child takes its place. -/
theorem deleteFind_both {rb : RBTree} {s : Nat} {q : Ptr} {C : Ctx} {c : color} {l r : Shape}
    {n k : Nat} (M : Models rb s q (plug C (Shape.node c l n k r)))
    (hl : l ≠ Shape.nil) (hr : r ≠ Shape.nil) {fuel : Nat} (hf : r.height ≤ fuel) :
    ∃ D cs m km sr, r = plug D (Shape.node cs Shape.nil m km sr) ∧ ctxL D = [] ∧
      deleteFind fuel rb (some n) = .ok (sr.ptr s, some m) := by
  obtain ⟨-, -, -, hrl, hrr⟩ := (Rep_plug C _).1 M.rep
  obtain ⟨D, cs, m, km, sr, e, hD, hmix⟩ := mix_spec r (some n) fuel hr hrr hf
  refine ⟨D, cs, m, km, sr, e, hD, ?_⟩
  have hne : l.ptr s ≠ some s := fun e => hl ((Shape.ptr_eq_sentinel hrl).1 e)
  have hne2 : r.ptr s ≠ some s := fun e => hr ((Shape.ptr_eq_sentinel hrr).1 e)
  have hm : rb.heap m = ⟨km, some s, sr.ptr s, ctxPar (some n) D, cs⟩ := by
    rw [e] at hrr
    simpa using Rep.node_at hrr
  simp [deleteFind, M.lay.record_at, M.sentinel_eq, hne, hne2, hmix, hm]

theorem headBlack_congr {C D : Ctx} (e : C.map Frame.look = D.map Frame.look) :
    headBlack C ↔ headBlack D := by
  cases C with
  | nil =>
    cases D with
    | nil => rfl
    | cons g gs => simp at e
  | cons f fs =>
    cases D with
    | nil => simp at e
    | cons g gs =>
      simp only [List.map_cons, List.cons.injEq, Frame.look, Prod.mk.injEq] at e
      simp [headBlack, e.1.1]

theorem ctxValid_congr : ∀ {C D : Ctx} (b : Nat), C.map Frame.look = D.map Frame.look →
    (ctxValid C b ↔ ctxValid D b)
  | [], [], _, _ => Iff.rfl
  | [], g :: gs, _, e => by simp at e
  | f :: fs, [], _, e => by simp at e
  | f :: fs, g :: gs, b, e => by
    simp only [List.map_cons, List.cons.injEq, Frame.look, Prod.mk.injEq] at e
    obtain ⟨⟨e1, e2⟩, e3⟩ := e
    simp only [ctxValid, e1, e2, headBlack_congr e3, ctxValid_congr _ e3]

/-- Validity does not depend on the addresses and keys along the path. -/
theorem plug_valid_congr {C D : Ctx} {t : Shape} (e : C.map Frame.look = D.map Frame.look)
    (hv : (plug C t).valid) : (plug D t).valid := by
  obtain ⟨h1, h2, h3⟩ := valid_plug C t hv
  exact plug_valid D t ((ctxValid_congr _ e).1 h1) h2 (h3.imp_left (headBlack_congr e).1)

/-- Shape bookkeeping for unlinking a node with an empty child slot from a valid tree:
removing a red node leaves a valid tree, removing a black node leaves a state of the
fixup loop. -/
theorem deleteShape_unlink {C : Ctx} {c : color} {l r Y : Shape} {n k : Nat}
    (hv : (plug C (Shape.node c l n k r)).valid)
    (hY : (l = Shape.nil ∧ Y = r) ∨ (r = Shape.nil ∧ Y = l)) :
    (c = color.red → (plug C Y).valid) ∧
      (c = color.black → Y.blacken.wf ∧ ctxValid C (Y.bh + 1)) := by
  obtain ⟨h1, h2, h3⟩ := valid_plug C _ hv
  obtain ⟨⟨hrr, hnl, hnr⟩, hb, hbl, hbr⟩ := h2
  have hYwf : Y.wf := by
    rcases hY with ⟨-, rfl⟩ | ⟨-, rfl⟩
    · exact ⟨hnr, hbr⟩
    · exact ⟨hnl, hbl⟩
  have hYbh : Y.bh = 0 ∧ l.bh = 0 := by
    rcases hY with ⟨rfl, rfl⟩ | ⟨rfl, rfl⟩
    · simp only [Shape.bh] at hb
      exact ⟨hb.symm, rfl⟩
    · simp only [Shape.bh] at hb
      exact ⟨hb, hb⟩
  constructor
  · rintro rfl
    refine plug_valid C Y ?_ hYwf (Or.inr ?_)
    · simpa [Shape.bh, hYbh.1, hYbh.2] using h1
    · rcases hY with ⟨-, rfl⟩ | ⟨-, rfl⟩
      · exact (hrr rfl).2
      · exact (hrr rfl).1
  · rintro rfl
    refine ⟨Shape.blacken_wf hYwf, ?_⟩
    simpa [Shape.bh, hYbh.1, hYbh.2] using h1

theorem clearNode_some (h : Heap) (n : Nat) :
    clearNode h (some n) = .ok (h.set n ⟨0, none, none, none, (h n).color⟩) := by
  simp only [clearNode, setLeft_some, setRight_some, setParent_some, setKey_some, bind_ok]
  congr 1
  funext x
  by_cases hx : x = n <;> simp [Heap.set, hx]

/-- The child that replaces an unlinked node brings no new address, and the unlinked
node is no longer attached. -/
theorem unlink_addrs {C : Ctx} {c : color} {l r Y : Shape} {n k : Nat}
    (hnd : (plug C (Shape.node c l n k r)).addrs.Nodup)
    (hY : (l = Shape.nil ∧ Y = r) ∨ (r = Shape.nil ∧ Y = l)) :
    n ∉ (plug C Y).addrs ∧ ∀ a ∈ (plug C Y).addrs, a ∈ (plug C (Shape.node c l n k r)).addrs := by
  have hYsub : ∀ a, Y.addrs.count a ≤ l.addrs.count a + r.addrs.count a := by
    intro a
    rcases hY with ⟨-, rfl⟩ | ⟨-, rfl⟩ <;> omega
  constructor
  · refine not_mem_of_count hnd ?_
    have := hYsub n
    simp only [count_plug_addrs, Shape.addrs, List.count_append, List.count_cons,
      List.count_nil, beq_self_eq_true, if_true]
    omega
  · intro a ha
    rw [mem_plug_addrs] at ha ⊢
    rcases ha with ha | ha
    · left
      rcases hY with ⟨-, rfl⟩ | ⟨-, rfl⟩ <;> simp [Shape.addrs, ha]
    · exact Or.inr ha

/-- Lines 220-262 of `Delete` for a node below the root with an empty child slot: its
other child `Y` takes its place. -/
theorem deleteSplice_single {rb : RBTree} {s : Nat} {q : Ptr} {f : Frame} {rest : Ctx}
    {c : color} {l r Y : Shape} {n k : Nat}
    (M : Models rb s q (plug (f :: rest) (Shape.node c l n k r)))
    (hY : (l = Shape.nil ∧ Y = r) ∨ (r = Shape.nil ∧ Y = l)) :
    ∃ rb1, deleteSplice rb (some n) (Y.ptr s) (some n) = .ok rb1 ∧
      Models rb1 s q (plug (f :: rest) Y) ∧ CursorPar rb1.heap s q (f :: rest) Y ∧
      Detached rb rb1 s n (plug (f :: rest) (Shape.node c l n k r)).addrs := by
  obtain ⟨H1, H, hlink, hpar, hset, hlay, hcur, hout, hHn, ⟨p, hsrec⟩, hcol⟩ :=
    deleteUnlink_spec M.lay hY
  obtain ⟨hnY, hsub⟩ := unlink_addrs M.nodup hY
  have hns : n ≠ s := Rep.addr_ne M.rep
  have hnmem : n ∈ (plug (f :: rest) (Shape.node c l n k r)).addrs :=
    mem_plug_addrs.2 (Or.inl (by simp [Shape.addrs]))
  refine ⟨{ rb with heap := H.set n ⟨0, none, none, none, (H n).color⟩ }, ?_, ⟨M.sentinel_eq, ?_,
    ?_, hlay.2⟩, ?_, ⟨rfl, rfl, rfl, ?_, ?_, ⟨p, ?_⟩⟩⟩
  · simp [deleteSplice, hlink, hpar, hset, clearNode_some]
  · rw [M.root_eq, plug_ptr, plug_ptr]
    rfl
  · refine Rep_congr (fun a ha => ?_) hlay.1
    have : a ≠ n := fun e => hnY (e ▸ ha)
    simp [Heap.set, this]
  · intro e
    have := hcur e
    simpa [Heap.set, Ne.symm hns] using this
  · intro x hx
    have h1 : x ≠ n := fun e => hx (List.mem_cons_of_mem _ (e ▸ hnmem))
    show H.set n _ x = rb.heap x
    rw [Heap.set_other _ _ _ _ h1]
    exact hout x hx
  · show H.set n _ n = _
    rw [Heap.set_same, hHn]
  · show H.set n _ s = _
    rw [Heap.set_other _ _ _ _ (Ne.symm hns)]
    exact hsrec

/-- Lines 220-262 of `Delete` for a node with two children whose successor `m` is its own
right child. -/
theorem deleteSplice_child {rb : RBTree} {s : Nat} {q : Ptr} {C : Ctx} {c cs : color}
    {l sr : Shape} {n k m km : Nat}
    (M : Models rb s q (plug C (Shape.node c l n k (Shape.node cs Shape.nil m km sr)))) :
    ∃ rb1, deleteSplice rb (some n) (sr.ptr s) (some m) = .ok rb1 ∧
      Models rb1 s q (plug (Frame.R c l m km :: C) sr) ∧
      CursorPar rb1.heap s q (Frame.R c l m km :: C) sr ∧
      Detached rb rb1 s n
        (plug C (Shape.node c l n k (Shape.node cs Shape.nil m km sr))).addrs := by
  have hlay : Lay rb.heap s q (plug (Frame.R c l n k :: C) (Shape.node cs Shape.nil m km sr)) :=
    M.lay
  have hlink := deleteLink_eval hlay (sr.ptr s)
  have hn := Lay.record_at M.lay
  have hm := Lay.record_at hlay
  simp only [ctxPar_cons, Frame.addr, Shape.ptr_node, Shape.ptr_nil] at hn hm
  obtain ⟨hC, hns, -, hrl, hms, -, -, hrs⟩ := (Rep_plug C _).1 M.rep
  have hnd := plug_nodup.1 M.nodup
  have hsC := RepCtx_not_sentinel hC
  have hnm : n ≠ m := ne_of_count hnd (by
    rintro rfl
    simp only [Shape.addrs, List.count_append, List.count_cons, List.count_nil,
      beq_self_eq_true, if_true]; omega)
  have hnd2 : (n :: m :: (l.addrs ++ (sr.addrs ++ ctxAddrs C))).Nodup := by
    refine List.nodup_iff_count_le_one.2 fun a => ?_
    have h1 := List.nodup_iff_count_le_one.1 hnd a
    simp only [Shape.addrs, List.count_append, List.count_cons, List.count_nil] at h1 ⊢
    omega
  have hroot : rb.root = ctxTop C (some n) := by
    rw [M.root_eq, plug_ptr]
    rfl
  have hmem : ∀ x, x ∈ n :: m :: (l.addrs ++ (sr.addrs ++ ctxAddrs C)) →
      x ∈ (plug C (Shape.node c l n k (Shape.node cs Shape.nil m km sr))).addrs := by
    intro x hx
    rw [mem_plug_addrs]
    simp only [Shape.addrs, List.mem_cons, List.mem_append, List.not_mem_nil, false_or] at hx ⊢
    tauto
  -- the memory after lines 221-236
  have key : ∀ (H : Heap), H n = ⟨k, l.ptr s, sr.ptr s, ctxPar q C, c⟩ → H m = rb.heap m →
      (∀ b ∈ sr.rootAddr, H b = { rb.heap b with parent := some m }) →
      (∀ x, x ∉ s :: n :: sr.rootAddr → H x = rb.heap x) →
      (∃ p, H s = { rb.heap s with parent := p }) →
      (sr = Shape.nil → (H s).parent = some m) →
      ∃ rb1, (deleteTransplant { rb with heap := H } (some n) (some m) >>= fun rb2 =>
          clearNode rb2.heap (some n) >>= fun h => pure { rb2 with heap := h }) = .ok rb1 ∧
        Models rb1 s q (plug (Frame.R c l m km :: C) sr) ∧
        CursorPar rb1.heap s q (Frame.R c l m km :: C) sr ∧
        Detached rb rb1 s n
          (plug C (Shape.node c l n k (Shape.node cs Shape.nil m km sr))).addrs := by
    intro H Hn Hm Hsr Hrest Hs Hcur
    have hsr1 : ∀ b ∈ sr.rootAddr, b ∈ sr.addrs := fun b hb => Shape.rootAddr_mem hb
    have hsrs := Rep_not_sentinel hrs
    have hCH : RepCtx H s q C (some n) := by
      refine RepCtx_congr (fun a ha => Hrest a ?_) hC
      simp only [List.mem_cons, not_or]
      refine ⟨fun e => hsC (e ▸ ha), ?_, fun hb => ?_⟩
      · rintro rfl
        exact not_mem_of_count hnd2 (by
          simp only [List.count_append, List.count_cons, beq_self_eq_true, if_true]; omega) ha
      · exact (List.nodup_append.1 (List.nodup_append.1 (List.nodup_cons.1
          (List.nodup_cons.1 hnd2).2).2).2.1).2.2 (hsr1 a hb) ha
    have hlH : Rep H s (some n) l := by
      refine Rep_congr (fun a ha => Hrest a ?_) hrl
      simp only [List.mem_cons, not_or]
      refine ⟨fun e => Rep_not_sentinel hrl (e ▸ ha), ?_, fun hb => ?_⟩
      · rintro rfl
        exact not_mem_of_count hnd2 (by
          simp only [List.count_append, List.count_cons, beq_self_eq_true, if_true]; omega) ha
      · exact (List.nodup_append.1 (List.nodup_cons.1 (List.nodup_cons.1 hnd2).2).2).2.2 ha
          (List.mem_append.2 (Or.inl (hsr1 a hb)))
    have hsrH : Rep H s (some m) sr := by
      refine Rep_reparent hrs ?_ Hsr (fun a ha har => Hrest a ?_)
      · exact (List.nodup_append.1 (List.nodup_append.1 (List.nodup_cons.1
          (List.nodup_cons.1 hnd2).2).2).2.1).1
      · simp only [List.mem_cons, not_or]
        refine ⟨fun e => hsrs (e ▸ ha), ?_, har⟩
        rintro rfl
        exact not_mem_of_count hnd2 (by
          simp only [List.count_append, List.count_cons, beq_self_eq_true, if_true]; omega) ha
    obtain ⟨rb2, htr, M2, K2⟩ := @deleteTransplant_spec { rb with heap := H } s q (some n)
      (some m) C l sr n m k c M.sentinel_eq hroot hCH Hn hlH hsrH hnd2 hms hns
    have hkey : (H m).key = km := by rw [Hm, hm]
    simp only [hkey] at M2
    have hn2 : n ∉ (plug C (Shape.node c l m km sr)).addrs := by
      refine not_mem_of_count hnd2 ?_
      simp only [count_plug_addrs, Shape.addrs, List.count_append, List.count_cons,
        beq_self_eq_true, if_true]
      omega
    have hnK : n ∉ m :: (l.rootAddr ++ (sr.rootAddr ++ ctxHead C)) := by
      simp only [List.mem_cons, List.mem_append, not_or]
      refine ⟨hnm, fun h => ?_, fun h => ?_, fun h => ?_⟩
      · exact not_mem_of_count hnd2 (by
          simp only [List.count_append, List.count_cons, beq_self_eq_true, if_true]; omega)
          (Shape.rootAddr_mem h)
      · exact not_mem_of_count hnd2 (by
          simp only [List.count_append, List.count_cons, beq_self_eq_true, if_true]; omega)
          (hsr1 n h)
      · exact not_mem_of_count hnd2 (by
          simp only [List.count_append, List.count_cons, beq_self_eq_true, if_true]; omega)
          (ctxHead_mem h)
    have hsK : s ∉ m :: (l.rootAddr ++ (sr.rootAddr ++ ctxHead C)) := by
      simp only [List.mem_cons, List.mem_append, not_or]
      exact ⟨Ne.symm hms, fun h => Rep_not_sentinel hrl (Shape.rootAddr_mem h),
        fun h => hsrs (hsr1 s h), fun h => hsC (ctxHead_mem h)⟩
    have hK2mem : ∀ x, x ∈ m :: (l.rootAddr ++ (sr.rootAddr ++ ctxHead C)) →
        x ∈ (plug C (Shape.node c l n k (Shape.node cs Shape.nil m km sr))).addrs := by
      intro x hx
      apply hmem
      simp only [List.mem_cons, List.mem_append] at hx ⊢
      rcases hx with hx | hx | hx | hx
      · exact Or.inr (Or.inl hx)
      · exact Or.inr (Or.inr (Or.inl (Shape.rootAddr_mem hx)))
      · exact Or.inr (Or.inr (Or.inr (Or.inl (hsr1 x hx))))
      · exact Or.inr (Or.inr (Or.inr (Or.inr (ctxHead_mem hx))))
    refine ⟨{ rb2 with heap := rb2.heap.set n ⟨0, none, none, none, (rb2.heap n).color⟩ }, ?_,
      ⟨M2.sentinel_eq, M2.root_eq, ?_, M2.nodup⟩, ?_,
      ⟨K2.size_eq, K2.icb_eq, K2.sentinel_eq, ?_, ?_, ?_⟩⟩
    · simp [htr, clearNode_some]
    · refine Rep_congr (fun a ha => ?_) M2.rep
      have : a ≠ n := fun e => hn2 (e ▸ ha)
      simp [Heap.set, this]
    · intro e
      show (rb2.heap.set n _ s).parent = _
      rw [Heap.set_other _ _ _ _ (Ne.symm hns), K2.outside s hsK]
      exact Hcur e
    · intro x hx
      simp only [List.mem_cons, not_or] at hx
      have h1 : x ≠ n := fun e => hx.2 (e ▸ hmem n (by simp))
      show rb2.heap.set n _ x = rb.heap x
      rw [Heap.set_other _ _ _ _ h1, K2.outside x (fun h => hx.2 (hK2mem x h))]
      refine Hrest x ?_
      simp only [List.mem_cons, not_or]
      exact ⟨hx.1, h1, fun h => hx.2 (hmem x (by
        simp only [List.mem_cons, List.mem_append]
        exact Or.inr (Or.inr (Or.inr (Or.inl (hsr1 x h)))))) ⟩
    · show rb2.heap.set n _ n = _
      have e : rb2.heap n = H n := K2.outside n hnK
      rw [Heap.set_same, e, Hn, hn]
    · obtain ⟨p, hp⟩ := Hs
      refine ⟨p, ?_⟩
      show rb2.heap.set n _ s = _
      rw [Heap.set_other _ _ _ _ (Ne.symm hns), K2.outside s hsK]
      exact hp
  have hpar : ((rb.heap.set n ((Frame.R c l n k).setHole (rb.heap n) (sr.ptr s))) m).parent
      = some n := by
    rw [Heap.set_other _ _ _ _ hnm.symm, hm]
  cases sr with
  | nil =>
    simp only [Shape.ptr_nil, Frame.addr, Frame.setHole] at hlink hpar
    simp only [deleteSplice, hlink, bind_ok, Option.some.injEq, hnm.symm, if_false,
      deleteTmpParent, getParent_some, hpar, if_true, Shape.ptr_nil, setParent_some]
    refine key _ ?_ ?_ ?_ ?_ ⟨some m, ?_⟩ ?_
    · simp [Heap.set, hns, hn]
    · simp [Heap.set, hms, hnm.symm]
    · intro b hb
      simp [Shape.rootAddr] at hb
    · intro x hx
      simp only [Shape.rootAddr, List.mem_cons, List.not_mem_nil, or_false, not_or] at hx
      simp [Heap.set, hx]
    · simp [Heap.set, Ne.symm hns]
    · intro _
      simp [Heap.set]
  | node cy yl y ky yr =>
    have hys : y ≠ s := hrs.1
    have hyn : y ≠ n := Ne.symm (ne_of_count hnd2 (by
      rintro rfl
      simp only [Shape.addrs, List.count_append, List.count_cons, beq_self_eq_true, if_true]
      omega))
    have hym : y ≠ m := Ne.symm (ne_of_count (List.nodup_cons.1 hnd2).2 (by
      rintro rfl
      simp only [Shape.addrs, List.count_append, List.count_cons, beq_self_eq_true, if_true]
      omega))
    simp only [Shape.ptr_node, Frame.addr, Frame.setHole] at hlink hpar
    simp only [deleteSplice, hlink, bind_ok, Option.some.injEq, hnm.symm, if_false,
      deleteTmpParent, getParent_some, hpar, if_true, Shape.ptr_node, setParent_some]
    refine key _ ?_ ?_ ?_ ?_ ⟨(rb.heap s).parent, ?_⟩ ?_
    · simp [Heap.set, Ne.symm hyn, hn]
    · simp [Heap.set, Ne.symm hym, hnm.symm]
    · intro b hb
      simp only [Shape.rootAddr, List.mem_singleton] at hb
      subst hb
      simp [Heap.set, hyn]
    · intro x hx
      simp only [Shape.rootAddr, List.mem_cons, List.not_mem_nil, or_false, not_or] at hx
      simp [Heap.set, hx]
    · simp [Heap.set, Ne.symm hys, Ne.symm hns]
    · intro e
      cases e

/-- Lines 237-262 of `Delete` from a memory `H` in which the successor `m` is already
unlinked: `m` takes the place of `n` and `n` is cleared. -/
theorem deleteTransplant_clear {rb : RBTree} {s : Nat} {q ql qr : Ptr} {C : Ctx} {l R : Shape}
    {n m k : Nat} {c : color} {H : Heap} {A : List Nat}
    (hsent : rb.sentinel = some s) (hroot : rb.root = ctxTop C (some n))
    (hC : RepCtx H s q C (some n)) (hn : H n = ⟨k, l.ptr s, R.ptr s, ctxPar q C, c⟩)
    (hl : Rep H s ql l) (hr : Rep H s qr R)
    (hnd : (n :: m :: (l.addrs ++ (R.addrs ++ ctxAddrs C))).Nodup) (hms : m ≠ s) (hns : n ≠ s)
    (hA : ∀ x ∈ n :: m :: (l.addrs ++ (R.addrs ++ ctxAddrs C)), x ∈ A)
    (hout : ∀ x, x ∉ s :: A → H x = rb.heap x) (hcolor : (H n).color = (rb.heap n).color)
    (hsrec : ∃ p, H s = { rb.heap s with parent := p }) :
    ∃ rb1, (deleteTransplant { rb with heap := H } (some n) (some m) >>= fun rb2 =>
        clearNode rb2.heap (some n) >>= fun h => pure { rb2 with heap := h }) = .ok rb1 ∧
      Models rb1 s q (plug C (Shape.node c l m (H m).key R)) ∧ rb1.heap s = H s ∧
      Detached rb rb1 s n A := by
  have hsC := RepCtx_not_sentinel hC
  have hsl := Rep_not_sentinel hl
  have hsr := Rep_not_sentinel hr
  obtain ⟨rb2, htr, M2, K2⟩ := @deleteTransplant_spec { rb with heap := H } s q ql qr C l R n m
    k c hsent hroot hC hn hl hr hnd hms hns
  have hnm : n ≠ m := fun e => (List.nodup_cons.1 hnd).1 (by simp [e])
  have hn2 : n ∉ (plug C (Shape.node c l m (H m).key R)).addrs := by
    refine not_mem_of_count hnd ?_
    simp only [count_plug_addrs, Shape.addrs, List.count_append, List.count_cons,
      beq_self_eq_true, if_true]
    omega
  have hnK : n ∉ m :: (l.rootAddr ++ (R.rootAddr ++ ctxHead C)) := by
    simp only [List.mem_cons, List.mem_append, not_or]
    refine ⟨hnm, fun h => ?_, fun h => ?_, fun h => ?_⟩
    · exact not_mem_of_count hnd (by
        simp only [List.count_append, List.count_cons, beq_self_eq_true, if_true]; omega)
        (Shape.rootAddr_mem h)
    · exact not_mem_of_count hnd (by
        simp only [List.count_append, List.count_cons, beq_self_eq_true, if_true]; omega)
        (Shape.rootAddr_mem h)
    · exact not_mem_of_count hnd (by
        simp only [List.count_append, List.count_cons, beq_self_eq_true, if_true]; omega)
        (ctxHead_mem h)
  have hsK : s ∉ m :: (l.rootAddr ++ (R.rootAddr ++ ctxHead C)) := by
    simp only [List.mem_cons, List.mem_append, not_or]
    exact ⟨Ne.symm hms, fun h => hsl (Shape.rootAddr_mem h),
      fun h => hsr (Shape.rootAddr_mem h), fun h => hsC (ctxHead_mem h)⟩
  have hKmem : ∀ x, x ∈ m :: (l.rootAddr ++ (R.rootAddr ++ ctxHead C)) → x ∈ A := by
    intro x hx
    apply hA
    simp only [List.mem_cons, List.mem_append] at hx ⊢
    rcases hx with hx | hx | hx | hx
    · exact Or.inr (Or.inl hx)
    · exact Or.inr (Or.inr (Or.inl (Shape.rootAddr_mem hx)))
    · exact Or.inr (Or.inr (Or.inr (Or.inl (Shape.rootAddr_mem hx))))
    · exact Or.inr (Or.inr (Or.inr (Or.inr (ctxHead_mem hx))))
  have es : rb2.heap s = H s := K2.outside s hsK
  have en : rb2.heap n = H n := K2.outside n hnK
  refine ⟨{ rb2 with heap := rb2.heap.set n ⟨0, none, none, none, (rb2.heap n).color⟩ }, ?_,
    ⟨M2.sentinel_eq, M2.root_eq, ?_, M2.nodup⟩, ?_,
    ⟨K2.size_eq, K2.icb_eq, K2.sentinel_eq, ?_, ?_, ?_⟩⟩
  · simp [htr, clearNode_some]
  · refine Rep_congr (fun a ha => ?_) M2.rep
    have : a ≠ n := fun e => hn2 (e ▸ ha)
    simp [Heap.set, this]
  · show rb2.heap.set n _ s = _
    rw [Heap.set_other _ _ _ _ (Ne.symm hns), es]
  · intro x hx
    simp only [List.mem_cons, not_or] at hx
    have h1 : x ≠ n := fun e => hx.2 (e ▸ hA n (by simp))
    have ex : rb2.heap x = H x := K2.outside x (fun h => hx.2 (hKmem x h))
    show rb2.heap.set n _ x = rb.heap x
    rw [Heap.set_other _ _ _ _ h1, ex]
    exact hout x (by simpa [not_or] using hx)
  · show rb2.heap.set n _ n = _
    rw [Heap.set_same, en, hcolor]
  · obtain ⟨p, hp⟩ := hsrec
    refine ⟨p, ?_⟩
    show rb2.heap.set n _ s = _
    rw [Heap.set_other _ _ _ _ (Ne.symm hns), es]
    exact hp

/-- Lines 220-262 of `Delete` for a node with two children whose successor `m` lies
deeper in the right subtree. -/
theorem deleteSplice_deep {rb : RBTree} {s : Nat} {q : Ptr} {C D : Ctx} {f : Frame}
    {c cs : color} {l sr : Shape} {n k m km : Nat}
    (M : Models rb s q
      (plug C (Shape.node c l n k (plug (f :: D) (Shape.node cs Shape.nil m km sr))))) :
    ∃ rb1, deleteSplice rb (some n) (sr.ptr s) (some m) = .ok rb1 ∧
      Models rb1 s q (plug ((f :: D) ++ Frame.R c l m km :: C) sr) ∧
      CursorPar rb1.heap s q ((f :: D) ++ Frame.R c l m km :: C) sr ∧
      Detached rb rb1 s n
        (plug C (Shape.node c l n k (plug (f :: D) (Shape.node cs Shape.nil m km sr)))).addrs := by
  have e0 : ∀ (X : Shape) (a b : Nat), plug C (Shape.node c l a b (plug (f :: D) X)) =
      plug (f :: (D ++ Frame.R c l a b :: C)) X := by
    intro X a b
    rw [← List.cons_append, plug_append]
    rfl
  have hlay : Lay rb.heap s q
      (plug (f :: (D ++ Frame.R c l n k :: C)) (Shape.node cs Shape.nil m km sr)) := by
    rw [← e0]
    exact M.lay
  obtain ⟨H1, H, hlink, hpar, hset, hlayH, hcur, hout, hHm, hsrec, hcol⟩ :=
    deleteUnlink_spec (Y := sr) hlay (Or.inl ⟨rfl, rfl⟩)
  rw [← e0] at hlayH hout
  have hm := Lay.record_at hlay
  obtain ⟨hC, hns, hn, hrl, hrR⟩ := (Rep_plug C _).1 hlayH.1
  have hms : m ≠ s := Rep.addr_ne hlay.1
  have hnd := M.nodup
  have hcnt : ∀ a, (n :: m :: (l.addrs ++ ((plug (f :: D) sr).addrs ++ ctxAddrs C))).count a =
      (plug C (Shape.node c l n k (plug (f :: D) (Shape.node cs Shape.nil m km sr)))).addrs.count
        a := by
    intro a
    simp only [count_plug_addrs, Shape.addrs, List.count_append, List.count_cons,
      List.count_nil]
    omega
  have hnd2 : (n :: m :: (l.addrs ++ ((plug (f :: D) sr).addrs ++ ctxAddrs C))).Nodup := by
    refine List.nodup_iff_count_le_one.2 fun a => ?_
    rw [hcnt]
    exact List.nodup_iff_count_le_one.1 hnd a
  have hA : ∀ x ∈ n :: m :: (l.addrs ++ ((plug (f :: D) sr).addrs ++ ctxAddrs C)),
      x ∈ (plug C (Shape.node c l n k (plug (f :: D) (Shape.node cs Shape.nil m km sr)))).addrs := by
    intro x hx
    rw [← List.count_pos_iff] at hx ⊢
    rw [← hcnt]
    exact hx
  have hfn : f.addr ≠ n := Ne.symm (ne_of_count hnd2 (by
    rintro rfl
    simp only [count_plug_addrs, ctxAddrs, List.count_append, List.count_cons,
      beq_self_eq_true, if_true]
    omega))
  have hnm : n ≠ m := fun e => (List.nodup_cons.1 hnd2).1 (by simp [e])
  have hroot : rb.root = ctxTop C (some n) := by
    rw [M.root_eq, plug_ptr]
    rfl
  obtain ⟨rb1, hev, M1, hs1, hdet⟩ := deleteTransplant_clear (m := m) M.sentinel_eq hroot hC hn
    hrl hrR hnd2 hms hns hA hout (hcol n) hsrec
  have hkey : (H m).key = km := by rw [hHm, hm]
  rw [hkey, e0, ← List.cons_append] at M1
  refine ⟨rb1, ?_, M1, ?_, hdet⟩
  · simp only [deleteSplice, hlink, bind_ok, Option.some.injEq, hnm.symm, if_false,
      deleteTmpParent, getParent_some, hpar, hfn, hset]
    exact hev
  · intro e
    rw [hs1]
    exact hcur e

theorem Detached.followedBy {rb rb1 rb2 : RBTree} {s n : Nat} {A B : List Nat}
    (h1 : Detached rb rb1 s n A) (h2 : Keeps rb1 rb2 B) (hB : ∀ x ∈ B, x ∈ A)
    (hn : n ∉ B) (hs : s ∉ B) : Detached rb rb2 s n A := by
  refine ⟨h2.size_eq.trans h1.size_eq, h2.icb_eq.trans h1.icb_eq,
    h2.sentinel_eq.trans h1.sentinel_eq, fun x hx => ?_, ?_, ?_⟩
  · rw [h2.outside x (fun h => hx (List.mem_cons_of_mem _ (hB x h)))]
    exact h1.outside x hx
  · rw [h2.outside n hn]
    exact h1.cleared
  · rw [h2.outside s hs]
    exact h1.sentinel_rec

/-- Lines 218-330 of `Delete` after the search, for a node `m` to unlink that is not the
root: once the splice has produced a state of the fixup loop (or a valid tree, when the
unlinked node was red), `Delete` returns a valid tree with the same nodes. -/
theorem Delete_finish {rb rb1 : RBTree} {s : Nat} {q : Ptr} {n m : Nat} {X : Shape} {C : Ctx}
    {cs : color} {fuel : Nat}
    (hfind : deleteFind fuel rb (some n) = .ok (X.ptr s, some m))
    (hroot : some m ≠ rb.root) (hcol : (rb.heap m).color = cs)
    (hsplice : deleteSplice rb (some n) (X.ptr s) (some m) = .ok rb1)
    (M1 : Models rb1 s q (plug C X)) (hcur : CursorPar rb1.heap s q C X)
    (hs1 : (rb1.heap s).color = color.black)
    (hshape : (cs = color.red → (plug C X).valid) ∧
      (cs = color.black → X.blacken.wf ∧ ctxValid C (X.bh + 1)))
    (hfuel : C.length < fuel) :
    ∃ rb' T', Delete fuel rb (some n) = .ok rb' ∧ Step rb1 rb' s q (plug C X) T' ∧
      T'.valid ∧ (rb'.heap s).color = color.black ∧
      ∀ x ∈ DeleteVisited fuel rb (some n), SiblingSafe x.1 x.2 := by
  cases cs with
  | red =>
    refine ⟨rb1, plug C X, ?_, Step.stay M1, hshape.1 rfl, hs1, ?_⟩
    · simp [Delete, hfind, hroot, hcol, hsplice]
    · simp [DeleteVisited, hfind, hroot, hcol, hsplice]
  | black =>
    obtain ⟨hw, hcv⟩ := hshape.2 rfl
    obtain ⟨rb2, x, H, T', hloop, hset, hstep, hval, hsb, hsafe⟩ :=
      deleteFix_spec ⟨M1, hcur, hs1, hw, hcv⟩ hfuel
    refine ⟨{ rb2 with heap := H }, T', ?_, hstep, hval, hsb, ?_⟩
    · simp [Delete, hfind, hroot, hcol, hsplice, hloop, hset]
    · simpa [DeleteVisited, hfind, hroot, hcol, hsplice] using hsafe

theorem DeletePost.of_splice {rb rb1 rb' : RBTree} {s n : Nat} {q : Ptr} {T T1 T' : Shape}
    {A B : List (Nat × Nat)} (M : Models rb s q T)
    (hrem : T.toList = A ++ (n, (rb.heap n).key) :: B) (hT1 : T1.toList = A ++ B)
    (hdet : Detached rb rb1 s n T.addrs) (M1 : Models rb1 s q T1)
    (hstep : Step rb1 rb' s q T1 T') (hv : T'.valid)
    (hsb : (rb'.heap s).color = color.black) : DeletePost rb rb' s n T T' := by
  have hnd := M.nodup
  rw [Shape.addrs_eq_map, hrem] at hnd
  refine ⟨hv, hsb, ⟨A, B, hrem, hstep.toList_eq.trans hT1⟩, hdet.followedBy hstep.keeps ?_ ?_ ?_⟩
  · intro x hx
    rw [Shape.addrs_eq_map, hT1] at hx
    rw [Shape.addrs_eq_map, hrem]
    simp only [List.map_append, List.map_cons, List.mem_append, List.mem_cons] at hx ⊢
    tauto
  · intro hx
    rw [Shape.addrs_eq_map, hT1] at hx
    simp only [List.map_append, List.map_cons] at hnd hx
    have := List.nodup_iff_count_le_one.1 hnd n
    have h2 := List.count_pos_iff.2 hx
    simp only [List.count_append, List.count_cons, beq_self_eq_true, if_true] at this h2
    omega
  · exact Rep_not_sentinel M1.rep

/-- Nodes of a tree before and after a node with an empty child slot is replaced by its
other child. -/
theorem unlink_toList {C : Ctx} {c : color} {l r Y : Shape} {n k : Nat}
    (hY : (l = Shape.nil ∧ Y = r) ∨ (r = Shape.nil ∧ Y = l)) :
    ∃ A B, (plug C (Shape.node c l n k r)).toList = A ++ (n, k) :: B ∧
      (plug C Y).toList = A ++ B := by
  rcases hY with ⟨rfl, rfl⟩ | ⟨rfl, rfl⟩
  · exact ⟨ctxL C, Y.toList ++ ctxR C, by simp [plug_toList, Shape.toList],
      by simp [plug_toList]⟩
  · exact ⟨ctxL C ++ Y.toList, ctxR C, by simp [plug_toList, Shape.toList],
      by simp [plug_toList]⟩

/-- Lines 212-217 of `Delete`: unlinking the root when it has an empty child slot makes
its other child the root and colours it black. -/
theorem Delete_root {rb : RBTree} {s : Nat} {q : Ptr} {c : color} {l r Y : Shape} {n k : Nat}
    {fuel : Nat} (M : Models rb s q (Shape.node c l n k r))
    (hv : (Shape.node c l n k r).valid) (hs : (rb.heap s).color = color.black)
    (hY : (l = Shape.nil ∧ Y = r) ∨ (r = Shape.nil ∧ Y = l))
    (hfind : deleteFind fuel rb (some n) = .ok (Y.ptr s, some n)) :
    ∃ rb', Delete fuel rb (some n) = .ok rb' ∧ Models rb' s (some n) Y.blacken ∧
      DeletePost rb rb' s n (Shape.node c l n k r) Y.blacken := by
  obtain ⟨hns, hn, hrl, hrr⟩ := M.rep
  have hroot : rb.root = some n := M.root_eq
  have hYrep : Rep rb.heap s (some n) Y := by
    rcases hY with ⟨-, rfl⟩ | ⟨-, rfl⟩
    · exact hrr
    · exact hrl
  have hYwf : Y.wf := by
    obtain ⟨-, ⟨-, hnl, hnr⟩, -, hbl, hbr⟩ := hv
    rcases hY with ⟨-, rfl⟩ | ⟨-, rfl⟩
    · exact ⟨hnr, hbr⟩
    · exact ⟨hnl, hbl⟩
  obtain ⟨hnY, hsub⟩ := unlink_addrs (C := []) M.nodup hY
  simp only [plug_nil] at hnY hsub
  have hYnd : Y.addrs.Nodup := by
    have := M.nodup
    rcases hY with ⟨rfl, rfl⟩ | ⟨rfl, rfl⟩
    · simp only [Shape.addrs, List.nil_append, List.nodup_cons] at this
      exact this.2
    · simp only [Shape.addrs, List.append_nil] at this
      exact (List.nodup_append.1 this).1
  obtain ⟨A, B, hA, hB⟩ := unlink_toList (C := []) (c := c) (n := n) (k := k) hY
  simp only [plug_nil] at hA hB
  have hkey : (rb.heap n).key = k := by rw [hn]
  cases Y with
  | nil =>
    have e : rb.heap.recolor s color.black = rb.heap := Heap.recolor_same_color _ _ _ hs
    refine ⟨{ rb with
              root := some s
              heap := rb.heap.set n ⟨0, none, none, none, (rb.heap n).color⟩ }, ?_,
      ⟨M.sentinel_eq, rfl, trivial, List.nodup_nil⟩,
      ⟨Shape.blacken_valid hYwf, ?_, ⟨A, B, by rw [hkey]; exact hA, hB⟩,
        ⟨rfl, rfl, rfl, ?_, ?_, ⟨(rb.heap s).parent, ?_⟩⟩⟩⟩
    · simp [Delete, hfind, hroot, clearNode_some, e]
    · simp [Heap.set, Ne.symm hns, hs]
    · intro x hx
      simp only [Shape.addrs, List.mem_cons, List.mem_append, not_or] at hx
      simp [Heap.set, hx.2.2.1]
    · simp [Heap.set]
    · simp [Heap.set, Ne.symm hns]
  | node cy yl y ky yr =>
    have hyn : y ≠ n := fun e => hnY (by simp [Shape.addrs, e])
    have hys : y ≠ s := hYrep.1
    have L := Lay.recolor (C := []) color.black (⟨hYrep, hYnd⟩ : Lay rb.heap s (some n)
      (plug [] (Shape.node cy yl y ky yr)))
    simp only [plug_nil] at L
    refine ⟨{ rb with
              root := some y
              heap := (rb.heap.recolor y color.black).set n
                ⟨0, none, none, none, (rb.heap n).color⟩ }, ?_,
      ⟨M.sentinel_eq, rfl, ?_, hYnd⟩,
      ⟨Shape.blacken_valid hYwf, ?_, ⟨A, B, by rw [hkey]; exact hA, hB⟩,
        ⟨rfl, rfl, rfl, ?_, ?_, ⟨(rb.heap s).parent, ?_⟩⟩⟩⟩
    · simp [Delete, hfind, hroot, clearNode_some, Heap.recolor_other _ _ _ _ (Ne.symm hyn)]
    · refine Rep_congr (fun a ha => ?_) L.1
      have : a ≠ n := fun e => hnY (e ▸ ha)
      simp [Heap.set, this]
    · simp [Heap.set, Ne.symm hns, Heap.recolor_other _ _ _ _ (Ne.symm hys), hs]
    · intro x hx
      simp only [List.mem_cons, not_or] at hx
      have h1 : x ≠ n := fun e => hx.2 (by simp [Shape.addrs, e])
      have h2 : x ≠ y := fun e => hx.2 (hsub y (by simp [Shape.addrs]) |> (e ▸ ·))
      simp [Heap.set, h1, Heap.recolor_other _ _ _ _ h2]
    · simp [Heap.set]
    · simp [Heap.set, Ne.symm hns, Heap.recolor_other _ _ _ _ (Ne.symm hys)]

/-- Specification of `Delete` on a valid tree: with fuel above the height it returns, the
result is laid out as a valid shape, and that shape has the nodes of the old one without
the deleted node, in the same order. -/
theorem Delete_spec {rb : RBTree} {s : Nat} {q : Ptr} {T : Shape} {n : Nat} {fuel : Nat}
    (M : Models rb s q T) (hv : T.valid) (hs : (rb.heap s).color = color.black)
    (hn : n ∈ T.addrs) (hfuel : T.height < fuel) :
    ∃ rb' q' T', Delete fuel rb (some n) = .ok rb' ∧ Models rb' s q' T' ∧
      DeletePost rb rb' s n T T' ∧
      (∀ x ∈ DeleteVisited fuel rb (some n), SiblingSafe x.1 x.2) ∧
      (q' = q ∨ q' = some n) := by
  obtain ⟨C, c, l, k, r, rfl⟩ := Shape.decompose hn
  have hrec := M.lay.record_at
  have hkey : (rb.heap n).key = k := by rw [hrec]
  have hheight := plug_height C (Shape.node c l n k r)
  simp only [Shape.height] at hheight
  have single : ∀ Y, ((l = Shape.nil ∧ Y = r) ∨ (r = Shape.nil ∧ Y = l)) →
      deleteFind fuel rb (some n) = .ok (Y.ptr s, some n) →
      ∃ rb' q' T', Delete fuel rb (some n) = .ok rb' ∧ Models rb' s q' T' ∧
        DeletePost rb rb' s n (plug C (Shape.node c l n k r)) T' ∧
        (∀ x ∈ DeleteVisited fuel rb (some n), SiblingSafe x.1 x.2) ∧
        (q' = q ∨ q' = some n) := by
    intro Y hY hfind
    cases C with
    | nil =>
      obtain ⟨rb', h1, h2, h3⟩ := Delete_root M hv hs hY hfind
      have hr0 : rb.root = some n := M.root_eq
      exact ⟨rb', some n, _, h1, h2, h3, by simp [DeleteVisited, hfind, hr0], Or.inr rfl⟩
    | cons f rest =>
      obtain ⟨rb1, hspl, M1, hcur, hdet⟩ := deleteSplice_single M hY
      have hroot : some n ≠ rb.root := by
        rw [M.root_eq]
        intro e
        have := (cursor_is_root (X := Shape.node c l n k r) M.lay).1 e
        cases this
      have hs1 : (rb1.heap s).color = color.black := by
        obtain ⟨p, hp⟩ := hdet.sentinel_rec
        rw [hp]
        exact hs
      have hcol : (rb.heap n).color = c := by rw [hrec]
      obtain ⟨rb', T', hdel, hstep, hval, hsb, hsafe⟩ := Delete_finish hfind hroot hcol hspl M1
        hcur hs1 (deleteShape_unlink hv hY)
        (by simp only [List.length_cons] at hheight ⊢; omega)
      obtain ⟨A, B, hA, hB⟩ := unlink_toList (C := f :: rest) (c := c) (n := n) (k := k) hY
      exact ⟨rb', q, T', hdel, hstep.models,
        DeletePost.of_splice M (by rw [hkey]; exact hA) hB hdet M1 hstep hval hsb, hsafe,
        Or.inl rfl⟩
  by_cases hl : l = Shape.nil
  · subst hl
    exact single r (Or.inl ⟨rfl, rfl⟩) (deleteFind_left M fuel)
  by_cases hr : r = Shape.nil
  · subst hr
    exact single l (Or.inr ⟨rfl, rfl⟩) (deleteFind_right M hl fuel)
  clear single
  obtain ⟨D, cs, m, km, sr, rfl, hD, hfind⟩ := deleteFind_both M hl hr
    (show r.height ≤ fuel by omega)
  have e1 : ∀ (X : Shape) (a b : Nat), plug C (Shape.node c l a b (plug D X)) =
      plug (D ++ Frame.R c l a b :: C) X := by
    intro X a b
    rw [plug_append]
    rfl
  have hlay : Lay rb.heap s q
      (plug (D ++ Frame.R c l n k :: C) (Shape.node cs Shape.nil m km sr)) := by
    rw [← e1]
    exact M.lay
  have hv2 : (plug (D ++ Frame.R c l m km :: C) (Shape.node cs Shape.nil m km sr)).valid := by
    refine plug_valid_congr (C := D ++ Frame.R c l n k :: C) ?_ ?_
    · simp [Frame.look, Frame.col, Frame.sib]
    · rw [← e1]
      exact hv
  have hshape := deleteShape_unlink (Y := sr) hv2 (Or.inl ⟨rfl, rfl⟩)
  have hroot : some m ≠ rb.root := by
    rw [M.root_eq, e1]
    intro e
    have := (cursor_is_root (X := Shape.node cs Shape.nil m km sr) hlay).1 e
    cases D <;> cases this
  have hcol : (rb.heap m).color = cs := by rw [Lay.record_at hlay]
  have hsplice : ∃ rb1, deleteSplice rb (some n) (sr.ptr s) (some m) = .ok rb1 ∧
      Models rb1 s q (plug (D ++ Frame.R c l m km :: C) sr) ∧
      CursorPar rb1.heap s q (D ++ Frame.R c l m km :: C) sr ∧
      Detached rb rb1 s n
        (plug C (Shape.node c l n k (plug D (Shape.node cs Shape.nil m km sr)))).addrs := by
    cases D with
    | nil => exact deleteSplice_child M
    | cons f D => exact deleteSplice_deep M
  obtain ⟨rb1, hspl, M1, hcur, hdet⟩ := hsplice
  have hs1 : (rb1.heap s).color = color.black := by
    obtain ⟨p, hp⟩ := hdet.sentinel_rec
    rw [hp]
    exact hs
  have hlen : (D ++ Frame.R c l m km :: C).length < fuel := by
    have h1 := plug_height (D ++ Frame.R c l n k :: C) (Shape.node cs Shape.nil m km sr)
    rw [← e1] at h1
    simp only [List.length_append, List.length_cons, Shape.height] at h1 ⊢
    omega
  obtain ⟨rb', T', hdel, hstep, hval, hsb, hsafe⟩ := Delete_finish hfind hroot hcol hspl M1
    hcur hs1 hshape hlen
  refine ⟨rb', q, T', hdel, hstep.models, DeletePost.of_splice
    (A := ctxL C ++ l.toList) (B := (m, km) :: (sr.toList ++ ctxR D) ++ ctxR C) M ?_ ?_ hdet M1
    hstep hval hsb, hsafe, Or.inl rfl⟩
  · rw [hkey]
    simp [plug_toList, Shape.toList, hD]
  · rw [← e1]
    simp [plug_toList, Shape.toList, hD]

/-- The memory determines the shape below a pointer. -/
theorem Rep_unique {h : Heap} {s : Nat} : ∀ {T T' : Shape} {q q' : Ptr},
    Rep h s q T → Rep h s q' T' → T.ptr s = T'.ptr s → T = T'
  | Shape.nil, Shape.nil, _, _, _, _, _ => rfl
  | Shape.nil, Shape.node c l a k r, _, _, _, h2, e => by
    simp only [Shape.ptr_nil, Shape.ptr_node, Option.some.injEq] at e
    exact absurd e.symm h2.1
  | Shape.node c l a k r, Shape.nil, _, _, h1, _, e => by
    simp only [Shape.ptr_nil, Shape.ptr_node, Option.some.injEq] at e
    exact absurd e h1.1
  | Shape.node c l a k r, Shape.node c' l' a' k' r', _, _, h1, h2, e => by
    simp only [Shape.ptr_node, Option.some.injEq] at e
    subst e
    obtain ⟨-, e1, hl1, hr1⟩ := h1
    obtain ⟨-, e2, hl2, hr2⟩ := h2
    rw [e1] at e2
    simp only [Node.mk.injEq] at e2
    obtain ⟨ek, el, er, -, ec⟩ := e2
    rw [Rep_unique hl1 hl2 el, Rep_unique hr1 hr2 er, ek, ec]

theorem Models.unique {rb : RBTree} {s s' : Nat} {q q' : Ptr} {T T' : Shape}
    (M : Models rb s q T) (M' : Models rb s' q' T') : s = s' ∧ T = T' := by
  have es : s = s' := by
    have := M.sentinel_eq.symm.trans M'.sentinel_eq
    simpa using this
  subst es
  exact ⟨rfl, Rep_unique M.rep M'.rep (M.root_eq.symm.trans M'.root_eq)⟩

theorem Attached.mem {rb : RBTree} {s : Nat} {q : Ptr} {T : Shape} {n : Nat}
    (M : Models rb s q T) (h : Attached rb n) : n ∈ T.addrs := by
  obtain ⟨s', q', T', M', hn⟩ := h
  rw [(M.unique M').2]
  exact hn

theorem bind_mono {α β : Type} {x y : Except Fault α} {f : α → Except Fault β} {r : β}
    (h : ∀ a, x = .ok a → y = .ok a) (hr : (x >>= f) = .ok r) : (y >>= f) = .ok r := by
  cases x with
  | error e => simp at hr
  | ok a =>
    rw [h a rfl]
    exact hr

theorem mix_mono : ∀ (f : Nat) (h : Heap) (p s r : Ptr), mix f h p s = .ok r →
    ∀ g, f ≤ g → mix g h p s = .ok r
  | 0, _, _, _, _, hr, _, _ => by simp [mix] at hr
  | f + 1, h, p, s, r, hr, g, hle => by
    obtain ⟨g, rfl⟩ : ∃ g', g = g' + 1 := ⟨g - 1, by omega⟩
    simp only [mix] at hr ⊢
    cases hl : getLeft h p with
    | error e => simp [hl] at hr
    | ok l =>
      simp only [hl, bind_ok] at hr ⊢
      split_ifs at hr ⊢ with hc
      · exact mix_mono f _ _ _ _ hr g (by omega)
      · exact hr

theorem InsertValue_mono : ∀ (f : Nat) (h : Heap) (t n s : Ptr) (H : Heap),
    InsertValue f h t n s = .ok H → ∀ g, f ≤ g → InsertValue g h t n s = .ok H
  | 0, _, _, _, _, _, hr, _, _ => by simp [InsertValue] at hr
  | f + 1, h, t, n, s, H, hr, g, hle => by
    obtain ⟨g, rfl⟩ : ∃ g', g = g' + 1 := ⟨g - 1, by omega⟩
    simp only [InsertValue] at hr ⊢
    cases h1 : getKey h n with
    | error e => simp [h1] at hr
    | ok nk =>
      cases h2 : getKey h t with
      | error e => simp [h1, h2] at hr
      | ok tk =>
        cases h3 : Slot.addrLeft t with
        | error e => simp [h1, h2, h3] at hr
        | ok l =>
          cases h4 : Slot.addrRight t with
          | error e => simp [h1, h2, h3, h4] at hr
          | ok r =>
            cases h5 : Slot.read h (compare (decide (nk < tk)) l r) with
            | error e => simp [h1, h2, h3, h4, h5] at hr
            | ok cur =>
              simp only [h1, h2, h3, h4, h5, bind_ok] at hr ⊢
              split_ifs at hr ⊢ with hc
              · exact hr
              · exact InsertValue_mono f _ _ _ _ _ hr g (by omega)

theorem insertFixLoop_mono : ∀ (f : Nat) (rb : RBTree) (n : Ptr) (r : RBTree × Ptr),
    insertFixLoop f rb n = .ok r → ∀ g, f ≤ g → insertFixLoop g rb n = .ok r
  | 0, _, _, _, hr, _, _ => by simp [insertFixLoop] at hr
  | f + 1, rb, n, r, hr, g, hle => by
    obtain ⟨g, rfl⟩ : ∃ g', g = g' + 1 := ⟨g - 1, by omega⟩
    simp only [insertFixLoop] at hr ⊢
    cases h1 : insertFixCond rb n with
    | error e => simp [h1] at hr
    | ok b =>
      cases b with
      | false => simpa [h1] using hr
      | true =>
        cases h2 : insertFixBody rb n with
        | error e => simp [h1, h2] at hr
        | ok p =>
          simp only [h1, h2, bind_ok, if_true] at hr ⊢
          exact insertFixLoop_mono f _ _ _ hr g (by omega)

theorem Insert_mono {f : Nat} {rb rb' : RBTree} {n : Ptr}
    (hcb : rb.insertCallBack = InsertValue) (hr : Insert f rb n = .ok rb') {g : Nat}
    (hle : f ≤ g) : Insert g rb n = .ok rb' := by
  simp only [Insert] at hr ⊢
  split_ifs at hr ⊢ with hc
  · exact hr
  · simp only [hcb] at hr ⊢
    cases h1 : InsertValue f rb.heap rb.root n rb.sentinel with
    | error e => simp [h1] at hr
    | ok H =>
      rw [InsertValue_mono f _ _ _ _ _ h1 g hle]
      simp only [h1, bind_ok] at hr ⊢
      exact bind_mono (fun a ha => insertFixLoop_mono f _ _ a ha g hle) hr

theorem deleteFind_mono {f : Nat} {rb : RBTree} {n : Ptr} {r : Ptr × Ptr}
    (hr : deleteFind f rb n = .ok r) {g : Nat} (hle : f ≤ g) : deleteFind g rb n = .ok r := by
  simp only [deleteFind] at hr ⊢
  cases h1 : getLeft rb.heap n with
  | error e => simp [h1] at hr
  | ok nl =>
    simp only [h1, bind_ok] at hr ⊢
    split_ifs at hr ⊢ with hc
    · exact hr
    · cases h2 : getRight rb.heap n with
      | error e => simp [h2] at hr
      | ok nr =>
        simp only [h2, bind_ok] at hr ⊢
        split_ifs at hr ⊢ with hc2
        · exact hr
        · cases h3 : mix f rb.heap nr rb.sentinel with
          | error e => simp [h3] at hr
          | ok sb =>
            rw [mix_mono f _ _ _ _ h3 g hle]
            simpa [h3] using hr

theorem deleteFixLoop_mono : ∀ (f : Nat) (rb : RBTree) (n : Ptr) (r : RBTree × Ptr),
    deleteFixLoop f rb n = .ok r → ∀ g, f ≤ g → deleteFixLoop g rb n = .ok r
  | 0, _, _, _, hr, _, _ => by simp [deleteFixLoop] at hr
  | f + 1, rb, n, r, hr, g, hle => by
    obtain ⟨g, rfl⟩ : ∃ g', g = g' + 1 := ⟨g - 1, by omega⟩
    simp only [deleteFixLoop] at hr ⊢
    cases h1 : deleteFixCond rb n with
    | error e => simp [h1] at hr
    | ok b =>
      cases b with
      | false => simpa [h1] using hr
      | true =>
        cases h2 : deleteFixBody rb n with
        | error e => simp [h1, h2] at hr
        | ok p =>
          simp only [h1, h2, bind_ok, if_true] at hr ⊢
          exact deleteFixLoop_mono f _ _ _ hr g (by omega)

theorem Delete_mono {f : Nat} {rb rb' : RBTree} {n : Ptr} (hr : Delete f rb n = .ok rb')
    {g : Nat} (hle : f ≤ g) : Delete g rb n = .ok rb' := by
  simp only [Delete] at hr ⊢
  cases h1 : deleteFind f rb n with
  | error e => simp [h1] at hr
  | ok p =>
    obtain ⟨tmp, subst⟩ := p
    rw [deleteFind_mono h1 hle]
    simp only [h1, bind_ok] at hr ⊢
    split_ifs at hr ⊢ with hc
    · exact hr
    · cases h2 : judgeColor rb.heap subst color.red with
      | error e => simp [h2] at hr
      | ok b =>
        cases h3 : deleteSplice rb n tmp subst with
        | error e => simp [h2, h3] at hr
        | ok rb1 =>
          simp only [h2, h3, bind_ok] at hr ⊢
          split_ifs at hr ⊢ with hb
          · exact hr
          · cases h4 : deleteFixLoop f rb1 tmp with
            | error e => simp [h4] at hr
            | ok p =>
              rw [deleteFixLoop_mono f _ _ _ h4 g hle]
              simpa [h4] using hr

/-- `Insert` on a valid tree, in terms of `ValidRB`. -/
theorem Insert_valid {rb : RBTree} {s : Nat} {T : Shape} {n : Nat}
    (hv : ValidRB rb s T) (hcb : rb.insertCallBack = InsertValue)
    (hfresh : n ∉ T.addrs) (hns : n ≠ s) {fuel : Nat} (hfuel : T.height < fuel) :
    ∃ rb' T', Insert fuel rb (some n) = .ok rb' ∧ ValidRB rb' s T' ∧
      InsertPost rb rb' n T T' := by
  obtain ⟨⟨q, M⟩, hs, hval⟩ := hv
  obtain ⟨rb', q', T', hins, M', post, -⟩ := Insert_spec M hval hs hcb hfresh hns hfuel
  refine ⟨rb', T', hins, ⟨⟨q', M'⟩, ?_, post.valid⟩, post⟩
  rw [post.outside s (by
    simp only [List.mem_cons, not_or]
    exact ⟨fun e => hns e.symm, Rep_not_sentinel M.rep⟩)]
  exact hs

/-- `Delete` on a valid tree, in terms of `ValidRB`. -/
theorem Delete_valid {rb : RBTree} {s : Nat} {T : Shape} {n : Nat}
    (hv : ValidRB rb s T) (hn : n ∈ T.addrs) {fuel : Nat} (hfuel : T.height < fuel) :
    ∃ rb' T', Delete fuel rb (some n) = .ok rb' ∧ ValidRB rb' s T' ∧
      DeletePost rb rb' s n T T' := by
  obtain ⟨⟨q, M⟩, hs, hval⟩ := hv
  obtain ⟨rb', q', T', hdel, M', post, -, -⟩ := Delete_spec M hval hs hn hfuel
  exact ⟨rb', T', hdel, ⟨⟨q', M'⟩, post.sentinel_black, post.valid⟩, post⟩

theorem Init_valid {h : Heap} {s : Nat} {icb : InsertCallBack} {rb : RBTree}
    (hi : Init h (some s) icb = .ok rb) :
    ValidRB rb s Shape.nil ∧ rb.insertCallBack = icb ∧ rb.size = 0 := by
  simp only [Init, setColor_recolor, bind_ok, pure_eq_ok, Except.ok.injEq] at hi
  subst hi
  exact ⟨⟨⟨none, rfl, rfl, trivial, List.nodup_nil⟩, by simp,
    ⟨rfl, trivial, trivial⟩⟩, rfl, rfl⟩

/-- Allocating a node at an address that is neither attached nor the sentinel leaves
the tree as it is. -/
theorem ValidRB.alloc {rb : RBTree} {s : Nat} {T : Shape} (hv : ValidRB rb s T) {n : Nat}
    (hfresh : n ∉ T.addrs) (hns : n ≠ s) (v : Node) :
    ValidRB { rb with heap := rb.heap.set n v } s T := by
  obtain ⟨⟨q, M⟩, hs, hval⟩ := hv
  refine ⟨⟨q, M.sentinel_eq, M.root_eq, Rep_congr (fun a ha => ?_) M.rep, M.nodup⟩, ?_, hval⟩
  · have : a ≠ n := fun e => hfresh (e ▸ ha)
    simp [Heap.set, this]
  · simpa [Heap.set, Ne.symm hns] using hs

/-- Every reachable tree is a valid red-black tree with the default placement. -/
theorem Reachable.inv {rb : RBTree} (h : Reachable rb) :
    ∃ s T, ValidRB rb s T ∧ rb.insertCallBack = InsertValue := by
  induction h with
  | init h s rb hi =>
    obtain ⟨h1, h2, -⟩ := Init_valid hi
    exact ⟨s, Shape.nil, h1, h2⟩
  | insert rb n k c fuel rb' _ hna hns hins ih =>
    obtain ⟨s, T, hv, hcb⟩ := ih
    obtain ⟨q, M⟩ := hv.models
    have hfresh : n ∉ T.addrs := fun hn => hna ⟨s, q, T, M, hn⟩
    have hns' : n ≠ s := by
      rw [M.sentinel_eq] at hns
      simpa using hns
    obtain ⟨rb2, T2, hins2, hv2, post⟩ := Insert_valid (hv.alloc hfresh hns' (NewNode k c)) hcb
      hfresh hns' (show T.height < max fuel (T.height + 1) by omega)
    have := Insert_mono (by exact hcb) hins (le_max_left fuel (T.height + 1))
    rw [hins2] at this
    cases this
    exact ⟨s, T2, hv2, post.icb_eq.trans hcb⟩
  | delete rb n fuel rb' _ hat hdel ih =>
    obtain ⟨s, T, hv, hcb⟩ := ih
    obtain ⟨q, M⟩ := hv.models
    obtain ⟨rb2, T2, hdel2, hv2, post⟩ := Delete_valid hv (hat.mem M)
      (show T.height < max fuel (T.height + 1) by omega)
    have := Delete_mono hdel (le_max_left fuel (T.height + 1))
    rw [hdel2] at this
    cases this
    exact ⟨s, T2, hv2, post.frame.icb_eq.trans hcb⟩

theorem Shape.height_le_size : ∀ t : Shape, t.height ≤ t.size
  | Shape.nil => le_refl _
  | Shape.node _ l _ _ r => by
    have h1 := Shape.height_le_size l
    have h2 := Shape.height_le_size r
    simp only [Shape.height, Shape.size]
    omega

theorem Shape.size_eq_length : ∀ t : Shape, t.size = t.toList.length
  | Shape.nil => rfl
  | Shape.node _ l _ _ r => by
    simp only [Shape.size, Shape.toList, List.length_append, List.length_cons,
      Shape.size_eq_length l, Shape.size_eq_length r]
    omega

/-- A well-formed subtree with black height `b` has at least `2 ^ b - 1` nodes. -/
theorem Shape.wf_size : ∀ {t : Shape}, t.wf → 2 ^ t.bh ≤ t.size + 1
  | Shape.nil, _ => by simp [Shape.bh, Shape.size]
  | Shape.node c l _ _ r, hw => by
    obtain ⟨⟨-, hnl, hnr⟩, hb, hbl, hbr⟩ := hw
    have h1 := Shape.wf_size (t := l) ⟨hnl, hbl⟩
    have h2 := Shape.wf_size (t := r) ⟨hnr, hbr⟩
    rw [← hb] at h2
    simp only [Shape.bh, Shape.size]
    cases c
    · simp only [reduceCtorEq, if_false, Nat.add_zero]
      omega
    · simp only [if_true, pow_succ]
      omega

/-- The height of a well-formed subtree is at most twice its black height, plus one when
its root is red. -/
theorem Shape.wf_height : ∀ {t : Shape}, t.wf →
    t.height ≤ 2 * t.bh + (if t.rootColor = color.red then 1 else 0)
  | Shape.nil, _ => by simp [Shape.bh, Shape.height]
  | Shape.node c l _ _ r, hw => by
    obtain ⟨⟨hrr, hnl, hnr⟩, hb, hbl, hbr⟩ := hw
    have h1 := Shape.wf_height (t := l) ⟨hnl, hbl⟩
    have h2 := Shape.wf_height (t := r) ⟨hnr, hbr⟩
    rw [← hb] at h2
    simp only [Shape.bh, Shape.height, Shape.rootColor]
    cases c
    · obtain ⟨e1, e2⟩ := hrr rfl
      simp only [e1, e2, reduceCtorEq, if_false, if_true, Nat.add_zero] at h1 h2 ⊢
      omega
    · simp only [reduceCtorEq, if_false, if_true, Nat.add_zero]
      split_ifs at h1 h2 <;> omega

/-- The height bound of a valid tree. -/
theorem Shape.valid_height {t : Shape} (hv : t.valid) :
    2 ^ ((t.height + 1) / 2) ≤ t.size + 1 := by
  have h1 := Shape.wf_size hv.2
  have h2 := Shape.wf_height hv.2
  simp only [hv.1, reduceCtorEq, if_false, Nat.add_zero] at h2
  have h3 : (t.height + 1) / 2 ≤ t.bh := by omega
  exact le_trans (Nat.pow_le_pow_right (by decide) h3) h1

/-- The traversal of a laid-out tree returns its keys, left to right, as soon as the fuel
exceeds the height. -/
theorem traversal_spec {rb : RBTree} {s : Nat} {q : Ptr} {T : Shape} (M : Models rb s q T)
    {fuel : Nat} (hf : T.height < fuel) : traversal fuel rb = .ok T.keys := by
  have := PreOrder_spec T q fuel [] M.rep hf
  rw [traversal, M.root_eq, M.sentinel_eq, this]
  rfl

/-- In a list of nodes without repeated addresses, the split around a node is unique. -/
theorem split_unique {n x y : Nat} : ∀ {L R A B : List (Nat × Nat)},
    ((L ++ (n, x) :: R).map Prod.fst).Nodup → L ++ (n, x) :: R = A ++ (n, y) :: B →
    L = A ∧ R = B
  | [], R, [], B, _, e => by
    simp only [List.nil_append, List.cons.injEq] at e
    exact ⟨rfl, e.2⟩
  | [], R, a :: A, B, hnd, e => by
    simp only [List.nil_append, List.cons_append, List.cons.injEq] at e
    simp only [List.nil_append, List.map_cons, List.nodup_cons] at hnd
    exact absurd (by rw [e.2]; simp) hnd.1
  | l :: L, R, [], B, hnd, e => by
    simp only [List.nil_append, List.cons_append, List.cons.injEq] at e
    simp only [List.cons_append, List.map_cons, List.nodup_cons, e.1] at hnd
    exact absurd (by simp) hnd.1
  | l :: L, R, a :: A, B, hnd, e => by
    simp only [List.cons_append, List.cons.injEq] at e
    simp only [List.cons_append, List.map_cons, List.nodup_cons] at hnd
    obtain ⟨h1, h2⟩ := split_unique hnd.2 e.2
    exact ⟨by rw [e.1, h1], h2⟩

theorem emptyTree_reachable : Reachable emptyTree :=
  Reachable.init blankHeap 0 emptyTree rfl

theorem emptyTree_fresh (n : Nat) : ¬ Attached emptyTree n := by
  rintro ⟨s, q, T, M, hn⟩
  have hs : s = 0 := by
    have := M.sentinel_eq
    simpa [emptyTree] using this.symm
  subst hs
  have : T = Shape.nil := (Shape.ptr_eq_sentinel M.rep).1 M.root_eq.symm
  subst this
  simp [Shape.addrs] at hn

theorem oneTree_insert :
    Insert 1 { emptyTree with heap := emptyTree.heap.set 1 (NewNode 5 color.red) } (some 1) =
      .ok oneTree := rfl

theorem oneTree_reachable : Reachable oneTree :=
  Reachable.insert emptyTree 1 5 color.red 1 oneTree emptyTree_reachable (emptyTree_fresh 1)
    (by decide) oneTree_insert

theorem oneTree_models :
    Models oneTree 0 none (Shape.node color.black Shape.nil 1 5 Shape.nil) :=
  ⟨rfl, rfl, ⟨by decide, rfl, trivial, trivial⟩, by simp [Shape.addrs]⟩

/-- C2. Delete preserves red-black validity: on every valid tree, laid out as some shape
`T` with sentinel `s`, and for every node `n` attached to it (whatever its children),
`Delete` returns for every fuel above the height of the tree, and the resulting tree is
again valid; it is the empty tree (root equal to the sentinel) exactly when no node is
left. -/
theorem C2_delete_preserves_validity (rb : RBTree) (s : Nat) (T : Shape) (n : Nat)
    (hv : ValidRB rb s T) (hn : n ∈ T.addrs) (fuel : Nat) (hfuel : T.height < fuel) :
    ∃ rb' T', Delete fuel rb (some n) = .ok rb' ∧ ValidRB rb' s T' ∧
      (rb'.root = rb'.sentinel ↔ T' = Shape.nil) := by
  obtain ⟨rb', T', hdel, hv', -⟩ := Delete_valid hv hn hfuel
  refine ⟨rb', T', hdel, hv', ?_⟩
  obtain ⟨q', M'⟩ := hv'.models
  rw [M'.root_eq, M'.sentinel_eq]
  exact Shape.ptr_eq_sentinel M'.rep

/-- C4. For every reachable tree and every node `n` attached to it, `Delete(n)` returns
(for every sufficient fuel, with one and the same result), and the traversal before is
`L ++ key(n) :: R` while the traversal after is `L ++ R`: exactly the occurrence of the
key of `n` at the position of `n` is removed, every other key stays in place. -/
theorem C4_delete_traversal (rb : RBTree) (hr : Reachable rb) (n : Nat)
    (hn : Attached rb n) :
    ∃ rb' L R fuel0, ∀ j,
      Delete (fuel0 + j) rb (some n) = .ok rb' ∧
      traversal (fuel0 + j) rb = .ok (L ++ (rb.heap n).key :: R) ∧
      traversal (fuel0 + j) rb' = .ok (L ++ R) := by
  obtain ⟨s, T, hv, -⟩ := hr.inv
  obtain ⟨q, M⟩ := hv.models
  have hsz := T.height_le_size
  obtain ⟨rb', T', hdel, hv', post⟩ := Delete_valid hv (hn.mem M)
    (show T.height < T.size + 1 by omega)
  obtain ⟨q', M'⟩ := hv'.models
  obtain ⟨A, B, hA, hB⟩ := post.removed
  have hsz' := T'.height_le_size
  have hlen : T'.size + 1 = T.size := by
    rw [Shape.size_eq_length, Shape.size_eq_length, hA, hB]
    simp only [List.length_append, List.length_cons]
    omega
  refine ⟨rb', A.map Prod.snd, B.map Prod.snd, T.size + 1, fun j => ⟨?_, ?_, ?_⟩⟩
  · exact Delete_mono hdel (by omega)
  · rw [traversal_spec M (by omega), Shape.keys_eq_map, hA]
    simp
  · rw [traversal_spec M' (by omega), Shape.keys_eq_map, hB]
    simp

/-- C5. Round trip: for every reachable tree and every freshly constructed node (any key
and colour, at an address that is neither attached nor the sentinel), `Insert` of the
node followed immediately by `Delete` of the same node returns, and the traversal
afterwards equals the traversal of the tree before the two calls. -/
theorem C5_insert_delete_round_trip (rb : RBTree) (hr : Reachable rb) (n k : Nat)
    (c : color) (hfresh : ¬ Attached rb n) (hns : some n ≠ rb.sentinel) :
    ∃ rb1 rb2 keys fuel0, ∀ j,
      Insert (fuel0 + j) { rb with heap := rb.heap.set n (NewNode k c) } (some n) = .ok rb1 ∧
      Delete (fuel0 + j) rb1 (some n) = .ok rb2 ∧
      traversal (fuel0 + j) rb = .ok keys ∧ traversal (fuel0 + j) rb2 = .ok keys := by
  obtain ⟨s, T, hv, hcb⟩ := hr.inv
  obtain ⟨q, M⟩ := hv.models
  have hfr : n ∉ T.addrs := fun hn => hfresh ⟨s, q, T, M, hn⟩
  have hns' : n ≠ s := by
    rw [M.sentinel_eq] at hns
    simpa using hns
  have hsz := T.height_le_size
  obtain ⟨rb1, T1, hins, hv1, post1⟩ := Insert_valid (hv.alloc hfr hns' (NewNode k c)) hcb
    hfr hns' (show T.height < T.size + 2 by omega)
  obtain ⟨q1, M1⟩ := hv1.models
  obtain ⟨L, R, hL, hR, -⟩ := post1.placed
  have hn1 : n ∈ T1.addrs := by
    rw [Shape.addrs_eq_map, hR]
    simp
  have hsz1 := T1.height_le_size
  have hlen1 : T1.size = T.size + 1 := by
    rw [Shape.size_eq_length, Shape.size_eq_length, hL, hR]
    simp only [List.length_append, List.length_cons]
    omega
  obtain ⟨rb2, T2, hdel, hv2, post2⟩ := Delete_valid hv1 hn1
    (show T1.height < T.size + 2 by omega)
  obtain ⟨q2, M2⟩ := hv2.models
  obtain ⟨A, B, hA, hB⟩ := post2.removed
  have hnd := M1.nodup
  rw [Shape.addrs_eq_map, hR] at hnd
  obtain ⟨e1, e2⟩ := split_unique hnd (hR.symm.trans hA)
  have hT2 : T2.toList = T.toList := by rw [hB, hL, e1, e2]
  have hsz2 := T2.height_le_size
  have hlen2 : T2.size = T.size := by
    rw [Shape.size_eq_length, Shape.size_eq_length, hT2]
  refine ⟨rb1, rb2, T.keys, T.size + 2, fun j => ⟨?_, ?_, ?_, ?_⟩⟩
  · exact Insert_mono (by exact hcb) hins (by omega)
  · exact Delete_mono hdel (by omega)
  · exact traversal_spec M (by omega)
  · rw [traversal_spec M2 (by omega), Shape.keys_eq_map, Shape.keys_eq_map, hT2]

/-- C7. Logarithmic height: every reachable tree, laid out as the shape `T` with
`T.size` attached nodes and height `T.height` (the largest number of attached nodes on a
path from the root to a sentinel slot), satisfies `2 ^ ceil(height / 2) ≤ size + 1`. -/
theorem C7_height_bound (rb : RBTree) (hr : Reachable rb) (s : Nat) (q : Ptr) (T : Shape)
    (M : Models rb s q T) : 2 ^ ((T.height + 1) / 2) ≤ T.size + 1 := by
  obtain ⟨s', T', hv, -⟩ := hr.inv
  obtain ⟨q', M'⟩ := hv.models
  rw [(M.unique M').2]
  exact Shape.valid_height hv.valid

/-- C10. `Delete` leaves the size counter alone: deleting the only node of the one-node
tree `oneTree` gives the empty tree (root equal to the sentinel, empty traversal) whose
size field is still 1, not 0. -/
theorem C10_delete_keeps_size :
    oneTree.size = 1 ∧
      ∃ rb', Delete 1 oneTree (some 1) = .ok rb' ∧ rb'.root = rb'.sentinel ∧
        traversal 1 rb' = .ok [] ∧ rb'.size = 1 :=
  ⟨rfl, _, rfl, rfl, rfl, rfl⟩

/-- On every valid tree `Delete` returns with the size counter unchanged. -/
theorem Delete_size {rb : RBTree} {s : Nat} {T : Shape} {n : Nat} (hv : ValidRB rb s T)
    (hn : n ∈ T.addrs) {fuel : Nat} (hfuel : T.height < fuel) :
    ∃ rb', Delete fuel rb (some n) = .ok rb' ∧ rb'.size = rb.size := by
  obtain ⟨rb', T', hdel, -, post⟩ := Delete_valid hv hn hfuel
  exact ⟨rb', hdel, post.frame.size_eq⟩

theorem allocNodes_other : ∀ (nodes : List (Nat × Nat)) (h : Heap) (a : Nat),
    a ∉ nodes.map Prod.fst → allocNodes h nodes a = h a
  | [], _, _, _ => rfl
  | (b, k) :: rest, h, a, ha => by
    simp only [List.map_cons, List.mem_cons, not_or] at ha
    rw [allocNodes, allocNodes_other rest _ a ha.2, Heap.set_other _ _ _ _ ha.1]

theorem allocNodes_mem : ∀ (nodes : List (Nat × Nat)) (h : Heap),
    (nodes.map Prod.fst).Nodup → ∀ p ∈ nodes, allocNodes h nodes p.1 = NewNode p.2 color.red
  | [], _, _, _, hp => by cases hp
  | (b, k) :: rest, h, hnd, p, hp => by
    simp only [List.map_cons, List.nodup_cons] at hnd
    rw [allocNodes]
    rcases List.mem_cons.1 hp with rfl | hp
    · rw [allocNodes_other rest _ _ hnd.1, Heap.set_same]
    · exact allocNodes_mem rest _ hnd.2 p hp

/-- Putting a key between the keys that are at most as large and the keys that are
larger keeps a sorted sequence sorted. -/
theorem sorted_insert_mid {L R : List (Nat × Nat)} {a k : Nat}
    (hs : ((L ++ R).map Prod.snd).Sorted (· ≤ ·)) (hL : ∀ x ∈ L, x.2 ≤ k)
    (hR : ∀ x ∈ R, k < x.2) : ((L ++ (a, k) :: R).map Prod.snd).Sorted (· ≤ ·) := by
  simp only [List.Sorted, List.map_append, List.map_cons, List.pairwise_append,
    List.pairwise_cons, List.mem_map, List.mem_cons, forall_exists_index, and_imp,
    forall_apply_eq_imp_iff₂] at hs ⊢
  obtain ⟨h1, h2, h3⟩ := hs
  refine ⟨h1, ⟨fun x hx => le_of_lt (hR x hx), h2⟩, ?_⟩
  intro x hx y hy
  rcases hy with rfl | ⟨z, hz, rfl⟩
  · exact hL x hx
  · exact h3 x hx z hz

/-- Nodes with a given key, after a node is put between the keys that are at most as
large and the keys that are larger. -/
theorem filter_insert_mid {L R : List (Nat × Nat)} {a k : Nat} (j : Nat)
    (hR : ∀ x ∈ R, k < x.2) :
    (L ++ (a, k) :: R).filter (fun x => decide (x.2 = j)) =
      (L ++ R).filter (fun x => decide (x.2 = j)) ++
        [(a, k)].filter (fun x => decide (x.2 = j)) := by
  by_cases h : k = j
  · subst h
    have hnil : R.filter (fun x => decide (x.2 = k)) = [] := by
      rw [List.filter_eq_nil_iff]
      intro x hx
      have := hR x hx
      simp only [decide_eq_true_eq]
      omega
    simp [List.filter_cons, hnil]
  · simp [List.filter_cons, h]

/-- The loop of the test harness: inserting nodes one after the other into a valid tree
with sorted keys gives a valid tree whose sorted keys are the old keys together with the
keys of the new nodes. -/
theorem insertAll_spec (s fuel : Nat) : ∀ (todo : List (Nat × Nat)) (rb : RBTree)
    (T : Shape), ValidRB rb s T → rb.insertCallBack = InsertValue →
    T.keys.Sorted (· ≤ ·) → (todo.map Prod.fst ++ T.addrs).Nodup → s ∉ todo.map Prod.fst →
    (∀ p ∈ todo, (rb.heap p.1).key = p.2) → T.size + todo.length < fuel →
    ∃ rb' T', insertAll fuel rb (todo.map Prod.fst) = .ok rb' ∧ ValidRB rb' s T' ∧
      T'.keys.Sorted (· ≤ ·) ∧ List.Perm T'.keys (T.keys ++ todo.map Prod.snd) ∧
      ∀ j, T'.toList.filter (fun x => decide (x.2 = j)) =
        T.toList.filter (fun x => decide (x.2 = j)) ++
          todo.filter (fun x => decide (x.2 = j))
  | [], rb, T, hv, _, hsrt, _, _, _, _ => ⟨rb, T, rfl, hv, hsrt, by simp, by simp⟩
  | (a, k) :: rest, rb, T, hv, hcb, hsrt, hnd, hs, hkeys, hf => by
    simp only [List.map_cons, List.cons_append, List.nodup_cons, List.mem_append, not_or,
      List.mem_cons, List.length_cons] at hnd hs hf
    have hsz := T.height_le_size
    obtain ⟨rb1, T1, hins, hv1, post⟩ := Insert_valid hv hcb hnd.1.2 (Ne.symm hs.1)
      (show T.height < fuel by omega)
    obtain ⟨L, R, hL, hR, hbound⟩ := post.placed
    have hk : (rb.heap a).key = k := hkeys (a, k) (by simp)
    rw [hk] at hR hbound
    have hsrt1 : T1.keys.Sorted (· ≤ ·) := by
      rw [Shape.keys_eq_map, hR]
      rw [Shape.keys_eq_map, hL] at hsrt
      exact sorted_insert_mid hsrt (hbound (by rw [Shape.keys_eq_map, hL]; exact hsrt)).1
        (hbound (by rw [Shape.keys_eq_map, hL]; exact hsrt)).2
    have hperm : List.Perm T1.toList ((a, k) :: T.toList) := by
      rw [hR, hL]
      exact List.perm_middle
    have hlen : T1.size = T.size + 1 := by
      rw [Shape.size_eq_length, Shape.size_eq_length, hperm.length_eq]
      rfl
    have hnd1 : (rest.map Prod.fst ++ T1.addrs).Nodup := by
      have hp : List.Perm (rest.map Prod.fst ++ T1.addrs)
          (a :: (rest.map Prod.fst ++ T.addrs)) := by
        rw [Shape.addrs_eq_map T1, Shape.addrs_eq_map T]
        refine (List.Perm.append_left _ (hperm.map Prod.fst)).trans ?_
        simp only [List.map_cons]
        exact List.perm_middle
      refine hp.nodup_iff.2 (List.nodup_cons.2 ⟨?_, hnd.2⟩)
      simp only [List.mem_append, not_or]
      exact hnd.1
    have hkeys1 : ∀ p ∈ rest, (rb1.heap p.1).key = p.2 := by
      intro p hp
      have hp1 : p.1 ∈ rest.map Prod.fst := List.mem_map_of_mem _ hp
      rw [post.outside p.1 ?_]
      · exact hkeys p (List.mem_cons_of_mem _ hp)
      · simp only [List.mem_cons, not_or]
        refine ⟨fun e => hnd.1.1 (e ▸ hp1), fun h => ?_⟩
        exact (List.nodup_append.1 hnd.2).2.2 hp1 h
    obtain ⟨rb', T', hall, hv', hsrt', hperm', hst'⟩ := insertAll_spec s fuel rest rb1 T1 hv1
      (post.icb_eq.trans hcb) hsrt1 hnd1 hs.2 hkeys1 (by omega)
    refine ⟨rb', T', ?_, hv', hsrt', hperm'.trans ?_, fun j => ?_⟩
    · simp only [List.map_cons, insertAll, hins, bind_ok]
      exact hall
    · rw [Shape.keys_eq_map T1, Shape.keys_eq_map T]
      refine (List.Perm.append_right _ (hperm.map Prod.snd)).trans ?_
      simp only [List.map_cons, List.cons_append]
      exact List.perm_middle.symm
    · rw [hst' j, hR, hL, filter_insert_mid j (hbound hsrt).2]
      by_cases hkj : k = j <;> simp [List.filter_cons, hkj]

/-- C3. For every finite list of keys, given as fresh nodes (pairwise distinct addresses,
none of them the sentinel), creating a tree with `Init(sentinel, InsertValue)` and calling
`Insert` once per node in list order returns (for every fuel above the number of nodes),
and the traversal of the resulting tree is the list of keys sorted in non-decreasing
order, duplicates kept. -/
theorem C3_insert_traversal_sorted (h : Heap) (s : Nat) (nodes : List (Nat × Nat))
    (hnd : (nodes.map Prod.fst).Nodup) (hs : s ∉ nodes.map Prod.fst) (fuel : Nat)
    (hfuel : nodes.length < fuel) :
    ∃ rb, testInsert fuel h s nodes = .ok rb ∧
      traversal fuel rb = .ok ((nodes.map Prod.snd).insertionSort (· ≤ ·)) := by
  obtain ⟨rb0, hinit⟩ : ∃ rb0, Init (h.set s (NewNode 0 color.black)) (some s) InsertValue =
      .ok rb0 := ⟨_, rfl⟩
  obtain ⟨hv0, hcb0, -⟩ := Init_valid hinit
  have hv1 : ValidRB { rb0 with heap := allocNodes rb0.heap nodes } s Shape.nil := by
    obtain ⟨⟨q, M⟩, hsb, hval⟩ := hv0
    refine ⟨⟨q, M.sentinel_eq, M.root_eq, trivial, List.nodup_nil⟩, ?_, hval⟩
    show (allocNodes rb0.heap nodes s).color = color.black
    rw [allocNodes_other nodes _ s hs]
    exact hsb
  obtain ⟨rb, T, hall, hv, hsrt, hperm, -⟩ := insertAll_spec s fuel nodes
    { rb0 with heap := allocNodes rb0.heap nodes } Shape.nil hv1 hcb0
    (by simp [Shape.keys]) (by simpa [Shape.addrs] using hnd) hs
    (fun p hp => by
      show (allocNodes rb0.heap nodes p.1).key = p.2
      rw [allocNodes_mem nodes _ hnd p hp]
      rfl)
    (by simpa [Shape.size] using hfuel)
  obtain ⟨q, M⟩ := hv.models
  have hsize : T.size = nodes.length := by
    have := hperm.length_eq
    simp only [Shape.keys, List.nil_append, List.length_map] at this
    rw [Shape.size_eq_length, ← this, Shape.keys_eq_map, List.length_map]
  have hsz := T.height_le_size
  refine ⟨rb, ?_, ?_⟩
  · simp only [testInsert, hinit, bind_ok]
    exact hall
  · rw [traversal_spec M (by omega)]
    congr 1
    refine List.eq_of_perm_of_sorted ?_ hsrt (List.sorted_insertionSort _ _)
    simp only [Shape.keys, List.nil_append] at hperm
    exact hperm.trans (List.perm_insertionSort _ _).symm

theorem C3_witness :
    (customNodes.map Prod.fst).Nodup ∧ 0 ∉ customNodes.map Prod.fst ∧
      customNodes.length < 11 ∧
      ∃ rb, testInsert 11 blankHeap 0 customNodes = .ok rb ∧
        traversal 11 rb = .ok ((customNodes.map Prod.snd).insertionSort (· ≤ ·)) :=
  ⟨by decide, by decide, by decide,
    C3_insert_traversal_sorted blankHeap 0 customNodes (by decide) (by decide) 11 (by decide)⟩

/-- Every pass of the fixup loop inside `Insert` on a valid tree is safe: the grandparent
it reads is an attached node and a red uncle is never the sentinel. -/
theorem InsertVisited_safe {rb : RBTree} {s : Nat} {q : Ptr} {T : Shape} {n : Nat}
    (M : Models rb s q T) (hv : T.valid) (hs : (rb.heap s).color = color.black)
    (hcb : rb.insertCallBack = InsertValue) (hfresh : n ∉ T.addrs) (hns : n ≠ s)
    {fuel : Nat} (hfuel : T.height < fuel) :
    ∀ st ∈ InsertVisited fuel rb (some n), InsertFixSafe st.1 st.2 := by
  rcases T with _ | ⟨c, l, a, k, r⟩
  · have hroot : rb.root = rb.sentinel := by rw [M.root_eq, M.sentinel_eq]; rfl
    simp [InsertVisited, hroot]
  · have has : a ≠ s := M.rep.1
    have hne : ¬ rb.root = rb.sentinel := by
      rw [M.root_eq, M.sentinel_eq]; simpa using has
    obtain ⟨ctx', H, hIV, hplug, hrepH, hpath, hne', hlen, hout⟩ :=
      InsertValue_spec (q := q) hns (Shape.node c l a k r) [] rb.heap fuel (by simp)
        M.rep M.nodup hfresh (by intro f hf; cases hf) (by omega)
    simp only [plug_nil, Shape.ptr_node, List.length_nil, Nat.zero_add] at hIV hplug hlen hout
    have hnd1 : (plug ctx' (Shape.node color.red Shape.nil n (rb.heap n).key
        Shape.nil)).addrs.Nodup := by
      have h1 := M.nodup
      have h2 := hfresh
      rw [← hplug, plug_nodup] at h1
      rw [← hplug, mem_plug_addrs] at h2
      rw [plug_nodup]
      simp only [Shape.addrs, List.nil_append, List.not_mem_nil, false_or, List.cons_append,
        List.nodup_cons] at h1 h2 ⊢
      exact ⟨h2, h1⟩
    obtain ⟨hcv, -, -⟩ := valid_plug ctx' Shape.nil (hplug ▸ hv)
    have hroot1 : rb.root = (plug ctx' (Shape.node color.red Shape.nil n (rb.heap n).key
        Shape.nil)).ptr s := by
      rw [M.root_eq, ← hplug, plug_ptr, plug_ptr]
      exact ctxTop_irrel _ _ hne'
    have M1 : Models { size := (rb.size + 1) % 2 ^ 32, root := rb.root, sentinel := rb.sentinel,
                       insertCallBack := rb.insertCallBack, heap := H } s q
        (plug ctx' (Shape.node color.red Shape.nil n (rb.heap n).key Shape.nil)) :=
      ⟨M.sentinel_eq, hroot1, hrepH, hnd1⟩
    have hsH : H s = rb.heap s := hout s (by
      simp only [List.mem_cons, not_or]
      exact ⟨fun e => hns e.symm, Rep_not_sentinel M.rep⟩)
    obtain ⟨rb2, n2, T2, -, -, -, hsafe⟩ := insertFixLoop_spec ctx'.length ctx' _ Shape.nil
      Shape.nil n (rb.heap n).key fuel (le_refl _) (by omega) M1 (by simpa [hsH] using hs)
      (by simpa [Shape.bh] using hcv)
      (by simp [Shape.wf, Shape.noRedRed, Shape.balanced, Shape.rootColor])
    have hIV' : rb.insertCallBack fuel rb.heap rb.root (some n) rb.sentinel = .ok H := by
      rw [hcb, M.root_eq, M.sentinel_eq]; exact hIV
    simp only [InsertVisited, hne, if_false, hIV']
    exact hsafe

/-- C8. `Insert` has no failure mode on well-formed input: on every valid tree with the
default placement and for every node that is neither attached nor the sentinel, `Insert`
returns a tree for every fuel above the height (the placement walk and the fixup loop
terminate and no nil link is dereferenced); and in every pass of the fixup loop the
grandparent `n.parent.parent` that is read is an attached node, and the uncle, whenever
it is red and so gets recoloured, is an attached node and not the sentinel. -/
theorem C8_insert_no_failure (rb : RBTree) (s : Nat) (T : Shape) (n : Nat)
    (hv : ValidRB rb s T) (hcb : rb.insertCallBack = InsertValue)
    (hfresh : n ∉ T.addrs) (hns : n ≠ s) (fuel : Nat) (hfuel : T.height < fuel) :
    (∃ rb', Insert fuel rb (some n) = .ok rb') ∧
      ∀ st ∈ InsertVisited fuel rb (some n), InsertFixSafe st.1 st.2 := by
  obtain ⟨⟨q, M⟩, hs, hval⟩ := hv
  obtain ⟨rb', q', T', hins, -, -, -⟩ := Insert_spec M hval hs hcb hfresh hns hfuel
  exact ⟨⟨rb', hins⟩, InsertVisited_safe M hval hs hcb hfresh hns hfuel⟩

/-- C9. `Delete` has no failure path on well-formed input: on every valid tree and for
every node attached to it, `Delete` returns a tree for every fuel above the height (the
successor search and the fixup loop terminate and no nil link is dereferenced), with the
sentinel black at the end; and each time the fixup loop reads the sibling `w` of the
cursor, `w` is an attached node and not the sentinel, and the sentinel is black then. -/
theorem C9_delete_no_failure (rb : RBTree) (s : Nat) (T : Shape) (n : Nat)
    (hv : ValidRB rb s T) (hn : n ∈ T.addrs) (fuel : Nat) (hfuel : T.height < fuel) :
    (∃ rb', Delete fuel rb (some n) = .ok rb' ∧ (rb'.heap s).color = color.black) ∧
      ∀ x ∈ DeleteVisited fuel rb (some n), SiblingSafe x.1 x.2 := by
  obtain ⟨⟨q, M⟩, hs, hval⟩ := hv
  obtain ⟨rb', q', T', hdel, M', post, hsafe, -⟩ := Delete_spec M hval hs hn hfuel
  exact ⟨⟨rb', hdel, post.sentinel_black⟩, hsafe⟩

/-- Allocating a node at an address that is neither attached nor the sentinel leaves
the layout as it is. -/
theorem Models.withAlloc {rb : RBTree} {s : Nat} {q : Ptr} {T : Shape} (M : Models rb s q T)
    {n : Nat} (hfresh : n ∉ T.addrs) (v : Node) :
    Models { rb with heap := rb.heap.set n v } s q T := by
  refine ⟨M.sentinel_eq, M.root_eq, Rep_congr (fun a ha => ?_) M.rep, M.nodup⟩
  have : a ≠ n := fun e => hfresh (e ▸ ha)
  simp [Heap.set, this]

/-- Every reachable tree is a valid red-black tree with the default placement whose keys
are in non-decreasing order from left to right, and the parent link of its root is not
the sentinel. -/
theorem Reachable.inv_strong {rb : RBTree} (h : Reachable rb) :
    ∃ s q T, Models rb s q T ∧ (rb.heap s).color = color.black ∧ T.valid ∧
      rb.insertCallBack = InsertValue ∧ T.keys.Sorted (· ≤ ·) ∧ q ≠ some s := by
  induction h with
  | init h s rb hi =>
    obtain ⟨h1, h2, -⟩ := Init_valid hi
    obtain ⟨q, M⟩ := h1.models
    exact ⟨s, none, Shape.nil, ⟨M.sentinel_eq, M.root_eq, trivial, List.nodup_nil⟩,
      h1.sentinel_black, h1.valid, h2, by simp [Shape.keys], by simp⟩
  | insert rb n k c fuel rb' _ hna hns hins ih =>
    obtain ⟨s, q, T, M, hsb, hval, hcb, hsrt, hq⟩ := ih
    have hfresh : n ∉ T.addrs := fun hn => hna ⟨s, q, T, M, hn⟩
    have hns' : n ≠ s := by
      rw [M.sentinel_eq] at hns
      simpa using hns
    have hsb' : (({ rb with heap := rb.heap.set n (NewNode k c) } : RBTree).heap s).color =
        color.black := by
      simpa [Heap.set, Ne.symm hns'] using hsb
    obtain ⟨rb2, q2, T2, hins2, M2, post, hq2⟩ :=
      Insert_spec (M.withAlloc hfresh (NewNode k c)) hval hsb' (by exact hcb) hfresh hns'
        (show T.height < max fuel (T.height + 1) by omega)
    have := Insert_mono (by exact hcb) hins (le_max_left fuel (T.height + 1))
    rw [hins2] at this
    cases this
    obtain ⟨L, R, hL, hR, hbound⟩ := post.placed
    refine ⟨s, q2, T2, M2, ?_, post.valid, post.icb_eq.trans hcb, ?_, ?_⟩
    · rw [post.outside s (by
        simp only [List.mem_cons, not_or]
        exact ⟨fun e => hns' e.symm, Rep_not_sentinel M.rep⟩)]
      exact hsb'
    · rw [Shape.keys_eq_map, hR]
      have hs0 := hsrt
      rw [Shape.keys_eq_map, hL] at hs0
      exact sorted_insert_mid hs0 (hbound hsrt).1 (hbound hsrt).2
    · rcases hq2 with e | e
      · rw [e]; exact hq
      · rw [e]; simp
  | delete rb n fuel rb' _ hat hdel ih =>
    obtain ⟨s, q, T, M, hsb, hval, hcb, hsrt, hq⟩ := ih
    have hn := hat.mem M
    obtain ⟨rb2, q2, T2, hdel2, M2, post, -, hq2⟩ := Delete_spec M hval hsb hn
      (show T.height < max fuel (T.height + 1) by omega)
    have := Delete_mono hdel (le_max_left fuel (T.height + 1))
    rw [hdel2] at this
    cases this
    obtain ⟨A, B, hA, hB⟩ := post.removed
    refine ⟨s, q2, T2, M2, post.sentinel_black, post.valid, post.frame.icb_eq.trans hcb,
      ?_, ?_⟩
    · rw [Shape.keys_eq_map, hB]
      rw [Shape.keys_eq_map, hA] at hsrt
      exact List.Pairwise.sublist
        (((List.Sublist.refl A).append (List.sublist_cons_self _ B)).map Prod.snd) hsrt
    · rcases hq2 with e | e
      · rw [e]; exact hq
      · rw [e]
        intro e2
        simp only [Option.some.injEq] at e2
        exact Rep_not_sentinel M.rep (e2 ▸ hn)

theorem oneTree_fresh {n : Nat} (hn : n ≠ 1) : ¬ Attached oneTree n := by
  intro h
  have := h.mem oneTree_models
  simp [Shape.addrs] at this
  exact hn this

theorem twoTree_insert :
    Insert 2 { oneTree with heap := oneTree.heap.set 2 (NewNode 5 color.red) } (some 2) =
      .ok twoTree := rfl

theorem twoTree_reachable : Reachable twoTree :=
  Reachable.insert oneTree 2 5 color.red 2 twoTree oneTree_reachable
    (oneTree_fresh (by decide)) (by decide) twoTree_insert

theorem twoTree_models :
    Models twoTree 0 none
      (Shape.node color.black Shape.nil 1 5 (Shape.node color.red Shape.nil 2 5 Shape.nil)) :=
  ⟨rfl, rfl, ⟨by decide, rfl, trivial, ⟨by decide, rfl, trivial, trivial⟩⟩,
    by simp [Shape.addrs]⟩

theorem threeTree_insert :
    Insert 2 { twoTree with heap := twoTree.heap.set 3 (NewNode 3 color.red) } (some 3) =
      .ok threeTree := rfl

theorem threeTree_models :
    Models threeTree 0 none
      (Shape.node color.black (Shape.node color.red Shape.nil 3 3 Shape.nil) 1 5
        (Shape.node color.red Shape.nil 2 5 Shape.nil)) :=
  ⟨rfl, rfl, ⟨by decide, rfl, ⟨by decide, rfl, trivial, trivial⟩,
    ⟨by decide, rfl, trivial, trivial⟩⟩, by simp [Shape.addrs]⟩

theorem oneTree_valid :
    ValidRB oneTree 0 (Shape.node color.black Shape.nil 1 5 Shape.nil) :=
  ⟨⟨none, oneTree_models⟩, rfl, by simp [Shape.valid, Shape.wf, Shape.rootColor,
    Shape.noRedRed, Shape.balanced, Shape.bh]⟩

theorem twoTree_valid :
    ValidRB twoTree 0
      (Shape.node color.black Shape.nil 1 5 (Shape.node color.red Shape.nil 2 5 Shape.nil)) :=
  ⟨⟨none, twoTree_models⟩, rfl, by simp [Shape.valid, Shape.wf, Shape.rootColor,
    Shape.noRedRed, Shape.balanced, Shape.bh]⟩

theorem threeTree_valid :
    ValidRB threeTree 0
      (Shape.node color.black (Shape.node color.red Shape.nil 3 3 Shape.nil) 1 5
        (Shape.node color.red Shape.nil 2 5 Shape.nil)) :=
  ⟨⟨none, threeTree_models⟩, rfl, by simp [Shape.valid, Shape.wf, Shape.rootColor,
    Shape.noRedRed, Shape.balanced, Shape.bh]⟩

/-- C11, as claimed, fails: the tree reached from `Init` by inserting two fresh nodes with
key 5 has the traversal `[5, 5]`, which is not strictly increasing. -/
theorem C11_duplicate_keys_not_strict :
    Reachable twoTree ∧ traversal 3 twoTree = .ok [5, 5] ∧
      ¬ ([5, 5] : List Nat).Sorted (· < ·) :=
  ⟨twoTree_reachable, rfl, by simp [List.Sorted]⟩

/-- C11, amended. The traversal is non-decreasing: for every tree reachable from `Init`
by `Insert` (default placement, duplicate keys allowed) and `Delete`, the traversal
`PreOrder(root, sentinel)` returns for every sufficient fuel, always the same sequence,
and in it each key is at most as large as every later one. -/
theorem C11_traversal_nondecreasing (rb : RBTree) (hr : Reachable rb) :
    ∃ keys fuel0, ∀ j, traversal (fuel0 + j) rb = .ok keys ∧ keys.Sorted (· ≤ ·) := by
  obtain ⟨s, q, T, M, -, -, -, hsrt, -⟩ := hr.inv_strong
  exact ⟨T.keys, T.height + 1, fun j => ⟨traversal_spec M (by omega), hsrt⟩⟩

theorem C11_witness :
    Reachable twoTree ∧
      ∃ keys fuel0, ∀ j, traversal (fuel0 + j) twoTree = .ok keys ∧ keys.Sorted (· ≤ ·) :=
  ⟨twoTree_reachable, C11_traversal_nondecreasing twoTree twoTree_reachable⟩

/-- C15. `Init` returns an empty tree: for every sentinel node (at address `s`, whatever
its record and colour on entry) and every placement strategy, `Init(sentinel, icb)`
returns a tree whose root is the sentinel, whose sentinel field is that same node, now
coloured black and otherwise as before, whose callback is `icb`, whose size is 0, and
whose traversal is the empty sequence; no other record is written. -/
theorem C15_init_empty (h : Heap) (s : Nat) (icb : InsertCallBack) :
    ∃ rb, Init h (some s) icb = .ok rb ∧ rb.root = some s ∧ rb.sentinel = some s ∧
      rb.heap s = { h s with color := color.black } ∧ rb.size = 0 ∧
      rb.insertCallBack = icb ∧ (∀ x, x ≠ s → rb.heap x = h x) ∧
      ∀ fuel, traversal (fuel + 1) rb = .ok [] := by
  refine ⟨_, rfl, rfl, rfl, by simp [Heap.set], rfl, rfl, fun x hx => by simp [Heap.set, hx],
    fun fuel => ?_⟩
  simp [traversal, PreOrder]

/-- C18, as claimed, fails: deleting the red leaf at address 2 of the two-node tree
`twoTree` (a valid tree, the node attached) writes the parent link of the sentinel, which
was nil before and points to the node at address 1 afterwards. -/
theorem C18_delete_writes_sentinel_parent :
    ValidRB twoTree 0
        (Shape.node color.black Shape.nil 1 5 (Shape.node color.red Shape.nil 2 5 Shape.nil)) ∧
      Attached twoTree 2 ∧ (twoTree.heap 0).parent = none ∧
      ∃ rb', Delete 2 twoTree (some 2) = .ok rb' ∧ (rb'.heap 0).parent = some 1 :=
  ⟨twoTree_valid, ⟨0, none, _, twoTree_models, by simp [Shape.addrs]⟩, rfl, _, rfl, rfl⟩

/-- C18, amended. On every valid tree, `Insert` of a fresh node leaves the record of the
sentinel (key, left, right, parent and colour) exactly as it was, and `Delete` of an
attached node leaves the sentinel's key, left, right and colour (black) as they were; of
the sentinel's fields only the parent link can be overwritten by `Delete`. -/
theorem C18_sentinel_frame (rb : RBTree) (s : Nat) (T : Shape) (n : Nat)
    (hv : ValidRB rb s T) (fuel : Nat) (hfuel : T.height < fuel) :
    (rb.insertCallBack = InsertValue → n ∉ T.addrs → n ≠ s →
      ∃ rb', Insert fuel rb (some n) = .ok rb' ∧ rb'.heap s = rb.heap s) ∧
    (n ∈ T.addrs →
      ∃ rb' p, Delete fuel rb (some n) = .ok rb' ∧
        rb'.heap s = { rb.heap s with parent := p } ∧
        (rb'.heap s).color = color.black) := by
  refine ⟨fun hcb hfresh hns => ?_, fun hn => ?_⟩
  · obtain ⟨rb', T', hins, -, post⟩ := Insert_valid hv hcb hfresh hns hfuel
    obtain ⟨q, M⟩ := hv.models
    exact ⟨rb', hins, post.outside s (by
      simp only [List.mem_cons, not_or]
      exact ⟨fun e => hns e.symm, Rep_not_sentinel M.rep⟩)⟩
  · obtain ⟨rb', T', hdel, -, post⟩ := Delete_valid hv hn hfuel
    obtain ⟨p, hp⟩ := post.frame.sentinel_rec
    exact ⟨rb', p, hdel, hp, post.sentinel_black⟩

theorem C18_witness :
    ValidRB twoTree 0
        (Shape.node color.black Shape.nil 1 5 (Shape.node color.red Shape.nil 2 5 Shape.nil)) ∧
      (∃ rb', Insert 3 twoTree (some 3) = .ok rb' ∧ rb'.heap 0 = twoTree.heap 0) ∧
      (∃ rb' p, Delete 3 twoTree (some 2) = .ok rb' ∧
        rb'.heap 0 = { twoTree.heap 0 with parent := p } ∧
        (rb'.heap 0).color = color.black) :=
  ⟨twoTree_valid,
    (C18_sentinel_frame twoTree 0 _ 3 twoTree_valid 3 (by decide)).1 rfl
      (by simp [Shape.addrs]) (by decide),
    (C18_sentinel_frame twoTree 0 _ 2 twoTree_valid 3 (by decide)).2 (by simp [Shape.addrs])⟩

/-- C20, as claimed, fails: in the one-node tree `oneTree`, reachable from `Init` by one
`Insert`, the root is the node at address 1 and its parent link is nil, not the
sentinel. -/
theorem C20_root_parent_is_nil :
    Reachable oneTree ∧ oneTree.root = some 1 ∧ oneTree.root ≠ oneTree.sentinel ∧
      (oneTree.heap 1).parent = none ∧ (oneTree.heap 1).parent ≠ oneTree.sentinel :=
  ⟨oneTree_reachable, rfl, by decide, rfl, by decide⟩

/-- C20, amended. In every non-empty tree reachable from `Init` by `Insert` and `Delete`,
the root is a node whose parent link is not the tree's sentinel. -/
theorem C20_root_parent_not_sentinel (rb : RBTree) (hr : Reachable rb)
    (hne : rb.root ≠ rb.sentinel) :
    ∃ r, rb.root = some r ∧ (rb.heap r).parent ≠ rb.sentinel := by
  obtain ⟨s, q, T, M, -, -, -, -, hq⟩ := hr.inv_strong
  cases T with
  | nil => exact absurd (M.root_eq.trans M.sentinel_eq.symm) hne
  | node c l a k r =>
    refine ⟨a, M.root_eq, ?_⟩
    rw [M.rep.2.1, M.sentinel_eq]
    exact hq

theorem C20_witness :
    Reachable oneTree ∧ oneTree.root ≠ oneTree.sentinel ∧
      ∃ r, oneTree.root = some r ∧ (oneTree.heap r).parent ≠ oneTree.sentinel :=
  ⟨oneTree_reachable, by decide,
    C20_root_parent_not_sentinel oneTree oneTree_reachable (by decide)⟩

theorem plug_info_congr {t t' : Shape} (e : t.info = t'.info) :
    ∀ ctx : Ctx, (plug ctx t).info = (plug ctx t').info
  | [] => e
  | f :: fs => by
    rw [plug, plug]
    apply plug_info_congr _ fs
    cases f <;> simp [Frame.fill, Shape.info, e]

theorem Shape.addrs_eq_info : ∀ t : Shape, t.addrs = t.info.map Prod.fst
  | Shape.nil => rfl
  | Shape.node _ l a k r => by
    simp [Shape.addrs, Shape.info, Shape.addrs_eq_info l, Shape.addrs_eq_info r]

theorem Shape.toList_eq_info : ∀ t : Shape, t.toList = t.info.map (fun x => (x.1, x.2.1))
  | Shape.nil => rfl
  | Shape.node _ l a k r => by
    simp [Shape.toList, Shape.info, Shape.toList_eq_info l, Shape.toList_eq_info r]

/-- The memory holds the key and the colour that the shape prescribes for each node. -/
theorem Rep_info {h : Heap} {s : Nat} : ∀ {q : Ptr} {t : Shape}, Rep h s q t →
    ∀ x ∈ t.info, (h x.1).key = x.2.1 ∧ (h x.1).color = x.2.2
  | _, Shape.nil, _, x, hx => by simp [Shape.info] at hx
  | q, Shape.node c l a k r, hr, x, hx => by
    obtain ⟨-, h2, h3, h4⟩ := hr
    simp only [Shape.info, List.mem_append, List.mem_cons] at hx
    rcases hx with hx | rfl | hx
    · exact Rep_info h3 x hx
    · simp [h2]
    · exact Rep_info h4 x hx

/-- The memory holds the key that the shape prescribes for each node. -/
theorem Rep_key {h : Heap} {s : Nat} {q : Ptr} {t : Shape} (hr : Rep h s q t)
    (x : Nat × Nat) (hx : x ∈ t.toList) : (h x.1).key = x.2 := by
  rw [Shape.toList_eq_info, List.mem_map] at hx
  obtain ⟨p, hp, rfl⟩ := hx
  exact (Rep_info hr p hp).1

/-- A restructuring that keeps the sequence of (address, key, colour) triples and writes
nothing outside the tree changes no colour and no key. -/
theorem info_frame {rb rb' : RBTree} {s : Nat} {q q' : Ptr} {T T' : Shape}
    (M : Models rb s q T) (M' : Models rb' s q' T') (e : T'.info = T.info)
    (K : Keeps rb rb' T.addrs) (x : Nat) :
    (rb'.heap x).color = (rb.heap x).color ∧ (rb'.heap x).key = (rb.heap x).key := by
  by_cases hx : x ∈ T.addrs
  · rw [Shape.addrs_eq_info, List.mem_map] at hx
    obtain ⟨p, hp, rfl⟩ := hx
    have h1 := Rep_info M.rep p hp
    have h2 := Rep_info M'.rep p (e ▸ hp)
    exact ⟨h2.2.trans h1.2.symm, h2.1.trans h1.1.symm⟩
  · rw [K.outside x hx]
    exact ⟨rfl, rfl⟩

/-- C17. Rotations are purely structural: in every tree laid out as a shape `T` and for
every attached node `n` whose right link is not the sentinel, `leftRotate(n)` returns a
tree laid out as a shape `T'` with the same left-to-right sequence of nodes (address, key
and colour of each), changes no colour and no key in memory, makes the former right child
`m` of `n` the parent of `n` with `n` as its left child, and makes the root pointer point
to `m` when `n` was the root (and leaves it alone otherwise); `rightRotate(n)` with the
left link of `n` not the sentinel does the mirror image. -/
theorem C17_rotations_structural (rb : RBTree) (s : Nat) (q : Ptr) (T : Shape) (n : Nat)
    (M : Models rb s q T) (hn : n ∈ T.addrs) :
    ((rb.heap n).right ≠ some s →
      ∃ rb' T' m, leftRotate rb (some n) = .ok rb' ∧ Models rb' s q T' ∧
        T'.info = T.info ∧
        (∀ x, (rb'.heap x).color = (rb.heap x).color ∧ (rb'.heap x).key = (rb.heap x).key) ∧
        (rb.heap n).right = some m ∧ (rb'.heap n).parent = some m ∧
        (rb'.heap m).left = some n ∧
        (rb.root = some n → rb'.root = some m) ∧ (rb.root ≠ some n → rb'.root = rb.root)) ∧
    ((rb.heap n).left ≠ some s →
      ∃ rb' T' m, rightRotate rb (some n) = .ok rb' ∧ Models rb' s q T' ∧
        T'.info = T.info ∧
        (∀ x, (rb'.heap x).color = (rb.heap x).color ∧ (rb'.heap x).key = (rb.heap x).key) ∧
        (rb.heap n).left = some m ∧ (rb'.heap n).parent = some m ∧
        (rb'.heap m).right = some n ∧
        (rb.root = some n → rb'.root = some m) ∧ (rb.root ≠ some n → rb'.root = rb.root)) := by
  obtain ⟨C, c, l, k, r, rfl⟩ := Shape.decompose hn
  have hrec := Rep.node_at M.rep
  have hroot1 : rb.root = some n → C = [] := fun hroot =>
    (cursor_is_root M.lay).1 (by rw [← M.root_eq, hroot]; rfl)
  have hroot2 : rb.root ≠ some n → C ≠ [] := by
    rintro hroot rfl
    exact hroot M.root_eq
  refine ⟨fun hr => ?_, fun hl => ?_⟩
  · cases r with
    | nil => exact absurd (by rw [hrec]; rfl) hr
    | node c' β m k' γ =>
      obtain ⟨rb', hrot, M', K⟩ := leftRotate_spec M
      have e : (plug C (Shape.node c' (Shape.node c l n k β) m k' γ)).info =
          (plug C (Shape.node c l n k (Shape.node c' β m k' γ))).info :=
        plug_info_congr (by simp [Shape.info]) C
      refine ⟨rb', _, m, hrot, M', e, info_frame M M' e K, ?_, ?_, ?_, ?_, ?_⟩
      · rw [hrec]; rfl
      · have := Rep.node_at (C := Frame.L c' m k' γ :: C) M'.rep
        rw [this]; rfl
      · rw [Rep.node_at M'.rep]; rfl
      · intro hroot
        have hC := hroot1 hroot
        subst hC
        exact M'.root_eq
      · intro hroot
        rw [M'.root_eq, M.root_eq, plug_ptr, plug_ptr]
        exact ctxTop_irrel _ _ (hroot2 hroot)
  · cases l with
    | nil => exact absurd (by rw [hrec]; rfl) hl
    | node c' α m k' β =>
      obtain ⟨rb', hrot, M', K⟩ := rightRotate_spec M
      have e : (plug C (Shape.node c' α m k' (Shape.node c β n k r))).info =
          (plug C (Shape.node c (Shape.node c' α m k' β) n k r)).info :=
        plug_info_congr (by simp [Shape.info]) C
      refine ⟨rb', _, m, hrot, M', e, info_frame M M' e K, ?_, ?_, ?_, ?_, ?_⟩
      · rw [hrec]; rfl
      · have := Rep.node_at (C := Frame.R c' α m k' :: C) M'.rep
        rw [this]; rfl
      · rw [Rep.node_at M'.rep]; rfl
      · intro hroot
        have hC := hroot1 hroot
        subst hC
        exact M'.root_eq
      · intro hroot
        rw [M'.root_eq, M.root_eq, plug_ptr, plug_ptr]
        exact ctxTop_irrel _ _ (hroot2 hroot)

theorem C17_witness :
    Models threeTree 0 none
        (Shape.node color.black (Shape.node color.red Shape.nil 3 3 Shape.nil) 1 5
          (Shape.node color.red Shape.nil 2 5 Shape.nil)) ∧
      (∃ rb' T' m, leftRotate threeTree (some 1) = .ok rb' ∧ Models rb' 0 none T' ∧
        T'.info = (Shape.node color.black (Shape.node color.red Shape.nil 3 3 Shape.nil) 1 5
          (Shape.node color.red Shape.nil 2 5 Shape.nil)).info ∧
        (∀ x, (rb'.heap x).color = (threeTree.heap x).color ∧
          (rb'.heap x).key = (threeTree.heap x).key) ∧
        (threeTree.heap 1).right = some m ∧ (rb'.heap 1).parent = some m ∧
        (rb'.heap m).left = some 1 ∧
        (threeTree.root = some 1 → rb'.root = some m) ∧
        (threeTree.root ≠ some 1 → rb'.root = threeTree.root)) ∧
      (∃ rb' T' m, rightRotate threeTree (some 1) = .ok rb' ∧ Models rb' 0 none T' ∧
        T'.info = (Shape.node color.black (Shape.node color.red Shape.nil 3 3 Shape.nil) 1 5
          (Shape.node color.red Shape.nil 2 5 Shape.nil)).info ∧
        (∀ x, (rb'.heap x).color = (threeTree.heap x).color ∧
          (rb'.heap x).key = (threeTree.heap x).key) ∧
        (threeTree.heap 1).left = some m ∧ (rb'.heap 1).parent = some m ∧
        (rb'.heap m).right = some 1 ∧
        (threeTree.root = some 1 → rb'.root = some m) ∧
        (threeTree.root ≠ some 1 → rb'.root = threeTree.root)) :=
  ⟨threeTree_models,
    (C17_rotations_structural threeTree 0 none _ 1 threeTree_models
      (by simp [Shape.addrs])).1 (by decide),
    (C17_rotations_structural threeTree 0 none _ 1 threeTree_models
      (by simp [Shape.addrs])).2 (by decide)⟩

/-- C13, as claimed, fails: `Insert` of the node at address 1, which is attached to the
one-node tree `oneTree` (it is its root), raises nothing: it returns a tree whose size
counter went from 1 to 2 and in which the parent link of the node, nil before, points to
the node itself. -/
theorem C13_reinsert_proceeds :
    Attached oneTree 1 ∧ oneTree.size = 1 ∧ (oneTree.heap 1).parent = none ∧
      ∃ rb', Insert 1 oneTree (some 1) = .ok rb' ∧ rb'.size = 2 ∧
        (rb'.heap 1).parent = some 1 :=
  ⟨⟨0, none, _, oneTree_models, by simp [Shape.addrs]⟩, rfl, rfl, _, rfl, rfl, rfl⟩

/-- Re-inserting the root: `Insert` does not check whether the node is attached: on every one-node
tree with the default placement (root `r` with any key, colour and parent link), `Insert`
of the root itself returns for every positive fuel, with the size counter incremented
(modulo `2 ^ 32`), the root pointer unchanged, the root black with both child links the
sentinel, its parent link pointing to itself, and every other record unchanged. -/
theorem Insert_root_again (rb : RBTree) (s r k : Nat) (q : Ptr) (c : color)
    (hcb : rb.insertCallBack = InsertValue)
    (M : Models rb s q (Shape.node c Shape.nil r k Shape.nil)) (fuel : Nat) :
    ∃ rb', Insert (fuel + 1) rb (some r) = .ok rb' ∧ rb'.size = (rb.size + 1) % 2 ^ 32 ∧
      rb'.root = some r ∧ rb'.sentinel = some s ∧
      rb'.heap r = ⟨k, some s, some s, some r, color.black⟩ ∧
      ∀ x, x ≠ r → rb'.heap x = rb.heap x := by
  obtain ⟨hs, hroot, ⟨hrs, hrec, -, -⟩, -⟩ := M
  simp only [Shape.ptr] at hroot hrec
  have hne : (some r : Ptr) ≠ some s := by simpa using hrs
  simp [Insert, hcb, hroot, hs, hne, InsertValue, hrec, compare, Slot.addrLeft, Slot.addrRight,
    Slot.read, Slot.write, setLeft, setRight, setParent, setColor, store, insertFixLoop,
    insertFixCond, Heap.set]
  intro x hx
  simp [hx]

/-- C16, as claimed, fails: in the tree obtained by inserting the keys `[1, 9, 9, 3, 1, 18,
1, 26, 4, 12]` in order, the left child of `root.left.right` is the node with key 1, and
its colour is red, not black. -/
theorem C16_lowest_nodes_not_black :
    ∃ rb, testInsert 10 blankHeap 0 customNodes = .ok rb ∧
      (getLeft rb.heap rb.root >>= getRight rb.heap >>= getLeft rb.heap >>= getKey rb.heap)
        = .ok 1 ∧
      (getLeft rb.heap rb.root >>= getRight rb.heap >>= getLeft rb.heap >>= getColor rb.heap)
        = .ok color.red ∧
      color.red ≠ color.black :=
  ⟨_, rfl, rfl, rfl, by decide⟩

/-- C16, amended. In the tree obtained by inserting the keys `[1, 9, 9, 3, 1, 18, 1, 26, 4,
12]` in order with the default placement, the two children of `root.left.right` (keys 1
and 4) are red and the right child of `root.right.left` (key 12) is red; their parents
`root.left.right` and `root.right.left` are black. -/
theorem C16_lowest_nodes_red :
    ∃ rb, testInsert 10 blankHeap 0 customNodes = .ok rb ∧
      (getLeft rb.heap rb.root >>= getRight rb.heap >>= getLeft rb.heap >>= fun a => do
        let k ← getKey rb.heap a
        let c ← getColor rb.heap a
        pure (k, c)) = .ok (1, color.red) ∧
      (getLeft rb.heap rb.root >>= getRight rb.heap >>= getRight rb.heap >>= fun a => do
        let k ← getKey rb.heap a
        let c ← getColor rb.heap a
        pure (k, c)) = .ok (4, color.red) ∧
      (getRight rb.heap rb.root >>= getLeft rb.heap >>= getRight rb.heap >>= fun a => do
        let k ← getKey rb.heap a
        let c ← getColor rb.heap a
        pure (k, c)) = .ok (12, color.red) ∧
      (getLeft rb.heap rb.root >>= getRight rb.heap >>= getColor rb.heap)
        = .ok color.black ∧
      (getRight rb.heap rb.root >>= getLeft rb.heap >>= getColor rb.heap)
        = .ok color.black :=
  ⟨_, rfl, rfl, rfl, rfl, rfl, rfl⟩

/-- C12. Effect of `Delete` on node fields: on every valid tree and for every attached
node `n`, `Delete(n)` returns a tree in which `n` has key 0 and left, right and parent
all nil, and in which the key of every other node is what it was. When both child links
of `n` are nodes, the successor search returns a node `m` other than `n`, the leftmost
node of the right subtree of `n`, and the splice (lines 220-262, before the fixup) lays
the tree out with `m`, its own key kept, at the place of `n` with the colour of `n`, and
with the right subtree of `m` at the former place of `m`. -/
theorem C12_delete_node_fields (rb : RBTree) (s : Nat) (T : Shape) (n : Nat)
    (hv : ValidRB rb s T) (hn : n ∈ T.addrs) (fuel : Nat) (hfuel : T.height < fuel) :
    (∃ rb', Delete fuel rb (some n) = .ok rb' ∧
      (rb'.heap n).key = 0 ∧ (rb'.heap n).left = none ∧ (rb'.heap n).right = none ∧
      (rb'.heap n).parent = none ∧ ∀ x, x ≠ n → (rb'.heap x).key = (rb.heap x).key) ∧
    ((rb.heap n).left ≠ some s → (rb.heap n).right ≠ some s →
      ∃ q C c l k D cs m km sr rb1,
        Models rb s q T ∧
        T = plug C (Shape.node c l n k (plug D (Shape.node cs Shape.nil m km sr))) ∧
        ctxL D = [] ∧ m ≠ n ∧
        deleteFind fuel rb (some n) = .ok (sr.ptr s, some m) ∧
        deleteSplice rb (some n) (sr.ptr s) (some m) = .ok rb1 ∧
        Models rb1 s q (plug C (Shape.node c l m km (plug D sr))) ∧
        (rb1.heap m).key = (rb.heap m).key ∧ (rb1.heap m).color = (rb.heap n).color) := by
  obtain ⟨q, M⟩ := hv.models
  constructor
  · obtain ⟨rb', T', hdel, hv', post⟩ := Delete_valid hv hn hfuel
    obtain ⟨q', M'⟩ := hv'.models
    have hc := post.frame.cleared
    refine ⟨rb', hdel, by rw [hc], by rw [hc], by rw [hc], by rw [hc], fun x hx => ?_⟩
    by_cases hxs : x = s
    · obtain ⟨p, hp⟩ := post.frame.sentinel_rec
      rw [hxs, hp]
    by_cases hxT : x ∈ T.addrs
    · obtain ⟨A, B, hA, hB⟩ := post.removed
      rw [Shape.addrs_eq_map, List.mem_map] at hxT
      obtain ⟨p, hp, rfl⟩ := hxT
      have h1 := Rep_key M.rep p hp
      have hp' : p ∈ T'.toList := by
        rw [hA] at hp
        rw [hB]
        simp only [List.mem_append, List.mem_cons] at hp ⊢
        rcases hp with hp | rfl | hp
        · exact Or.inl hp
        · exact absurd rfl hx
        · exact Or.inr hp
      rw [Rep_key M'.rep p hp', h1]
    · rw [post.frame.outside x (by
        simp only [List.mem_cons, not_or]
        exact ⟨hxs, hxT⟩)]
  · intro hl hr
    obtain ⟨C, c, l, k, r, rfl⟩ := Shape.decompose hn
    have hrec := Rep.node_at M.rep
    have hl' : l ≠ Shape.nil := by
      rintro rfl
      exact hl (by rw [hrec]; rfl)
    have hr' : r ≠ Shape.nil := by
      rintro rfl
      exact hr (by rw [hrec]; rfl)
    have hh := plug_height C (Shape.node c l n k r)
    have hrh : r.height ≤ fuel := by
      simp only [Shape.height] at hh
      omega
    obtain ⟨D, cs, m, km, sr, rfl, hD, hfind⟩ := deleteFind_both M hl' hr' hrh
    have hm : rb.heap m = ⟨km, some s, sr.ptr s, ctxPar q (D ++ Frame.R c l n k :: C), cs⟩ := by
      have := Rep.node_at (C := D ++ Frame.R c l n k :: C) (c := cs) (l := Shape.nil) (a := m)
        (k := km) (r := sr) (h := rb.heap) (s := s) (q := q) (by
          rw [plug_append]
          exact M.rep)
      exact this
    have hmn : m ≠ n := by
      rintro rfl
      rw [hm] at hl
      exact hl rfl
    cases D with
    | nil =>
      obtain ⟨rb1, hsp, M1, -, -⟩ := deleteSplice_child M
      have hm1 := Rep.node_at (C := C) M1.rep
      refine ⟨q, C, c, l, k, [], cs, m, km, sr, rb1, M, rfl, hD, hmn, hfind, hsp, M1, ?_, ?_⟩
      · rw [hm1, hm]
      · rw [hm1, hrec]
    | cons f D =>
      obtain ⟨rb1, hsp, M1, -, -⟩ := deleteSplice_deep M
      rw [plug_append] at M1
      have hm1 := Rep.node_at (C := C) M1.rep
      refine ⟨q, C, c, l, k, f :: D, cs, m, km, sr, rb1, M, rfl, hD, hmn, hfind, hsp, M1,
        ?_, ?_⟩
      · rw [hm1, hm]
      · rw [hm1, hrec]

theorem C12_witness :
    ValidRB threeTree 0
        (Shape.node color.black (Shape.node color.red Shape.nil 3 3 Shape.nil) 1 5
          (Shape.node color.red Shape.nil 2 5 Shape.nil)) ∧
      (threeTree.heap 1).left ≠ some 0 ∧ (threeTree.heap 1).right ≠ some 0 ∧
      (∃ rb', Delete 3 threeTree (some 1) = .ok rb' ∧
        (rb'.heap 1).key = 0 ∧ (rb'.heap 1).left = none ∧ (rb'.heap 1).right = none ∧
        (rb'.heap 1).parent = none ∧
        ∀ x, x ≠ 1 → (rb'.heap x).key = (threeTree.heap x).key) ∧
      (∃ q C c l k D cs m km sr rb1,
        Models threeTree 0 q
          (Shape.node color.black (Shape.node color.red Shape.nil 3 3 Shape.nil) 1 5
            (Shape.node color.red Shape.nil 2 5 Shape.nil)) ∧
        Shape.node color.black (Shape.node color.red Shape.nil 3 3 Shape.nil) 1 5
            (Shape.node color.red Shape.nil 2 5 Shape.nil) =
          plug C (Shape.node c l 1 k (plug D (Shape.node cs Shape.nil m km sr))) ∧
        ctxL D = [] ∧ m ≠ 1 ∧
        deleteFind 3 threeTree (some 1) = .ok (sr.ptr 0, some m) ∧
        deleteSplice threeTree (some 1) (sr.ptr 0) (some m) = .ok rb1 ∧
        Models rb1 0 q (plug C (Shape.node c l m km (plug D sr))) ∧
        (rb1.heap m).key = (threeTree.heap m).key ∧
        (rb1.heap m).color = (threeTree.heap 1).color) :=
  ⟨threeTree_valid, by decide, by decide,
    (C12_delete_node_fields threeTree 0 _ 1 threeTree_valid (by simp [Shape.addrs]) 3
      (by decide)).1,
    (C12_delete_node_fields threeTree 0 _ 1 threeTree_valid (by simp [Shape.addrs]) 3
      (by decide)).2 (by decide) (by decide)⟩

/-- C19. Duplicates keep insertion order. With the default placement, on every valid tree
whose keys are in non-decreasing order, `Insert` of a fresh node returns a valid tree
whose left-to-right node sequence (after the fixup) is the old one with the new node put
in after all nodes with a key at most the new key and before all nodes with a larger key.
Hence, when the nodes of a list of fresh nodes are inserted one by one into an empty
tree, the nodes with any given key `j` stand in the resulting left-to-right node sequence
in the order in which they were inserted. -/
theorem C19_duplicates_keep_insertion_order (s fuel : Nat) :
    (∀ (rb : RBTree) (T : Shape) (n : Nat), ValidRB rb s T →
      rb.insertCallBack = InsertValue → T.keys.Sorted (· ≤ ·) → n ∉ T.addrs → n ≠ s →
      T.height < fuel →
      ∃ rb' T' L R, Insert fuel rb (some n) = .ok rb' ∧ ValidRB rb' s T' ∧
        T.toList = L ++ R ∧ T'.toList = L ++ (n, (rb.heap n).key) :: R ∧
        (∀ x ∈ L, x.2 ≤ (rb.heap n).key) ∧ (∀ x ∈ R, (rb.heap n).key < x.2)) ∧
    (∀ (h : Heap) (nodes : List (Nat × Nat)), (nodes.map Prod.fst).Nodup →
      s ∉ nodes.map Prod.fst → nodes.length < fuel →
      ∃ rb' T', testInsert fuel h s nodes = .ok rb' ∧ ValidRB rb' s T' ∧
        ∀ j, T'.toList.filter (fun x => decide (x.2 = j)) =
          nodes.filter (fun x => decide (x.2 = j))) := by
  refine ⟨fun rb T n hv hcb hsrt hfresh hns hfuel => ?_, fun h nodes hnd hs hfuel => ?_⟩
  · obtain ⟨rb', T', hins, hv', post⟩ := Insert_valid hv hcb hfresh hns hfuel
    obtain ⟨L, R, hL, hR, hbound⟩ := post.placed
    exact ⟨rb', T', L, R, hins, hv', hL, hR, (hbound hsrt).1, (hbound hsrt).2⟩
  · obtain ⟨rb0, hinit⟩ : ∃ rb0, Init (h.set s (NewNode 0 color.black)) (some s)
        InsertValue = .ok rb0 := ⟨_, rfl⟩
    obtain ⟨hv0, hcb0, -⟩ := Init_valid hinit
    have hv1 : ValidRB { rb0 with heap := allocNodes rb0.heap nodes } s Shape.nil := by
      obtain ⟨⟨q, M⟩, hsb, hval⟩ := hv0
      refine ⟨⟨q, M.sentinel_eq, M.root_eq, trivial, List.nodup_nil⟩, ?_, hval⟩
      show (allocNodes rb0.heap nodes s).color = color.black
      rw [allocNodes_other nodes _ s hs]
      exact hsb
    obtain ⟨rb, T, hall, hv, -, -, hst⟩ := insertAll_spec s fuel nodes
      { rb0 with heap := allocNodes rb0.heap nodes } Shape.nil hv1 hcb0
      (by simp [Shape.keys]) (by simpa [Shape.addrs] using hnd) hs
      (fun p hp => by
        show (allocNodes rb0.heap nodes p.1).key = p.2
        rw [allocNodes_mem nodes _ hnd p hp]
        rfl)
      (by simpa [Shape.size] using hfuel)
    refine ⟨rb, T, ?_, hv, fun j => ?_⟩
    · simp only [testInsert, hinit, bind_ok]
      exact hall
    · rw [hst j]
      simp [Shape.toList]

theorem C19_witness :
    (∃ rb' T' L R,
        Insert 11 { oneTree with heap := oneTree.heap.set 2 (NewNode 5 color.red) }
          (some 2) = .ok rb' ∧ ValidRB rb' 0 T' ∧
        (Shape.node color.black Shape.nil 1 5 Shape.nil).toList = L ++ R ∧
        T'.toList = L ++ (2, ((oneTree.heap.set 2 (NewNode 5 color.red)) 2).key) :: R ∧
        (∀ x ∈ L, x.2 ≤ ((oneTree.heap.set 2 (NewNode 5 color.red)) 2).key) ∧
        (∀ x ∈ R, ((oneTree.heap.set 2 (NewNode 5 color.red)) 2).key < x.2)) ∧
      (∃ rb' T', testInsert 11 blankHeap 0 customNodes = .ok rb' ∧ ValidRB rb' 0 T' ∧
        ∀ j, T'.toList.filter (fun x => decide (x.2 = j)) =
          customNodes.filter (fun x => decide (x.2 = j))) :=
  ⟨(C19_duplicates_keep_insertion_order 0 11).1
      { oneTree with heap := oneTree.heap.set 2 (NewNode 5 color.red) }
      (Shape.node color.black Shape.nil 1 5 Shape.nil) 2
      (oneTree_valid.alloc (by simp [Shape.addrs]) (by decide) _) rfl
      (by simp [Shape.keys]) (by simp [Shape.addrs]) (by decide) (by decide),
    (C19_duplicates_keep_insertion_order 0 11).2 blankHeap customNodes (by decide)
      (by decide) (by decide)⟩

/-! ### In-place runs and their results -/

@[simp] theorem Run.out_pure {α : Type} (a : α) (rb : RBTree) :
    Run.out (pure a) rb = .ok (a, rb) := rfl

@[simp] theorem Run.out_bind {α β : Type} (m : Run α) (f : α → Run β) (rb : RBTree) :
    Run.out (m >>= f) rb = Run.out m rb >>= fun p => Run.out (f p.1) p.2 := by
  show Run.out (Run.seq m f) rb = _
  unfold Run.out Run.seq
  rcases h : m rb with ⟨r, rb1⟩
  cases r <;> rfl

@[simp] theorem Run.out_read {α : Type} (f : RBTree → Except Fault α) (rb : RBTree) :
    Run.out (Run.read f) rb = f rb >>= fun a => .ok (a, rb) := by
  unfold Run.out Run.read
  cases f rb <;> rfl

@[simp] theorem Run.out_write (f : Heap → Except Fault Heap) (rb : RBTree) :
    Run.out (Run.write f) rb = f rb.heap >>= fun h => .ok ((), { rb with heap := h }) := by
  unfold Run.out Run.write
  cases f rb.heap <;> rfl

@[simp] theorem Run.out_setRoot (p : Ptr) (rb : RBTree) :
    Run.out (Run.setRoot p) rb = .ok ((), { rb with root := p }) := rfl

@[simp] theorem Run.out_incSize (rb : RBTree) :
    Run.out Run.incSize rb = .ok ((), { rb with size := (rb.size + 1) % 2 ^ 32 }) := rfl

@[simp] theorem Run.out_fail {α : Type} (e : Fault) (rb : RBTree) :
    Run.out (Run.fail e : Run α) rb = .error e := rfl

theorem Run.out_callback (fuel : Nat) (root n sentinel : Ptr) (rb : RBTree) :
    Run.out (Run.callback fuel root n sentinel) rb =
      rb.insertCallBack fuel rb.heap root n sentinel >>= fun h =>
        .ok ((), { rb with heap := h }) := by
  unfold Run.out Run.callback
  cases rb.insertCallBack fuel rb.heap root n sentinel <;> rfl

theorem Run.out_ite {α : Type} (c : Prop) [Decidable c] (a b : Run α) (rb : RBTree) :
    Run.out (if c then a else b) rb = if c then Run.out a rb else Run.out b rb := by
  split_ifs <;> rfl

theorem ite_bind_ok {α β : Type} (c : Prop) [Decidable c] (a b : Except Fault α)
    (f : α → Except Fault β) :
    (if c then a else b) >>= f = if c then a >>= f else b >>= f := by
  split_ifs <;> rfl

/-- The in-place `leftRotate` returns what `leftRotate` returns. -/
theorem leftRotate_inPlace (n : Ptr) (rb : RBTree) :
    Run.out (InPlace.leftRotate n) rb = leftRotate rb n >>= fun rb1 => .ok ((), rb1) := by
  simp only [InPlace.leftRotate, leftRotate, Run.out_bind, Run.out_read, Run.out_write,
    Run.out_setRoot, Run.out_ite, Run.out_pure, InPlace.getRight, InPlace.getLeft,
    InPlace.getParent, InPlace.getSentinel, InPlace.getRoot, InPlace.setLeft,
    InPlace.setRight, InPlace.setParent, bind_assoc, bind_ok, pure_eq_ok, ite_bind_ok]

/-- The in-place `rightRotate` returns what `rightRotate` returns. -/
theorem rightRotate_inPlace (n : Ptr) (rb : RBTree) :
    Run.out (InPlace.rightRotate n) rb = rightRotate rb n >>= fun rb1 => .ok ((), rb1) := by
  simp only [InPlace.rightRotate, rightRotate, Run.out_bind, Run.out_read, Run.out_write,
    Run.out_setRoot, Run.out_ite, Run.out_pure, InPlace.getRight, InPlace.getLeft,
    InPlace.getParent, InPlace.getSentinel, InPlace.getRoot, InPlace.setLeft,
    InPlace.setRight, InPlace.setParent, bind_assoc, bind_ok, pure_eq_ok, ite_bind_ok]

/-- The in-place body of the insert fixup returns what `insertFixBody` returns. -/
theorem insertFixBody_inPlace (n : Ptr) (rb : RBTree) :
    Run.out (InPlace.insertFixBody n) rb =
      insertFixBody rb n >>= fun p => .ok (p.2, p.1) := by
  simp only [InPlace.insertFixBody, insertFixBody, Run.out_bind, Run.out_read, Run.out_write,
    Run.out_ite, Run.out_pure, InPlace.getRight, InPlace.getLeft, InPlace.getGrand,
    InPlace.getParent, InPlace.setColor, InPlace.judgeColor, leftRotate_inPlace,
    rightRotate_inPlace, bind_assoc, bind_ok, pure_eq_ok, ite_bind_ok]

/-- The in-place insert fixup loop returns what `insertFixLoop` returns. -/
theorem insertFixLoop_inPlace : ∀ (fuel : Nat) (n : Ptr) (rb : RBTree),
    Run.out (InPlace.insertFixLoop fuel n) rb =
      insertFixLoop fuel rb n >>= fun p => .ok (p.2, p.1)
  | 0, _, _ => rfl
  | fuel + 1, n, rb => by
    simp only [InPlace.insertFixLoop, insertFixLoop, Run.out_bind, Run.out_read, Run.out_ite,
      Run.out_pure, InPlace.insertFixCond, insertFixBody_inPlace,
      insertFixLoop_inPlace fuel, bind_assoc, bind_ok, pure_eq_ok, ite_bind_ok]

/-- The in-place `InsertValue` returns what `InsertValue` returns. -/
theorem InsertValue_inPlace : ∀ (fuel : Nat) (tmp node sentinel : Ptr) (rb : RBTree),
    Run.out (InPlace.InsertValue fuel tmp node sentinel) rb =
      InsertValue fuel rb.heap tmp node sentinel >>= fun h => .ok ((), { rb with heap := h })
  | 0, _, _, _, _ => rfl
  | fuel + 1, tmp, node, sentinel, rb => by
    simp only [InPlace.InsertValue, InsertValue, Run.out_bind, Run.out_read, Run.out_write,
      Run.out_ite, Run.out_pure, InPlace.getKey, InPlace.setLeft, InPlace.setRight,
      InPlace.setParent, InPlace.setColor, InsertValue_inPlace fuel, bind_assoc, bind_ok,
      pure_eq_ok, ite_bind_ok]

/-- The in-place `Insert` returns what `Insert` returns. -/
theorem Insert_inPlace (fuel : Nat) (n : Ptr) (rb : RBTree) :
    Run.out (InPlace.Insert fuel n) rb = Insert fuel rb n >>= fun rb1 => .ok ((), rb1) := by
  simp only [InPlace.Insert, Insert, Run.out_bind, Run.out_read, Run.out_write,
    Run.out_setRoot, Run.out_incSize, Run.out_callback, Run.out_ite, Run.out_pure,
    InPlace.getSentinel, InPlace.getRoot, InPlace.setLeft, InPlace.setRight,
    InPlace.setParent, InPlace.setColor, insertFixLoop_inPlace, bind_assoc, bind_ok,
    pure_eq_ok, ite_bind_ok]

theorem clearNode_inPlace (n : Ptr) (rb : RBTree) :
    Run.out (InPlace.clearNode n) rb =
      clearNode rb.heap n >>= fun h => .ok ((), { rb with heap := h }) := by
  simp only [InPlace.clearNode, clearNode, Run.out_bind, Run.out_write, InPlace.setLeft,
    InPlace.setRight, InPlace.setParent, InPlace.setKey, bind_assoc, bind_ok, pure_eq_ok]

theorem deleteLink_inPlace (tmp subst : Ptr) (rb : RBTree) :
    Run.out (InPlace.deleteLink tmp subst) rb =
      deleteLink rb.heap tmp subst >>= fun h => .ok ((), { rb with heap := h }) := by
  simp only [InPlace.deleteLink, deleteLink, Run.out_bind, Run.out_read, Run.out_write,
    Run.out_ite, InPlace.getParent, InPlace.getLeft, InPlace.setLeft, InPlace.setRight,
    bind_assoc, bind_ok, pure_eq_ok, ite_bind_ok]

theorem deleteTmpParent_inPlace (n tmp subst : Ptr) (rb : RBTree) :
    Run.out (InPlace.deleteTmpParent n tmp subst) rb =
      deleteTmpParent rb.heap n tmp subst >>= fun h => .ok ((), { rb with heap := h }) := by
  simp only [InPlace.deleteTmpParent, deleteTmpParent, Run.out_bind, Run.out_read,
    Run.out_write, Run.out_ite, InPlace.getParent, InPlace.setParent, bind_assoc, bind_ok,
    pure_eq_ok, ite_bind_ok]

theorem deleteTransplant_inPlace (n subst : Ptr) (rb : RBTree) :
    Run.out (InPlace.deleteTransplant n subst) rb =
      deleteTransplant rb n subst >>= fun rb1 => .ok ((), rb1) := by
  simp only [InPlace.deleteTransplant, deleteTransplant, Run.out_bind, Run.out_read,
    Run.out_write, Run.out_setRoot, Run.out_ite, Run.out_pure, InPlace.getParent,
    InPlace.getLeft, InPlace.getRight, InPlace.getColor, InPlace.getRoot,
    InPlace.getSentinel, InPlace.setLeft, InPlace.setRight, InPlace.setParent,
    InPlace.setColor, bind_assoc, bind_ok, pure_eq_ok, ite_bind_ok]

theorem deleteSplice_inPlace (n tmp subst : Ptr) (rb : RBTree) :
    Run.out (InPlace.deleteSplice n tmp subst) rb =
      deleteSplice rb n tmp subst >>= fun rb1 => .ok ((), rb1) := by
  simp only [InPlace.deleteSplice, deleteSplice, Run.out_bind, Run.out_read, Run.out_write,
    Run.out_ite, Run.out_pure, InPlace.getParent, InPlace.setParent, deleteLink_inPlace,
    deleteTmpParent_inPlace, deleteTransplant_inPlace, clearNode_inPlace, bind_assoc,
    bind_ok, pure_eq_ok, ite_bind_ok]

theorem deleteCase1L_inPlace (tmp w : Ptr) (rb : RBTree) :
    Run.out (InPlace.deleteCase1L tmp w) rb =
      deleteCase1L rb tmp w >>= fun p => .ok (p.2, p.1) := by
  simp only [InPlace.deleteCase1L, deleteCase1L, Run.out_bind, Run.out_read, Run.out_write,
    Run.out_ite, Run.out_pure, InPlace.getParent, InPlace.getRight, InPlace.setColor,
    InPlace.judgeColor, leftRotate_inPlace, bind_assoc, bind_ok, pure_eq_ok, ite_bind_ok]

theorem deleteCase1R_inPlace (tmp w : Ptr) (rb : RBTree) :
    Run.out (InPlace.deleteCase1R tmp w) rb =
      deleteCase1R rb tmp w >>= fun p => .ok (p.2, p.1) := by
  simp only [InPlace.deleteCase1R, deleteCase1R, Run.out_bind, Run.out_read, Run.out_write,
    Run.out_ite, Run.out_pure, InPlace.getParent, InPlace.getLeft, InPlace.setColor,
    InPlace.judgeColor, rightRotate_inPlace, bind_assoc, bind_ok, pure_eq_ok, ite_bind_ok]

theorem deleteCase2_inPlace (tmp w : Ptr) (rb : RBTree) :
    Run.out (InPlace.deleteCase2 tmp w) rb =
      deleteCase2 rb tmp w >>= fun p => .ok (p.2, p.1) := by
  simp only [InPlace.deleteCase2, deleteCase2, Run.out_bind, Run.out_read, Run.out_write,
    InPlace.getParent, InPlace.setColor, bind_assoc, bind_ok, pure_eq_ok]

theorem deleteCase3L_inPlace (tmp w : Ptr) (rb : RBTree) :
    Run.out (InPlace.deleteCase3L tmp w) rb =
      deleteCase3L rb tmp w >>= fun p => .ok (p.2, p.1) := by
  simp only [InPlace.deleteCase3L, deleteCase3L, Run.out_bind, Run.out_read, Run.out_write,
    Run.out_ite, Run.out_pure, InPlace.getParent, InPlace.getLeft, InPlace.getRight,
    InPlace.setColor, InPlace.judgeColor, rightRotate_inPlace, bind_assoc, bind_ok,
    pure_eq_ok, ite_bind_ok]

theorem deleteCase3R_inPlace (tmp w : Ptr) (rb : RBTree) :
    Run.out (InPlace.deleteCase3R tmp w) rb =
      deleteCase3R rb tmp w >>= fun p => .ok (p.2, p.1) := by
  simp only [InPlace.deleteCase3R, deleteCase3R, Run.out_bind, Run.out_read, Run.out_write,
    Run.out_ite, Run.out_pure, InPlace.getParent, InPlace.getLeft, InPlace.getRight,
    InPlace.setColor, InPlace.judgeColor, leftRotate_inPlace, bind_assoc, bind_ok,
    pure_eq_ok, ite_bind_ok]

theorem deleteCase4L_inPlace (tmp w : Ptr) (rb : RBTree) :
    Run.out (InPlace.deleteCase4L tmp w) rb =
      deleteCase4L rb tmp w >>= fun p => .ok (p.2, p.1) := by
  simp only [InPlace.deleteCase4L, deleteCase4L, Run.out_bind, Run.out_read, Run.out_write,
    InPlace.getParent, InPlace.getColor, InPlace.getRight, InPlace.getRoot,
    InPlace.setColor, leftRotate_inPlace, bind_assoc, bind_ok, pure_eq_ok]

theorem deleteCase4R_inPlace (tmp w : Ptr) (rb : RBTree) :
    Run.out (InPlace.deleteCase4R tmp w) rb =
      deleteCase4R rb tmp w >>= fun p => .ok (p.2, p.1) := by
  simp only [InPlace.deleteCase4R, deleteCase4R, Run.out_bind, Run.out_read, Run.out_write,
    InPlace.getParent, InPlace.getColor, InPlace.getLeft, InPlace.getRoot,
    InPlace.setColor, rightRotate_inPlace, bind_assoc, bind_ok, pure_eq_ok]

theorem deleteRestL_inPlace (tmp w : Ptr) (rb : RBTree) :
    Run.out (InPlace.deleteRestL tmp w) rb =
      deleteRestL rb tmp w >>= fun p => .ok (p.2, p.1) := by
  simp only [InPlace.deleteRestL, deleteRestL, Run.out_bind, Run.out_read, Run.out_ite,
    InPlace.bothBlack, deleteCase2_inPlace, deleteCase3L_inPlace, deleteCase4L_inPlace,
    bind_assoc, bind_ok, pure_eq_ok, ite_bind_ok]

theorem deleteRestR_inPlace (tmp w : Ptr) (rb : RBTree) :
    Run.out (InPlace.deleteRestR tmp w) rb =
      deleteRestR rb tmp w >>= fun p => .ok (p.2, p.1) := by
  simp only [InPlace.deleteRestR, deleteRestR, Run.out_bind, Run.out_read, Run.out_ite,
    InPlace.bothBlack, deleteCase2_inPlace, deleteCase3R_inPlace, deleteCase4R_inPlace,
    bind_assoc, bind_ok, pure_eq_ok, ite_bind_ok]

theorem deleteFixBody_inPlace (tmp : Ptr) (rb : RBTree) :
    Run.out (InPlace.deleteFixBody tmp) rb =
      deleteFixBody rb tmp >>= fun p => .ok (p.2, p.1) := by
  simp only [InPlace.deleteFixBody, deleteFixBody, Run.out_bind, Run.out_read, Run.out_ite,
    InPlace.getParent, InPlace.getLeft, InPlace.getRight, deleteCase1L_inPlace,
    deleteCase1R_inPlace, deleteRestL_inPlace, deleteRestR_inPlace, bind_assoc, bind_ok,
    pure_eq_ok, ite_bind_ok]

theorem deleteFixLoop_inPlace : ∀ (fuel : Nat) (tmp : Ptr) (rb : RBTree),
    Run.out (InPlace.deleteFixLoop fuel tmp) rb =
      deleteFixLoop fuel rb tmp >>= fun p => .ok (p.2, p.1)
  | 0, _, _ => rfl
  | fuel + 1, tmp, rb => by
    simp only [InPlace.deleteFixLoop, deleteFixLoop, Run.out_bind, Run.out_read, Run.out_ite,
      Run.out_pure, InPlace.deleteFixCond, deleteFixBody_inPlace,
      deleteFixLoop_inPlace fuel, bind_assoc, bind_ok, pure_eq_ok, ite_bind_ok]

/-- The in-place `Delete` returns what `Delete` returns. -/
theorem Delete_inPlace (fuel : Nat) (n : Ptr) (rb : RBTree) :
    Run.out (InPlace.Delete fuel n) rb = Delete fuel rb n >>= fun rb1 => .ok ((), rb1) := by
  simp only [InPlace.Delete, Delete, Run.out_bind, Run.out_read, Run.out_write,
    Run.out_setRoot, Run.out_ite, Run.out_pure, InPlace.deleteFind, InPlace.getRoot,
    InPlace.setColor, InPlace.judgeColor, clearNode_inPlace, deleteSplice_inPlace,
    deleteFixLoop_inPlace, bind_assoc, bind_ok, pure_eq_ok, ite_bind_ok]

/-! ### What a failing run leaves behind -/

@[simp] theorem Run.pure_run {α : Type} (a : α) (rb : RBTree) :
    (pure a : Run α) rb = (.ok a, rb) := rfl

@[simp] theorem Run.read_bind {α β : Type} (g : RBTree → Except Fault α) (f : α → Run β)
    (rb : RBTree) :
    (Run.read g >>= f) rb =
      match g rb with
      | .ok a => f a rb
      | .error e => (.error e, rb) := by
  show Run.seq (Run.read g) f rb = _
  unfold Run.seq Run.read
  cases g rb <;> rfl

@[simp] theorem Run.write_bind {β : Type} (g : Heap → Except Fault Heap) (f : Unit → Run β)
    (rb : RBTree) :
    (Run.write g >>= f) rb =
      match g rb.heap with
      | .ok h => f () { rb with heap := h }
      | .error e => (.error e, rb) := by
  show Run.seq (Run.write g) f rb = _
  unfold Run.seq Run.write
  cases g rb.heap <;> rfl

@[simp] theorem Run.incSize_bind {β : Type} (f : Unit → Run β) (rb : RBTree) :
    (Run.incSize >>= f) rb = f () { rb with size := (rb.size + 1) % 2 ^ 32 } := rfl

theorem keepsSize_bind {α β : Type} {m : Run α} {f : α → Run β} (hm : Run.KeepsSize m)
    (hf : ∀ a, Run.KeepsSize (f a)) : Run.KeepsSize (m >>= f) := by
  intro rb
  show (Run.seq m f rb).2.size = rb.size
  unfold Run.seq
  have := hm rb
  rcases h : m rb with ⟨r, rb1⟩
  rw [h] at this
  cases r with
  | error e => exact this
  | ok a => exact (hf a rb1).trans this

theorem keepsSize_pure {α : Type} (a : α) : Run.KeepsSize (pure a : Run α) := fun _ => rfl

theorem keepsSize_fail {α : Type} (e : Fault) : Run.KeepsSize (Run.fail e : Run α) :=
  fun _ => rfl

theorem keepsSize_read {α : Type} (g : RBTree → Except Fault α) :
    Run.KeepsSize (Run.read g) := fun _ => rfl

theorem keepsSize_write (g : Heap → Except Fault Heap) : Run.KeepsSize (Run.write g) := by
  intro rb
  unfold Run.write
  cases g rb.heap <;> rfl

theorem keepsSize_setRoot (p : Ptr) : Run.KeepsSize (Run.setRoot p) := fun _ => rfl

theorem keepsSize_callback (fuel : Nat) (root n sentinel : Ptr) :
    Run.KeepsSize (Run.callback fuel root n sentinel) := by
  intro rb
  unfold Run.callback
  cases rb.insertCallBack fuel rb.heap root n sentinel <;> rfl

theorem keepsSize_ite {α : Type} (c : Prop) [Decidable c] {a b : Run α}
    (ha : Run.KeepsSize a) (hb : Run.KeepsSize b) : Run.KeepsSize (if c then a else b) := by
  split_ifs
  · exact ha
  · exact hb

theorem leftRotate_keepsSize (n : Ptr) : Run.KeepsSize (InPlace.leftRotate n) := by
  simp only [InPlace.leftRotate, InPlace.getRight, InPlace.getLeft, InPlace.getParent,
    InPlace.getSentinel, InPlace.getRoot, InPlace.setLeft, InPlace.setRight,
    InPlace.setParent]
  repeat' first
    | exact keepsSize_read _
    | exact keepsSize_write _
    | exact keepsSize_setRoot _
    | exact keepsSize_pure _
    | apply keepsSize_bind
    | apply keepsSize_ite
    | intro _

theorem rightRotate_keepsSize (n : Ptr) : Run.KeepsSize (InPlace.rightRotate n) := by
  simp only [InPlace.rightRotate, InPlace.getRight, InPlace.getLeft, InPlace.getParent,
    InPlace.getSentinel, InPlace.getRoot, InPlace.setLeft, InPlace.setRight,
    InPlace.setParent]
  repeat' first
    | exact keepsSize_read _
    | exact keepsSize_write _
    | exact keepsSize_setRoot _
    | exact keepsSize_pure _
    | apply keepsSize_bind
    | apply keepsSize_ite
    | intro _

theorem insertFixBody_keepsSize (n : Ptr) : Run.KeepsSize (InPlace.insertFixBody n) := by
  simp only [InPlace.insertFixBody, InPlace.getRight, InPlace.getLeft, InPlace.getParent,
    InPlace.getGrand, InPlace.setColor, InPlace.judgeColor]
  repeat' first
    | exact keepsSize_read _
    | exact keepsSize_write _
    | exact keepsSize_pure _
    | exact leftRotate_keepsSize _
    | exact rightRotate_keepsSize _
    | apply keepsSize_bind
    | apply keepsSize_ite
    | intro _

theorem insertFixLoop_keepsSize : ∀ (fuel : Nat) (n : Ptr),
    Run.KeepsSize (InPlace.insertFixLoop fuel n)
  | 0, _ => keepsSize_fail _
  | fuel + 1, n => by
    simp only [InPlace.insertFixLoop, InPlace.insertFixCond]
    repeat' first
      | exact keepsSize_read _
      | exact keepsSize_pure _
      | exact insertFixBody_keepsSize _
      | exact insertFixLoop_keepsSize fuel _
      | apply keepsSize_bind
      | apply keepsSize_ite
      | intro _

/-- Whatever the in-place `Insert` does after `rb.size++`, and whether it returns or
fails, the size counter it leaves behind is the incremented one. -/
theorem Insert_size_inPlace (fuel : Nat) (n : Ptr) (rb : RBTree) :
    (InPlace.Insert fuel n rb).2.size = (rb.size + 1) % 2 ^ 32 := by
  simp only [InPlace.Insert, InPlace.getSentinel, InPlace.getRoot, InPlace.setLeft,
    InPlace.setRight, InPlace.setParent, InPlace.setColor, Run.read_bind, Run.incSize_bind]
  refine (?_ : Run.KeepsSize _) _
  repeat' first
    | exact keepsSize_read _
    | exact keepsSize_write _
    | exact keepsSize_setRoot _
    | exact keepsSize_callback _ _ _ _
    | exact keepsSize_pure _
    | exact insertFixLoop_keepsSize _ _
    | apply keepsSize_bind
    | apply keepsSize_ite
    | intro _

/-- The default placement fails only before its first write: run in place, it leaves the
memory as the call found it when it fails, so it is the callback step of `Insert`. -/
theorem InsertValue_atomic : ∀ (fuel : Nat) (tmp node sentinel : Ptr) (rb : RBTree),
    InPlace.InsertValue fuel tmp node sentinel rb =
      Run.write (fun h => InsertValue fuel h tmp node sentinel) rb
  | 0, _, _, _, _ => rfl
  | fuel + 1, tmp, node, sentinel, rb => by
    cases node with
    | none => rfl
    | some n =>
      cases tmp with
      | none => rfl
      | some t =>
        simp only [InPlace.InsertValue, InsertValue, InPlace.getKey, getKey_some,
          Slot.addrLeft, Slot.addrRight, Run.read_bind, bind_ok]
        by_cases hk : (rb.heap n).key < (rb.heap t).key
        · simp only [hk, decide_True, compare, if_true, Slot.read, getLeft_some]
          by_cases hcur : (rb.heap t).left = sentinel
          · simp [hcur, hk, Run.write, Slot.write, InPlace.setParent, InPlace.setLeft,
              InPlace.setRight, InPlace.setColor, compare, Slot.read]
          · simp only [hcur, if_false, InsertValue_atomic fuel]
            simp [Run.write, hk, compare, Slot.read, hcur]
        · simp only [hk, decide_False, compare, Bool.false_eq_true, if_false, Slot.read,
            getRight_some]
          by_cases hcur : (rb.heap t).right = sentinel
          · simp [hcur, hk, Run.write, Slot.write, InPlace.setParent, InPlace.setLeft,
              InPlace.setRight, InPlace.setColor, compare, Slot.read]
          · simp only [hcur, if_false, InsertValue_atomic fuel]
            simp [Run.write, hk, compare, Slot.read, hcur]

/-- With the default placement stored in the tree, the callback step of the in-place
`Insert` is the in-place `InsertValue`, also in what a failure leaves behind. -/
theorem callback_default {rb : RBTree} (hcb : rb.insertCallBack = InsertValue) (fuel : Nat)
    (root n sentinel : Ptr) :
    Run.callback fuel root n sentinel rb = InPlace.InsertValue fuel root n sentinel rb := by
  rw [InsertValue_atomic]
  unfold Run.callback Run.write
  rw [hcb]

theorem fourTree_models :
    Models fourTree 0 none
      (Shape.node color.black (Shape.node color.black Shape.nil 3 3 Shape.nil) 1 5
        (Shape.node color.black Shape.nil 2 5
          (Shape.node color.red Shape.nil 4 7 Shape.nil))) :=
  ⟨rfl, rfl, ⟨by decide, rfl, ⟨by decide, rfl, trivial, trivial⟩,
    ⟨by decide, rfl, trivial, ⟨by decide, rfl, trivial, trivial⟩⟩⟩, by simp [Shape.addrs]⟩

theorem fourTree_valid :
    ValidRB fourTree 0
      (Shape.node color.black (Shape.node color.black Shape.nil 3 3 Shape.nil) 1 5
        (Shape.node color.black Shape.nil 2 5
          (Shape.node color.red Shape.nil 4 7 Shape.nil))) :=
  ⟨⟨none, fourTree_models⟩, rfl, by simp [Shape.valid, Shape.wf, Shape.rootColor,
    Shape.noRedRed, Shape.balanced, Shape.bh]⟩

theorem C8_witness :
    ValidRB { twoTree with heap := twoTree.heap.set 3 (NewNode 7 color.red) } 0
        (Shape.node color.black Shape.nil 1 5 (Shape.node color.red Shape.nil 2 5 Shape.nil)) ∧
      (InsertVisited 3 { twoTree with heap := twoTree.heap.set 3 (NewNode 7 color.red) }
        (some 3)).length = 1 ∧
      (∃ rb', Insert 3 { twoTree with heap := twoTree.heap.set 3 (NewNode 7 color.red) }
        (some 3) = .ok rb') ∧
      ∀ st ∈ InsertVisited 3 { twoTree with heap := twoTree.heap.set 3 (NewNode 7 color.red) }
        (some 3), InsertFixSafe st.1 st.2 :=
  ⟨twoTree_valid.alloc (by simp [Shape.addrs]) (by decide) _, rfl,
    C8_insert_no_failure _ 0 _ 3
      (twoTree_valid.alloc (by simp [Shape.addrs]) (by decide) _) rfl
      (by simp [Shape.addrs]) (by decide) 3 (by decide)⟩

theorem C9_witness :
    ValidRB fourTree 0
        (Shape.node color.black (Shape.node color.black Shape.nil 3 3 Shape.nil) 1 5
          (Shape.node color.black Shape.nil 2 5
            (Shape.node color.red Shape.nil 4 7 Shape.nil))) ∧
      (DeleteVisited 4 fourTree (some 3)).length = 3 ∧
      (∃ rb', Delete 4 fourTree (some 3) = .ok rb' ∧ (rb'.heap 0).color = color.black) ∧
      ∀ x ∈ DeleteVisited 4 fourTree (some 3), SiblingSafe x.1 x.2 :=
  ⟨fourTree_valid, rfl,
    C9_delete_no_failure fourTree 0 _ 3 fourTree_valid (by simp [Shape.addrs]) 4
      (by decide)⟩

/-- C13, amended. `Insert` has no attachment check and does not fail fast: for every tree,
every node (attached or not) and whatever the placement strategy, `Insert(node)` run in
place increments the size counter first and nothing afterwards restores it, so whether
the call returns normally or fails, the tree it leaves behind has the size counter one
larger (modulo `2 ^ 32`) and is not the tree it started from. Both outcomes occur for
attached nodes: re-inserting the red leaf (address 2) of the two-node tree `twoTree`
fails with a nil dereference in the fixup, after the size went from 2 to 3 and the parent
link of the node was overwritten with the node itself, and re-inserting the root of the
one-node tree `oneTree` returns normally. -/
theorem C13_reinsert_unchecked (rb : RBTree) (n : Ptr) (fuel : Nat) :
    ((InPlace.Insert fuel n rb).2.size = (rb.size + 1) % 2 ^ 32 ∧
      (InPlace.Insert fuel n rb).2 ≠ rb) ∧
    (Attached twoTree 2 ∧ twoTree.size = 2 ∧ (twoTree.heap 2).parent = some 1 ∧
      (InPlace.Insert 3 (some 2) twoTree).1 = .error .nilDeref ∧
      (InPlace.Insert 3 (some 2) twoTree).2.size = 3 ∧
      ((InPlace.Insert 3 (some 2) twoTree).2.heap 2).parent = some 2) ∧
    (Attached oneTree 1 ∧ (InPlace.Insert 1 (some 1) oneTree).1 = .ok ()) := by
  have hsz := Insert_size_inPlace fuel n rb
  refine ⟨⟨hsz, fun e => ?_⟩,
    ⟨⟨0, none, _, twoTree_models, by simp [Shape.addrs]⟩, rfl, rfl, rfl, rfl, rfl⟩,
    ⟨0, none, _, oneTree_models, by simp [Shape.addrs]⟩, rfl⟩
  rw [e] at hsz
  have h1 : (rb.size + 1) % 2 ^ 32 < 2 ^ 32 := Nat.mod_lt _ (by decide)
  by_cases h2 : rb.size + 1 < 2 ^ 32
  · rw [Nat.mod_eq_of_lt h2] at hsz
    omega
  · have h3 := Nat.mod_add_div (rb.size + 1) (2 ^ 32)
    have h4 : 1 ≤ (rb.size + 1) / 2 ^ 32 := by
      rw [Nat.le_div_iff_mul_le (by decide)]
      omega
    nlinarith

/-- C14. Fail-fast on double delete: in a tree whose sentinel is a node, `Delete` of a
node whose left and right links are nil (as `Delete` and `NewNode` leave them) fails with
a nil dereference for every positive fuel, and it does so inside the successor search
`deleteFind`, which only reads; run in place, the failing `Delete` leaves the tree and
the whole node memory exactly as they were before the call. -/
theorem C14_double_delete_fails (rb : RBTree) (s n fuel : Nat)
    (hs : rb.sentinel = some s) (hl : (rb.heap n).left = none)
    (hr : (rb.heap n).right = none) :
    deleteFind (fuel + 1) rb (some n) = .error .nilDeref ∧
      Delete (fuel + 1) rb (some n) = .error .nilDeref ∧
      InPlace.Delete (fuel + 1) (some n) rb = (.error .nilDeref, rb) := by
  have h1 : deleteFind (fuel + 1) rb (some n) = .error .nilDeref := by
    simp only [deleteFind, getLeft_some, getRight_some, hl, hr, hs, bind_ok]
    simp [mix, getLeft, load]
  refine ⟨h1, ?_, ?_⟩
  · rw [Delete, h1]
    rfl
  · simp only [InPlace.Delete, InPlace.deleteFind, Run.read_bind, h1]

theorem C14_witness :
    goneTree.sentinel = some 0 ∧ (goneTree.heap 1).left = none ∧
      (goneTree.heap 1).right = none ∧
      Delete 1 oneTree (some 1) = .ok goneTree ∧
      InPlace.Delete 1 (some 1) oneTree = (.ok (), goneTree) ∧
      deleteFind (0 + 1) goneTree (some 1) = .error .nilDeref ∧
      Delete (0 + 1) goneTree (some 1) = .error .nilDeref ∧
      InPlace.Delete (0 + 1) (some 1) goneTree = (.error .nilDeref, goneTree) :=
  ⟨rfl, rfl, rfl, rfl, rfl, C14_double_delete_fails goneTree 0 1 0 rfl rfl rfl⟩

theorem twoTree_fresh {n : Nat} (h1 : n ≠ 1) (h2 : n ≠ 2) : ¬ Attached twoTree n := by
  intro h
  have := h.mem twoTree_models
  simp [Shape.addrs] at this
  rcases this with e | e
  · exact h1 e
  · exact h2 e

theorem threeTree_reachable : Reachable threeTree :=
  Reachable.insert twoTree 3 3 color.red 2 threeTree twoTree_reachable
    (twoTree_fresh (by decide) (by decide)) (by decide) threeTree_insert

theorem threeTree_fresh {n : Nat} (h1 : n ≠ 1) (h2 : n ≠ 2) (h3 : n ≠ 3) :
    ¬ Attached threeTree n := by
  intro h
  have := h.mem threeTree_models
  simp [Shape.addrs] at this
  rcases this with e | e | e
  · exact h3 e
  · exact h1 e
  · exact h2 e

theorem fourTree_insert :
    Insert 3 { threeTree with heap := threeTree.heap.set 4 (NewNode 7 color.red) } (some 4) =
      .ok fourTree := rfl

theorem fourTree_reachable : Reachable fourTree :=
  Reachable.insert threeTree 4 7 color.red 3 fourTree threeTree_reachable
    (threeTree_fresh (by decide) (by decide) (by decide)) (by decide) fourTree_insert

theorem C1_witness :
    (ValidRB sampleTree 0 (Shape.node color.black Shape.nil 1 5 Shape.nil) ∧
      ∃ rb' T', Insert 2 sampleTree (some 2) = .ok rb' ∧ ValidRB rb' 0 T') ∧
    (ValidRB { twoTree with heap := twoTree.heap.set 3 (NewNode 7 color.red) } 0
        (Shape.node color.black Shape.nil 1 5 (Shape.node color.red Shape.nil 2 5 Shape.nil)) ∧
      (InsertVisited 3 { twoTree with heap := twoTree.heap.set 3 (NewNode 7 color.red) }
        (some 3)).length = 1 ∧
      ∃ rb' T', Insert 3 { twoTree with heap := twoTree.heap.set 3 (NewNode 7 color.red) }
        (some 3) = .ok rb' ∧ ValidRB rb' 0 T') :=
  ⟨⟨sampleTree_valid, C1_insert_preserves_validity sampleTree 0 _ 2 sampleTree_valid rfl
      (by simp [Shape.addrs]) (by decide) 2 (by simp [Shape.height])⟩,
    twoTree_valid.alloc (by simp [Shape.addrs]) (by decide) _, rfl,
    C1_insert_preserves_validity _ 0 _ 3
      (twoTree_valid.alloc (by simp [Shape.addrs]) (by decide) _) rfl
      (by simp [Shape.addrs]) (by decide) 3 (by decide)⟩

theorem C2_witness :
    (ValidRB sampleTree 0 (Shape.node color.black Shape.nil 1 5 Shape.nil) ∧
      ∃ rb' T', Delete 2 sampleTree (some 1) = .ok rb' ∧ ValidRB rb' 0 T' ∧
        (rb'.root = rb'.sentinel ↔ T' = Shape.nil)) ∧
    (ValidRB fourTree 0
        (Shape.node color.black (Shape.node color.black Shape.nil 3 3 Shape.nil) 1 5
          (Shape.node color.black Shape.nil 2 5
            (Shape.node color.red Shape.nil 4 7 Shape.nil))) ∧
      (DeleteVisited 4 fourTree (some 3)).length = 3 ∧
      ∃ rb' T', Delete 4 fourTree (some 3) = .ok rb' ∧ ValidRB rb' 0 T' ∧
        (rb'.root = rb'.sentinel ↔ T' = Shape.nil)) :=
  ⟨⟨sampleTree_valid, C2_delete_preserves_validity sampleTree 0 _ 1 sampleTree_valid
      (by simp [Shape.addrs]) 2 (by simp [Shape.height])⟩,
    fourTree_valid, rfl,
    C2_delete_preserves_validity fourTree 0 _ 3 fourTree_valid (by simp [Shape.addrs]) 4
      (by decide)⟩

theorem C4_witness :
    (Reachable oneTree ∧ Attached oneTree 1 ∧
      ∃ rb' L R fuel0, ∀ j,
        Delete (fuel0 + j) oneTree (some 1) = .ok rb' ∧
        traversal (fuel0 + j) oneTree = .ok (L ++ (oneTree.heap 1).key :: R) ∧
        traversal (fuel0 + j) rb' = .ok (L ++ R)) ∧
    (Reachable threeTree ∧ Attached threeTree 1 ∧
      ∃ rb' L R fuel0, ∀ j,
        Delete (fuel0 + j) threeTree (some 1) = .ok rb' ∧
        traversal (fuel0 + j) threeTree = .ok (L ++ (threeTree.heap 1).key :: R) ∧
        traversal (fuel0 + j) rb' = .ok (L ++ R)) :=
  ⟨⟨oneTree_reachable, ⟨0, none, _, oneTree_models, by simp [Shape.addrs]⟩,
      C4_delete_traversal oneTree oneTree_reachable 1
        ⟨0, none, _, oneTree_models, by simp [Shape.addrs]⟩⟩,
    threeTree_reachable, ⟨0, none, _, threeTree_models, by simp [Shape.addrs]⟩,
    C4_delete_traversal threeTree threeTree_reachable 1
      ⟨0, none, _, threeTree_models, by simp [Shape.addrs]⟩⟩

theorem C5_witness :
    (Reachable emptyTree ∧ ¬ Attached emptyTree 1 ∧ some 1 ≠ emptyTree.sentinel ∧
      ∃ rb1 rb2 keys fuel0, ∀ j,
        Insert (fuel0 + j) { emptyTree with heap := emptyTree.heap.set 1 (NewNode 5 color.red) }
          (some 1) = .ok rb1 ∧
        Delete (fuel0 + j) rb1 (some 1) = .ok rb2 ∧
        traversal (fuel0 + j) emptyTree = .ok keys ∧ traversal (fuel0 + j) rb2 = .ok keys) ∧
    (Reachable twoTree ∧ ¬ Attached twoTree 3 ∧ some 3 ≠ twoTree.sentinel ∧
      traversal 3 twoTree = .ok [5, 5] ∧
      ∃ rb1 rb2 keys fuel0, ∀ j,
        Insert (fuel0 + j) { twoTree with heap := twoTree.heap.set 3 (NewNode 5 color.red) }
          (some 3) = .ok rb1 ∧
        Delete (fuel0 + j) rb1 (some 3) = .ok rb2 ∧
        traversal (fuel0 + j) twoTree = .ok keys ∧ traversal (fuel0 + j) rb2 = .ok keys) :=
  ⟨⟨emptyTree_reachable, emptyTree_fresh 1, by decide,
      C5_insert_delete_round_trip emptyTree emptyTree_reachable 1 5 color.red
        (emptyTree_fresh 1) (by decide)⟩,
    twoTree_reachable, twoTree_fresh (by decide) (by decide), by decide, rfl,
    C5_insert_delete_round_trip twoTree twoTree_reachable 3 5 color.red
      (twoTree_fresh (by decide) (by decide)) (by decide)⟩

theorem C7_witness :
    (Reachable oneTree ∧
      Models oneTree 0 none (Shape.node color.black Shape.nil 1 5 Shape.nil) ∧
      2 ^ (((Shape.node color.black Shape.nil 1 5 Shape.nil).height + 1) / 2) ≤
        (Shape.node color.black Shape.nil 1 5 Shape.nil).size + 1) ∧
    (Reachable fourTree ∧
      Models fourTree 0 none
        (Shape.node color.black (Shape.node color.black Shape.nil 3 3 Shape.nil) 1 5
          (Shape.node color.black Shape.nil 2 5
            (Shape.node color.red Shape.nil 4 7 Shape.nil))) ∧
      2 ^ (((Shape.node color.black (Shape.node color.black Shape.nil 3 3 Shape.nil) 1 5
          (Shape.node color.black Shape.nil 2 5
            (Shape.node color.red Shape.nil 4 7 Shape.nil))).height + 1) / 2) ≤
        (Shape.node color.black (Shape.node color.black Shape.nil 3 3 Shape.nil) 1 5
          (Shape.node color.black Shape.nil 2 5
            (Shape.node color.red Shape.nil 4 7 Shape.nil))).size + 1) :=
  ⟨⟨oneTree_reachable, oneTree_models,
      C7_height_bound oneTree oneTree_reachable 0 none _ oneTree_models⟩,
    fourTree_reachable, fourTree_models,
    C7_height_bound fourTree fourTree_reachable 0 none _ fourTree_models⟩

end RBTreeGo
